import Mathlib

/-!
The Monkey interpreter: parser, AST rewriter, evaluator and macro pass

A shallow embedding of the Go sources `ast/ast.go`, `ast/modify.go`,
`parser/parser.go`, `eval/eval.go` and `eval/macro_expension.go`.

Conventions of the embedding.

* A Go interface value that may be `nil` (an `ast.Expression` slot) is an `Option`;
  a pointer slot that may be `nil` (`*BlockStatement`, `*Identifier`) is an `Option` too.
* A Go slice is a `List`; a nil slice and an empty slice are both `[]` (the sources only
  range over slices, take their length and append to them).
* A run-time panic of the Go program (nil dereference, failed type assertion, index out
  of range, explicit `panic`) is the value `none` of an `Option` result, or `Res.fault`
  where running out of fuel has to be told apart.
* Recursive procedures that are not structurally recursive take a fuel argument.
-/

namespace Monkey

/-! ## Tokens -/

/-- Modelled from the spec: the token kinds of section 6 (package `token` is not among
the sources). -/
inductive TokenType where
  | ILLEGAL | EOF | IDENT | INT | STRING | ASSIGN | PLUS | MINUS | BANG | ASTERISK | SLASH
  | LT | GT | EQ | NEQ | COMMA | SEMICOLON | COLON | LPAREN | RPAREN | LBRACE | RBRACE
  | LBRACKET | RBRACKET | FUNCTION | LET | TRUE | FALSE | IF | ELSE | RETURN | MACRO
deriving DecidableEq, Repr

/-- Modelled from the spec: a token has a kind and a literal string (section 3). -/
structure Token where
  Kind : TokenType
  Literal : String
deriving DecidableEq, Repr

/-! ## AST (`ast/ast.go`) -/

/-- The struct `Identifier` of `ast.go`. -/
structure Identifier where
  Token : Token
  Value : String
deriving DecidableEq, Repr

mutual
/-- The concrete types of `ast.go` that implement `Expression`. A slot of interface type
`Expression` is an `Option Expression`, `none` being the nil interface. The Go map
`HashLiteral.Pairs` is the list of its entries in an iteration order. -/
inductive Expression where
  | Identifier (i : Identifier)
  | IntegerLiteral (Token : Token) (Value : Int)
  | StringLiteral (Token : Token) (Value : String)
  | Boolean (Token : Token) (Value : Bool)
  | PrefixExpression (Token : Token) (Operator : String) (Right : Option Expression)
  | InfixExpression (Token : Token) (Left : Option Expression) (Operator : String)
      (Right : Option Expression)
  | IfExpression (Token : Token) (Condition : Option Expression)
      (Consequence : Option BlockStatement) (Alternative : Option BlockStatement)
  | FunctionLiteral (Token : Token) (Parameters : List Identifier)
      (Body : Option BlockStatement)
  | CallExpression (Token : Token) (Function : Option Expression)
      (Arguments : List (Option Expression))
  | ArrayLiteral (Token : Token) (Elements : List (Option Expression))
  | IndexExpression (Token : Token) (Left : Option Expression) (Index : Option Expression)
  | HashLiteral (Token : Token) (Pairs : List (Option Expression × Option Expression))
  | MacroLiteral (Token : Token) (Parameters : List Identifier)
      (Body : Option BlockStatement)
/-- The concrete types of `ast.go` that implement `Statement`. `LetStatementNil` is the
nil `*LetStatement` that `parseLetStatement` returns on a failed expectation and that
`parseStatement` wraps in a (non-nil) `Statement` interface; `BlockStatement none` is a nil
`*BlockStatement` seen through an interface. -/
inductive Statement where
  | LetStatement (Token : Token) (Name : Option Identifier) (Value : Option Expression)
  | LetStatementNil
  | ReturnStatement (Token : Token) (ReturnValue : Option Expression)
  | ExpressionStatement (Token : Token) (Expression : Option Expression)
  | BlockStatement (b : Option BlockStatement)
/-- The struct `BlockStatement` of `ast.go`. -/
inductive BlockStatement where
  | mk (Token : Token) (Statements : List Statement)
end

/-- The struct `Program` of `ast.go`. -/
structure Program where
  Statements : List Statement

/-- A value of the interface `Node`: the nil interface, a `*Program`, a statement or an
expression. -/
inductive Node where
  | nil
  | Program (p : Program)
  | Statement (s : Statement)
  | Expression (e : Expression)

/-- An `Expression` interface value seen as a `Node`. -/
def nodeOfExpr : Option Expression → Node
  | none => Node.nil
  | some e => Node.Expression e

/-- A `*BlockStatement` seen as a `Node`. -/
def nodeOfBlock (b : Option BlockStatement) : Node :=
  Node.Statement (Statement.BlockStatement b)

/-- `strings.Join`. -/
def join (xs : List String) (sep : String) : String := sep.intercalate xs

/-- `Identifier.String`; a nil receiver is a nil dereference. -/
def Identifier.String_ : Option Identifier → Option String
  | none => none
  | some i => some i.Value

mutual
/-- The `String()` methods of the expression types; `none` is a nil-dereference panic. -/
def Expression.String : Expression → Option String
  | .Identifier i => some i.Value
  | .IntegerLiteral t _ => some t.Literal
  | .StringLiteral t _ => some t.Literal
  | .Boolean t _ => some t.Literal
  | .PrefixExpression _ op right => do
      let r ← exprString right
      pure ("(" ++ op ++ r ++ ")")
  | .InfixExpression _ left op right => do
      let l ← exprString left
      let r ← exprString right
      pure ("(" ++ l ++ (" " ++ op ++ " ") ++ r ++ ")")
  | .IfExpression _ cond cons alt => do
      let c ← exprString cond
      let s ← blockString cons
      match alt with
      | none => pure ("if" ++ c ++ " " ++ s)
      | some a => do
          let e ← BlockStatement.String a
          pure ("if" ++ c ++ " " ++ s ++ "else " ++ e)
  | .FunctionLiteral t params body => do
      let b ← blockString body
      pure (t.Literal ++ "(" ++ join (params.map (·.Value)) ", " ++ ") " ++ b)
  | .CallExpression _ fn args => do
      let a ← exprStrings args
      let f ← exprString fn
      pure (f ++ "(" ++ join a ", " ++ ")")
  | .ArrayLiteral _ elems => do
      let a ← exprStrings elems
      pure ("[" ++ join a ", " ++ "]")
  | .IndexExpression _ left index => do
      let l ← exprString left
      let i ← exprString index
      pure ("(" ++ l ++ "[" ++ i ++ "])")
  | .HashLiteral _ pairs => do
      let entries ← pairStrings pairs
      pure ("\x7b" ++ join entries "," ++ ")")
  | .MacroLiteral t params body => do
      let b ← blockString body
      pure (t.Literal ++ "(" ++ join (params.map (·.Value)) ", " ++ ") " ++ b)
/-- `e.String()` for an `Expression` interface value `e`: a nil interface panics. -/
def exprString : Option Expression → Option String
  | none => none
  | some e => Expression.String e
/-- The loop `for _, a := range xs { args = append(args, a.String()) }`. -/
def exprStrings : List (Option Expression) → Option (List String)
  | [] => some []
  | e :: es => do
      let s ← exprString e
      let r ← exprStrings es
      pure (s :: r)
/-- The loop of `HashLiteral.String` over the entries of the map. -/
def pairStrings : List (Option Expression × Option Expression) → Option (List String)
  | [] => some []
  | (k, v) :: ps => do
      let ks ← exprString k
      let vs ← exprString v
      let r ← pairStrings ps
      pure ((ks ++ ":" ++ vs) :: r)
/-- `b.String()` for a `*BlockStatement`: a nil pointer panics. -/
def blockString : Option BlockStatement → Option String
  | none => none
  | some b => BlockStatement.String b
/-- The method `BlockStatement.String`. -/
def BlockStatement.String : BlockStatement → Option String
  | .mk _ stmts => stmtStrings stmts
/-- The loop `for _, s := range stmts { out.WriteString(s.String()) }`. -/
def stmtStrings : List Statement → Option String
  | [] => some ""
  | s :: ss => do
      let a ← Statement.String s
      let r ← stmtStrings ss
      pure (a ++ r)
/-- The `String()` methods of the statement types. -/
def Statement.String : Statement → Option String
  | .LetStatement t name value => do
      let n ← Identifier.String_ name
      match value with
      | none => pure (t.Literal ++ " " ++ n ++ " = " ++ ";")
      | some v => do
          let s ← Expression.String v
          pure (t.Literal ++ " " ++ n ++ " = " ++ s ++ ";")
  | .LetStatementNil => none
  | .ReturnStatement t value =>
      match value with
      | none => pure (t.Literal ++ " " ++ ";")
      | some v => do
          let s ← Expression.String v
          pure (t.Literal ++ " " ++ s ++ ";")
  | .ExpressionStatement _ e =>
      match e with
      | none => some ""
      | some v => Expression.String v
  | .BlockStatement b => blockString b
end

/-- The method `Program.String`. -/
def Program.String (p : Program) : Option String := stmtStrings p.Statements

/-! ## Parser (`parser/parser.go`) -/

/-- Modelled from the spec: the string constants of package `token` (not among the
sources). A token kind is a Go string; the operator and delimiter kinds are the text of
the operator (section 6 gives `=`, `!`, `==`, `!=`; the evaluator compares operator
strings against `token.BANG`, `token.PLUS` and the like), the others are their names. -/
def TokenType.str : TokenType → String
  | .ILLEGAL => "ILLEGAL" | .EOF => "EOF" | .IDENT => "IDENT" | .INT => "INT"
  | .STRING => "STRING" | .ASSIGN => "=" | .PLUS => "+" | .MINUS => "-" | .BANG => "!"
  | .ASTERISK => "*" | .SLASH => "/" | .LT => "<" | .GT => ">" | .EQ => "==" | .NEQ => "!="
  | .COMMA => "," | .SEMICOLON => ";" | .COLON => ":" | .LPAREN => "(" | .RPAREN => ")"
  | .LBRACE => "\x7b" | .RBRACE => "\x7d" | .LBRACKET => "[" | .RBRACKET => "]"
  | .FUNCTION => "FUNCTION" | .LET => "LET" | .TRUE => "TRUE" | .FALSE => "FALSE"
  | .IF => "IF" | .ELSE => "ELSE" | .RETURN => "RETURN" | .MACRO => "MACRO"

/-- The struct `Parser`. The lexer `l` is the list of the tokens it has still to deliver;
once the list is used up `NextToken` delivers `EOF` for ever. The two maps of parselets
are the functions `hasPrefixFn`/`callPrefixFn` and `hasInfixFn`/`callInfixFn` below. -/
structure Parser where
  l : List Token
  curToken : Token
  peekToken : Token
  errors : List String

/-- Modelled from the spec: the token the lexer delivers at the end of the input. -/
def eofToken : Token := ⟨TokenType.EOF, ""⟩

def LOWEST : Nat := 1
def EQUALS : Nat := 2
def LESSGREATER : Nat := 3
def SUM : Nat := 4
def PRODUCT : Nat := 5
def PREFIX : Nat := 6
def CALL : Nat := 7
def INDEX : Nat := 8

/-- The map `precedences`. -/
def precedences : TokenType → Option Nat
  | .EQ => some EQUALS
  | .NEQ => some EQUALS
  | .LT => some LESSGREATER
  | .GT => some LESSGREATER
  | .PLUS => some SUM
  | .MINUS => some SUM
  | .SLASH => some PRODUCT
  | .ASTERISK => some PRODUCT
  | .LPAREN => some CALL
  | .LBRACKET => some INDEX
  | _ => none

def Parser.nextToken (p : Parser) : Parser :=
  match p.l with
  | [] => { p with curToken := p.peekToken, peekToken := eofToken }
  | t :: ts => { p with l := ts, curToken := p.peekToken, peekToken := t }

/-- The constructor `New`; the map registrations are `hasPrefixFn` and `hasInfixFn`. -/
def New (l : List Token) : Parser :=
  (Parser.nextToken (Parser.nextToken ⟨l, ⟨TokenType.ILLEGAL, ""⟩, ⟨TokenType.ILLEGAL, ""⟩, []⟩))

def Parser.Errors (p : Parser) : List String := p.errors

def Parser.peekError (p : Parser) (t : TokenType) : Parser :=
  { p with errors := p.errors ++
      ["expected next token to be " ++ t.str ++ ", got " ++ p.peekToken.Kind.str ++ " instead"] }

def Parser.peekPrecedence (p : Parser) : Nat :=
  match precedences p.peekToken.Kind with
  | some q => q
  | none => LOWEST

def Parser.curPrecedence (p : Parser) : Nat :=
  match precedences p.curToken.Kind with
  | some q => q
  | none => LOWEST

def Parser.curTokenIs (p : Parser) (t : TokenType) : Bool := p.curToken.Kind == t

def Parser.peekTokenIs (p : Parser) (t : TokenType) : Bool := p.peekToken.Kind == t

def Parser.expectPeek (p : Parser) (expectedType : TokenType) : Bool × Parser :=
  if !p.peekTokenIs expectedType then (false, p.peekError expectedType)
  else (true, p.nextToken)

def Parser.noPrefiXParseFnError (p : Parser) (t : TokenType) : Parser :=
  { p with errors := p.errors ++ ["no prefix parse function found for " ++ t.str] }

/-- The keys registered in `prefixParseFns` by `New`. -/
def hasPrefixFn : TokenType → Bool
  | .IDENT | .INT | .TRUE | .FALSE | .BANG | .MINUS | .LPAREN | .IF | .FUNCTION
  | .STRING | .LBRACKET | .LBRACE | .MACRO => true
  | _ => false

/-- The keys registered in `InfixParseFns` by `New`. -/
def hasInfixFn : TokenType → Bool
  | .PLUS | .MINUS | .SLASH | .ASTERISK | .EQ | .NEQ | .LT | .GT | .LPAREN | .LBRACKET => true
  | _ => false

def Parser.parseIdentifier (p : Parser) : Identifier := ⟨p.curToken, p.curToken.Literal⟩

def lowerByte (c : Char) : Char := Char.ofNat (c.toNat ||| 32)

/-- The value of a digit character in `strconv.ParseUint`, `none` for any other one. -/
def digitVal (c : Char) : Option Nat :=
  if '0' ≤ c ∧ c ≤ '9' then some (c.toNat - '0'.toNat)
  else if 'a' ≤ lowerByte c ∧ lowerByte c ≤ 'z' then some ((lowerByte c).toNat - 'a'.toNat + 10)
  else none

/-- The digit loop of `strconv.ParseUint` for 64 bits: `none` is a syntax or range error. -/
def parseUintLoop (base : Nat) (base0 : Bool) : List Char → Nat → Option Nat
  | [], n => some n
  | c :: cs, n =>
    if c = '_' ∧ base0 then parseUintLoop base base0 cs n
    else match digitVal c with
      | none => none
      | some d =>
        if d ≥ base then none
        else if n * base + d ≥ 2 ^ 64 then none
        else parseUintLoop base base0 cs (n * base + d)

/-- `underscoreOK` of package `strconv`: underscores only between digits or after a base
prefix. The state `saw` is 0 at the start, 1 after a digit, 2 after an underscore and 3
after anything else. -/
def underscoreOKLoop (hex : Bool) : List Char → Nat → Bool
  | [], saw => saw != 2
  | c :: cs, saw =>
    if ('0' ≤ c ∧ c ≤ '9') ∨ (hex ∧ 'a' ≤ lowerByte c ∧ lowerByte c ≤ 'f') then
      underscoreOKLoop hex cs 1
    else if c = '_' then
      if saw != 1 then false else underscoreOKLoop hex cs 2
    else if saw == 2 then false
    else underscoreOKLoop hex cs 3

def underscoreOK (s : List Char) : Bool :=
  let s := match s with
    | '-' :: r => r
    | '+' :: r => r
    | _ => s
  match s with
  | '0' :: x :: r =>
    if lowerByte x = 'b' ∨ lowerByte x = 'o' ∨ lowerByte x = 'x' then
      underscoreOKLoop (lowerByte x = 'x') r 1
    else underscoreOKLoop false s 0
  | _ => underscoreOKLoop false s 0

/-- `strconv.ParseUint(s, 0, 64)`. -/
def parseUint0 (s : List Char) : Option Nat :=
  match s with
  | [] => none
  | '0' :: rest =>
    let r := match rest with
      | x :: y :: t =>
        if lowerByte x = 'b' then parseUintLoop 2 true (y :: t) 0
        else if lowerByte x = 'o' then parseUintLoop 8 true (y :: t) 0
        else if lowerByte x = 'x' then parseUintLoop 16 true (y :: t) 0
        else parseUintLoop 8 true rest 0
      | _ => parseUintLoop 8 true rest 0
    if s.contains '_' && !underscoreOK s then none else r
  | _ =>
    if s.contains '_' && !underscoreOK s then none else parseUintLoop 10 true s 0

/-- `strconv.ParseInt(s, 0, 64)` of the Go standard library: `none` when it reports an
error. -/
def parseInt (s : String) : Option Int :=
  match s.toList with
  | [] => none
  | '+' :: r =>
    match parseUint0 r with
    | some u => if u ≥ 2 ^ 63 then none else some (Int.ofNat u)
    | none => none
  | '-' :: r =>
    match parseUint0 r with
    | some u => if u > 2 ^ 63 then none else some (- Int.ofNat u)
    | none => none
  | cs =>
    match parseUint0 cs with
    | some u => if u ≥ 2 ^ 63 then none else some (Int.ofNat u)
    | none => none

def Parser.parseIntegerLiteral (p : Parser) : Option Expression × Parser :=
  match parseInt p.curToken.Literal with
  | none =>
    (none, { p with errors := p.errors ++
      ["could not parse \"" ++ p.curToken.Literal ++ "\" as integer"] })
  | some value => (some (Expression.IntegerLiteral p.curToken value), p)

def Parser.parseStringLiteral (p : Parser) : Expression :=
  Expression.StringLiteral p.curToken p.curToken.Literal

def Parser.parseBoolean (p : Parser) : Expression :=
  Expression.Boolean p.curToken (p.curTokenIs TokenType.TRUE)

/-- The loop `for p.peekTokenIs(token.SEMICOLON) { p.nextToken() }` with an iteration
bound. -/
def semicolonLoop : Nat → Parser → Parser
  | 0, p => p
  | n + 1, p => if p.peekTokenIs TokenType.SEMICOLON then semicolonLoop n p.nextToken else p

/-- The loop at the end of `parseLetStatement`. Every iteration makes the lexer deliver
one token, so after `l.length + 1` iterations the peek token is `EOF` and the bound is
never what ends the loop. -/
def Parser.skipSemicolons (p : Parser) : Parser := semicolonLoop (p.l.length + 1) p

/-- The loop `for p.peekTokenIs(token.COMMA) { ... }` of `parseFunctionParameters` with
an iteration bound. -/
def parameterLoop : Nat → List Identifier → Parser → List Identifier × Parser
  | 0, identifiers, p => (identifiers, p)
  | n + 1, identifiers, p =>
    if p.peekTokenIs TokenType.COMMA then
      let p := p.nextToken
      let p := p.nextToken
      parameterLoop n (identifiers ++ [p.parseIdentifier]) p
    else (identifiers, p)

/-- The function `parseFunctionParameters`; a nil result is the empty list. The loop
makes the lexer deliver two tokens per iteration, so its bound is never reached. -/
def Parser.parseFunctionParameters (p : Parser) : List Identifier × Parser :=
  if p.peekTokenIs TokenType.RPAREN then ([], p.nextToken)
  else
    let p := p.nextToken
    match parameterLoop (p.l.length + 1) [p.parseIdentifier] p with
    | (identifiers, p) =>
      match p.expectPeek TokenType.RPAREN with
      | (false, p) => ([], p)
      | (true, p) => (identifiers, p)

/-- The assignment `hash.Pairs[key] = value` on a map keyed by `ast.Expression`. Keys are
compared as pointers: every non-nil key the parser produces is a fresh node, different
from all earlier keys, whereas a nil key is equal to an earlier nil key. -/
def pairsSet (pairs : List (Option Expression × Option Expression))
    (key value : Option Expression) : List (Option Expression × Option Expression) :=
  match key with
  | some _ => pairs ++ [(key, value)]
  | none =>
    if pairs.any (fun kv => kv.1.isNone) then
      pairs.map (fun kv => if kv.1.isNone then (none, value) else kv)
    else pairs ++ [(none, value)]

mutual
def parseStatement : Nat → Parser → Option (Statement × Parser)
  | 0, _ => none
  | n + 1, p =>
    match p.curToken.Kind with
    | .LET => parseLetStatement n p
    | .RETURN => parseReturnStatement n p
    | _ => parseExpressionStatement n p

def parseLetStatement : Nat → Parser → Option (Statement × Parser)
  | 0, _ => none
  | n + 1, p =>
    let tok := p.curToken
    match p.expectPeek TokenType.IDENT with
    | (false, p) => some (Statement.LetStatementNil, p)
    | (true, p) =>
      let name : Identifier := ⟨p.curToken, p.curToken.Literal⟩
      match p.expectPeek TokenType.ASSIGN with
      | (false, p) => some (Statement.LetStatementNil, p)
      | (true, p) =>
        match parseExpression n LOWEST p.nextToken with
        | none => none
        | some (value, p) => some (Statement.LetStatement tok (some name) value, p.skipSemicolons)

def parseReturnStatement : Nat → Parser → Option (Statement × Parser)
  | 0, _ => none
  | n + 1, p =>
    let tok := p.curToken
    match parseExpression n LOWEST p.nextToken with
    | none => none
    | some (value, p) =>
      some (Statement.ReturnStatement tok value,
        if p.peekTokenIs TokenType.SEMICOLON then p.nextToken else p)

def parseExpressionStatement : Nat → Parser → Option (Statement × Parser)
  | 0, _ => none
  | n + 1, p =>
    let tok := p.curToken
    match parseExpression n LOWEST p with
    | none => none
    | some (e, p) =>
      some (Statement.ExpressionStatement tok e,
        if p.peekTokenIs TokenType.SEMICOLON then p.nextToken else p)

def parseExpression : Nat → Nat → Parser → Option (Option Expression × Parser)
  | 0, _, _ => none
  | n + 1, precedence, p =>
    if !hasPrefixFn p.curToken.Kind then
      some (none, p.noPrefiXParseFnError p.curToken.Kind)
    else
      match callPrefixFn n p with
      | none => none
      | some (leftExp, p) => parseExpressionLoop n precedence leftExp p

/-- The `for` loop of `parseExpression`. -/
def parseExpressionLoop : Nat → Nat → Option Expression → Parser →
    Option (Option Expression × Parser)
  | 0, _, _, _ => none
  | n + 1, precedence, leftExp, p =>
    if !p.peekTokenIs TokenType.SEMICOLON && decide (precedence < p.peekPrecedence) then
      if !hasInfixFn p.peekToken.Kind then some (leftExp, p)
      else
        match callInfixFn n leftExp p.nextToken with
        | none => none
        | some (leftExp, p) => parseExpressionLoop n precedence leftExp p
    else some (leftExp, p)

/-- The call `prefix()` of the parselet registered for the current token. -/
def callPrefixFn : Nat → Parser → Option (Option Expression × Parser)
  | 0, _ => none
  | n + 1, p =>
    match p.curToken.Kind with
    | .IDENT => some (some (Expression.Identifier p.parseIdentifier), p)
    | .INT => some p.parseIntegerLiteral
    | .TRUE => some (some p.parseBoolean, p)
    | .FALSE => some (some p.parseBoolean, p)
    | .BANG => parsePrefixOperator n p
    | .MINUS => parsePrefixOperator n p
    | .LPAREN => parseGroupedExpression n p
    | .IF => parseIfExpression n p
    | .FUNCTION => parseFunctionLiteral n p
    | .STRING => some (some p.parseStringLiteral, p)
    | .LBRACKET => parseArrayLiteral n p
    | .LBRACE => parseHashLiteral n p
    | .MACRO => parseMacroLiteral n p
    | _ => some (none, p)

/-- The call `infix(leftExp)` of the parselet registered for the current token. -/
def callInfixFn : Nat → Option Expression → Parser → Option (Option Expression × Parser)
  | 0, _, _ => none
  | n + 1, left, p =>
    match p.curToken.Kind with
    | .LPAREN => parseCallExpression n left p
    | .LBRACKET => parseIndexExpression n left p
    | _ => parseInfixExpression n left p

def parsePrefixOperator : Nat → Parser → Option (Option Expression × Parser)
  | 0, _ => none
  | n + 1, p =>
    let tok := p.curToken
    match parseExpression n PREFIX p.nextToken with
    | none => none
    | some (right, p) => some (some (Expression.PrefixExpression tok tok.Literal right), p)

def parseInfixExpression : Nat → Option Expression → Parser →
    Option (Option Expression × Parser)
  | 0, _, _ => none
  | n + 1, left, p =>
    let tok := p.curToken
    let precedence := p.curPrecedence
    match parseExpression n precedence p.nextToken with
    | none => none
    | some (right, p) =>
      some (some (Expression.InfixExpression tok left tok.Literal right), p)

def parseGroupedExpression : Nat → Parser → Option (Option Expression × Parser)
  | 0, _ => none
  | n + 1, p =>
    match parseExpression n LOWEST p.nextToken with
    | none => none
    | some (exp, p) =>
      match p.expectPeek TokenType.RPAREN with
      | (false, p) => some (none, p)
      | (true, p) => some (exp, p)

def parseIfExpression : Nat → Parser → Option (Option Expression × Parser)
  | 0, _ => none
  | n + 1, p =>
    let tok := p.curToken
    match p.expectPeek TokenType.LPAREN with
    | (false, p) => some (none, p)
    | (true, p) =>
      match parseExpression n LOWEST p.nextToken with
      | none => none
      | some (condition, p) =>
        match p.expectPeek TokenType.RPAREN with
        | (false, p) => some (none, p)
        | (true, p) =>
          match p.expectPeek TokenType.LBRACE with
          | (false, p) => some (none, p)
          | (true, p) =>
            match parseBlockStatement n p with
            | none => none
            | some (consequence, p) =>
              if p.peekTokenIs TokenType.ELSE then
                match p.nextToken.expectPeek TokenType.LBRACE with
                | (false, p) => some (none, p)
                | (true, p) =>
                  match parseBlockStatement n p with
                  | none => none
                  | some (alternative, p) =>
                    some (some (Expression.IfExpression tok condition (some consequence)
                      (some alternative)), p)
              else
                some (some (Expression.IfExpression tok condition (some consequence) none), p)

def parseBlockStatement : Nat → Parser → Option (BlockStatement × Parser)
  | 0, _ => none
  | n + 1, p =>
    let tok := p.curToken
    match parseBlockStatementLoop n [] p.nextToken with
    | none => none
    | some (statements, p) => some (BlockStatement.mk tok statements, p)

/-- The `for` loop of `parseBlockStatement`. -/
def parseBlockStatementLoop : Nat → List Statement → Parser →
    Option (List Statement × Parser)
  | 0, _, _ => none
  | n + 1, statements, p =>
    if !p.curTokenIs TokenType.RBRACE && !p.curTokenIs TokenType.EOF then
      match parseStatement n p with
      | none => none
      | some (stmt, p) => parseBlockStatementLoop n (statements ++ [stmt]) p.nextToken
    else some (statements, p)

def parseFunctionLiteral : Nat → Parser → Option (Option Expression × Parser)
  | 0, _ => none
  | n + 1, p =>
    let tok := p.curToken
    match p.expectPeek TokenType.LPAREN with
    | (false, p) => some (none, p)
    | (true, p) =>
      match p.parseFunctionParameters with
      | (parameters, p) =>
        match p.expectPeek TokenType.LBRACE with
        | (false, p) => some (none, p)
        | (true, p) =>
          match parseBlockStatement n p with
          | none => none
          | some (body, p) => some (some (Expression.FunctionLiteral tok parameters (some body)), p)

def parseCallExpression : Nat → Option Expression → Parser →
    Option (Option Expression × Parser)
  | 0, _, _ => none
  | n + 1, function, p =>
    let tok := p.curToken
    match parseExpressionList n TokenType.RPAREN p with
    | none => none
    | some (arguments, p) => some (some (Expression.CallExpression tok function arguments), p)

def parseArrayLiteral : Nat → Parser → Option (Option Expression × Parser)
  | 0, _ => none
  | n + 1, p =>
    let tok := p.curToken
    match parseExpressionList n TokenType.RBRACKET p with
    | none => none
    | some (elements, p) => some (some (Expression.ArrayLiteral tok elements), p)

/-- The function `parseExpressionList`; a nil result is the empty list. -/
def parseExpressionList : Nat → TokenType → Parser →
    Option (List (Option Expression) × Parser)
  | 0, _, _ => none
  | n + 1, end_, p =>
    if p.peekTokenIs end_ then some ([], p.nextToken)
    else
      match parseExpression n LOWEST p.nextToken with
      | none => none
      | some (e, p) =>
        match parseExpressionListLoop n [e] p with
        | none => none
        | some (list, p) =>
          match p.expectPeek end_ with
          | (false, p) => some ([], p)
          | (true, p) => some (list, p)

/-- The `for` loop of `parseExpressionList`. -/
def parseExpressionListLoop : Nat → List (Option Expression) → Parser →
    Option (List (Option Expression) × Parser)
  | 0, _, _ => none
  | n + 1, list, p =>
    if p.peekTokenIs TokenType.COMMA then
      match parseExpression n LOWEST p.nextToken.nextToken with
      | none => none
      | some (e, p) => parseExpressionListLoop n (list ++ [e]) p
    else some (list, p)

def parseIndexExpression : Nat → Option Expression → Parser →
    Option (Option Expression × Parser)
  | 0, _, _ => none
  | n + 1, left, p =>
    let tok := p.curToken
    match parseExpression n LOWEST p.nextToken with
    | none => none
    | some (index, p) =>
      match p.expectPeek TokenType.RBRACKET with
      | (false, p) => some (none, p)
      | (true, p) => some (some (Expression.IndexExpression tok left index), p)

def parseHashLiteral : Nat → Parser → Option (Option Expression × Parser)
  | 0, _ => none
  | n + 1, p =>
    let tok := p.curToken
    match parseHashLiteralLoop n [] p with
    | none => none
    | some (none, p) => some (none, p)
    | some (some pairs, p) =>
      match p.expectPeek TokenType.RBRACE with
      | (false, p) => some (none, p)
      | (true, p) => some (some (Expression.HashLiteral tok pairs), p)

/-- The `for` loop of `parseHashLiteral`; the result `none` for the pairs is a
`return nil` from inside the loop. -/
def parseHashLiteralLoop : Nat → List (Option Expression × Option Expression) → Parser →
    Option (Option (List (Option Expression × Option Expression)) × Parser)
  | 0, _, _ => none
  | n + 1, pairs, p =>
    if !p.peekTokenIs TokenType.RBRACE then
      match parseExpression n LOWEST p.nextToken with
      | none => none
      | some (key, p) =>
        match p.expectPeek TokenType.COLON with
        | (false, p) => some (none, p)
        | (true, p) =>
          match parseExpression n LOWEST p.nextToken with
          | none => none
          | some (value, p) =>
            let pairs := pairsSet pairs key value
            if !p.peekTokenIs TokenType.RBRACE then
              match p.expectPeek TokenType.COMMA with
              | (false, p) => some (none, p)
              | (true, p) => parseHashLiteralLoop n pairs p
            else parseHashLiteralLoop n pairs p
    else some (some pairs, p)

def parseMacroLiteral : Nat → Parser → Option (Option Expression × Parser)
  | 0, _ => none
  | n + 1, p =>
    let tok := p.curToken
    match p.expectPeek TokenType.LPAREN with
    | (false, p) => some (none, p)
    | (true, p) =>
      match p.parseFunctionParameters with
      | (parameters, p) =>
        match p.expectPeek TokenType.LBRACE with
        | (false, p) => some (none, p)
        | (true, p) =>
          match parseBlockStatement n p with
          | none => none
          | some (body, p) => some (some (Expression.MacroLiteral tok parameters (some body)), p)
end

/-- The `for` loop of `ParseProgram`. -/
def ParseProgramLoop : Nat → List Statement → Parser → Option (List Statement × Parser)
  | 0, _, _ => none
  | n + 1, statements, p =>
    if !p.curTokenIs TokenType.EOF then
      match parseStatement n p with
      | none => none
      | some (stmt, p) => ParseProgramLoop n (statements ++ [stmt]) p.nextToken
    else some (statements, p)

/-- The method `ParseProgram` with a bound `fuel` on the depth of the calls; `none` when
the bound is reached. -/
def Parser.ParseProgramFuel (fuel : Nat) (p : Parser) : Option (Program × Parser) :=
  match ParseProgramLoop fuel [] p with
  | none => none
  | some (statements, p) => some (⟨statements⟩, p)

/-- `New(l).ParseProgram()` on the token sequence `l`: the program and the parser after
the run (with its error list). The depth bound grows with the number of tokens. -/
def ParseProgram (l : List Token) : Option (Program × Parser) :=
  (New l).ParseProgramFuel (8 * l.length + 16)

/-! ## Token sequences and expected trees used to state the parser properties -/

/-- Modelled from the spec: the token the lexer delivers for an identifier. -/
def identToken (s : String) : Token := ⟨TokenType.IDENT, s⟩

/-- Modelled from the spec: the token the lexer delivers for an integer. -/
def intToken (s : String) : Token := ⟨TokenType.INT, s⟩

/-- Modelled from the spec: the token the lexer delivers for an operator or a delimiter;
its literal is the text of the operator. -/
def symbolToken (k : TokenType) : Token := ⟨k, k.str⟩

/-- The binary operators `== != < > + - * /`. -/
def binaryOperators : List TokenType :=
  [TokenType.EQ, TokenType.NEQ, TokenType.LT, TokenType.GT, TokenType.PLUS, TokenType.MINUS,
    TokenType.ASTERISK, TokenType.SLASH]

/-- The prefix operators `-` and `!`. -/
def prefixOperators : List TokenType := [TokenType.MINUS, TokenType.BANG]

/-- The precedence of a token kind, as `peekPrecedence` and `curPrecedence` read it off the
table. -/
def precedenceOf (k : TokenType) : Nat :=
  match precedences k with
  | some q => q
  | none => LOWEST

/-- The node `parseIdentifier` builds for the identifier `s`. -/
def identExpr (s : String) : Option Expression :=
  some (Expression.Identifier ⟨identToken s, s⟩)

/-- The node `parseIntegerLiteral` builds for a literal with value `v`. -/
def intExpr (s : String) (v : Int) : Option Expression :=
  some (Expression.IntegerLiteral (intToken s) v)

/-- The node `parseInfixExpression` builds for the operator `op`. -/
def infixExpr (l : Option Expression) (op : TokenType) (r : Option Expression) :
    Option Expression :=
  some (Expression.InfixExpression (symbolToken op) l op.str r)

/-- The node `parsePrefixOperator` builds for the operator `op`. -/
def prefixExpr (op : TokenType) (r : Option Expression) : Option Expression :=
  some (Expression.PrefixExpression (symbolToken op) op.str r)

/-- The node `parseIndexExpression` builds. -/
def indexExpr (l i : Option Expression) : Option Expression :=
  some (Expression.IndexExpression (symbolToken TokenType.LBRACKET) l i)

/-- The node `parseCallExpression` builds. -/
def callExpr (f : Option Expression) (args : List (Option Expression)) : Option Expression :=
  some (Expression.CallExpression (symbolToken TokenType.LPAREN) f args)

/-- The node `parseArrayLiteral` builds. -/
def arrayExpr (elems : List (Option Expression)) : Option Expression :=
  some (Expression.ArrayLiteral (symbolToken TokenType.LBRACKET) elems)

/-- The tree the parser builds for `a op1 b op2 c`. -/
def binaryTree (a b c : String) (op1 op2 : TokenType) : Option Expression :=
  if precedenceOf op2 ≤ precedenceOf op1 then
    infixExpr (infixExpr (identExpr a) op1 (identExpr b)) op2 (identExpr c)
  else infixExpr (identExpr a) op1 (infixExpr (identExpr b) op2 (identExpr c))

/-- `ParseProgram` on `toks` records no error and returns exactly one expression
statement, whose `String()` is `s`. -/
def ParsesToExpression (toks : List Token) (s : String) : Prop :=
  ∃ tok e p, ParseProgram toks = some (⟨[Statement.ExpressionStatement tok e]⟩, p)
    ∧ p.Errors = []
    ∧ Statement.String (Statement.ExpressionStatement tok e) = some s

/-! ## Results of partial computations -/

/-- The outcome of a run of a Go procedure: a value, a run-time panic (`fault`) or, for
a procedure modelled with a bound on the depth of its calls, the bound being reached. -/
inductive Res (α : Type) where
  | ok (a : α)
  | fault
  | outOfFuel

def Res.bind {α β : Type} : Res α → (α → Res β) → Res β
  | Res.ok a, f => f a
  | Res.fault, _ => Res.fault
  | Res.outOfFuel, _ => Res.outOfFuel

instance : Monad Res where
  pure := Res.ok
  bind := Res.bind

/-- A computation that reads and updates a state of type `σ` and may panic. -/
abbrev Eff (σ : Type) := StateT σ Res

/-- A run-time panic. -/
def Eff.fault {σ α : Type} : Eff σ α := fun _ => Res.fault

/-- The bound on the depth of calls is reached. -/
def Eff.outOfFuel {σ α : Type} : Eff σ α := fun _ => Res.outOfFuel

/-- A value that a panicking operation may fail to deliver. -/
def orFault {σ α : Type} : Option α → Eff σ α
  | some a => pure a
  | none => Eff.fault

/-! ## AST rewriter (`ast/modify.go`) -/

/-- The type `ModifierFunc`. The function a caller passes may read and update a state
(the one `ExpandMacros` passes evaluates macro bodies) and may panic. -/
abbrev ModifierFunc (σ : Type) := Node → Eff σ Node

/-- The type assertion `n.(Statement)`; `none` is its panic. -/
def Node.assertStatement : Node → Option Monkey.Statement
  | Node.Statement s => some s
  | _ => none

/-- The type assertion `n.(Expression)`; `none` is its panic (the result, when there is
one, is a non-nil interface). -/
def Node.assertExpression : Node → Option (Option Monkey.Expression)
  | Node.Expression e => some (some e)
  | _ => none

/-- The assignment `x, _ = n.(Expression)`: nil when the assertion does not hold. -/
def Node.toExpression : Node → Option Monkey.Expression
  | Node.Expression e => some e
  | _ => none

/-- The type assertion `n.(*BlockStatement)`; `none` is its panic. -/
def Node.assertBlock : Node → Option (Option BlockStatement)
  | Node.Statement (Monkey.Statement.BlockStatement b) => some b
  | _ => none

/-- The assignment `x, _ = n.(*BlockStatement)`: nil when the assertion does not hold. -/
def Node.toBlock : Node → Option BlockStatement
  | Node.Statement (Monkey.Statement.BlockStatement b) => b
  | _ => none

/-- The type assertion `n.(*Identifier)`; `none` is its panic. -/
def Node.assertIdentifier : Node → Option Identifier
  | Node.Expression (Monkey.Expression.Identifier i) => some i
  | _ => none

/-- `Modify(param, modifier)` for a `*Identifier`: no case of the type switch is for
that type, so the `default` case returns the node as it is. -/
def ModifyIdentifier {σ : Type} (i : Identifier) (_modifier : ModifierFunc σ) : Eff σ Node :=
  pure (Node.Expression (Expression.Identifier i))

/-- The loop of the `*FunctionLiteral` case over `node.Parameters`. -/
def ModifyParameters {σ : Type} (modifier : ModifierFunc σ) :
    List Identifier → Eff σ (List Identifier)
  | [] => pure []
  | param :: rest => do
      let n ← ModifyIdentifier param modifier
      let i ← orFault n.assertIdentifier
      let r ← ModifyParameters modifier rest
      pure (i :: r)

mutual
/-- `Modify(node, modifier)` for a node that is a non-nil expression. -/
def ModifyExpression {σ : Type} (modifier : ModifierFunc σ) : Expression → Eff σ Node
  | .FunctionLiteral tok params body => do
      let ps ← ModifyParameters modifier params
      let b ← ModifyBlock modifier body
      let b ← orFault b.assertBlock
      modifier (Node.Expression (Expression.FunctionLiteral tok ps b))
  | .ArrayLiteral tok elems => do
      let es ← ModifyExpressions modifier elems
      modifier (Node.Expression (Expression.ArrayLiteral tok es))
  | .CallExpression tok fn args => do
      let f ← ModifyOptExpression modifier fn
      let f ← orFault f.assertExpression
      let as ← ModifyExpressions modifier args
      modifier (Node.Expression (Expression.CallExpression tok f as))
  | .HashLiteral tok pairs => do
      let ps ← ModifyPairs modifier pairs
      modifier (Node.Expression (Expression.HashLiteral tok ps))
  | .IndexExpression tok left index => do
      let l ← ModifyOptExpression modifier left
      let i ← ModifyOptExpression modifier index
      modifier (Node.Expression (Expression.IndexExpression tok l.toExpression i.toExpression))
  | .PrefixExpression tok op right => do
      let r ← ModifyOptExpression modifier right
      modifier (Node.Expression (Expression.PrefixExpression tok op r.toExpression))
  | .InfixExpression tok left op right => do
      let l ← ModifyOptExpression modifier left
      let r ← ModifyOptExpression modifier right
      modifier (Node.Expression
        (Expression.InfixExpression tok l.toExpression op r.toExpression))
  | .IfExpression tok cond cons alt => do
      let c ← ModifyOptExpression modifier cond
      let s ← ModifyBlock modifier cons
      let a ← ModifyBlock modifier alt
      modifier (Node.Expression
        (Expression.IfExpression tok c.toExpression s.toBlock a.toBlock))
  | .Identifier i => pure (Node.Expression (Expression.Identifier i))
  | .IntegerLiteral tok v => pure (Node.Expression (Expression.IntegerLiteral tok v))
  | .StringLiteral tok v => pure (Node.Expression (Expression.StringLiteral tok v))
  | .Boolean tok v => pure (Node.Expression (Expression.Boolean tok v))
  | .MacroLiteral tok params body =>
      pure (Node.Expression (Expression.MacroLiteral tok params body))
/-- `Modify(e, modifier)` for an `Expression` interface value `e`; for the nil interface
the `default` case returns nil. -/
def ModifyOptExpression {σ : Type} (modifier : ModifierFunc σ) :
    Option Expression → Eff σ Node
  | none => pure Node.nil
  | some e => ModifyExpression modifier e
/-- The loops `for _, e := range xs { ys = append(ys, Modify(e, modifier).(Expression)) }`. -/
def ModifyExpressions {σ : Type} (modifier : ModifierFunc σ) :
    List (Option Expression) → Eff σ (List (Option Expression))
  | [] => pure []
  | e :: es => do
      let n ← ModifyOptExpression modifier e
      let x ← orFault n.assertExpression
      let r ← ModifyExpressions modifier es
      pure (x :: r)
/-- The loop of the `*HashLiteral` case over the entries of the map. The new keys are
non-nil; they are taken to be different pointers, as the keys they come from are. -/
def ModifyPairs {σ : Type} (modifier : ModifierFunc σ) :
    List (Option Expression × Option Expression) →
      Eff σ (List (Option Expression × Option Expression))
  | [] => pure []
  | (key, val) :: ps => do
      let k ← ModifyOptExpression modifier key
      let newKey ← orFault k.assertExpression
      let v ← ModifyOptExpression modifier val
      let newVal ← orFault v.assertExpression
      let r ← ModifyPairs modifier ps
      pure ((newKey, newVal) :: r)
/-- `Modify(b, modifier)` for a `*BlockStatement` `b`: the case `*BlockStatement` is
taken for a nil pointer too, and reading `node.Token` then panics. -/
def ModifyBlock {σ : Type} (modifier : ModifierFunc σ) : Option BlockStatement → Eff σ Node
  | none => Eff.fault
  | some (.mk tok stmts) => do
      let ss ← ModifyStatements modifier stmts
      modifier (Node.Statement (Statement.BlockStatement (some (BlockStatement.mk tok ss))))
/-- The loops `for _, s := range xs { ys = append(ys, Modify(s, modifier).(Statement)) }`. -/
def ModifyStatements {σ : Type} (modifier : ModifierFunc σ) :
    List Statement → Eff σ (List Statement)
  | [] => pure []
  | s :: ss => do
      let n ← ModifyStatement modifier s
      let x ← orFault n.assertStatement
      let r ← ModifyStatements modifier ss
      pure (x :: r)
/-- `Modify(node, modifier)` for a node that is a statement. -/
def ModifyStatement {σ : Type} (modifier : ModifierFunc σ) : Statement → Eff σ Node
  | .ReturnStatement tok value => do
      let v ← ModifyOptExpression modifier value
      let v ← orFault v.assertExpression
      modifier (Node.Statement (Statement.ReturnStatement tok v))
  | .LetStatement tok _ value => do
      let v ← ModifyOptExpression modifier value
      let v ← orFault v.assertExpression
      modifier (Node.Statement (Statement.LetStatement tok none v))
  | .LetStatementNil => Eff.fault
  | .ExpressionStatement tok e => do
      let v ← ModifyOptExpression modifier e
      modifier (Node.Statement (Statement.ExpressionStatement tok v.toExpression))
  | .BlockStatement b => ModifyBlock modifier b
end

/-- The function `Modify`. -/
def Modify {σ : Type} (node : Node) (modifier : ModifierFunc σ) : Eff σ Node :=
  match node with
  | Node.Program p => do
      let ss ← ModifyStatements modifier p.Statements
      modifier (Node.Program ⟨ss⟩)
  | Node.Statement s => ModifyStatement modifier s
  | Node.Expression e => ModifyExpression modifier e
  | Node.nil => pure Node.nil

/-- A modifier given by a function without effects. -/
def pureModifier (f : Node → Node) : ModifierFunc Unit := fun n => pure (f n)

/-- The result of `Modify(node, f)` for a modifier `f` without effects; `none` when the
call panics. -/
def ModifyPure (node : Node) (f : Node → Node) : Option Node :=
  match (Modify node (pureModifier f)).run () with
  | Res.ok (n, _) => some n
  | _ => none

/-! ## Runtime values and environments (package `object`) -/

/-- Modelled from the spec: a `HashKey` is a type tag and a 64-bit digest (section 3;
package `object` is not among the sources, only its test file is). -/
structure HashKey where
  Kind : String
  Value : Nat
deriving DecidableEq, Repr

/-- Modelled from the spec: the runtime values of section 3. A Go value of interface type
`Object` is a pointer to a struct; `addr` is the address of the struct, so that two values
are the same pointer exactly when their addresses are equal. An `Object` slot that may hold
the nil interface is an `Option Object`. An environment is referred to by its address in
the `World`; a built-in keeps its name, under which `Externals.callBuiltin` finds its
native function. `Null` has no field (section 3 gives it no payload): it is a struct of
size zero, and Go does not keep pointers to variables of size zero apart: its runtime
hands out one and the same address for every allocation of size zero. A `Null` therefore
carries no address of its own, and any two pointers to a `Null` are the same pointer. -/
inductive Object where
  | Integer (addr : Nat) (Value : Int)
  | Boolean (addr : Nat) (Value : Bool)
  | String (addr : Nat) (Value : String)
  | Null
  | ReturnValue (addr : Nat) (Value : Option Object)
  | Error (addr : Nat) (Message : String)
  | Function (addr : Nat) (Parameters : List Identifier) (Body : Option BlockStatement)
      (Env : Nat)
  | Builtin (addr : Nat) (Name : String)
  | Array (addr : Nat) (Elements : List (Option Object))
  | Hash (addr : Nat) (Pairs : List (HashKey × (Option Object × Option Object)))
  | Quote (addr : Nat) (Node : Node)
  | Macro (addr : Nat) (Parameters : List Identifier) (Body : Option BlockStatement)
      (Env : Nat)

/-- The address of the struct a value points to; 0 is the one address of every struct of
size zero. -/
def Object.addr : Object → Nat
  | .Integer a _ => a | .Boolean a _ => a | .String a _ => a | .Null => 0
  | .ReturnValue a _ => a | .Error a _ => a | .Function a _ _ _ => a | .Builtin a _ => a
  | .Array a _ => a | .Hash a _ => a | .Quote a _ => a | .Macro a _ _ _ => a

def INTEGER_OBJ : String := "INTEGER"
def BOOLEAN_OBJ : String := "BOOLEAN"
def STRING_OBJ : String := "STRING"
def NULL_OBJ : String := "NULL"
def RETURN_VALUE_OBJ : String := "RETURN_VALUE"
def ERROR_OBJ : String := "ERROR"
def FUNCTION_OBJ : String := "FUNCTION"
def BUILTIN_OBJ : String := "BUILTIN"
def ARRAY_OBJ : String := "ARRAY"
def HASH_OBJ : String := "HASH"
def QUOTE_OBJ : String := "QUOTE"
def MACRO_OBJ : String := "MACRO"

/-- Modelled from the spec: the method `Type()`, the type tag of a value (section 3 names
`INTEGER`, `STRING`, `ARRAY`, `HASH`, `FUNCTION`, `ERROR`; `BOOLEAN` is in section 8). -/
def objectType : Object → String
  | .Integer _ _ => INTEGER_OBJ | .Boolean _ _ => BOOLEAN_OBJ | .String _ _ => STRING_OBJ
  | .Null => NULL_OBJ | .ReturnValue _ _ => RETURN_VALUE_OBJ | .Error _ _ => ERROR_OBJ
  | .Function _ _ _ _ => FUNCTION_OBJ | .Builtin _ _ => BUILTIN_OBJ | .Array _ _ => ARRAY_OBJ
  | .Hash _ _ => HASH_OBJ | .Quote _ _ => QUOTE_OBJ | .Macro _ _ _ _ => MACRO_OBJ

/-- Modelled from the spec: an environment is a mapping from names to values and an
optional enclosing environment (section 3). -/
structure Environment where
  store : List (String × Option Object)
  outer : Option Nat

/-- The memory the evaluator works on: the environments allocated so far (an environment's
address is its index), the address of the next struct to be allocated, and the lines
printed so far. -/
structure World where
  envs : List Environment
  next : Nat
  output : List String

/-- The address of a newly allocated struct. -/
def alloc : Eff World Nat := fun w => Res.ok (w.next, { w with next := w.next + 1 })

/-- The variables `NULL`, `TRUE` and `FALSE` of `eval.go`: three structs allocated once,
`NULL` being the pointer to the struct of size zero. -/
def NULL : Object := Object.Null
def TRUE : Object := Object.Boolean 1 true
def FALSE : Object := Object.Boolean 2 false

/-- Modelled from the spec: `NewEnvironment()`. -/
def NewEnvironment : Eff World Nat :=
  fun w => Res.ok (w.envs.length, { w with envs := w.envs ++ [⟨[], none⟩] })

/-- Modelled from the spec: `NewEnclosedEnvironment(outer)`. -/
def NewEnclosedEnvironment (outer : Nat) : Eff World Nat :=
  fun w => Res.ok (w.envs.length, { w with envs := w.envs ++ [⟨[], some outer⟩] })

/-- The entry of a map with string keys. -/
def storeGet (store : List (String × Option Object)) (name : String) :
    Option (Option Object) :=
  match store.find? (fun kv => kv.1 == name) with
  | some kv => some kv.2
  | none => none

/-- The assignment `store[name] = val`. -/
def storeSet (store : List (String × Option Object)) (name : String) (val : Option Object) :
    List (String × Option Object) :=
  if store.any (fun kv => kv.1 == name) then
    store.map (fun kv => if kv.1 == name then (name, val) else kv)
  else store ++ [(name, val)]

/-- The walk of `Get` outward through at most `n` environments. -/
def envGetLoop (envs : List Environment) : Nat → Nat → String → Res (Option (Option Object))
  | 0, _, _ => Res.fault
  | n + 1, env, name =>
    match envs.get? env with
    | none => Res.fault
    | some e =>
      match storeGet e.store name with
      | some v => Res.ok (some v)
      | none =>
        match e.outer with
        | none => Res.ok none
        | some o => envGetLoop envs n o name

/-- Modelled from the spec: `env.Get(name)`, the lookup that walks outward until the name
is found; the result is the pair `(obj, ok)`, `none` for `ok = false`. An address that is
not an environment's is a fault; the chain of enclosing environments is no longer than
the number of environments. -/
def envGet (env : Nat) (name : String) : Eff World (Option (Option Object)) :=
  fun w =>
    match envGetLoop w.envs (w.envs.length + 1) env name with
    | Res.ok r => Res.ok (r, w)
    | Res.fault => Res.fault
    | Res.outOfFuel => Res.outOfFuel

/-- Modelled from the spec: `env.Set(name, val)`, which writes to the current frame
only. -/
def envSet (env : Nat) (name : String) (val : Option Object) : Eff World Unit :=
  fun w =>
    match w.envs.get? env with
    | none => Res.fault
    | some e =>
      Res.ok ((), { w with envs := w.envs.set env { e with store := storeSet e.store name val } })

/-- Reduction of an integer to the range of `int64` (two's complement wrap-around). -/
def wrap64 (x : Int) : Int := (x + 2 ^ 63) % 2 ^ 64 - 2 ^ 63

/-- What the evaluator uses of the repository without its source being at hand: the
table `builtins` and the native functions of its entries, the function `quote`, and the
64-bit hash of strings behind `String.HashKey`. The function `quote` receives the
evaluator to evaluate `unquote` calls with. -/
structure Externals where
  builtins : String → Option Object
  callBuiltin : String → List (Option Object) → Eff World (Option Object)
  quote : (Node → Nat → Eff World (Option Object)) → Option Expression → Nat →
    Eff World (Option Object)
  hashString : String → Nat

/-! ## Evaluator (`eval/eval.go`) -/

/-- The method `TokenLiteral()` of the expression types. -/
def tokenLiteral : Expression → String
  | .Identifier i => i.Token.Literal
  | .IntegerLiteral t _ => t.Literal
  | .StringLiteral t _ => t.Literal
  | .Boolean t _ => t.Literal
  | .PrefixExpression t _ _ => t.Literal
  | .InfixExpression t _ _ _ => t.Literal
  | .IfExpression t _ _ _ => t.Literal
  | .FunctionLiteral t _ _ => t.Literal
  | .CallExpression t _ _ => t.Literal
  | .ArrayLiteral t _ => t.Literal
  | .IndexExpression t _ _ => t.Literal
  | .HashLiteral t _ => t.Literal
  | .MacroLiteral t _ _ => t.Literal

def isError : Option Object → Bool
  | some obj => objectType obj == ERROR_OBJ
  | none => false

def nativeBoolToBooleanObject (b : Bool) : Object := if b then TRUE else FALSE

/-- The function `newError`, with the formatted message as its argument. -/
def newError (message : String) : Eff World (Option Object) := do
  let a ← alloc
  pure (some (Object.Error a message))

/-- The comparison `left == right` of two interface values holding pointers: same dynamic
type and same address (or both nil). -/
def samePointer : Option Object → Option Object → Bool
  | none, none => true
  | some x, some y => x.addr == y.addr && objectType x == objectType y
  | _, _ => false

/-- The call `obj.Type()`, a nil dereference for the nil interface. -/
def typeOf : Option Object → Eff World String
  | some obj => pure (objectType obj)
  | none => Eff.fault

def evaluateBangOperatorExpression (right : Option Object) : Object :=
  if samePointer right (some TRUE) then FALSE
  else if samePointer right (some FALSE) then TRUE
  else if samePointer right (some NULL) then NULL
  else FALSE

def evaluateMinusPrefixExpression (right : Option Object) : Eff World (Option Object) :=
  match right with
  | none => Eff.fault
  | some (Object.Integer _ value) => do
      let a ← alloc
      pure (some (Object.Integer a (wrap64 (-value))))
  | some obj => newError ("unknown operator: -" ++ objectType obj)

def evalPrefixExpression (operator : String) (right : Option Object) :
    Eff World (Option Object) :=
  if operator = TokenType.BANG.str then pure (some (evaluateBangOperatorExpression right))
  else if operator = TokenType.MINUS.str then evaluateMinusPrefixExpression right
  else do
    let t ← typeOf right
    newError ("unknown operator: " ++ operator ++ t)

/-- The function `evalIntegerInfixExpression` on the values of its two `Integer`
operands. Division by zero is a run-time panic of Go. -/
def evalIntegerInfixExpression (operator : String) (leftVal rightVal : Int) :
    Eff World (Option Object) :=
  if operator = TokenType.PLUS.str then do
    let a ← alloc
    pure (some (Object.Integer a (wrap64 (leftVal + rightVal))))
  else if operator = TokenType.MINUS.str then do
    let a ← alloc
    pure (some (Object.Integer a (wrap64 (leftVal - rightVal))))
  else if operator = TokenType.ASTERISK.str then do
    let a ← alloc
    pure (some (Object.Integer a (wrap64 (leftVal * rightVal))))
  else if operator = TokenType.SLASH.str then
    if rightVal = 0 then Eff.fault
    else do
      let a ← alloc
      pure (some (Object.Integer a (wrap64 (Int.tdiv leftVal rightVal))))
  else if operator = TokenType.EQ.str then
    pure (some (nativeBoolToBooleanObject (decide (leftVal = rightVal))))
  else if operator = TokenType.NEQ.str then
    pure (some (nativeBoolToBooleanObject (decide (leftVal ≠ rightVal))))
  else if operator = TokenType.GT.str then
    pure (some (nativeBoolToBooleanObject (decide (leftVal > rightVal))))
  else if operator = TokenType.LT.str then
    pure (some (nativeBoolToBooleanObject (decide (leftVal < rightVal))))
  else newError ("unknown operator: " ++ INTEGER_OBJ ++ " " ++ operator ++ " " ++ INTEGER_OBJ)

/-- The function `evalStringInfixExpression` on the values of its two `String`
operands. -/
def evalStringInfixExpression (operator : String) (leftVal rightVal : String) :
    Eff World (Option Object) :=
  if operator ≠ "+" then
    newError ("unknown operator: " ++ STRING_OBJ ++ " " ++ operator ++ " " ++ STRING_OBJ)
  else do
    let a ← alloc
    pure (some (Object.String a (leftVal ++ rightVal)))

/-- The cases of `evalInfixExpression` after the two for equal `INTEGER` and `STRING`
types. -/
def evalInfixExpressionRest (operator : String) (left : Object) (right : Option Object) :
    Eff World (Option Object) :=
  if operator = TokenType.EQ.str then
    pure (some (nativeBoolToBooleanObject (samePointer (some left) right)))
  else if operator = TokenType.NEQ.str then
    pure (some (nativeBoolToBooleanObject (!samePointer (some left) right)))
  else do
    let rt ← typeOf right
    if objectType left ≠ rt then
      newError ("type mismatch: " ++ objectType left ++ " " ++ operator ++ " " ++ rt)
    else newError ("unknown operator: " ++ objectType left ++ " " ++ operator ++ " " ++ rt)

/-- The function `evalInfixExpression`. The conditions of its `switch` call `Type()` on
the left operand first and on the right one only when the left one is an `INTEGER` or a
`STRING`, or when the last two cases are reached. -/
def evalInfixExpression (operator : String) (left right : Option Object) :
    Eff World (Option Object) :=
  match left, right with
  | none, _ => Eff.fault
  | some (Object.Integer _ _), none => Eff.fault
  | some (Object.String _ _), none => Eff.fault
  | some (Object.Integer _ leftVal), some (Object.Integer _ rightVal) =>
      evalIntegerInfixExpression operator leftVal rightVal
  | some (Object.String _ leftVal), some (Object.String _ rightVal) =>
      evalStringInfixExpression operator leftVal rightVal
  | some l, r => evalInfixExpressionRest operator l r

def isTruthy (obj : Option Object) : Bool :=
  if samePointer obj (some TRUE) then true
  else if samePointer obj (some FALSE) then false
  else if samePointer obj (some NULL) then false
  else true

def evalIdentifier (ext : Externals) (node : Identifier) (env : Nat) :
    Eff World (Option Object) := do
  match ← envGet env node.Value with
  | some val => pure val
  | none =>
    match ext.builtins node.Value with
    | some builtin => pure (some builtin)
    | none => newError ("identifier not found: " ++ node.Value)

/-- The loop of `extendFunctionEnv`: `env.Set(param.Value, args[paramIdx])` for each
parameter in turn; an argument list that is too short is an index out of range. -/
def bindParameters (env : Nat) : List Identifier → List (Option Object) → Eff World Unit
  | [], _ => pure ()
  | _ :: _, [] => Eff.fault
  | param :: params, arg :: args => do
      envSet env param.Value arg
      bindParameters env params args

/-- The function `extendFunctionEnv` on the fields of the `Function` value. -/
def extendFunctionEnv (parameters : List Identifier) (fnEnv : Nat)
    (args : List (Option Object)) : Eff World Nat := do
  let env ← NewEnclosedEnvironment fnEnv
  bindParameters env parameters args
  pure env

def unwrapReturnValue : Option Object → Option Object
  | some (Object.ReturnValue _ value) => value
  | obj => obj

/-- The function `evalArrayIndexExpression` on the elements of the array and the value of
the index. Its `&object.Null{}` is a pointer to a struct of size zero, the same pointer as
`NULL` (see `Object`), and takes up no new address. -/
def evalArrayIndexExpression (elements : List (Option Object)) (index : Int) :
    Eff World (Option Object) :=
  let max : Int := (elements.length : Int) - 1
  if index < 0 ∨ index > max then pure (some Object.Null)
  else orFault (elements.get? index.toNat)

/-- Modelled from the spec: the interface `Hashable` and its method `HashKey()`: an
`Integer`, a `Boolean` or a `String` has a key made of its type tag and of the integer as
unsigned 64-bit, of 1 or 0, or of the hash of the string; `none` for a value of another
type (the assertion `.(Hashable)` fails). -/
def hashKeyOf (ext : Externals) : Object → Option HashKey
  | Object.Integer _ v => some ⟨INTEGER_OBJ, (v % 2 ^ 64).toNat⟩
  | Object.Boolean _ b => some ⟨BOOLEAN_OBJ, if b then 1 else 0⟩
  | Object.String _ s => some ⟨STRING_OBJ, ext.hashString s % 2 ^ 64⟩
  | _ => none

/-- The entry of a map keyed by `HashKey`. -/
def hashGet (pairs : List (HashKey × (Option Object × Option Object))) (k : HashKey) :
    Option (Option Object × Option Object) :=
  match pairs.find? (fun kv => kv.1 == k) with
  | some kv => some kv.2
  | none => none

/-- The assignment `hash[k] = pair`. -/
def hashSet (pairs : List (HashKey × (Option Object × Option Object))) (k : HashKey)
    (pair : Option Object × Option Object) :
    List (HashKey × (Option Object × Option Object)) :=
  if pairs.any (fun kv => kv.1 == k) then
    pairs.map (fun kv => if kv.1 == k then (k, pair) else kv)
  else pairs ++ [(k, pair)]

def evalHashIndexExpression (ext : Externals)
    (pairs : List (HashKey × (Option Object × Option Object))) (idx : Option Object) :
    Eff World (Option Object) :=
  match idx with
  | none => Eff.fault
  | some i =>
    match hashKeyOf ext i with
    | none => newError ("unusable as hash key: " ++ objectType i)
    | some key =>
      match hashGet pairs key with
      | none => pure (some NULL)
      | some pair => pure pair.2

def evalIndexExpession (ext : Externals) (left index : Option Object) :
    Eff World (Option Object) :=
  match left, index with
  | none, _ => Eff.fault
  | some (Object.Array _ _), none => Eff.fault
  | some (Object.Array _ elements), some (Object.Integer _ i) =>
      evalArrayIndexExpression elements i
  | some (Object.Hash _ pairs), idx => evalHashIndexExpression ext pairs idx
  | some l, _ => newError ("index operator not supported: " ++ objectType l)

/-- The loop of `evalProgram`, over an evaluator `ev` for the statements. -/
def evalProgramLoop (ev : Node → Nat → Eff World (Option Object)) (env : Nat) :
    List Statement → Option Object → Eff World (Option Object)
  | [], result => pure result
  | node :: rest, _ => do
      let result ← ev (Node.Statement node) env
      match result with
      | some (Object.ReturnValue _ value) => pure value
      | some (Object.Error a m) => pure (some (Object.Error a m))
      | _ => evalProgramLoop ev env rest result

/-- The test of `evalBlockStatement`: the result is not nil and its type is
`RETURN_VALUE_OBJ` or `ERROR_OBJ`. -/
def isReturnOrError : Option Object → Bool
  | some obj => objectType obj == RETURN_VALUE_OBJ || objectType obj == ERROR_OBJ
  | none => false

/-- The loop of `evalBlockStatement`, over an evaluator `ev` for the statements. -/
def evalBlockStatementLoop (ev : Node → Nat → Eff World (Option Object)) (env : Nat) :
    List Statement → Option Object → Eff World (Option Object)
  | [], result => pure result
  | stmt :: rest, _ => do
      let result ← ev (Node.Statement stmt) env
      if isReturnOrError result then pure result
      else evalBlockStatementLoop ev env rest result

/-- The loop of `evalExpressions`, over an evaluator `ev` for the expressions. -/
def evalExpressionsLoop (ev : Node → Nat → Eff World (Option Object)) (env : Nat) :
    List (Option Expression) → List (Option Object) → Eff World (List (Option Object))
  | [], result => pure result
  | e :: rest, result => do
      let evaluated ← ev (nodeOfExpr e) env
      if isError evaluated then pure [evaluated]
      else evalExpressionsLoop ev env rest (result ++ [evaluated])

/-- The loop of `evalHashLiteral`, over an evaluator `ev` for the keys and values; the
entries of `node.Pairs` are visited in the order of the list. The result is the map, or
the value the function returns from inside the loop. -/
def evalHashLiteralLoop (ext : Externals) (ev : Node → Nat → Eff World (Option Object))
    (env : Nat) :
    List (Option Expression × Option Expression) →
      List (HashKey × (Option Object × Option Object)) →
      Eff World (List (HashKey × (Option Object × Option Object)) ⊕ Option Object)
  | [], hash => pure (Sum.inl hash)
  | (k, v) :: rest, hash => do
      let key ← ev (nodeOfExpr k) env
      if isError key then pure (Sum.inr key)
      else
        match key with
        | none => Eff.fault
        | some keyObj =>
          match hashKeyOf ext keyObj with
          | none => do
              let e ← newError ("unusable as hash key: " ++ objectType keyObj)
              pure (Sum.inr e)
          | some hashed => do
              let value ← ev (nodeOfExpr v) env
              if isError value then pure (Sum.inr value)
              else evalHashLiteralLoop ext ev env rest (hashSet hash hashed (key, value))

mutual
/-- The function `Eval`, with a bound on the depth of the calls. -/
def Eval (ext : Externals) : Nat → Node → Nat → Eff World (Option Object)
  | 0, _, _ => Eff.outOfFuel
  | n + 1, node, env =>
    match node with
    | Node.Statement (Statement.ReturnStatement _ returnValue) => do
        let val ← Eval ext n (nodeOfExpr returnValue) env
        if isError val then pure val
        else do
          let a ← alloc
          pure (some (Object.ReturnValue a val))
    | Node.Expression (Expression.IntegerLiteral _ value) => do
        let a ← alloc
        pure (some (Object.Integer a value))
    | Node.Expression (Expression.Boolean _ value) =>
        pure (some (nativeBoolToBooleanObject value))
    | Node.Expression (Expression.StringLiteral _ value) => do
        let a ← alloc
        pure (some (Object.String a value))
    | Node.Program p => evalProgram ext n p.Statements env
    | Node.Statement (Statement.ExpressionStatement _ e) => Eval ext n (nodeOfExpr e) env
    | Node.Expression (Expression.PrefixExpression _ operator right) => do
        let r ← Eval ext n (nodeOfExpr right) env
        if isError r then pure r
        else evalPrefixExpression operator r
    | Node.Expression (Expression.InfixExpression _ left operator right) => do
        let l ← Eval ext n (nodeOfExpr left) env
        if isError l then pure l
        else do
          let r ← Eval ext n (nodeOfExpr right) env
          if isError r then pure r
          else evalInfixExpression operator l r
    | Node.Expression (Expression.IfExpression _ condition consequence alternative) =>
        evalIfExpression ext n condition consequence alternative env
    | Node.Statement (Statement.BlockStatement none) => Eff.fault
    | Node.Statement (Statement.BlockStatement (some (BlockStatement.mk _ statements))) =>
        evalBlockStatement ext n statements env
    | Node.Statement Statement.LetStatementNil => Eff.fault
    | Node.Statement (Statement.LetStatement _ name value) => do
        let val ← Eval ext n (nodeOfExpr value) env
        if isError val then pure val
        else
          match name with
          | none => Eff.fault
          | some i => do
              envSet env i.Value val
              pure none
    | Node.Expression (Expression.Identifier i) => evalIdentifier ext i env
    | Node.Expression (Expression.FunctionLiteral _ params body) => do
        let a ← alloc
        pure (some (Object.Function a params body env))
    | Node.Expression (Expression.CallExpression _ function arguments) =>
        match function with
        | none => Eff.fault
        | some f =>
          if tokenLiteral f = "quote" then
            match arguments with
            | [] => Eff.fault
            | arg :: _ => ext.quote (Eval ext n) arg env
          else do
            let fn ← Eval ext n (Node.Expression f) env
            if isError fn then pure fn
            else do
              let args ← evalExpressions ext n arguments env
              match args with
              | [a] => if isError a then pure a else applyFunction ext n fn args
              | _ => applyFunction ext n fn args
    | Node.Expression (Expression.ArrayLiteral _ elems) => do
        let elements ← evalExpressions ext n elems env
        match elements with
        | [e] =>
          if isError e then pure e
          else do
            let a ← alloc
            pure (some (Object.Array a elements))
        | _ => do
            let a ← alloc
            pure (some (Object.Array a elements))
    | Node.Expression (Expression.IndexExpression _ left index) => do
        let l ← Eval ext n (nodeOfExpr left) env
        if isError l then pure l
        else do
          let idx ← Eval ext n (nodeOfExpr index) env
          if isError idx then pure idx
          else evalIndexExpession ext l idx
    | Node.Expression (Expression.HashLiteral _ pairs) => evalHashLiteral ext n pairs env
    | Node.Expression (Expression.MacroLiteral _ _ _) => pure none
    | Node.nil => pure none
termination_by structural n => n

def evalProgram (ext : Externals) : Nat → List Statement → Nat → Eff World (Option Object)
  | 0, _, _ => Eff.outOfFuel
  | n + 1, statements, env => evalProgramLoop (Eval ext n) env statements none
termination_by structural n => n

def evalBlockStatement (ext : Externals) :
    Nat → List Statement → Nat → Eff World (Option Object)
  | 0, _, _ => Eff.outOfFuel
  | n + 1, statements, env => evalBlockStatementLoop (Eval ext n) env statements none
termination_by structural n => n

def evalExpressions (ext : Externals) :
    Nat → List (Option Expression) → Nat → Eff World (List (Option Object))
  | 0, _, _ => Eff.outOfFuel
  | n + 1, args, env => evalExpressionsLoop (Eval ext n) env args []
termination_by structural n => n

/-- The function `evalIfExpression` on the fields of the `*ast.IfExpression`. -/
def evalIfExpression (ext : Externals) :
    Nat → Option Expression → Option BlockStatement → Option BlockStatement → Nat →
      Eff World (Option Object)
  | 0, _, _, _, _ => Eff.outOfFuel
  | n + 1, cond, consequence, alternative, env => do
      let condition ← Eval ext n (nodeOfExpr cond) env
      if isError condition then pure condition
      else if isTruthy condition then Eval ext n (nodeOfBlock consequence) env
      else
        match alternative with
        | some alt => Eval ext n (nodeOfBlock (some alt)) env
        | none => pure (some NULL)
termination_by structural n => n

def applyFunction (ext : Externals) :
    Nat → Option Object → List (Option Object) → Eff World (Option Object)
  | 0, _, _ => Eff.outOfFuel
  | n + 1, obj, args =>
    match obj with
    | some (Object.Function _ parameters body fnEnv) => do
        let extendedEnv ← extendFunctionEnv parameters fnEnv args
        let evaluated ← Eval ext n (nodeOfBlock body) extendedEnv
        pure (unwrapReturnValue evaluated)
    | some (Object.Builtin _ name) => ext.callBuiltin name args
    | some fn => newError ("not a function: " ++ objectType fn)
    | none => Eff.fault
termination_by structural n => n

/-- The function `evalHashLiteral` on the entries of `node.Pairs`. -/
def evalHashLiteral (ext : Externals) :
    Nat → List (Option Expression × Option Expression) → Nat → Eff World (Option Object)
  | 0, _, _ => Eff.outOfFuel
  | n + 1, pairs, env => do
      match ← evalHashLiteralLoop ext (Eval ext n) env pairs [] with
      | Sum.inr result => pure result
      | Sum.inl hash => do
          let a ← alloc
          pure (some (Object.Hash a hash))
termination_by structural n => n
end

/-! ## Macro pass (`eval/macro_expension.go`) -/

/-- The function `isMacroDefinition`; `none` is its panic, the nil dereference
`letStatement.Value` for a nil `*LetStatement`. -/
def isMacroDefinition : Statement → Option Bool
  | Statement.LetStatement _ _ (some (Expression.MacroLiteral _ _ _)) => some true
  | Statement.LetStatement _ _ _ => some false
  | Statement.LetStatementNil => none
  | _ => some false

/-- The function `addMacro`. Its two type assertions yield nil when they fail, and the
nil pointer is then dereferenced. -/
def addMacro (stmt : Statement) (env : Nat) : Eff World Unit :=
  match stmt with
  | Statement.LetStatement _ name (some (Expression.MacroLiteral _ parameters body)) => do
      let a ← alloc
      match name with
      | none => Eff.fault
      | some i => envSet env i.Value (some (Object.Macro a parameters body env))
  | _ => Eff.fault

/-- The first loop of `DefineMacros`; `i` is the index of the first statement of the
list. -/
def defineMacrosLoop (env : Nat) : List Statement → Nat → List Nat → Eff World (List Nat)
  | [], _, definitions => pure definitions
  | stmt :: rest, i, definitions => do
      let b ← orFault (isMacroDefinition stmt)
      if b then do
        addMacro stmt env
        defineMacrosLoop env rest (i + 1) (definitions ++ [i])
      else defineMacrosLoop env rest (i + 1) definitions

/-- The second loop of `DefineMacros`, over the recorded indices from the last one to the
first: `statements = append(statements[:definitionIndex], statements[definitionIndex+1:]...)`. -/
def removeDefinitionsLoop : List Nat → List Statement → List Statement
  | [], statements => statements
  | definitionIndex :: rest, statements =>
    removeDefinitionsLoop rest
      (statements.take definitionIndex ++ statements.drop (definitionIndex + 1))

/-- The function `DefineMacros`; the result is the program as the function leaves it. -/
def DefineMacros (program : Program) (env : Nat) : Eff World Program := do
  let definitions ← defineMacrosLoop env program.Statements 0 []
  pure ⟨removeDefinitionsLoop definitions.reverse program.Statements⟩

/-- The function `isMacroCall` on the field `Function` of the call; the result is the
fields `Parameters`, `Body` and `Env` of the `Macro` value, `none` for `ok = false`. -/
def isMacroCall (function : Option Expression) (env : Nat) :
    Eff World (Option (List Identifier × Option BlockStatement × Nat)) :=
  match function with
  | some (Expression.Identifier ident) => do
      match ← envGet env ident.Value with
      | some (some (Object.Macro _ parameters body menv)) => pure (some (parameters, body, menv))
      | _ => pure none
  | _ => pure none

/-- The function `quoteArgs` on the field `Arguments` of the call. -/
def quoteArgs : List (Option Expression) → Eff World (List (Option Object))
  | [] => pure []
  | arg :: rest => do
      let a ← alloc
      let r ← quoteArgs rest
      pure (some (Object.Quote a (nodeOfExpr arg)) :: r)

/-- The function `extendMacroEnv` on the fields of the `Macro` value. -/
def extendMacroEnv (parameters : List Identifier) (macroEnv : Nat)
    (args : List (Option Object)) : Eff World Nat := do
  let extendedEnv ← NewEnclosedEnvironment macroEnv
  bindParameters extendedEnv parameters args
  pure extendedEnv

/-- The function literal that `ExpandMacros` passes to `Modify`; `fuel` bounds the depth of
the calls of each evaluation of a macro body. -/
def expandMacrosModifier (ext : Externals) (fuel : Nat) (env : Nat) : ModifierFunc World :=
  fun node =>
    match node with
    | Node.Expression (Expression.CallExpression _ function arguments) => do
        match ← isMacroCall function env with
        | none => pure node
        | some (parameters, body, macroEnv) => do
            let args ← quoteArgs arguments
            let evalEnv ← extendMacroEnv parameters macroEnv args
            let evaluated ← Eval ext fuel (nodeOfBlock body) evalEnv
            match evaluated with
            | some (Object.Quote _ quoted) => pure quoted
            | _ => Eff.fault
    | _ => pure node

/-- The function `ExpandMacros`. -/
def ExpandMacros (ext : Externals) (fuel : Nat) (program : Program) (env : Nat) :
    Eff World Node :=
  Modify (Node.Program program) (expandMacrosModifier ext fuel env)

/-- A world with one environment, the global one at address 0, and no struct allocated
but the three of `NULL`, `TRUE` and `FALSE`. -/
def World.init : World := ⟨[⟨[], none⟩], 3, []⟩

/-! ## Inputs used to state the properties of the rewriter, the macro pass and the evaluator -/

/-- Modelled from the spec: the token the lexer delivers for a keyword. -/
def keywordToken (k : TokenType) (s : String) : Token := ⟨k, s⟩

/-- The modifier that maps an `IntegerLiteral` with value 1 to one with value 2 and
returns every other node unchanged. -/
def turnOneIntoTwo : Node → Node
  | Node.Expression (Expression.IntegerLiteral tok v) =>
    if v = 1 then Node.Expression (Expression.IntegerLiteral tok 2)
    else Node.Expression (Expression.IntegerLiteral tok v)
  | n => n

/-- The tokens of `let x = 5; x`. -/
def letThenUseTokens : List Token :=
  [keywordToken TokenType.LET "let", identToken "x", symbolToken TokenType.ASSIGN,
    intToken "5", symbolToken TokenType.SEMICOLON, identToken "x", eofToken]

/-- The program `ParseProgram` returns for `let x = 5; x`. -/
def letThenUseProgram : Program :=
  ⟨[Statement.LetStatement (keywordToken TokenType.LET "let") (some ⟨identToken "x", "x"⟩)
      (intExpr "5" 5),
    Statement.ExpressionStatement (identToken "x") (identExpr "x")]⟩

/-- The program `let x = 5; x` with the `Name` of its let statement nil. -/
def letThenUseNameless : Program :=
  ⟨[Statement.LetStatement (keywordToken TokenType.LET "let") none (intExpr "5" 5),
    Statement.ExpressionStatement (identToken "x") (identExpr "x")]⟩

/-- An instance of `Externals` with an empty table of built-ins and a `quote` that
panics, for programs that use neither. -/
def noExternals : Externals :=
  ⟨fun _ => none, fun _ _ => Eff.fault, fun _ _ _ => Eff.fault, fun _ => 0⟩

/-- The statements of a list are evaluated in turn by `ev`, starting in the world `w`;
none of the evaluations panics and none yields a `ReturnValue` or an `Error`. `w'` is the
world after the last statement and the last argument its result (the result `r` the loop
starts with, for the empty list). -/
inductive StepsThrough (ev : Node → Nat → Eff World (Option Object)) (env : Nat) :
    List Statement → World → Option Object → World → Option Object → Prop
  | nil (w : World) (r : Option Object) : StepsThrough ev env [] w r w r
  | cons (s : Statement) (rest : List Statement) (w : World) (r x : Option Object)
      (w1 w2 : World) (y : Option Object) :
      (ev (Node.Statement s) env).run w = Res.ok (x, w1) → isReturnOrError x = false →
      StepsThrough ev env rest w1 x w2 y → StepsThrough ev env (s :: rest) w r w2 y

/-- The tokens of `if (10 > 1) { if (10 > 1) { return 10; } return 1; }`. -/
def nestedReturnTokens : List Token :=
  [keywordToken TokenType.IF "if", symbolToken TokenType.LPAREN, intToken "10",
    symbolToken TokenType.GT, intToken "1", symbolToken TokenType.RPAREN,
    symbolToken TokenType.LBRACE,
    keywordToken TokenType.IF "if", symbolToken TokenType.LPAREN, intToken "10",
    symbolToken TokenType.GT, intToken "1", symbolToken TokenType.RPAREN,
    symbolToken TokenType.LBRACE, keywordToken TokenType.RETURN "return", intToken "10",
    symbolToken TokenType.SEMICOLON, symbolToken TokenType.RBRACE,
    keywordToken TokenType.RETURN "return", intToken "1", symbolToken TokenType.SEMICOLON,
    symbolToken TokenType.RBRACE, eofToken]

/-- The node the parser builds for `10 > 1`. -/
def tenGreaterOne : Option Expression :=
  infixExpr (intExpr "10" 10) TokenType.GT (intExpr "1" 1)

/-- The node the parser builds for `return v;`. -/
def returnStmt (s : String) (v : Int) : Statement :=
  Statement.ReturnStatement (keywordToken TokenType.RETURN "return") (intExpr s v)

/-- The program `ParseProgram` returns for
`if (10 > 1) { if (10 > 1) { return 10; } return 1; }`. -/
def nestedReturnProgram : Program :=
  ⟨[Statement.ExpressionStatement (keywordToken TokenType.IF "if")
    (some (Expression.IfExpression (keywordToken TokenType.IF "if") tenGreaterOne
      (some (BlockStatement.mk (symbolToken TokenType.LBRACE)
        [Statement.ExpressionStatement (keywordToken TokenType.IF "if")
          (some (Expression.IfExpression (keywordToken TokenType.IF "if") tenGreaterOne
            (some (BlockStatement.mk (symbolToken TokenType.LBRACE) [returnStmt "10" 10]))
            none)),
         returnStmt "1" 1]))
      none))]⟩

/-- The tokens of `return if (true) { return 1; };`. -/
def returnOfIfTokens : List Token :=
  [keywordToken TokenType.RETURN "return", keywordToken TokenType.IF "if",
    symbolToken TokenType.LPAREN, keywordToken TokenType.TRUE "true",
    symbolToken TokenType.RPAREN, symbolToken TokenType.LBRACE,
    keywordToken TokenType.RETURN "return", intToken "1", symbolToken TokenType.SEMICOLON,
    symbolToken TokenType.RBRACE, symbolToken TokenType.SEMICOLON, eofToken]

/-- The program `ParseProgram` returns for `return if (true) { return 1; };`. -/
def returnOfIfProgram : Program :=
  ⟨[Statement.ReturnStatement (keywordToken TokenType.RETURN "return")
    (some (Expression.IfExpression (keywordToken TokenType.IF "if")
      (some (Expression.Boolean (keywordToken TokenType.TRUE "true") true))
      (some (BlockStatement.mk (symbolToken TokenType.LBRACE) [returnStmt "1" 1]))
      none))]⟩

/-- The indices, counted from `i`, of the statements of the list that are macro
definitions. -/
def macroIndices : List Statement → Nat → List Nat
  | [], _ => []
  | s :: rest, i =>
    if isMacroDefinition s = some true then i :: macroIndices rest (i + 1)
    else macroIndices rest (i + 1)

/-- The statement is not a macro definition. -/
def notMacroDefinition (s : Statement) : Bool := !(isMacroDefinition s == some true)

/-- The statement is neither a nil `*LetStatement` nor a macro definition whose `Name` is
nil: the statements on which `isMacroDefinition` and `addMacro` do not dereference a nil
pointer. -/
def definable : Statement → Bool
  | Statement.LetStatementNil => false
  | Statement.LetStatement _ none (some (Expression.MacroLiteral _ _ _)) => false
  | _ => true

/-- The tokens of `let 5;`. -/
def letWithoutNameTokens : List Token :=
  [keywordToken TokenType.LET "let", intToken "5", symbolToken TokenType.SEMICOLON, eofToken]

/-- The program `ParseProgram` returns for `let 5;`, with one error recorded: a nil
`*LetStatement` and the expression statement `5`. -/
def letWithoutNameProgram : Program :=
  ⟨[Statement.LetStatementNil, Statement.ExpressionStatement (intToken "5") (intExpr "5" 5)]⟩

/-- The program `let m = macro() { }; 5`. -/
def macroThenFive : Program :=
  ⟨[Statement.LetStatement (keywordToken TokenType.LET "let") (some ⟨identToken "m", "m"⟩)
      (some (Expression.MacroLiteral (keywordToken TokenType.MACRO "macro") []
        (some (BlockStatement.mk (symbolToken TokenType.LBRACE) [])))),
    Statement.ExpressionStatement (intToken "5") (intExpr "5" 5)]⟩

/-! ## Lexer -/

/-- Modelled from the spec: the lexer is outside the sources; the spec (sections 1 and 6)
gives the kinds of the tokens it delivers and the text of the operators and keywords.
The lexical rules taken here are the customary ones of the language: letters and `_`
make up identifiers and keywords, decimal digits make up integers, blanks separate
tokens, and the text between two double quotes is a string. -/
def isLetter (c : Char) : Bool :=
  ('a' ≤ c && c ≤ 'z') || ('A' ≤ c && c ≤ 'Z') || c == '_'

/-- Modelled from the spec: a decimal digit. -/
def isDigit (c : Char) : Bool := '0' ≤ c && c ≤ '9'

/-- Modelled from the spec: a blank between tokens. -/
def isBlank (c : Char) : Bool := c == ' ' || c == '\t' || c == '\n' || c == '\r'

/-- Modelled from the spec: the kind of a word, a keyword of section 6 or `IDENT`. -/
def lookupIdent (s : String) : TokenType :=
  if s = "fn" then TokenType.FUNCTION
  else if s = "let" then TokenType.LET
  else if s = "true" then TokenType.TRUE
  else if s = "false" then TokenType.FALSE
  else if s = "if" then TokenType.IF
  else if s = "else" then TokenType.ELSE
  else if s = "return" then TokenType.RETURN
  else if s = "macro" then TokenType.MACRO
  else TokenType.IDENT

/-- Modelled from the spec: what the lexer has read of a token that is not yet complete:
nothing, the letters of a word, the digits of an integer, the text of a string after its
opening quote, or one of the characters `=` and `!`, which may start `==` and `!=`. -/
inductive LexMode where
  | start
  | word (acc : List Char)
  | number (acc : List Char)
  | text (acc : List Char)
  | assign
  | bang

/-- Modelled from the spec: the kind of a token that is one character long (other than
`=` and `!`). -/
def symbolKind (c : Char) : Option TokenType :=
  if c = '+' then some TokenType.PLUS
  else if c = '-' then some TokenType.MINUS
  else if c = '*' then some TokenType.ASTERISK
  else if c = '/' then some TokenType.SLASH
  else if c = '<' then some TokenType.LT
  else if c = '>' then some TokenType.GT
  else if c = ',' then some TokenType.COMMA
  else if c = ';' then some TokenType.SEMICOLON
  else if c = ':' then some TokenType.COLON
  else if c = '(' then some TokenType.LPAREN
  else if c = ')' then some TokenType.RPAREN
  else if c = '\x7b' then some TokenType.LBRACE
  else if c = '\x7d' then some TokenType.RBRACE
  else if c = '[' then some TokenType.LBRACKET
  else if c = ']' then some TokenType.RBRACKET
  else none

/-- Modelled from the spec: the lexer reads the character `c` with no token under way;
the result is the tokens that are complete and what is under way afterwards. -/
def startStep (c : Char) : List Token × LexMode :=
  if isLetter c then ([], LexMode.word [c])
  else if isDigit c then ([], LexMode.number [c])
  else if isBlank c then ([], LexMode.start)
  else if c = '=' then ([], LexMode.assign)
  else if c = '!' then ([], LexMode.bang)
  else if c = '"' then ([], LexMode.text [])
  else
    match symbolKind c with
    | some k => ([⟨k, String.mk [c]⟩], LexMode.start)
    | none => ([⟨TokenType.ILLEGAL, String.mk [c]⟩], LexMode.start)

/-- Modelled from the spec: the token that what is under way makes when no character
continues it. -/
def flush : LexMode → List Token
  | LexMode.start => []
  | LexMode.word acc => [⟨lookupIdent (String.mk acc), String.mk acc⟩]
  | LexMode.number acc => [⟨TokenType.INT, String.mk acc⟩]
  | LexMode.text acc => [⟨TokenType.STRING, String.mk acc⟩]
  | LexMode.assign => [⟨TokenType.ASSIGN, "="⟩]
  | LexMode.bang => [⟨TokenType.BANG, "!"⟩]

/-- Modelled from the spec: the lexer reads the character `c`. -/
def lexStep (m : LexMode) (c : Char) : List Token × LexMode :=
  match m with
  | LexMode.start => startStep c
  | LexMode.word acc =>
    if isLetter c then ([], LexMode.word (acc ++ [c]))
    else (flush (LexMode.word acc) ++ (startStep c).1, (startStep c).2)
  | LexMode.number acc =>
    if isDigit c then ([], LexMode.number (acc ++ [c]))
    else (flush (LexMode.number acc) ++ (startStep c).1, (startStep c).2)
  | LexMode.text acc =>
    if c = '"' then ([⟨TokenType.STRING, String.mk acc⟩], LexMode.start)
    else ([], LexMode.text (acc ++ [c]))
  | LexMode.assign =>
    if c = '=' then ([⟨TokenType.EQ, "=="⟩], LexMode.start)
    else (flush LexMode.assign ++ (startStep c).1, (startStep c).2)
  | LexMode.bang =>
    if c = '=' then ([⟨TokenType.NEQ, "!="⟩], LexMode.start)
    else (flush LexMode.bang ++ (startStep c).1, (startStep c).2)

/-- Modelled from the spec: the tokens of a sequence of characters, read with `m` under
way. -/
def lexFrom : LexMode → List Char → List Token
  | m, [] => flush m
  | m, c :: cs => (lexStep m c).1 ++ lexFrom (lexStep m c).2 cs

/-- Modelled from the spec: the tokens the lexer delivers for a source text, before the
`EOF` it delivers at the end. -/
def tokenize (s : String) : List Token := lexFrom LexMode.start s.toList

/-! ## Canonical programs: what `String()` prints and the parser reads back -/

/-- The expressions built from identifiers, integer literals and booleans with the prefix
and the binary operators, calls, index expressions and array literals. -/
inductive Canon where
  | ident (name : String)
  | int (lit : String) (value : Int)
  | bool (value : Bool)
  | pre (op : TokenType) (right : Canon)
  | bin (left : Canon) (op : TokenType) (right : Canon)
  | call (fn : Canon) (args : List Canon)
  | index (left index : Canon)
  | array (elems : List Canon)

/-- Modelled from the spec: the token the lexer delivers for `true` or `false`. -/
def boolToken (b : Bool) : Token :=
  if b then ⟨TokenType.TRUE, "true"⟩ else ⟨TokenType.FALSE, "false"⟩

mutual
/-- The AST the parser builds for an expression. -/
def Canon.toExpr : Canon → Option Expression
  | .ident s => identExpr s
  | .int s v => intExpr s v
  | .bool b => some (Expression.Boolean (boolToken b) b)
  | .pre op r => prefixExpr op r.toExpr
  | .bin l op r => infixExpr l.toExpr op r.toExpr
  | .call f args => callExpr f.toExpr (Canon.toExprs args)
  | .index l i => indexExpr l.toExpr i.toExpr
  | .array es => arrayExpr (Canon.toExprs es)
/-- The ASTs of the expressions of a list. -/
def Canon.toExprs : List Canon → List (Option Expression)
  | [] => []
  | e :: es => e.toExpr :: Canon.toExprs es
end

mutual
/-- The leaves are lexemes of the lexer (a word that is no keyword; a run of digits that
`strconv.ParseInt` accepts, with its value) and the operators are prefix and binary
operators. -/
def Canon.valid : Canon → Bool
  | .ident s => !s.toList.isEmpty && s.toList.all isLetter && lookupIdent s == TokenType.IDENT
  | .int s v => !s.toList.isEmpty && s.toList.all isDigit && parseInt s == some v
  | .bool _ => true
  | .pre op r => decide (op ∈ prefixOperators) && r.valid
  | .bin l op r => decide (op ∈ binaryOperators) && l.valid && r.valid
  | .call f args => f.valid && Canon.validAll args
  | .index l i => l.valid && i.valid
  | .array es => Canon.validAll es
/-- Every expression of the list is valid. -/
def Canon.validAll : List Canon → Bool
  | [] => true
  | e :: es => e.valid && Canon.validAll es
end

mutual
/-- The tokens of the canonical string form of an expression. -/
def Canon.tokens : Canon → List Token
  | .ident s => [identToken s]
  | .int s _ => [intToken s]
  | .bool b => [boolToken b]
  | .pre op r =>
    symbolToken TokenType.LPAREN :: symbolToken op :: (r.tokens ++ [symbolToken TokenType.RPAREN])
  | .bin l op r =>
    symbolToken TokenType.LPAREN ::
      (l.tokens ++ symbolToken op :: (r.tokens ++ [symbolToken TokenType.RPAREN]))
  | .call f args =>
    f.tokens ++ symbolToken TokenType.LPAREN ::
      (Canon.argTokens args ++ [symbolToken TokenType.RPAREN])
  | .index l i =>
    symbolToken TokenType.LPAREN ::
      (l.tokens ++ symbolToken TokenType.LBRACKET ::
        (i.tokens ++ [symbolToken TokenType.RBRACKET, symbolToken TokenType.RPAREN]))
  | .array es =>
    symbolToken TokenType.LBRACKET :: (Canon.argTokens es ++ [symbolToken TokenType.RBRACKET])
/-- The tokens of a list of expressions separated by commas. -/
def Canon.argTokens : List Canon → List Token
  | [] => []
  | e :: es => e.tokens ++ Canon.moreTokens es
/-- The tokens of the expressions after the first one, each with the comma before it. -/
def Canon.moreTokens : List Canon → List Token
  | [] => []
  | e :: es => symbolToken TokenType.COMMA :: (e.tokens ++ Canon.moreTokens es)
end

mutual
/-- The characters of the canonical string form of an expression. -/
def Canon.chars : Canon → List Char
  | .ident s => s.toList
  | .int s _ => s.toList
  | .bool b => (boolToken b).Literal.toList
  | .pre op r => '(' :: (op.str.toList ++ (r.chars ++ [')']))
  | .bin l op r =>
    '(' :: (l.chars ++ ' ' :: (op.str.toList ++ ' ' :: (r.chars ++ [')'])))
  | .call f args => f.chars ++ '(' :: (Canon.argChars args ++ [')'])
  | .index l i => '(' :: (l.chars ++ '[' :: (i.chars ++ [']', ')']))
  | .array es => '[' :: (Canon.argChars es ++ [']'])
/-- The characters of a list of expressions separated by a comma and a blank. -/
def Canon.argChars : List Canon → List Char
  | [] => []
  | e :: es => e.chars ++ Canon.moreChars es
/-- The characters of the expressions after the first one, each with the comma and the
blank before it. -/
def Canon.moreChars : List Canon → List Char
  | [] => []
  | e :: es => ',' :: ' ' :: (e.chars ++ Canon.moreChars es)
end

/-- The last of the tokens of an expression. -/
def Canon.lastToken : Canon → Token
  | .ident s => identToken s
  | .int s _ => intToken s
  | .bool b => boolToken b
  | .pre _ _ => symbolToken TokenType.RPAREN
  | .bin _ _ _ => symbolToken TokenType.RPAREN
  | .call _ _ => symbolToken TokenType.RPAREN
  | .index _ _ => symbolToken TokenType.RPAREN
  | .array _ => symbolToken TokenType.RBRACKET

/-- The first of the tokens of an expression. -/
def Canon.firstToken : Canon → Token
  | .ident s => identToken s
  | .int s _ => intToken s
  | .bool b => boolToken b
  | .pre _ _ => symbolToken TokenType.LPAREN
  | .bin _ _ _ => symbolToken TokenType.LPAREN
  | .call f _ => f.firstToken
  | .index _ _ => symbolToken TokenType.LPAREN
  | .array _ => symbolToken TokenType.LBRACKET

/-- The expression is a single identifier, integer or boolean. -/
def Canon.isAtom : Canon → Bool
  | .ident _ => true
  | .int _ _ => true
  | .bool _ => true
  | _ => false

/-- A parsing function returns `r` whenever the bound on the depth of its calls is large
enough. -/
def Returns {α : Type} (f : Nat → Option α) (r : α) : Prop :=
  ∃ N : Nat, ∀ n : Nat, N ≤ n → f n = some r

/-- The statements of the canonical programs: let statements, return statements and
expression statements. -/
inductive CanonStmt where
  | letS (name : String) (value : Canon)
  | returnS (value : Canon)
  | exprS (value : Canon)

/-- The AST the parser builds for a statement. -/
def CanonStmt.toStatement : CanonStmt → Statement
  | .letS n v =>
    Statement.LetStatement (keywordToken TokenType.LET "let") (some ⟨identToken n, n⟩) v.toExpr
  | .returnS v => Statement.ReturnStatement (keywordToken TokenType.RETURN "return") v.toExpr
  | .exprS e => Statement.ExpressionStatement e.firstToken e.toExpr

/-- The name of a let statement is a word that is no keyword, and the expression is
valid. -/
def CanonStmt.valid : CanonStmt → Bool
  | .letS n v => (Canon.ident n).valid && v.valid
  | .returnS v => v.valid
  | .exprS e => e.valid

/-- The tokens of the canonical string form of a statement. -/
def CanonStmt.tokens : CanonStmt → List Token
  | .letS n v =>
    keywordToken TokenType.LET "let" :: identToken n :: symbolToken TokenType.ASSIGN ::
      (v.tokens ++ [symbolToken TokenType.SEMICOLON])
  | .returnS v =>
    keywordToken TokenType.RETURN "return" :: (v.tokens ++ [symbolToken TokenType.SEMICOLON])
  | .exprS e => e.tokens

/-- The characters of the canonical string form of a statement. -/
def CanonStmt.chars : CanonStmt → List Char
  | .letS n v => 'l' :: 'e' :: 't' :: ' ' :: (n.toList ++ ' ' :: '=' :: ' ' :: (v.chars ++ [';']))
  | .returnS v => 'r' :: 'e' :: 't' :: 'u' :: 'r' :: 'n' :: ' ' :: (v.chars ++ [';'])
  | .exprS e => e.chars

/-- The first of the tokens of a statement. -/
def CanonStmt.firstToken : CanonStmt → Token
  | .letS _ _ => keywordToken TokenType.LET "let"
  | .returnS _ => keywordToken TokenType.RETURN "return"
  | .exprS e => e.firstToken

/-- The last of the tokens of a statement. -/
def CanonStmt.lastToken : CanonStmt → Token
  | .letS _ _ => symbolToken TokenType.SEMICOLON
  | .returnS _ => symbolToken TokenType.SEMICOLON
  | .exprS e => e.lastToken

/-- The kinds of the tokens that are words. -/
def isWordKind (k : TokenType) : Bool :=
  k == TokenType.IDENT || k == TokenType.TRUE || k == TokenType.FALSE || k == TokenType.LET
    || k == TokenType.RETURN

/-- A statement whose first token has the kind `k` may follow the statement: the
canonical string of an expression statement has no semicolon at its end, so the next
statement has to start with a word or a number, with a number after a word, and with a
word after a number. -/
def CanonStmt.separatedFrom : CanonStmt → TokenType → Bool
  | .letS _ _, _ => true
  | .returnS _, _ => true
  | .exprS e, k =>
    match e with
    | .ident _ => k == TokenType.INT
    | .bool _ => k == TokenType.INT
    | .int _ _ => isWordKind k
    | _ => isWordKind k || k == TokenType.INT

/-- The statements `rest` may follow the statement: there is none, or the first of them
may. -/
def CanonStmt.mayPrecede (s : CanonStmt) : List CanonStmt → Bool
  | [] => true
  | t :: _ => s.separatedFrom t.firstToken.Kind

/-- The canonical programs that are read back: every statement is valid and the next
statement may follow it. -/
def canonValid : List CanonStmt → Bool
  | [] => true
  | s :: rest => s.valid && s.mayPrecede rest && canonValid rest

/-- The tokens of the canonical string form of a program. -/
def canonTokens : List CanonStmt → List Token
  | [] => []
  | s :: rest => s.tokens ++ canonTokens rest

/-- The characters of the canonical string form of a program. -/
def canonChars : List CanonStmt → List Char
  | [] => []
  | s :: rest => s.chars ++ canonChars rest

/-- The program the parser builds for the statements. -/
def canonProgram (c : List CanonStmt) : Program := ⟨c.map CanonStmt.toStatement⟩

/-- The characters `rest` may follow the canonical string of the expression: after a word
comes no letter, after a number no digit. -/
def Canon.endsBefore (e : Canon) (rest : List Char) : Prop :=
  match e with
  | .ident _ => ∀ c cs, rest = c :: cs → isLetter c = false
  | .bool _ => ∀ c cs, rest = c :: cs → isLetter c = false
  | .int _ _ => ∀ c cs, rest = c :: cs → isDigit c = false
  | _ => True

/-- The canonical program of
`let x = 5; f(x, true)[0]; return a * [1, 2][b * c] * d;`. -/
def letCallReturn : List CanonStmt :=
  [CanonStmt.letS "x" (Canon.int "5" 5),
    CanonStmt.exprS
      (Canon.index (Canon.call (Canon.ident "f") [Canon.ident "x", Canon.bool true])
        (Canon.int "0" 0)),
    CanonStmt.returnS
      (Canon.bin
        (Canon.bin (Canon.ident "a") TokenType.ASTERISK
          (Canon.index (Canon.array [Canon.int "1" 1, Canon.int "2" 2])
            (Canon.bin (Canon.ident "b") TokenType.ASTERISK (Canon.ident "c"))))
        TokenType.ASTERISK (Canon.ident "d"))]

/-- The program `ParseProgram` returns for
`let x = 5; f(x, true)[0]; return a * [1, 2][b * c] * d;`: the canonical program, with
the first token of the source as the token of the expression statement. -/
def letCallReturnParsed : Program :=
  ⟨[(CanonStmt.letS "x" (Canon.int "5" 5)).toStatement,
    Statement.ExpressionStatement (identToken "f")
      (Canon.index (Canon.call (Canon.ident "f") [Canon.ident "x", Canon.bool true])
        (Canon.int "0" 0)).toExpr,
    (CanonStmt.returnS
      (Canon.bin
        (Canon.bin (Canon.ident "a") TokenType.ASTERISK
          (Canon.index (Canon.array [Canon.int "1" 1, Canon.int "2" 2])
            (Canon.bin (Canon.ident "b") TokenType.ASTERISK (Canon.ident "c"))))
        TokenType.ASTERISK (Canon.ident "d"))).toStatement]⟩

/-- The parser with the tokens `ts` still to read, the first of them being the current
token, and the errors `errs` recorded. -/
def stateAt (ts : List Token) (errs : List String) : Parser :=
  ⟨ts.tail.tail, ts.headD eofToken, ts.tail.headD eofToken, errs⟩

/-- The characters start with one that ends a word or a number, or there is none. -/
def boundary (rest : List Char) : Prop :=
  ∀ c cs, rest = c :: cs → isLetter c = false ∧ isDigit c = false
/-- The tokens of `if (x) { y }`. -/
def ifTokens : List Token :=
  [keywordToken TokenType.IF "if", symbolToken TokenType.LPAREN, identToken "x",
    symbolToken TokenType.RPAREN, symbolToken TokenType.LBRACE, identToken "y",
    symbolToken TokenType.RBRACE, eofToken]

/-- The program `ParseProgram` returns for `if (x) { y }`. -/
def ifProgram : Program :=
  ⟨[Statement.ExpressionStatement (keywordToken TokenType.IF "if")
    (some (Expression.IfExpression (keywordToken TokenType.IF "if") (identExpr "x")
      (some (BlockStatement.mk (symbolToken TokenType.LBRACE)
        [Statement.ExpressionStatement (identToken "y") (identExpr "y")]))
      none))]⟩

/-- The program `ParseProgram` returns for the two words `ifx y`. -/
def ifxThenY : Program :=
  ⟨[Statement.ExpressionStatement (identToken "ifx") (identExpr "ifx"),
    Statement.ExpressionStatement (identToken "y") (identExpr "y")]⟩

/-- Modelled from the spec: the token the lexer delivers for a string, with the text
between the quotes as its literal. -/
def stringToken (s : String) : Token := ⟨TokenType.STRING, s⟩

/-- The node `parseStringLiteral` builds for the string `s`. -/
def stringExpr (s : String) : Option Expression :=
  some (Expression.StringLiteral (stringToken s) s)

/-- The node `parseBoolean` builds for `true`. -/
def trueExpr : Option Expression :=
  some (Expression.Boolean (keywordToken TokenType.TRUE "true") true)

/-- The tokens of `if (c) { 1 } else { 2 }` for a condition of one token `c`. -/
def ifElseTokens (c : Token) : List Token :=
  [keywordToken TokenType.IF "if", symbolToken TokenType.LPAREN, c,
    symbolToken TokenType.RPAREN, symbolToken TokenType.LBRACE, intToken "1",
    symbolToken TokenType.RBRACE, keywordToken TokenType.ELSE "else",
    symbolToken TokenType.LBRACE, intToken "2", symbolToken TokenType.RBRACE, eofToken]

/-- The program `ParseProgram` returns for `if (c) { 1 } else { 2 }`, for the node `c` of
the condition. -/
def ifElseProgram (c : Option Expression) : Program :=
  ⟨[Statement.ExpressionStatement (keywordToken TokenType.IF "if")
    (some (Expression.IfExpression (keywordToken TokenType.IF "if") c
      (some (BlockStatement.mk (symbolToken TokenType.LBRACE)
        [Statement.ExpressionStatement (intToken "1") (intExpr "1" 1)]))
      (some (BlockStatement.mk (symbolToken TokenType.LBRACE)
        [Statement.ExpressionStatement (intToken "2") (intExpr "2" 2)]))))]⟩

/-- The names of the built-in functions the spec requires (section 4.3.3). -/
def requiredBuiltinNames : List String := ["len", "first", "last", "rest", "push", "puts"]

/-- An instance of `Externals` whose table of built-ins has the required names and no
other; the native functions and `quote` are not called by the programs it is used
with. -/
def requiredBuiltinsOnly : Externals :=
  ⟨fun name =>
      match requiredBuiltinNames.indexOf? name with
      | some i => some (Object.Builtin (3 + i) name)
      | none => none,
    fun _ _ => Eff.fault, fun _ _ _ => Eff.fault, fun _ => 0⟩

/-- A world with the global environment at address 0 and the structs of `NULL`, `TRUE`,
`FALSE` and of the six required built-ins allocated. -/
def World.withBuiltins : World := ⟨[⟨[], none⟩], 9, []⟩

/-- The tokens of `5 + true`. -/
def fivePlusTrueTokens : List Token :=
  [intToken "5", symbolToken TokenType.PLUS, keywordToken TokenType.TRUE "true", eofToken]

/-- The program `ParseProgram` returns for `5 + true`. -/
def fivePlusTrueProgram : Program :=
  ⟨[Statement.ExpressionStatement (intToken "5")
    (infixExpr (intExpr "5" 5) TokenType.PLUS trueExpr)]⟩

/-- The tokens of `(-9223372036854775807 - 1) / -1`. -/
def minOverMinusOneTokens : List Token :=
  [symbolToken TokenType.LPAREN, symbolToken TokenType.MINUS,
    intToken "9223372036854775807", symbolToken TokenType.MINUS, intToken "1",
    symbolToken TokenType.RPAREN, symbolToken TokenType.SLASH, symbolToken TokenType.MINUS,
    intToken "1", eofToken]

/-- The program `ParseProgram` returns for `(-9223372036854775807 - 1) / -1`. -/
def minOverMinusOneProgram : Program :=
  ⟨[Statement.ExpressionStatement (symbolToken TokenType.LPAREN)
    (infixExpr
      (infixExpr (prefixExpr TokenType.MINUS (intExpr "9223372036854775807" 9223372036854775807))
        TokenType.MINUS (intExpr "1" 1))
      TokenType.SLASH (prefixExpr TokenType.MINUS (intExpr "1" 1)))]⟩

/-- Two hashable values of the same type with the same content. -/
def sameContent : Object → Object → Bool
  | Object.Integer _ u, Object.Integer _ v => u == v
  | Object.Boolean _ u, Object.Boolean _ v => u == v
  | Object.String _ s, Object.String _ t => s == t
  | _, _ => false

/-- The entries of a hash literal are evaluated in turn by `ev`, the key before the
value, starting in the world `w`: no evaluation panics, each key evaluates to a hashable
value and no value evaluates to an `Error`. The list holds for each entry, in turn, the
`HashKey` of the key and the pair of key and value; the last argument is the world after
the last entry. -/
inductive EvaluatesPairs (ext : Externals) (ev : Node → Nat → Eff World (Option Object))
    (env : Nat) :
    List (Option Expression × Option Expression) → World →
      List (HashKey × (Option Object × Option Object)) → World → Prop
  | nil (w : World) : EvaluatesPairs ext ev env [] w [] w
  | cons (k v : Option Expression) (rest : List (Option Expression × Option Expression))
      (w w1 w2 w3 : World) (keyObj : Object) (hashed : HashKey) (value : Option Object)
      (es : List (HashKey × (Option Object × Option Object))) :
      (ev (nodeOfExpr k) env).run w = Res.ok (some keyObj, w1) →
      hashKeyOf ext keyObj = some hashed →
      (ev (nodeOfExpr v) env).run w1 = Res.ok (value, w2) →
      isError value = false →
      EvaluatesPairs ext ev env rest w2 es w3 →
      EvaluatesPairs ext ev env ((k, v) :: rest) w ((hashed, (some keyObj, value)) :: es) w3

/-- The node the parser builds for the hash literal `{s: 1, t: 2}` with two strings as
keys. -/
def twoEntryHash (s t : String) : Option Expression :=
  some (Expression.HashLiteral (symbolToken TokenType.LBRACE)
    [(stringExpr s, intExpr "1" 1), (stringExpr t, intExpr "2" 2)])

/-- The tokens of `{s: 1, t: 2}[s]` for two strings `s` and `t`. -/
def twoEntryLookupTokens (s t : String) : List Token :=
  [symbolToken TokenType.LBRACE, stringToken s, symbolToken TokenType.COLON, intToken "1",
    symbolToken TokenType.COMMA, stringToken t, symbolToken TokenType.COLON, intToken "2",
    symbolToken TokenType.RBRACE, symbolToken TokenType.LBRACKET, stringToken s,
    symbolToken TokenType.RBRACKET, eofToken]

/-- The program `ParseProgram` returns for `{s: 1, t: 2}[s]`. -/
def twoEntryLookup (s t : String) : Program :=
  ⟨[Statement.ExpressionStatement (symbolToken TokenType.LBRACE)
    (indexExpr (twoEntryHash s t) (stringExpr s))]⟩

/-- An instance of `Externals` whose hash of a string is the sum of the codes of its
characters, with no built-ins and a `quote` that panics. -/
def sumHashed : Externals :=
  ⟨fun _ => none, fun _ _ => Eff.fault, fun _ _ _ => Eff.fault,
    fun s => (s.toList.map Char.toNat).sum⟩

/-- The tokens of `"quote"(1)`, a call whose callee is the string `quote`. -/
def quoteStringCallTokens : List Token :=
  [stringToken "quote", symbolToken TokenType.LPAREN, intToken "1",
    symbolToken TokenType.RPAREN, eofToken]

/-- The program `ParseProgram` returns for `"quote"(1)`. -/
def quoteStringCallProgram : Program :=
  ⟨[Statement.ExpressionStatement (stringToken "quote")
    (callExpr (stringExpr "quote") [intExpr "1" 1])]⟩

/-- The program of the one statement `"quoted"(1)`, a call whose callee is a string
other than `quote`. -/
def otherStringCallProgram : Program :=
  ⟨[Statement.ExpressionStatement (stringToken "quoted")
    (callExpr (stringExpr "quoted") [intExpr "1" 1])]⟩

/-- The tokens of the empty hash literal. -/
def emptyHashTokens : List Token :=
  [symbolToken TokenType.LBRACE, symbolToken TokenType.RBRACE, eofToken]

/-- The program `ParseProgram` returns for the empty hash literal. -/
def emptyHashProgram : Program :=
  ⟨[Statement.ExpressionStatement (symbolToken TokenType.LBRACE)
    (some (Expression.HashLiteral (symbolToken TokenType.LBRACE) []))]⟩

/-- The tokens of
`let newAdder = fn(x) { fn(y) { x + y } }; let addTwo = newAdder(2); addTwo(3)`. -/
def newAdderTokens : List Token :=
  [keywordToken TokenType.LET "let", identToken "newAdder", symbolToken TokenType.ASSIGN,
    keywordToken TokenType.FUNCTION "fn", symbolToken TokenType.LPAREN, identToken "x",
    symbolToken TokenType.RPAREN, symbolToken TokenType.LBRACE,
    keywordToken TokenType.FUNCTION "fn", symbolToken TokenType.LPAREN, identToken "y",
    symbolToken TokenType.RPAREN, symbolToken TokenType.LBRACE,
    identToken "x", symbolToken TokenType.PLUS, identToken "y",
    symbolToken TokenType.RBRACE, symbolToken TokenType.RBRACE,
    symbolToken TokenType.SEMICOLON,
    keywordToken TokenType.LET "let", identToken "addTwo", symbolToken TokenType.ASSIGN,
    identToken "newAdder", symbolToken TokenType.LPAREN, intToken "2",
    symbolToken TokenType.RPAREN, symbolToken TokenType.SEMICOLON,
    identToken "addTwo", symbolToken TokenType.LPAREN, intToken "3",
    symbolToken TokenType.RPAREN, eofToken]

/-- The node the parser builds for `fn(p) { e }` with one parameter and a body of one
expression statement whose first token is `tok`. -/
def fnExpr (p : String) (tok : Token) (e : Option Expression) : Option Expression :=
  some (Expression.FunctionLiteral (keywordToken TokenType.FUNCTION "fn")
    [⟨identToken p, p⟩]
    (some (BlockStatement.mk (symbolToken TokenType.LBRACE)
      [Statement.ExpressionStatement tok e])))

/-- The program `ParseProgram` returns for
`let newAdder = fn(x) { fn(y) { x + y } }; let addTwo = newAdder(2); addTwo(3)`. -/
def newAdderProgram : Program :=
  ⟨[Statement.LetStatement (keywordToken TokenType.LET "let")
      (some ⟨identToken "newAdder", "newAdder"⟩)
      (fnExpr "x" (keywordToken TokenType.FUNCTION "fn")
        (fnExpr "y" (identToken "x")
          (infixExpr (identExpr "x") TokenType.PLUS (identExpr "y")))),
    Statement.LetStatement (keywordToken TokenType.LET "let")
      (some ⟨identToken "addTwo", "addTwo"⟩)
      (callExpr (identExpr "newAdder") [intExpr "2" 2]),
    Statement.ExpressionStatement (identToken "addTwo")
      (callExpr (identExpr "addTwo") [intExpr "3" 3])]⟩

/-- The store of the new environment after the loop of `extendFunctionEnv`: each
parameter in turn is set to the argument at its position. -/
def boundStore : List (String × Option Object) → List Identifier → List (Option Object) →
    List (String × Option Object)
  | st, [], _ => st
  | st, _ :: _, [] => st
  | st, p :: ps, a :: as => boundStore (storeSet st p.Value a) ps as

/-- The tokens of `fn(1, 2) { }`. -/
def integerParametersTokens : List Token :=
  [keywordToken TokenType.FUNCTION "fn", symbolToken TokenType.LPAREN, intToken "1",
    symbolToken TokenType.COMMA, intToken "2", symbolToken TokenType.RPAREN,
    symbolToken TokenType.LBRACE, symbolToken TokenType.RBRACE, eofToken]

/-- The program `ParseProgram` returns for `fn(1, 2) { }`: the two parameters are
`Identifier` nodes made of the `INT` tokens. -/
def integerParametersProgram : Program :=
  ⟨[Statement.ExpressionStatement (keywordToken TokenType.FUNCTION "fn")
    (some (Expression.FunctionLiteral (keywordToken TokenType.FUNCTION "fn")
      [⟨intToken "1", "1"⟩, ⟨intToken "2", "2"⟩]
      (some (BlockStatement.mk (symbolToken TokenType.LBRACE) []))))]⟩

/-- The tokens of `macro(1) { }`. -/
def integerMacroParameterTokens : List Token :=
  [keywordToken TokenType.MACRO "macro", symbolToken TokenType.LPAREN, intToken "1",
    symbolToken TokenType.RPAREN, symbolToken TokenType.LBRACE,
    symbolToken TokenType.RBRACE, eofToken]

/-- The program `ParseProgram` returns for `macro(1) { }`. -/
def integerMacroParameterProgram : Program :=
  ⟨[Statement.ExpressionStatement (keywordToken TokenType.MACRO "macro")
    (some (Expression.MacroLiteral (keywordToken TokenType.MACRO "macro")
      [⟨intToken "1", "1"⟩]
      (some (BlockStatement.mk (symbolToken TokenType.LBRACE) []))))]⟩

/-- The node the parser builds for `[1][5]`. -/
def oneAtFive : Option Expression :=
  indexExpr (arrayExpr [intExpr "1" 1]) (intExpr "5" 5)

/-- The tokens of `if ([1][5]) { 1 } else { 2 }`. -/
def ifOutOfRangeTokens : List Token :=
  [keywordToken TokenType.IF "if", symbolToken TokenType.LPAREN,
    symbolToken TokenType.LBRACKET, intToken "1", symbolToken TokenType.RBRACKET,
    symbolToken TokenType.LBRACKET, intToken "5", symbolToken TokenType.RBRACKET,
    symbolToken TokenType.RPAREN, symbolToken TokenType.LBRACE, intToken "1",
    symbolToken TokenType.RBRACE, keywordToken TokenType.ELSE "else",
    symbolToken TokenType.LBRACE, intToken "2", symbolToken TokenType.RBRACE, eofToken]

/-- The tokens of `[1][5] == [1][5]` followed by the tokens `rest`. -/
def outOfRangeEqualsTokens (rest : List Token) : List Token :=
  [symbolToken TokenType.LBRACKET, intToken "1", symbolToken TokenType.RBRACKET,
    symbolToken TokenType.LBRACKET, intToken "5", symbolToken TokenType.RBRACKET,
    symbolToken TokenType.EQ] ++ rest

/-- The tokens of the lookup `{}[1]` in the empty hash, and the end of the input. -/
def hashMissTokens : List Token :=
  [symbolToken TokenType.LBRACE, symbolToken TokenType.RBRACE,
    symbolToken TokenType.LBRACKET, intToken "1", symbolToken TokenType.RBRACKET, eofToken]

/-- The node the parser builds for `{}[1]`. -/
def hashMiss : Option Expression :=
  indexExpr (some (Expression.HashLiteral (symbolToken TokenType.LBRACE) [])) (intExpr "1" 1)

/-- The program `ParseProgram` returns for `[1][5] == {}[1]`. -/
def outOfRangeEqualsMissProgram : Program :=
  ⟨[Statement.ExpressionStatement (symbolToken TokenType.LBRACKET)
    (infixExpr oneAtFive TokenType.EQ hashMiss)]⟩

/-- The tokens of `-(if (true) { })`. -/
def minusEmptyIfTokens : List Token :=
  [symbolToken TokenType.MINUS, symbolToken TokenType.LPAREN, keywordToken TokenType.IF "if",
    symbolToken TokenType.LPAREN, keywordToken TokenType.TRUE "true",
    symbolToken TokenType.RPAREN, symbolToken TokenType.LBRACE,
    symbolToken TokenType.RBRACE, symbolToken TokenType.RPAREN, eofToken]

/-- The node the parser builds for `if (true) { }`. -/
def emptyIf : Option Expression :=
  some (Expression.IfExpression (keywordToken TokenType.IF "if") trueExpr
    (some (BlockStatement.mk (symbolToken TokenType.LBRACE) [])) none)

/-- The program `ParseProgram` returns for `-(if (true) { })`. -/
def minusEmptyIfProgram : Program :=
  ⟨[Statement.ExpressionStatement (symbolToken TokenType.MINUS)
    (prefixExpr TokenType.MINUS emptyIf)]⟩

/-- The node the parser builds for `fn(ps) { body }`. -/
def fnLiteral (ps : List String) (body : List Statement) : Option Expression :=
  some (Expression.FunctionLiteral (keywordToken TokenType.FUNCTION "fn")
    (ps.map (fun s => ⟨identToken s, s⟩))
    (some (BlockStatement.mk (symbolToken TokenType.LBRACE) body)))

/-- The tokens of `fn() { }() + 1`. -/
def emptyCallPlusOneTokens : List Token :=
  [keywordToken TokenType.FUNCTION "fn", symbolToken TokenType.LPAREN,
    symbolToken TokenType.RPAREN, symbolToken TokenType.LBRACE, symbolToken TokenType.RBRACE,
    symbolToken TokenType.LPAREN, symbolToken TokenType.RPAREN, symbolToken TokenType.PLUS,
    intToken "1", eofToken]

/-- The program `ParseProgram` returns for `fn() { }() + 1`. -/
def emptyCallPlusOneProgram : Program :=
  ⟨[Statement.ExpressionStatement (keywordToken TokenType.FUNCTION "fn")
    (infixExpr (callExpr (fnLiteral [] []) []) TokenType.PLUS (intExpr "1" 1))]⟩

/-- The tokens of `fn(x) { x }()`. -/
def missingArgumentTokens : List Token :=
  [keywordToken TokenType.FUNCTION "fn", symbolToken TokenType.LPAREN, identToken "x",
    symbolToken TokenType.RPAREN, symbolToken TokenType.LBRACE, identToken "x",
    symbolToken TokenType.RBRACE, symbolToken TokenType.LPAREN, symbolToken TokenType.RPAREN,
    eofToken]

/-- The program `ParseProgram` returns for `fn(x) { x }()`. -/
def missingArgumentProgram : Program :=
  ⟨[Statement.ExpressionStatement (keywordToken TokenType.FUNCTION "fn")
    (callExpr (fnLiteral ["x"]
      [Statement.ExpressionStatement (identToken "x") (identExpr "x")]) [])]⟩

/-- The tokens of `let f = fn() { }; if (f()) { 1 } else { 2 }`. -/
def ifEmptyCallTokens : List Token :=
  [keywordToken TokenType.LET "let", identToken "f", symbolToken TokenType.ASSIGN,
    keywordToken TokenType.FUNCTION "fn", symbolToken TokenType.LPAREN,
    symbolToken TokenType.RPAREN, symbolToken TokenType.LBRACE, symbolToken TokenType.RBRACE,
    symbolToken TokenType.SEMICOLON,
    keywordToken TokenType.IF "if", symbolToken TokenType.LPAREN, identToken "f",
    symbolToken TokenType.LPAREN, symbolToken TokenType.RPAREN,
    symbolToken TokenType.RPAREN, symbolToken TokenType.LBRACE, intToken "1",
    symbolToken TokenType.RBRACE, keywordToken TokenType.ELSE "else",
    symbolToken TokenType.LBRACE, intToken "2", symbolToken TokenType.RBRACE, eofToken]

/-- The program `ParseProgram` returns for `let f = fn() { }; if (f()) { 1 } else { 2 }`. -/
def ifEmptyCallProgram : Program :=
  ⟨Statement.LetStatement (keywordToken TokenType.LET "let") (some ⟨identToken "f", "f"⟩)
      (fnLiteral [] [])
    :: (ifElseProgram (callExpr (identExpr "f") [])).Statements⟩

/-- The entries of the hash literal `{1: 2, 1: 3}`, in the order of the source. -/
def sameKeyPairs : List (Option Expression × Option Expression) :=
  [(intExpr "1" 1, intExpr "2" 2), (intExpr "1" 1, intExpr "3" 3)]

/-- The entries of the hash literal `{x: 1, y: 2}`, in the order of the source. -/
def twoErrorPairs : List (Option Expression × Option Expression) :=
  [(identExpr "x", intExpr "1" 1), (identExpr "y", intExpr "2" 2)]

/-- The node `parseBoolean` builds for `false`. -/
def falseExpr : Option Expression :=
  some (Expression.Boolean (keywordToken TokenType.FALSE "false") false)

mutual
/-- The value with the address of every struct in it set to 0: what is left of a value
when the identity of its structs is left out. The environment a function or macro has
captured is no struct of the value, and stays. -/
def unaddressed : Object → Object
  | .Integer _ v => .Integer 0 v
  | .Boolean _ v => .Boolean 0 v
  | .String _ v => .String 0 v
  | .Null => .Null
  | .ReturnValue _ v => .ReturnValue 0 (unaddressedOpt v)
  | .Error _ m => .Error 0 m
  | .Function _ ps b e => .Function 0 ps b e
  | .Builtin _ n => .Builtin 0 n
  | .Array _ es => .Array 0 (unaddressedList es)
  | .Hash _ ps => .Hash 0 (unaddressedPairs ps)
  | .Quote _ n => .Quote 0 n
  | .Macro _ ps b e => .Macro 0 ps b e
/-- The same for a slot that may hold the nil interface. -/
def unaddressedOpt : Option Object → Option Object
  | none => none
  | some o => some (unaddressed o)
/-- The same for the elements of an array. -/
def unaddressedList : List (Option Object) → List (Option Object)
  | [] => []
  | o :: os => unaddressedOpt o :: unaddressedList os
/-- The same for the entries of a hash. -/
def unaddressedPairs : List (HashKey × (Option Object × Option Object)) →
    List (HashKey × (Option Object × Option Object))
  | [] => []
  | (k, (a, b)) :: ps => (k, (unaddressedOpt a, unaddressedOpt b)) :: unaddressedPairs ps
end

/-- A pair of key and value of a hash without the addresses of their structs. -/
def unaddressedPair (p : Option Object × Option Object) : Option Object × Option Object :=
  (unaddressedOpt p.1, unaddressedOpt p.2)

/-- An entry of a hash without the addresses of the structs of its key and value. -/
def unaddressedEntry (e : HashKey × (Option Object × Option Object)) :
    HashKey × (Option Object × Option Object) :=
  (e.1, unaddressedPair e.2)

/-- The entries of the hash literal `{1: 2, 3: 4}`, in the order of the source. -/
def twoIntegerPairs : List (Option Expression × Option Expression) :=
  [(intExpr "1" 1, intExpr "2" 2), (intExpr "3" 3, intExpr "4" 4)]

/-- The entries of the hash literal `{if (true) { let x = 1; 1 }: 2, 3: x}`, in the order
of the source: the evaluation of the first key binds `x` in the environment the second
value is evaluated in. -/
def letInKeyPairs : List (Option Expression × Option Expression) :=
  [(some (Expression.IfExpression (keywordToken TokenType.IF "if") trueExpr
      (some (BlockStatement.mk (symbolToken TokenType.LBRACE)
        [Statement.LetStatement (keywordToken TokenType.LET "let")
            (some ⟨identToken "x", "x"⟩) (intExpr "1" 1),
          Statement.ExpressionStatement (intToken "1") (intExpr "1" 1)]))
      none), intExpr "2" 2),
   (intExpr "3" 3, identExpr "x")]

/-- The memory after `let x = 0;` in the global environment. -/
def xIsZero : World := ⟨[⟨[("x", some (Object.Integer 3 0))], none⟩], 4, []⟩

/-! ## What the parser has still to read, and trees without nil slots -/

/-- The number of tokens the parser has not consumed yet, the current token included;
the `EOF` tokens that end the input are not counted once the lexer has delivered them. -/
def Parser.rest (p : Parser) : Nat :=
  match p.l with
  | _ :: _ => p.l.length + 2
  | [] =>
    if p.peekToken.Kind = TokenType.EOF then
      (if p.curToken.Kind = TokenType.EOF then 0 else 1)
    else 2

/-- The number of tokens of a kind other than `EOF` after the current token. -/
def Parser.ahead (p : Parser) : Nat :=
  (if p.peekToken.Kind = TokenType.EOF then 0 else 1)
    + p.l.countP (fun t => decide (t.Kind ≠ TokenType.EOF))

/-- The state `q` of the parser is one at a later time than `p`: no token has come back
and no error message has been removed. -/
@[reducible] def Parser.after (q p : Parser) : Prop :=
  q.rest ≤ p.rest ∧ q.ahead ≤ p.ahead ∧ p.errors.length ≤ q.errors.length

mutual
/-- The expression has no nil statement and no nil child below it, but for the
else-block of an if-expression, which may be absent. -/
def wfExpression : Expression → Bool
  | .Identifier _ => true
  | .IntegerLiteral _ _ => true
  | .StringLiteral _ _ => true
  | .Boolean _ _ => true
  | .PrefixExpression _ _ right => wfExpr right
  | .InfixExpression _ left _ right => wfExpr left && wfExpr right
  | .IfExpression _ cond cons alt =>
      wfExpr cond && wfBlock cons &&
        (match alt with
         | none => true
         | some a => wfBlockStatement a)
  | .FunctionLiteral _ _ body => wfBlock body
  | .CallExpression _ fn args => wfExpr fn && wfExprs args
  | .ArrayLiteral _ elems => wfExprs elems
  | .IndexExpression _ left index => wfExpr left && wfExpr index
  | .HashLiteral _ pairs => wfPairs pairs
  | .MacroLiteral _ _ body => wfBlock body
/-- The `Expression` slot is not nil and holds a well-formed expression. -/
def wfExpr : Option Expression → Bool
  | none => false
  | some e => wfExpression e
/-- Every expression of the list is present and well-formed. -/
def wfExprs : List (Option Expression) → Bool
  | [] => true
  | e :: es => wfExpr e && wfExprs es
/-- Every key and every value of the entries is present and well-formed. -/
def wfPairs : List (Option Expression × Option Expression) → Bool
  | [] => true
  | (k, v) :: ps => wfExpr k && wfExpr v && wfPairs ps
/-- The `*BlockStatement` slot is not nil and holds a well-formed block. -/
def wfBlock : Option BlockStatement → Bool
  | none => false
  | some b => wfBlockStatement b
/-- Every statement of the block is well-formed. -/
def wfBlockStatement : BlockStatement → Bool
  | .mk _ stmts => wfStatements stmts
/-- Every statement of the list is well-formed. -/
def wfStatements : List Statement → Bool
  | [] => true
  | s :: ss => wfStatement s && wfStatements ss
/-- The statement is not a nil pointer, and its name, value or expression is present
and well-formed. -/
def wfStatement : Statement → Bool
  | .LetStatement _ name value => name.isSome && wfExpr value
  | .LetStatementNil => false
  | .ReturnStatement _ value => wfExpr value
  | .ExpressionStatement _ e => wfExpr e
  | .BlockStatement b => wfBlock b
end

/-- A bound on the depth of the calls that suffices for `parseExpression` in the state
`p`. -/
def needExpression (p : Parser) : Nat :=
  if hasPrefixFn p.curToken.Kind then 8 * p.rest + 6 else 1

/-- A bound on the depth of the calls that suffices for the loop of
`parseBlockStatement` in the state `p`. -/
def needBlockLoop (p : Parser) : Nat :=
  if !p.curTokenIs TokenType.RBRACE && !p.curTokenIs TokenType.EOF then 8 * p.rest + 9 else 1

/-- What is known of a call of a parsing function with the bound `n` on the depth of its
calls: either the bound is reached, and it is less than `need`, or the call returns a
result and a state of the parser that satisfy `post`. -/
def Outcome {α : Type} (res : Option (α × Parser)) (n need : Nat)
    (post : α → Parser → Prop) : Prop :=
  (res = none ∧ n < need) ∨ ∃ r q, res = some (r, q) ∧ post r q

/-- The pairs of a hash literal are there (the loop of `parseHashLiteral` did not leave
by `return nil`) and every key and value is present and well-formed. -/
def wfPairsResult : Option (List (Option Expression × Option Expression)) → Bool
  | none => false
  | some ps => wfPairs ps

/-- Every statement of the program is well-formed, at any depth. -/
def wfProgram (prog : Program) : Bool := wfStatements prog.Statements

/-- What a parsing function called in the state `p` guarantees of its result `r` and of
the state `q` it leaves: `q` is a later state than `p`, and when no error message has
been recorded in between and what the function was given is well-formed, `r` is
well-formed. -/
@[reducible] def Post {α : Type} (p : Parser) (given : Bool) (wf : α → Bool) (r : α)
    (q : Parser) : Prop :=
  q.after p ∧ (q.errors.length = p.errors.length → given = true → wf r = true)

/-- The parsing functions called with the bound `n` on the depth of their calls: each of
them returns with its postcondition unless `n` is less than what the state needs. -/
structure ParsesAt (n : Nat) : Prop where
  statement : ∀ p, Outcome (parseStatement n p) n (8 * p.rest + 8) (Post p true wfStatement)
  letStatement : ∀ p,
    Outcome (parseLetStatement n p) n (8 * p.rest + 7) (Post p true wfStatement)
  returnStatement : ∀ p,
    Outcome (parseReturnStatement n p) n (8 * p.rest + 7) (Post p true wfStatement)
  expressionStatement : ∀ p,
    Outcome (parseExpressionStatement n p) n (8 * p.rest + 7) (Post p true wfStatement)
  expression : ∀ prec p,
    Outcome (parseExpression n prec p) n (needExpression p) (Post p true wfExpr)
  expressionLoop : ∀ prec left p,
    Outcome (parseExpressionLoop n prec left p) n (8 * p.rest + 2)
      (Post p (wfExpr left) wfExpr)
  callPrefix : ∀ p, hasPrefixFn p.curToken.Kind = true →
    Outcome (callPrefixFn n p) n (8 * p.rest + 5) (Post p true wfExpr)
  callInfix : ∀ left p,
    Outcome (callInfixFn n left p) n (8 * p.rest + 5) (Post p (wfExpr left) wfExpr)
  prefixOperator : ∀ p,
    Outcome (parsePrefixOperator n p) n (8 * p.rest + 2) (Post p true wfExpr)
  infixExpression : ∀ left p,
    Outcome (parseInfixExpression n left p) n (8 * p.rest + 2) (Post p (wfExpr left) wfExpr)
  grouped : ∀ p,
    Outcome (parseGroupedExpression n p) n (8 * p.rest + 2) (Post p true wfExpr)
  ifExpression : ∀ p,
    Outcome (parseIfExpression n p) n (8 * p.rest + 3) (Post p true wfExpr)
  blockStatement : ∀ p,
    Outcome (parseBlockStatement n p) n (8 * p.rest + 2) (Post p true wfBlockStatement)
  blockStatementLoop : ∀ acc p,
    Outcome (parseBlockStatementLoop n acc p) n (needBlockLoop p)
      (Post p (wfStatements acc) wfStatements)
  functionLiteral : ∀ p,
    Outcome (parseFunctionLiteral n p) n (8 * p.rest + 3) (Post p true wfExpr)
  callExpression : ∀ left p,
    Outcome (parseCallExpression n left p) n (8 * p.rest + 4) (Post p (wfExpr left) wfExpr)
  arrayLiteral : ∀ p,
    Outcome (parseArrayLiteral n p) n (8 * p.rest + 4) (Post p true wfExpr)
  expressionList : ∀ e p,
    Outcome (parseExpressionList n e p) n (8 * p.rest + 3) (Post p true wfExprs)
  expressionListLoop : ∀ acc p,
    Outcome (parseExpressionListLoop n acc p) n (8 * p.rest + 2)
      (Post p (wfExprs acc) wfExprs)
  indexExpression : ∀ left p,
    Outcome (parseIndexExpression n left p) n (8 * p.rest + 2) (Post p (wfExpr left) wfExpr)
  hashLiteral : ∀ p,
    Outcome (parseHashLiteral n p) n (8 * p.rest + 3) (Post p true wfExpr)
  hashLiteralLoop : ∀ acc p,
    Outcome (parseHashLiteralLoop n acc p) n (8 * p.rest + 2)
      (Post p (wfPairs acc) wfPairsResult)
  macroLiteral : ∀ p,
    Outcome (parseMacroLiteral n p) n (8 * p.rest + 3) (Post p true wfExpr)

/-- The number of tokens of a kind other than `EOF` the parser has not consumed yet, the
current token included. -/
def Parser.pending (p : Parser) : Nat :=
  (if p.curToken.Kind = TokenType.EOF then 0 else 1) + p.ahead

/-- A bound on the depth of the calls that suffices for the loop of `ParseProgram` in the
state `p`. -/
def needProgramLoop (p : Parser) : Nat :=
  if p.curTokenIs TokenType.EOF then 1 else 8 * p.rest + 9

/-- The number of tokens of a kind other than `EOF` in a token sequence. -/
def countTokens (l : List Token) : Nat :=
  l.countP (fun t => decide (t.Kind ≠ TokenType.EOF))

/-- The parsing functions called with the bound `n` on the depth of their calls: a result
they return is the result they return with the bound `n + 1` as well. -/
structure ParserMono (n : Nat) : Prop where
  statement : ∀ p r, parseStatement n p = some r → parseStatement (n + 1) p = some r
  letStatement : ∀ p r, parseLetStatement n p = some r → parseLetStatement (n + 1) p = some r
  returnStatement : ∀ p r,
    parseReturnStatement n p = some r → parseReturnStatement (n + 1) p = some r
  expressionStatement : ∀ p r,
    parseExpressionStatement n p = some r → parseExpressionStatement (n + 1) p = some r
  expression : ∀ prec p r,
    parseExpression n prec p = some r → parseExpression (n + 1) prec p = some r
  expressionLoop : ∀ prec left p r,
    parseExpressionLoop n prec left p = some r →
      parseExpressionLoop (n + 1) prec left p = some r
  callPrefix : ∀ p r, callPrefixFn n p = some r → callPrefixFn (n + 1) p = some r
  callInfix : ∀ left p r, callInfixFn n left p = some r → callInfixFn (n + 1) left p = some r
  prefixOperator : ∀ p r,
    parsePrefixOperator n p = some r → parsePrefixOperator (n + 1) p = some r
  infixExpression : ∀ left p r,
    parseInfixExpression n left p = some r → parseInfixExpression (n + 1) left p = some r
  grouped : ∀ p r,
    parseGroupedExpression n p = some r → parseGroupedExpression (n + 1) p = some r
  ifExpression : ∀ p r, parseIfExpression n p = some r → parseIfExpression (n + 1) p = some r
  blockStatement : ∀ p r,
    parseBlockStatement n p = some r → parseBlockStatement (n + 1) p = some r
  blockStatementLoop : ∀ acc p r,
    parseBlockStatementLoop n acc p = some r → parseBlockStatementLoop (n + 1) acc p = some r
  functionLiteral : ∀ p r,
    parseFunctionLiteral n p = some r → parseFunctionLiteral (n + 1) p = some r
  callExpression : ∀ left p r,
    parseCallExpression n left p = some r → parseCallExpression (n + 1) left p = some r
  arrayLiteral : ∀ p r, parseArrayLiteral n p = some r → parseArrayLiteral (n + 1) p = some r
  expressionList : ∀ e p r,
    parseExpressionList n e p = some r → parseExpressionList (n + 1) e p = some r
  expressionListLoop : ∀ acc p r,
    parseExpressionListLoop n acc p = some r → parseExpressionListLoop (n + 1) acc p = some r
  indexExpression : ∀ left p r,
    parseIndexExpression n left p = some r → parseIndexExpression (n + 1) left p = some r
  hashLiteral : ∀ p r, parseHashLiteral n p = some r → parseHashLiteral (n + 1) p = some r
  hashLiteralLoop : ∀ acc p r,
    parseHashLiteralLoop n acc p = some r → parseHashLiteralLoop (n + 1) acc p = some r
  macroLiteral : ∀ p r, parseMacroLiteral n p = some r → parseMacroLiteral (n + 1) p = some r

/-! ## Theorems -/

/-! ### Unfolding lemmas for `String()` -/

theorem exprString_ident (s : String) : exprString (identExpr s) = some s := rfl

theorem exprString_int (s : String) (v : Int) : exprString (intExpr s v) = some s := rfl

theorem exprString_infixExpr (l r : Option Expression) (op : TokenType) (x y : String)
    (hl : exprString l = some x) (hr : exprString r = some y) :
    exprString (infixExpr l op r) = some ("(" ++ x ++ (" " ++ op.str ++ " ") ++ y ++ ")") := by
  show (do
    let l ← exprString l
    let r ← exprString r
    pure ("(" ++ l ++ (" " ++ op.str ++ " ") ++ r ++ ")")) = _
  rw [hl, hr]; rfl

theorem exprString_prefixExpr (r : Option Expression) (op : TokenType) (y : String)
    (hr : exprString r = some y) :
    exprString (prefixExpr op r) = some ("(" ++ op.str ++ y ++ ")") := by
  show (do
    let r ← exprString r
    pure ("(" ++ op.str ++ r ++ ")")) = _
  rw [hr]; rfl

theorem exprString_index (l i : Option Expression) (x y : String)
    (hl : exprString l = some x) (hi : exprString i = some y) :
    exprString (indexExpr l i) = some ("(" ++ x ++ "[" ++ y ++ "])") := by
  show (do
    let l ← exprString l
    let i ← exprString i
    pure ("(" ++ l ++ "[" ++ i ++ "])")) = _
  rw [hl, hi]; rfl

theorem exprString_call (f : Option Expression) (args : List (Option Expression))
    (x : String) (ys : List String)
    (hf : exprString f = some x) (ha : exprStrings args = some ys) :
    exprString (callExpr f args) = some (x ++ "(" ++ join ys ", " ++ ")") := by
  show (do
    let a ← exprStrings args
    let f ← exprString f
    pure (f ++ "(" ++ join a ", " ++ ")")) = _
  rw [hf, ha]; rfl

theorem exprString_array (elems : List (Option Expression)) (ys : List String)
    (ha : exprStrings elems = some ys) :
    exprString (arrayExpr elems) = some ("[" ++ join ys ", " ++ "]") := by
  show (do
    let a ← exprStrings elems
    pure ("[" ++ join a ", " ++ "]")) = _
  rw [ha]; rfl

theorem exprStrings_nil : exprStrings [] = some [] := rfl

theorem exprStrings_cons (e : Option Expression) (es : List (Option Expression))
    (x : String) (ys : List String)
    (he : exprString e = some x) (hes : exprStrings es = some ys) :
    exprStrings (e :: es) = some (x :: ys) := by
  show (do
    let s ← exprString e
    let r ← exprStrings es
    pure (s :: r)) = _
  rw [he, hes]; rfl

theorem expressionStatement_String (tok : Token) (e : Option Expression) (s : String)
    (h : exprString e = some s) :
    Statement.String (Statement.ExpressionStatement tok e) = some s := by
  cases e with
  | none => cases h
  | some v => exact h

/-! ### Operator precedence -/

/-- C1. Binary-operator precedence and left associativity: for identifiers `a`, `b`, `c`
and binary operators `op1`, `op2` among `== != < > + - * /`, `ParseProgram` on the
tokens `a op1 b op2 c EOF` records no error and returns exactly one expression statement,
whose `String()` is `((a op1 b) op2 c)` when the precedence of `op1` is at least that of
`op2` and `(a op1 (b op2 c))` otherwise, the precedences being those of the table with
`EQUALS < LESSGREATER < SUM < PRODUCT`. -/
theorem parse_binary_precedence (a b c : String) (op1 op2 : TokenType)
    (h1 : op1 ∈ binaryOperators) (h2 : op2 ∈ binaryOperators) :
    ParsesToExpression
        [identToken a, symbolToken op1, identToken b, symbolToken op2, identToken c, eofToken]
        (if precedenceOf op2 ≤ precedenceOf op1
          then "((" ++ a ++ " " ++ op1.str ++ " " ++ b ++ ") " ++ op2.str ++ " " ++ c ++ ")"
          else "(" ++ a ++ " " ++ op1.str ++ " (" ++ b ++ " " ++ op2.str ++ " " ++ c ++ "))")
      ∧ precedenceOf TokenType.EQ = EQUALS ∧ precedenceOf TokenType.NEQ = EQUALS
      ∧ precedenceOf TokenType.LT = LESSGREATER ∧ precedenceOf TokenType.GT = LESSGREATER
      ∧ precedenceOf TokenType.PLUS = SUM ∧ precedenceOf TokenType.MINUS = SUM
      ∧ precedenceOf TokenType.ASTERISK = PRODUCT ∧ precedenceOf TokenType.SLASH = PRODUCT
      ∧ EQUALS < LESSGREATER ∧ LESSGREATER < SUM ∧ SUM < PRODUCT := by
  refine ⟨⟨identToken a, binaryTree a b c op1 op2, ⟨[], eofToken, eofToken, []⟩, ?_, rfl, ?_⟩,
    rfl, rfl, rfl, rfl, rfl, rfl, rfl, rfl, by decide, by decide, by decide⟩
  · simp only [binaryOperators, List.mem_cons, List.mem_singleton, List.not_mem_nil,
      or_false] at h1 h2
    rcases h1 with rfl | rfl | rfl | rfl | rfl | rfl | rfl | rfl <;>
    rcases h2 with rfl | rfl | rfl | rfl | rfl | rfl | rfl | rfl <;> rfl
  · apply expressionStatement_String
    unfold binaryTree
    split
    · rw [exprString_infixExpr _ _ _ _ _ (exprString_infixExpr _ _ _ _ _ (exprString_ident a)
        (exprString_ident b)) (exprString_ident c)]
      simp [String.ext_iff, String.data_append]
    · rw [exprString_infixExpr _ _ _ _ _ (exprString_ident a) (exprString_infixExpr _ _ _ _ _
        (exprString_ident b) (exprString_ident c))]
      simp [String.ext_iff, String.data_append]

/-- Witness of C1: `a + b * c` gives `(a + (b * c))`. -/
theorem parse_binary_precedence_witness :
    ParsesToExpression
      [identToken "a", symbolToken TokenType.PLUS, identToken "b",
        symbolToken TokenType.ASTERISK, identToken "c", eofToken] "(a + (b * c))" :=
  (parse_binary_precedence "a" "b" "c" TokenType.PLUS TokenType.ASTERISK
    (by decide) (by decide)).1

/-- C2. Prefix operators bind tighter than every binary operator: for a prefix operator
`pre` among `-`, `!`, a binary operator `op` and identifiers `a`, `b`, the tokens
`pre a op b EOF` parse without error to one expression statement whose `String()` is
`((pre a) op b)`; and `! - a` parses to `(!(-a))`. -/
theorem parse_prefix_binds_tighter (a b : String) (pre op : TokenType)
    (h1 : pre ∈ prefixOperators) (h2 : op ∈ binaryOperators) :
    ParsesToExpression
        [symbolToken pre, identToken a, symbolToken op, identToken b, eofToken]
        ("((" ++ pre.str ++ a ++ ") " ++ op.str ++ " " ++ b ++ ")")
      ∧ ParsesToExpression
        [symbolToken TokenType.BANG, symbolToken TokenType.MINUS, identToken a, eofToken]
        ("(!(-" ++ a ++ "))") := by
  refine ⟨⟨symbolToken pre, infixExpr (prefixExpr pre (identExpr a)) op (identExpr b),
      ⟨[], eofToken, eofToken, []⟩, ?_, rfl, ?_⟩,
    ⟨symbolToken TokenType.BANG,
      prefixExpr TokenType.BANG (prefixExpr TokenType.MINUS (identExpr a)),
      ⟨[], eofToken, eofToken, []⟩, rfl, rfl, ?_⟩⟩
  · simp only [binaryOperators, prefixOperators, List.mem_cons, List.mem_singleton,
      List.not_mem_nil, or_false] at h1 h2
    rcases h1 with rfl | rfl <;>
    rcases h2 with rfl | rfl | rfl | rfl | rfl | rfl | rfl | rfl <;> rfl
  · apply expressionStatement_String
    rw [exprString_infixExpr _ _ _ _ _ (exprString_prefixExpr _ _ _ (exprString_ident a))
      (exprString_ident b)]
    simp [String.ext_iff, String.data_append]
  · apply expressionStatement_String
    rw [exprString_prefixExpr _ _ _ (exprString_prefixExpr _ _ _ (exprString_ident a))]
    simp [String.ext_iff, String.data_append, TokenType.str]

/-- Witness of C2: `-a * b` gives `((-a) * b)` and `!-a` gives `(!(-a))`. -/
theorem parse_prefix_binds_tighter_witness :
    ParsesToExpression
        [symbolToken TokenType.MINUS, identToken "a", symbolToken TokenType.ASTERISK,
          identToken "b", eofToken] "((-a) * b)"
      ∧ ParsesToExpression
        [symbolToken TokenType.BANG, symbolToken TokenType.MINUS, identToken "a", eofToken]
        "(!(-a))" :=
  parse_prefix_binds_tighter "a" "b" TokenType.MINUS TokenType.ASTERISK (by decide) (by decide)

/-- C3. Call and index bind tighter than every prefix and binary operator: for a binary
operator `op` and identifiers `a`, `b`, `c`, `f`, the tokens `a op b [ c ]` parse to
`(a op (b[c]))`, the tokens `a op f ( c )` to `(a op f(c))` and `- a [ b ]` to
`(-(a[b]))`, each without parse errors; and the tokens of `a * [1,2,3,4][b*c]*d` parse to
`((a * ([1, 2, 3, 4][(b * c)])) * d)`. -/
theorem parse_call_index_bind_tightest (a b c f : String) (op : TokenType)
    (h : op ∈ binaryOperators) :
    ParsesToExpression
        [identToken a, symbolToken op, identToken b, symbolToken TokenType.LBRACKET,
          identToken c, symbolToken TokenType.RBRACKET, eofToken]
        ("(" ++ a ++ " " ++ op.str ++ " (" ++ b ++ "[" ++ c ++ "]))")
      ∧ ParsesToExpression
        [identToken a, symbolToken op, identToken f, symbolToken TokenType.LPAREN,
          identToken c, symbolToken TokenType.RPAREN, eofToken]
        ("(" ++ a ++ " " ++ op.str ++ " " ++ f ++ "(" ++ c ++ "))")
      ∧ ParsesToExpression
        [symbolToken TokenType.MINUS, identToken a, symbolToken TokenType.LBRACKET,
          identToken b, symbolToken TokenType.RBRACKET, eofToken]
        ("(-(" ++ a ++ "[" ++ b ++ "]))")
      ∧ ParsesToExpression
        [identToken "a", symbolToken TokenType.ASTERISK, symbolToken TokenType.LBRACKET,
          intToken "1", symbolToken TokenType.COMMA, intToken "2", symbolToken TokenType.COMMA,
          intToken "3", symbolToken TokenType.COMMA, intToken "4",
          symbolToken TokenType.RBRACKET, symbolToken TokenType.LBRACKET, identToken "b",
          symbolToken TokenType.ASTERISK, identToken "c", symbolToken TokenType.RBRACKET,
          symbolToken TokenType.ASTERISK, identToken "d", eofToken]
        "((a * ([1, 2, 3, 4][(b * c)])) * d)" := by
  refine ⟨⟨identToken a, infixExpr (identExpr a) op (indexExpr (identExpr b) (identExpr c)),
      ⟨[], eofToken, eofToken, []⟩, ?_, rfl, ?_⟩,
    ⟨identToken a, infixExpr (identExpr a) op (callExpr (identExpr f) [identExpr c]),
      ⟨[], eofToken, eofToken, []⟩, ?_, rfl, ?_⟩,
    ⟨symbolToken TokenType.MINUS,
      prefixExpr TokenType.MINUS (indexExpr (identExpr a) (identExpr b)),
      ⟨[], eofToken, eofToken, []⟩, rfl, rfl, ?_⟩,
    ⟨identToken "a",
      infixExpr (infixExpr (identExpr "a") TokenType.ASTERISK
        (indexExpr (arrayExpr [intExpr "1" 1, intExpr "2" 2, intExpr "3" 3, intExpr "4" 4])
          (infixExpr (identExpr "b") TokenType.ASTERISK (identExpr "c"))))
        TokenType.ASTERISK (identExpr "d"),
      ⟨[], eofToken, eofToken, []⟩, rfl, rfl, rfl⟩⟩
  · simp only [binaryOperators, List.mem_cons, List.mem_singleton, List.not_mem_nil,
      or_false] at h
    rcases h with rfl | rfl | rfl | rfl | rfl | rfl | rfl | rfl <;> rfl
  · apply expressionStatement_String
    rw [exprString_infixExpr _ _ _ _ _ (exprString_ident a)
      (exprString_index _ _ _ _ (exprString_ident b) (exprString_ident c))]
    simp [String.ext_iff, String.data_append]
  · simp only [binaryOperators, List.mem_cons, List.mem_singleton, List.not_mem_nil,
      or_false] at h
    rcases h with rfl | rfl | rfl | rfl | rfl | rfl | rfl | rfl <;> rfl
  · apply expressionStatement_String
    rw [exprString_infixExpr _ _ _ _ _ (exprString_ident a)
      (exprString_call _ _ _ _ (exprString_ident f)
        (exprStrings_cons _ _ _ _ (exprString_ident c) exprStrings_nil))]
    simp [String.ext_iff, String.data_append, join, String.intercalate, String.intercalate.go]
  · apply expressionStatement_String
    rw [exprString_prefixExpr _ _ _
      (exprString_index _ _ _ _ (exprString_ident a) (exprString_ident b))]
    simp [String.ext_iff, String.data_append, TokenType.str]

/-- Witness of C3 at the operator `*`. -/
theorem parse_call_index_bind_tightest_witness :
    ParsesToExpression
        [identToken "a", symbolToken TokenType.ASTERISK, identToken "b",
          symbolToken TokenType.LBRACKET, identToken "c", symbolToken TokenType.RBRACKET,
          eofToken] "(a * (b[c]))" :=
  (parse_call_index_bind_tightest "a" "b" "c" "f" TokenType.ASTERISK (by decide)).1

/-! ### The AST rewriter -/

/-- C5 (what the code does at the failing input). `Modify` returns a leaf expression and
a `MacroLiteral` as it is, without applying the modifier: with the modifier that turns
the integer literal 1 into 2, `Modify` of the literal 1 is the literal 1, whereas the
modifier applied to it is the literal 2. -/
theorem modify_leaf_not_rewritten :
    (∀ (f : Node → Node) (i : Identifier),
        ModifyPure (Node.Expression (Expression.Identifier i)) f
          = some (Node.Expression (Expression.Identifier i)))
    ∧ (∀ (f : Node → Node) (tok : Token) (v : Int),
        ModifyPure (Node.Expression (Expression.IntegerLiteral tok v)) f
          = some (Node.Expression (Expression.IntegerLiteral tok v)))
    ∧ (∀ (f : Node → Node) (tok : Token) (v : String),
        ModifyPure (Node.Expression (Expression.StringLiteral tok v)) f
          = some (Node.Expression (Expression.StringLiteral tok v)))
    ∧ (∀ (f : Node → Node) (tok : Token) (v : Bool),
        ModifyPure (Node.Expression (Expression.Boolean tok v)) f
          = some (Node.Expression (Expression.Boolean tok v)))
    ∧ (∀ (f : Node → Node) (tok : Token) (ps : List Identifier) (b : Option BlockStatement),
        ModifyPure (Node.Expression (Expression.MacroLiteral tok ps b)) f
          = some (Node.Expression (Expression.MacroLiteral tok ps b)))
    ∧ ModifyPure (Node.Expression (Expression.IntegerLiteral (intToken "1") 1)) turnOneIntoTwo
        = some (Node.Expression (Expression.IntegerLiteral (intToken "1") 1))
    ∧ turnOneIntoTwo (Node.Expression (Expression.IntegerLiteral (intToken "1") 1))
        = Node.Expression (Expression.IntegerLiteral (intToken "1") 2) :=
  ⟨fun _ _ => rfl, fun _ _ _ => rfl, fun _ _ _ => rfl, fun _ _ _ => rfl,
    fun _ _ _ _ => rfl, rfl, rfl⟩

/-- C6 (what the code does at the failing input). `let x = 5; x` parses without error, and
`Modify` with the identity modifier returns the program with the `Name` of the let
statement nil; `String()` of the original is `let x = 5;x`, `String()` of the result
panics. -/
theorem modify_identity_drops_let_name :
    (∃ p, ParseProgram letThenUseTokens = some (letThenUseProgram, p) ∧ p.Errors = [])
    ∧ ModifyPure (Node.Program letThenUseProgram) id = some (Node.Program letThenUseNameless)
    ∧ letThenUseProgram.String = some "let x = 5;x"
    ∧ letThenUseNameless.String = none :=
  ⟨⟨_, rfl, rfl⟩, rfl, rfl, rfl⟩

/-! ### The macro pass -/

/-- C7 (what the code does at the failing input). In a world whose only environment is
empty, so that no identifier resolves to a macro, `ExpandMacros` of the error-free
program `let x = 5; x` returns the program with the `Name` of the let statement nil and
leaves the world as it is, whatever the built-ins and the function `quote` are.
Evaluating the original yields `Integer 5`; evaluating the result panics (both once the
depth bound is at least 4). -/
theorem expandMacros_drops_let_name (ext : Externals) (fuel : Nat) :
    (ExpandMacros ext fuel letThenUseProgram 0).run World.init
        = Res.ok (Node.Program letThenUseNameless, World.init)
    ∧ (∀ m : Nat, (Eval ext (m + 4) (Node.Program letThenUseProgram) 0).run World.init
        = Res.ok (some (Object.Integer 3 5),
            ⟨[⟨[("x", some (Object.Integer 3 5))], none⟩], 4, []⟩))
    ∧ (∀ m : Nat,
        (Eval ext (m + 4) (Node.Program letThenUseNameless) 0).run World.init = Res.fault) :=
  ⟨rfl, fun _ => rfl, fun _ => rfl⟩

/-! ### Sequencing of statements in the evaluator -/

theorem run_bind_ok {σ α β : Type} (m : Eff σ α) (f : α → Eff σ β) (w w1 : σ) (a : α)
    (h : m.run w = Res.ok (a, w1)) : (m >>= f).run w = (f a).run w1 := by
  show Res.bind (m w) _ = _
  have h' : m w = Res.ok (a, w1) := h
  rw [h']; rfl

theorem evalBlockStatementLoop_cons (ev : Node → Nat → Eff World (Option Object)) (env : Nat)
    (s : Statement) (rest : List Statement) (r0 x : Option Object) (w w1 : World)
    (h : (ev (Node.Statement s) env).run w = Res.ok (x, w1)) :
    (evalBlockStatementLoop ev env (s :: rest) r0).run w
      = if isReturnOrError x then Res.ok (x, w1)
        else (evalBlockStatementLoop ev env rest x).run w1 := by
  rw [evalBlockStatementLoop, run_bind_ok _ _ _ _ _ h]
  split <;> rfl

theorem evalBlockStatementLoop_through (ev : Node → Nat → Eff World (Option Object))
    (env : Nat) (pre : List Statement) (w w1 : World) (r0 x : Option Object)
    (h : StepsThrough ev env pre w r0 w1 x) (rest : List Statement) :
    (evalBlockStatementLoop ev env (pre ++ rest) r0).run w
      = (evalBlockStatementLoop ev env rest x).run w1 := by
  induction h with
  | nil w r => rfl
  | cons s tl w r x w1 w2 y hs hx _ ih =>
    rw [List.cons_append, evalBlockStatementLoop_cons _ _ _ _ _ _ _ _ hs, hx]
    simpa using ih

theorem evalProgramLoop_return (ev : Node → Nat → Eff World (Option Object)) (env : Nat)
    (s : Statement) (rest : List Statement) (r0 v : Option Object) (a : Nat) (w w1 : World)
    (h : (ev (Node.Statement s) env).run w = Res.ok (some (Object.ReturnValue a v), w1)) :
    (evalProgramLoop ev env (s :: rest) r0).run w = Res.ok (v, w1) := by
  rw [evalProgramLoop, run_bind_ok _ _ _ _ _ h]
  rfl

theorem evalProgramLoop_error (ev : Node → Nat → Eff World (Option Object)) (env : Nat)
    (s : Statement) (rest : List Statement) (r0 : Option Object) (a : Nat) (m : String)
    (w w1 : World)
    (h : (ev (Node.Statement s) env).run w = Res.ok (some (Object.Error a m), w1)) :
    (evalProgramLoop ev env (s :: rest) r0).run w = Res.ok (some (Object.Error a m), w1) := by
  rw [evalProgramLoop, run_bind_ok _ _ _ _ _ h]
  rfl

theorem not_returnValue_of_not_isReturnOrError (x : Option Object)
    (h : isReturnOrError x = false) (a : Nat) (v : Option Object) :
    x ≠ some (Object.ReturnValue a v) := by
  intro hx
  subst hx
  simp [isReturnOrError, objectType, RETURN_VALUE_OBJ] at h

theorem evalProgramLoop_step_through (ev : Node → Nat → Eff World (Option Object)) (env : Nat)
    (s : Statement) (rest : List Statement) (r0 x : Option Object) (w w1 : World)
    (h : (ev (Node.Statement s) env).run w = Res.ok (x, w1))
    (hx : isReturnOrError x = false) :
    (evalProgramLoop ev env (s :: rest) r0).run w = (evalProgramLoop ev env rest x).run w1 := by
  rw [evalProgramLoop, run_bind_ok _ _ _ _ _ h]
  cases x with
  | none => rfl
  | some o =>
    cases o <;> first
      | rfl
      | simp [isReturnOrError, objectType, RETURN_VALUE_OBJ, ERROR_OBJ] at hx

theorem evalProgramLoop_through (ev : Node → Nat → Eff World (Option Object))
    (env : Nat) (pre : List Statement) (w w1 : World) (r0 x : Option Object)
    (h : StepsThrough ev env pre w r0 w1 x) (rest : List Statement) :
    (evalProgramLoop ev env (pre ++ rest) r0).run w
      = (evalProgramLoop ev env rest x).run w1 := by
  induction h with
  | nil w r => rfl
  | cons s tl w r x w1 w2 y hs hx _ ih =>
    rw [List.cons_append, evalProgramLoop_step_through _ _ _ _ _ _ _ _ hs hx]
    exact ih

theorem stepsThrough_last_not_stop (ev : Node → Nat → Eff World (Option Object))
    (env : Nat) (pre : List Statement) (w w1 : World) (r0 x : Option Object)
    (h : StepsThrough ev env pre w r0 w1 x) (h0 : isReturnOrError r0 = false) :
    isReturnOrError x = false := by
  induction h with
  | nil w r => exact h0
  | cons s tl w r x w1 w2 y _ hx _ ih => exact ih hx

theorem isReturnOrError_iff (r : Option Object) :
    isReturnOrError r = true ↔
      ((∃ a v, r = some (Object.ReturnValue a v)) ∨ ∃ a m, r = some (Object.Error a m)) := by
  cases r with
  | none => simp [isReturnOrError]
  | some o =>
    cases o <;>
      simp [isReturnOrError, objectType, RETURN_VALUE_OBJ, ERROR_OBJ, INTEGER_OBJ, BOOLEAN_OBJ,
        STRING_OBJ, NULL_OBJ, FUNCTION_OBJ, BUILTIN_OBJ, ARRAY_OBJ, HASH_OBJ, QUOTE_OBJ,
        MACRO_OBJ]

/-- Counterexample to C9: the program `return if (true) { return 1; };` parses without
error, and `evalProgram` returns a `ReturnValue` object for it: the inner `return 1;`
yields `ReturnValue(1)`, which is the value of the if-expression; the outer return
statement wraps it again, and `evalProgram` removes one wrapper only. -/
theorem evalProgram_returns_returnValue :
    (∃ p, ParseProgram returnOfIfTokens = some (returnOfIfProgram, p) ∧ p.Errors = [])
    ∧ ∀ (ext : Externals) (m : Nat),
        (evalProgram ext (m + 8) returnOfIfProgram.Statements 0).run World.init
          = Res.ok (some (Object.ReturnValue 4 (some (Object.Integer 3 1))),
              ⟨[⟨[], none⟩], 6, []⟩) :=
  ⟨⟨_, rfl, rfl⟩, fun _ _ => rfl⟩

/-- C9, amended. `evalProgram` removes exactly one `ReturnValue` wrapper. When the
statements `pre` are all evaluated without yielding a `ReturnValue` or an `Error`, the
result for `pre` is the last statement's result, which is not a `ReturnValue`; when the
next statement `s` yields `ReturnValue(v)` the result of the program is `v` and no later
statement is evaluated; when it yields an `Error` the result is that `Error`. A return
statement whose expression evaluates to a value `val` that is not an `Error` yields
`ReturnValue(val)`, so `v` is a `ReturnValue` exactly when that expression itself
evaluates to one. -/
theorem evalProgram_unwraps_one_level (ext : Externals) (n env : Nat)
    (pre : List Statement) (w w1 : World) (x : Option Object)
    (h : StepsThrough (Eval ext n) env pre w none w1 x) :
    ((evalProgram ext (n + 1) pre env).run w = Res.ok (x, w1)
      ∧ ∀ a v, x ≠ some (Object.ReturnValue a v))
    ∧ (∀ (s : Statement) (post : List Statement) (a : Nat) (v : Option Object) (w2 : World),
        (Eval ext n (Node.Statement s) env).run w1
          = Res.ok (some (Object.ReturnValue a v), w2) →
        (evalProgram ext (n + 1) (pre ++ s :: post) env).run w = Res.ok (v, w2))
    ∧ (∀ (s : Statement) (post : List Statement) (a : Nat) (m : String) (w2 : World),
        (Eval ext n (Node.Statement s) env).run w1 = Res.ok (some (Object.Error a m), w2) →
        (evalProgram ext (n + 1) (pre ++ s :: post) env).run w
          = Res.ok (some (Object.Error a m), w2))
    ∧ (∀ (tok : Token) (e : Option Expression) (env' : Nat) (w3 w4 : World)
        (val : Option Object),
        (Eval ext n (nodeOfExpr e) env').run w3 = Res.ok (val, w4) → isError val = false →
        (Eval ext (n + 1) (Node.Statement (Statement.ReturnStatement tok e)) env').run w3
          = Res.ok (some (Object.ReturnValue w4.next val), { w4 with next := w4.next + 1 })) := by
  refine ⟨⟨?_, ?_⟩, ?_, ?_, ?_⟩
  · have := evalProgramLoop_through _ _ _ _ _ _ _ h []
    simpa using this
  · exact not_returnValue_of_not_isReturnOrError x
      (stepsThrough_last_not_stop _ _ _ _ _ _ _ h rfl)
  · intro s post a v w2 hs
    show (evalProgramLoop (Eval ext n) env (pre ++ s :: post) none).run w = _
    rw [evalProgramLoop_through _ _ _ _ _ _ _ h, evalProgramLoop_return _ _ _ _ _ _ _ _ _ hs]
  · intro s post a m w2 hs
    show (evalProgramLoop (Eval ext n) env (pre ++ s :: post) none).run w = _
    rw [evalProgramLoop_through _ _ _ _ _ _ _ h, evalProgramLoop_error _ _ _ _ _ _ _ _ _ hs]
  · intro tok e env' w3 w4 val hv he
    show ((Eval ext n (nodeOfExpr e) env') >>= fun val =>
      if isError val then pure val
      else do
        let a ← alloc
        pure (some (Object.ReturnValue a val))).run w3 = _
    rw [run_bind_ok _ _ _ _ _ hv, he]
    rfl

/-- Witness of C9 (amended): the program `5; return 10; <nil let>` evaluates to
`Integer 10`, the value carried by the `ReturnValue` of its second statement. -/
theorem evalProgram_unwraps_one_level_witness :
    (evalProgram noExternals 4
        ([Statement.ExpressionStatement (intToken "5") (intExpr "5" 5)]
          ++ returnStmt "10" 10 :: [Statement.LetStatementNil]) 0).run World.init
      = Res.ok (some (Object.Integer 4 10), ⟨[⟨[], none⟩], 6, []⟩) :=
  (evalProgram_unwraps_one_level noExternals 3 0
    [Statement.ExpressionStatement (intToken "5") (intExpr "5" 5)]
    World.init ⟨[⟨[], none⟩], 4, []⟩ (some (Object.Integer 3 5))
    (StepsThrough.cons _ _ _ _ _ _ _ _ rfl rfl (StepsThrough.nil _ _))).2.1
    (returnStmt "10" 10) [Statement.LetStatementNil] 5 (some (Object.Integer 4 10))
    ⟨[⟨[], none⟩], 6, []⟩ rfl

/-- C10. Block sequencing short-circuits on return and error. When the statements `pre`
are all evaluated without yielding a `ReturnValue` or an `Error`, `evalBlockStatement` of
`pre` returns the last statement's result; when the next statement `s` yields a result
`r` that is a `ReturnValue` or an `Error`, `evalBlockStatement` of `pre ++ s :: post`
returns `r` itself (a `ReturnValue` still wrapped) in the world reached right after `s`,
whatever the later statements `post` are. The program
`if (10 > 1) { if (10 > 1) { return 10; } return 1; }` parses without error and evaluates
to `Integer 10` once the depth bound is at least 14. -/
theorem evalBlockStatement_short_circuits (ext : Externals) (n env : Nat)
    (pre : List Statement) (w w1 : World) (x : Option Object)
    (h : StepsThrough (Eval ext n) env pre w none w1 x) :
    (evalBlockStatement ext (n + 1) pre env).run w = Res.ok (x, w1)
    ∧ (∀ (s : Statement) (post : List Statement) (r : Option Object) (w2 : World),
        (Eval ext n (Node.Statement s) env).run w1 = Res.ok (r, w2) →
        ((∃ a v, r = some (Object.ReturnValue a v)) ∨ ∃ a m, r = some (Object.Error a m)) →
        (evalBlockStatement ext (n + 1) (pre ++ s :: post) env).run w = Res.ok (r, w2))
    ∧ (∃ p, ParseProgram nestedReturnTokens = some (nestedReturnProgram, p) ∧ p.Errors = [])
    ∧ (∀ m : Nat, (Eval ext (m + 14) (Node.Program nestedReturnProgram) 0).run World.init
        = Res.ok (some (Object.Integer 7 10), ⟨[⟨[], none⟩], 9, []⟩)) := by
  refine ⟨?_, ?_, ⟨_, rfl, rfl⟩, fun _ => rfl⟩
  · have := evalBlockStatementLoop_through _ _ _ _ _ _ _ h []
    simpa using this
  · intro s post r w2 hs hr
    show (evalBlockStatementLoop (Eval ext n) env (pre ++ s :: post) none).run w = _
    rw [evalBlockStatementLoop_through _ _ _ _ _ _ _ h,
      evalBlockStatementLoop_cons _ _ _ _ _ _ _ _ hs, (isReturnOrError_iff r).2 hr]
    rfl

/-- Witness of C10: in the block `5; return 10; <nil let>` the second statement yields
`ReturnValue(10)`, which is the result of the block, still wrapped; the third statement,
whose evaluation would panic, is not evaluated. -/
theorem evalBlockStatement_short_circuits_witness :
    (evalBlockStatement noExternals 4
        ([Statement.ExpressionStatement (intToken "5") (intExpr "5" 5)]
          ++ returnStmt "10" 10 :: [Statement.LetStatementNil]) 0).run World.init
      = Res.ok (some (Object.ReturnValue 5 (some (Object.Integer 4 10))),
          ⟨[⟨[], none⟩], 6, []⟩) :=
  (evalBlockStatement_short_circuits noExternals 3 0
    [Statement.ExpressionStatement (intToken "5") (intExpr "5" 5)]
    World.init ⟨[⟨[], none⟩], 4, []⟩ (some (Object.Integer 3 5))
    (StepsThrough.cons _ _ _ _ _ _ _ _ rfl rfl (StepsThrough.nil _ _))).2.1
    (returnStmt "10" 10) [Statement.LetStatementNil]
    (some (Object.ReturnValue 5 (some (Object.Integer 4 10))))
    ⟨[⟨[], none⟩], 6, []⟩ rfl (Or.inl ⟨_, _, rfl⟩)

/-! ### Macro definitions -/

theorem isMacroDefinition_true (s : Statement) (h : isMacroDefinition s = some true) :
    ∃ tok name t ps body,
      s = Statement.LetStatement tok name (some (Expression.MacroLiteral t ps body)) := by
  cases s with
  | LetStatement tok name value =>
    cases value with
    | none => simp [isMacroDefinition] at h
    | some e => cases e <;> first | exact ⟨_, _, _, _, _, rfl⟩ | simp [isMacroDefinition] at h
  | LetStatementNil => simp [isMacroDefinition] at h
  | ReturnStatement _ _ => simp [isMacroDefinition] at h
  | ExpressionStatement _ _ => simp [isMacroDefinition] at h
  | BlockStatement _ => simp [isMacroDefinition] at h

theorem isMacroDefinition_of_definable (s : Statement) (h : definable s = true) :
    isMacroDefinition s = some true ∨ isMacroDefinition s = some false := by
  cases s with
  | LetStatement tok name value =>
    cases value with
    | none => right; rfl
    | some e => cases e <;> first | (left; rfl) | (right; rfl)
  | LetStatementNil => simp [definable] at h
  | ReturnStatement _ _ => right; rfl
  | ExpressionStatement _ _ => right; rfl
  | BlockStatement _ => right; rfl

theorem envSet_ok (env : Nat) (name : String) (val : Option Object) (w : World)
    (he : env < w.envs.length) :
    ∃ w', (envSet env name val).run w = Res.ok ((), w') ∧ w'.envs.length = w.envs.length := by
  have hg : w.envs.get? env = some (w.envs.get ⟨env, he⟩) := List.get?_eq_get he
  unfold envSet
  simp only [StateT.run, hg]
  exact ⟨_, rfl, by simp⟩

theorem addMacro_ok (s : Statement) (env : Nat) (w : World)
    (hm : isMacroDefinition s = some true) (hn : definable s = true)
    (he : env < w.envs.length) :
    ∃ w', (addMacro s env).run w = Res.ok ((), w') ∧ w'.envs.length = w.envs.length := by
  obtain ⟨tok, name, t, ps, body, rfl⟩ := isMacroDefinition_true s hm
  cases name with
  | none => simp [definable] at hn
  | some i =>
    have h1 : (addMacro (Statement.LetStatement tok (some i)
          (some (Expression.MacroLiteral t ps body))) env).run w
        = (envSet env i.Value (some (Object.Macro w.next ps body env))).run
            ⟨w.envs, w.next + 1, w.output⟩ := by
      show (alloc >>= fun a => envSet env i.Value (some (Object.Macro a ps body env))).run w = _
      rw [run_bind_ok alloc _ w ⟨w.envs, w.next + 1, w.output⟩ w.next rfl]
    rw [h1]
    exact envSet_ok env _ _ ⟨w.envs, w.next + 1, w.output⟩ he

theorem defineMacrosLoop_ok (env : Nat) (stmts : List Statement) :
    ∀ (i : Nat) (acc : List Nat) (w : World),
      (∀ s ∈ stmts, definable s = true) → env < w.envs.length →
      ∃ w', (defineMacrosLoop env stmts i acc).run w
          = Res.ok (acc ++ macroIndices stmts i, w')
        ∧ w'.envs.length = w.envs.length := by
  induction stmts with
  | nil =>
    intro i acc w _ _
    exact ⟨w, by simp [macroIndices, defineMacrosLoop]; rfl, rfl⟩
  | cons s rest ih =>
    intro i acc w hn he
    have hs : definable s = true := hn s (List.mem_cons_self _ _)
    have hrest : ∀ t ∈ rest, definable t = true := fun t ht => hn t (List.mem_cons_of_mem _ ht)
    rcases isMacroDefinition_of_definable s hs with hm | hm
    · obtain ⟨w1, h1, hl1⟩ := addMacro_ok s env w hm hs he
      obtain ⟨w2, h2, hl2⟩ := ih (i + 1) (acc ++ [i]) w1 hrest (by omega)
      refine ⟨w2, ?_, by omega⟩
      show ((orFault (isMacroDefinition s) : Eff World Bool) >>= fun b =>
        if b then (addMacro s env >>= fun _ => defineMacrosLoop env rest (i + 1) (acc ++ [i]))
        else defineMacrosLoop env rest (i + 1) acc).run w = _
      rw [hm]
      show ((addMacro s env >>= fun _ => defineMacrosLoop env rest (i + 1) (acc ++ [i]))).run w = _
      rw [run_bind_ok _ _ _ _ _ h1, h2]
      simp [macroIndices, hm]
    · obtain ⟨w2, h2, hl2⟩ := ih (i + 1) acc w hrest he
      refine ⟨w2, ?_, hl2⟩
      show ((orFault (isMacroDefinition s) : Eff World Bool) >>= fun b =>
        if b then (addMacro s env >>= fun _ => defineMacrosLoop env rest (i + 1) (acc ++ [i]))
        else defineMacrosLoop env rest (i + 1) acc).run w = _
      rw [hm]
      show (defineMacrosLoop env rest (i + 1) acc).run w = _
      rw [h2]
      simp [macroIndices, hm]

theorem removeDefinitionsLoop_append (xs ys : List Nat) (l : List Statement) :
    removeDefinitionsLoop (xs ++ ys) l = removeDefinitionsLoop ys (removeDefinitionsLoop xs l) := by
  induction xs generalizing l with
  | nil => rfl
  | cons x xs ih => simp [removeDefinitionsLoop, ih]

theorem removeDefinitionsLoop_macroIndices (stmts : List Statement) :
    ∀ pre : List Statement,
      removeDefinitionsLoop (macroIndices stmts pre.length).reverse (pre ++ stmts)
        = pre ++ stmts.filter notMacroDefinition := by
  induction stmts with
  | nil => intro pre; simp [macroIndices, removeDefinitionsLoop]
  | cons s rest ih =>
    intro pre
    have h := ih (pre ++ [s])
    simp only [List.length_append, List.length_singleton, List.append_assoc,
      List.singleton_append] at h
    by_cases hm : isMacroDefinition s = some true
    · simp only [macroIndices, hm, if_true, List.reverse_cons, removeDefinitionsLoop_append, h]
      simp [removeDefinitionsLoop, notMacroDefinition, hm, List.take_append, List.drop_append]
    · simp only [macroIndices, hm, if_false, h]
      simp [notMacroDefinition, hm]

/-- Counterexample to C8: for the tokens `let 5;` the parser returns a program whose first
statement is a nil `*LetStatement`; on that program `DefineMacros` panics
(`isMacroDefinition` reads `letStatement.Value` through the nil pointer) and leaves no
statement list. -/
theorem defineMacros_faults_on_nil_statement :
    (∃ p, ParseProgram letWithoutNameTokens = some (letWithoutNameProgram, p))
    ∧ ∀ (env : Nat) (w : World), (DefineMacros letWithoutNameProgram env).run w = Res.fault :=
  ⟨⟨_, rfl⟩, fun _ _ => rfl⟩

/-- C8, amended. For every program in which no statement is a nil `*LetStatement` and
every macro definition has a `Name`, and every environment of the world, `DefineMacros`
completes and leaves the statement list with exactly the statements of the form
`Let(name, MacroLiteral)` removed and the others in their original order: the
reverse-index deletion equals filtering by not-`isMacroDefinition`. The length of the
result is the original length minus the number of macro definitions. -/
theorem defineMacros_removes_macro_definitions (program : Program) (env : Nat) (w : World)
    (hd : ∀ s ∈ program.Statements, definable s = true) (he : env < w.envs.length) :
    (∃ w', (DefineMacros program env).run w
        = Res.ok (⟨program.Statements.filter notMacroDefinition⟩, w'))
    ∧ (program.Statements.filter notMacroDefinition).length
        = program.Statements.length
          - program.Statements.countP (fun s => isMacroDefinition s == some true)
    ∧ (∀ s : Statement, notMacroDefinition s = false ↔
        ∃ tok name t ps body,
          s = Statement.LetStatement tok name (some (Expression.MacroLiteral t ps body))) := by
  refine ⟨?_, ?_, ?_⟩
  · obtain ⟨w', h, _⟩ := defineMacrosLoop_ok env program.Statements 0 [] w hd he
    refine ⟨w', ?_⟩
    show ((defineMacrosLoop env program.Statements 0 []) >>= fun definitions =>
      (pure ⟨removeDefinitionsLoop definitions.reverse program.Statements⟩ :
        Eff World Program)).run w = _
    rw [run_bind_ok _ _ _ _ _ h]
    have hr := removeDefinitionsLoop_macroIndices program.Statements []
    simp only [List.length_nil, List.nil_append] at hr
    simp only [List.nil_append, hr]
    rfl
  · have h1 := List.length_eq_countP_add_countP
      (fun s => isMacroDefinition s == some true) program.Statements
    have h2 : List.countP (fun a => decide ¬(isMacroDefinition a == some true) = true)
        program.Statements = (program.Statements.filter notMacroDefinition).length := by
      rw [List.countP_eq_length_filter]
      congr 1
      apply List.filter_congr
      intro x _
      unfold notMacroDefinition
      cases isMacroDefinition x with
      | none => rfl
      | some b => cases b <;> rfl
    omega
  · intro s
    constructor
    · intro h
      apply isMacroDefinition_true
      simpa [notMacroDefinition] using h
    · rintro ⟨tok, name, t, ps, body, rfl⟩
      rfl

/-- Witness of C8 (amended): in the program `let m = macro() { }; 5` the macro definition is
removed and the statement `5` is kept. -/
theorem defineMacros_removes_macro_definitions_witness :
    (∃ w', (DefineMacros macroThenFive 0).run World.init
        = Res.ok (⟨macroThenFive.Statements.filter notMacroDefinition⟩, w'))
    ∧ macroThenFive.Statements.filter notMacroDefinition
        = [Statement.ExpressionStatement (intToken "5") (intExpr "5" 5)] :=
  ⟨(defineMacros_removes_macro_definitions macroThenFive 0 World.init
    (by
      intro s hs
      simp only [macroThenFive, List.mem_cons, List.mem_singleton, List.not_mem_nil,
        or_false] at hs
      rcases hs with rfl | rfl <;> rfl)
    (by decide)).1, rfl⟩

/-! ### The parser at a state given by the tokens it has still to read -/

theorem New_eq_stateAt (l : List Token) : New l = stateAt l [] := by
  cases l with
  | nil => rfl
  | cons t ts =>
    cases ts with
    | nil => rfl
    | cons u us => rfl

theorem nextToken_stateAt (t : Token) (ts : List Token) (errs : List String) :
    (stateAt (t :: ts) errs).nextToken = stateAt ts errs := by
  cases ts with
  | nil => rfl
  | cons u us =>
    cases us with
    | nil => rfl
    | cons v vs => rfl

theorem parseExpression_succ (n prec : Nat) (p : Parser) :
    parseExpression (n + 1) prec p
      = if !hasPrefixFn p.curToken.Kind then
          some (none, p.noPrefiXParseFnError p.curToken.Kind)
        else
          match callPrefixFn n p with
          | none => none
          | some (leftExp, p) => parseExpressionLoop n prec leftExp p := rfl

theorem parseExpressionLoop_succ (n prec : Nat) (leftExp : Option Expression) (p : Parser) :
    parseExpressionLoop (n + 1) prec leftExp p
      = if !p.peekTokenIs TokenType.SEMICOLON && decide (prec < p.peekPrecedence) then
          if !hasInfixFn p.peekToken.Kind then some (leftExp, p)
          else
            match callInfixFn n leftExp p.nextToken with
            | none => none
            | some (leftExp, p) => parseExpressionLoop n prec leftExp p
        else some (leftExp, p) := rfl

theorem parseGroupedExpression_succ (n : Nat) (p : Parser) :
    parseGroupedExpression (n + 1) p
      = match parseExpression n LOWEST p.nextToken with
        | none => none
        | some (exp, p) =>
          match p.expectPeek TokenType.RPAREN with
          | (false, p) => some (none, p)
          | (true, p) => some (exp, p) := rfl

theorem parsePrefixOperator_succ (n : Nat) (p : Parser) :
    parsePrefixOperator (n + 1) p
      = match parseExpression n PREFIX p.nextToken with
        | none => none
        | some (right, p') =>
          some (some (Expression.PrefixExpression p.curToken p.curToken.Literal right), p') :=
  rfl

theorem parseInfixExpression_succ (n : Nat) (left : Option Expression) (p : Parser) :
    parseInfixExpression (n + 1) left p
      = match parseExpression n p.curPrecedence p.nextToken with
        | none => none
        | some (right, p') =>
          some (some (Expression.InfixExpression p.curToken left p.curToken.Literal right),
            p') := rfl

theorem callPrefixFn_lparen (n : Nat) (ts : List Token) (errs : List String) :
    callPrefixFn (n + 1) (stateAt (symbolToken TokenType.LPAREN :: ts) errs)
      = parseGroupedExpression n (stateAt (symbolToken TokenType.LPAREN :: ts) errs) := rfl

theorem precedenceOf_pos (k : TokenType) : 1 ≤ precedenceOf k := by
  cases k <;> decide

theorem parseExpressionLoop_stop (n prec : Nat) (leftExp : Option Expression) (t : Token)
    (sfx : List Token) (errs : List String)
    (h : precedenceOf (sfx.headD eofToken).Kind ≤ prec) :
    parseExpressionLoop (n + 1) prec leftExp (stateAt (t :: sfx) errs)
      = some (leftExp, stateAt (t :: sfx) errs) := by
  rw [parseExpressionLoop_succ]
  have hp : decide (prec < (stateAt (t :: sfx) errs).peekPrecedence) = false := by
    have h1 : (stateAt (t :: sfx) errs).peekPrecedence
        = precedenceOf (sfx.headD eofToken).Kind := rfl
    rw [h1]
    exact decide_eq_false (by omega)
  rw [hp]
  simp
theorem prefixOperator_facts (op : TokenType) (h : op ∈ prefixOperators) (n : Nat)
    (ts : List Token) (errs : List String) :
    hasPrefixFn (stateAt (symbolToken op :: ts) errs).curToken.Kind = true
    ∧ callPrefixFn (n + 1) (stateAt (symbolToken op :: ts) errs)
      = parsePrefixOperator n (stateAt (symbolToken op :: ts) errs) := by
  simp only [prefixOperators, List.mem_cons, List.mem_singleton, List.not_mem_nil,
    or_false] at h
  rcases h with rfl | rfl <;> exact ⟨rfl, rfl⟩

theorem binaryOperator_facts (op : TokenType) (h : op ∈ binaryOperators) (n : Nat)
    (left : Option Expression) (t : Token) (ts : List Token) (errs : List String) :
    (!(stateAt (t :: symbolToken op :: ts) errs).peekTokenIs TokenType.SEMICOLON
        && decide (LOWEST < (stateAt (t :: symbolToken op :: ts) errs).peekPrecedence)) = true
    ∧ hasInfixFn (stateAt (t :: symbolToken op :: ts) errs).peekToken.Kind = true
    ∧ callInfixFn (n + 1) left (stateAt (symbolToken op :: ts) errs)
      = parseInfixExpression n left (stateAt (symbolToken op :: ts) errs)
    ∧ (stateAt (symbolToken op :: ts) errs).curPrecedence = precedenceOf op := by
  simp only [binaryOperators, List.mem_cons, List.mem_singleton, List.not_mem_nil,
    or_false] at h
  rcases h with rfl | rfl | rfl | rfl | rfl | rfl | rfl | rfl <;> exact ⟨rfl, rfl, rfl, rfl⟩

theorem precedenceOf_rparen_le (sfx : List Token) (prec : Nat) (h : 1 ≤ prec) :
    precedenceOf ((symbolToken TokenType.RPAREN :: sfx).headD eofToken).Kind ≤ prec := h

theorem expectPeek_rparen (t : Token) (sfx : List Token) (errs : List String) :
    (stateAt (t :: symbolToken TokenType.RPAREN :: sfx) errs).expectPeek TokenType.RPAREN
      = (true, stateAt (symbolToken TokenType.RPAREN :: sfx) errs) := by
  unfold Parser.expectPeek
  have h : (stateAt (t :: symbolToken TokenType.RPAREN :: sfx) errs).peekTokenIs
      TokenType.RPAREN = true := rfl
  rw [h, nextToken_stateAt]
  rfl

theorem ParseProgramLoop_succ (n : Nat) (statements : List Statement) (p : Parser) :
    ParseProgramLoop (n + 1) statements p
      = if !p.curTokenIs TokenType.EOF then
          match parseStatement n p with
          | none => none
          | some (stmt, p) => ParseProgramLoop n (statements ++ [stmt]) p.nextToken
        else some (statements, p) := rfl

theorem parseExpressionStatement_succ (n : Nat) (p : Parser) :
    parseExpressionStatement (n + 1) p
      = match parseExpression n LOWEST p with
        | none => none
        | some (e, p') =>
          some (Statement.ExpressionStatement p.curToken e,
            if p'.peekTokenIs TokenType.SEMICOLON then p'.nextToken else p') := rfl

/-! ### Conditionals -/

theorem evalIfExpression_succ (ext : Externals) (n : Nat) (cond : Option Expression)
    (consequence alternative : Option BlockStatement) (env : Nat) :
    evalIfExpression ext (n + 1) cond consequence alternative env = (do
      let condition ← Eval ext n (nodeOfExpr cond) env
      if isError condition then pure condition
      else if isTruthy condition then Eval ext n (nodeOfBlock consequence) env
      else
        match alternative with
        | some alt => Eval ext n (nodeOfBlock (some alt)) env
        | none => pure (some NULL)) := rfl

theorem samePointer_of_type_ne (x y : Object) (h : objectType x ≠ objectType y) :
    samePointer (some x) (some y) = false := by
  simp [samePointer, h]

theorem isTruthy_eq (c : Option Object) :
    isTruthy c = !(samePointer c (some FALSE) || samePointer c (some NULL)) := by
  unfold isTruthy
  by_cases h1 : samePointer c (some TRUE) = true
  · have h2 : samePointer c (some FALSE) = false := by
      cases c with
      | none => rfl
      | some x =>
        simp only [samePointer, Bool.and_eq_true, beq_iff_eq] at h1
        show (x.addr == FALSE.addr && _) = false
        rw [h1.1]; rfl
    have h3 : samePointer c (some NULL) = false := by
      cases c with
      | none => rfl
      | some x =>
        simp only [samePointer, Bool.and_eq_true, beq_iff_eq] at h1
        show (x.addr == NULL.addr && _) = false
        rw [h1.1]; rfl
    simp [h1, h2, h3]
  · cases h2 : samePointer c (some FALSE) <;> cases h3 : samePointer c (some NULL) <;> simp [h1]

theorem evalIfExpression_run (ext : Externals) (n env : Nat) (tok : Token)
    (cond : Option Expression) (consequence alternative : Option BlockStatement)
    (w w1 : World) (c : Option Object)
    (h : (Eval ext n (nodeOfExpr cond) env).run w = Res.ok (c, w1)) :
    (Eval ext (n + 2)
        (Node.Expression (Expression.IfExpression tok cond consequence alternative)) env).run w
      = (if isError c then Res.ok (c, w1)
         else if samePointer c (some FALSE) || samePointer c (some NULL) then
           match alternative with
           | some alt => (Eval ext n (nodeOfBlock (some alt)) env).run w1
           | none => Res.ok (some NULL, w1)
         else (Eval ext n (nodeOfBlock consequence) env).run w1) := by
  show (evalIfExpression ext (n + 1) cond consequence alternative env).run w = _
  rw [evalIfExpression_succ, run_bind_ok _ _ _ _ _ h, isTruthy_eq]
  by_cases he : isError c = true
  · simp only [he, if_true]; rfl
  · simp only [he]
    by_cases hf : (samePointer c (some FALSE) || samePointer c (some NULL)) = true
    · simp only [hf, Bool.not_true]
      cases alternative <;> rfl
    · simp only [hf]
      rfl

theorem samePointer_FALSE (x : Object) :
    samePointer (some x) (some FALSE) = true ↔ ∃ b, x = Object.Boolean FALSE.addr b := by
  constructor
  · intro h
    cases x <;> simp [samePointer, objectType, FALSE, Object.addr, BOOLEAN_OBJ, INTEGER_OBJ,
      STRING_OBJ, NULL_OBJ, RETURN_VALUE_OBJ, ERROR_OBJ, FUNCTION_OBJ, BUILTIN_OBJ, ARRAY_OBJ,
      HASH_OBJ, QUOTE_OBJ, MACRO_OBJ] at h ⊢
    exact h
  · rintro ⟨b, rfl⟩
    rfl

theorem samePointer_NULL (x : Object) :
    samePointer (some x) (some NULL) = true ↔ x = Object.Null := by
  constructor
  · intro h
    cases x <;> simp [samePointer, objectType, NULL, Object.addr, BOOLEAN_OBJ, INTEGER_OBJ,
      STRING_OBJ, NULL_OBJ, RETURN_VALUE_OBJ, ERROR_OBJ, FUNCTION_OBJ, BUILTIN_OBJ, ARRAY_OBJ,
      HASH_OBJ, QUOTE_OBJ, MACRO_OBJ] at h ⊢
  · rintro rfl
    rfl

theorem isError_iff (x : Object) :
    isError (some x) = true ↔ ∃ a msg, x = Object.Error a msg := by
  constructor
  · intro h
    cases x <;> simp [isError, objectType, BOOLEAN_OBJ, INTEGER_OBJ,
      STRING_OBJ, NULL_OBJ, RETURN_VALUE_OBJ, ERROR_OBJ, FUNCTION_OBJ, BUILTIN_OBJ, ARRAY_OBJ,
      HASH_OBJ, QUOTE_OBJ, MACRO_OBJ] at h ⊢
  · rintro ⟨a, msg, rfl⟩
    rfl

theorem evalIfExpression_then (ext : Externals) (n env : Nat) (tok : Token)
    (cond : Option Expression) (consequence alternative : Option BlockStatement)
    (w w1 : World) (c : Option Object)
    (h : (Eval ext n (nodeOfExpr cond) env).run w = Res.ok (c, w1))
    (he : ∀ (a : Nat) (msg : String), c ≠ some (Object.Error a msg))
    (hf : ∀ b : Bool, c ≠ some (Object.Boolean FALSE.addr b))
    (hn : c ≠ some Object.Null) :
    (Eval ext (n + 2)
        (Node.Expression (Expression.IfExpression tok cond consequence alternative)) env).run w
      = (Eval ext n (nodeOfBlock consequence) env).run w1 := by
  rw [evalIfExpression_run ext n env tok cond consequence alternative w w1 c h]
  cases c with
  | none => rfl
  | some x =>
    have h1 : isError (some x) = false := by
      cases hx : isError (some x)
      · rfl
      · obtain ⟨a, msg, rfl⟩ := (isError_iff x).1 hx
        exact absurd rfl (he a msg)
    have h2 : samePointer (some x) (some FALSE) = false := by
      cases hx : samePointer (some x) (some FALSE)
      · rfl
      · obtain ⟨b, rfl⟩ := (samePointer_FALSE x).1 hx
        exact absurd rfl (hf b)
    have h3 : samePointer (some x) (some NULL) = false := by
      cases hx : samePointer (some x) (some NULL)
      · rfl
      · have := (samePointer_NULL x).1 hx
        subst this
        exact absurd rfl hn
    rw [h1, h2, h3]
    rfl

/-- C11. Truthiness of `if`. When the condition of an if-expression evaluates to `c`: if
`c` is an `Error`, the if-expression yields that `Error`; if `c` is the shared `FALSE` or
`NULL`, it yields the value of the else-block when there is one and the shared `NULL` when
there is none; and if `c` is not an `Error`, not the `Boolean` at the address of `FALSE`
and not `NULL`, it yields the value of the then-block, as it does for every `Integer` and
every `String`, whatever their content. The programs `if (0) { 1 } else { 2 }` and
`if ("") { 1 } else { 2 }` parse without error and evaluate to `Integer 1`, the program
`if (false) { 1 } else { 2 }` to `Integer 2`. -/
theorem evalIfExpression_truthiness (ext : Externals) (n env : Nat) (tok : Token)
    (cond : Option Expression) (consequence alternative : Option BlockStatement)
    (w w1 : World) (c : Option Object)
    (h : (Eval ext n (nodeOfExpr cond) env).run w = Res.ok (c, w1)) :
    (∀ (a : Nat) (msg : String), c = some (Object.Error a msg) →
        (Eval ext (n + 2)
            (Node.Expression (Expression.IfExpression tok cond consequence alternative))
            env).run w = Res.ok (some (Object.Error a msg), w1))
    ∧ (c = some FALSE ∨ c = some NULL →
        (Eval ext (n + 2)
            (Node.Expression (Expression.IfExpression tok cond consequence alternative))
            env).run w
          = match alternative with
            | some alt => (Eval ext n (nodeOfBlock (some alt)) env).run w1
            | none => Res.ok (some NULL, w1))
    ∧ ((∀ (a : Nat) (msg : String), c ≠ some (Object.Error a msg)) →
        (∀ b : Bool, c ≠ some (Object.Boolean FALSE.addr b)) → c ≠ some Object.Null →
        (Eval ext (n + 2)
            (Node.Expression (Expression.IfExpression tok cond consequence alternative))
            env).run w = (Eval ext n (nodeOfBlock consequence) env).run w1)
    ∧ (∀ (a : Nat) (v : Int), c = some (Object.Integer a v) →
        (Eval ext (n + 2)
            (Node.Expression (Expression.IfExpression tok cond consequence alternative))
            env).run w = (Eval ext n (nodeOfBlock consequence) env).run w1)
    ∧ (∀ (a : Nat) (s : String), c = some (Object.String a s) →
        (Eval ext (n + 2)
            (Node.Expression (Expression.IfExpression tok cond consequence alternative))
            env).run w = (Eval ext n (nodeOfBlock consequence) env).run w1)
    ∧ (∃ p, ParseProgram (ifElseTokens (intToken "0"))
          = some (ifElseProgram (intExpr "0" 0), p) ∧ p.Errors = [])
    ∧ (∀ m : Nat, (Eval ext (m + 9) (Node.Program (ifElseProgram (intExpr "0" 0))) 0).run
          World.init = Res.ok (some (Object.Integer 4 1), ⟨[⟨[], none⟩], 5, []⟩))
    ∧ (∃ p, ParseProgram (ifElseTokens (stringToken ""))
          = some (ifElseProgram (stringExpr ""), p) ∧ p.Errors = [])
    ∧ (∀ m : Nat, (Eval ext (m + 9) (Node.Program (ifElseProgram (stringExpr ""))) 0).run
          World.init = Res.ok (some (Object.Integer 4 1), ⟨[⟨[], none⟩], 5, []⟩))
    ∧ (∃ p, ParseProgram (ifElseTokens (keywordToken TokenType.FALSE "false"))
          = some (ifElseProgram falseExpr, p) ∧ p.Errors = [])
    ∧ (∀ m : Nat, (Eval ext (m + 9) (Node.Program (ifElseProgram falseExpr)) 0).run
          World.init = Res.ok (some (Object.Integer 3 2), ⟨[⟨[], none⟩], 4, []⟩)) := by
  have hrun := evalIfExpression_run ext n env tok cond consequence alternative w w1 c h
  have hthen := evalIfExpression_then ext n env tok cond consequence alternative w w1 c h
  refine ⟨?_, ?_, hthen, ?_, ?_, ⟨_, rfl, rfl⟩, fun _ => rfl, ⟨_, rfl, rfl⟩, fun _ => rfl,
    ⟨_, rfl, rfl⟩, fun _ => rfl⟩
  · intro a msg hc
    rw [hrun, hc]
    rfl
  · intro hc
    rw [hrun]
    rcases hc with hc | hc <;> rw [hc] <;> rfl
  · intro a v hc
    apply hthen <;> rw [hc] <;> intros <;> simp [FALSE, Object.addr]
  · intro a s hc
    apply hthen <;> rw [hc] <;> intros <;> simp [FALSE, Object.addr]

/-- Witness of C11: in `if (false) { 1 }` the condition evaluates to the shared `FALSE`
and there is no else-block, so that the result is the shared `NULL`. -/
theorem evalIfExpression_truthiness_witness :
    (Eval noExternals 3
        (Node.Expression (Expression.IfExpression (keywordToken TokenType.IF "if")
          (some (Expression.Boolean (keywordToken TokenType.FALSE "false") false))
          (some (BlockStatement.mk (symbolToken TokenType.LBRACE)
            [Statement.ExpressionStatement (intToken "1") (intExpr "1" 1)]))
          none)) 0).run World.init
      = Res.ok (some NULL, World.init) :=
  (evalIfExpression_truthiness noExternals 1 0 (keywordToken TokenType.IF "if")
    (some (Expression.Boolean (keywordToken TokenType.FALSE "false") false))
    (some (BlockStatement.mk (symbolToken TokenType.LBRACE)
      [Statement.ExpressionStatement (intToken "1") (intExpr "1" 1)]))
    none World.init World.init (some FALSE) rfl).2.1 (Or.inl rfl)

/-- C12, as the spec states it: `if (null) { 1 } else { 2 }` does not evaluate to
`Integer 2`, whatever the bound on the depth of the calls. Its tokens parse without
error, with the identifier `null` as the condition. -/
theorem ifNull_not_two :
    (∃ p, ParseProgram (ifElseTokens (identToken "null"))
        = some (ifElseProgram (identExpr "null"), p) ∧ p.Errors = [])
    ∧ ¬ ∃ (n a : Nat) (w : World),
        (Eval requiredBuiltinsOnly n (Node.Program (ifElseProgram (identExpr "null"))) 0).run
          World.withBuiltins = Res.ok (some (Object.Integer a 2), w) := by
  refine ⟨⟨_, rfl, rfl⟩, ?_⟩
  rintro ⟨n, a, w, h⟩
  rcases n with _ | _ | _ | _ | _ | _ | m
  all_goals first
    | exact Res.noConfusion h
    | (have h' : (Res.ok (some (Object.Error 9 "identifier not found: null"),
          (⟨[⟨[], none⟩], 10, []⟩ : World)) : Res (Option Object × World))
          = Res.ok (some (Object.Integer a 2), w) := h
       simp at h')

/-- C12, amended. There is no token kind and no literal for `null`: the word is an
identifier. Evaluated in a fresh environment with only the required built-ins, it is
bound to nothing, and `if (null) { 1 } else { 2 }` evaluates to the `Error` with the
message `identifier not found: null`, which the if-expression returns as the value of its
condition. The tokens parse without error to the if-expression with the identifier
`null` as its condition; the name is neither in the table of built-ins nor in the
environment. -/
theorem ifNull_identifier_not_found :
    (∃ p, ParseProgram (ifElseTokens (identToken "null"))
        = some (ifElseProgram (identExpr "null"), p) ∧ p.Errors = [])
    ∧ requiredBuiltinsOnly.builtins "null" = none
    ∧ (envGet 0 "null").run World.withBuiltins = Res.ok (none, World.withBuiltins)
    ∧ ∀ m : Nat,
        (Eval requiredBuiltinsOnly (m + 6)
            (Node.Program (ifElseProgram (identExpr "null"))) 0).run World.withBuiltins
          = Res.ok (some (Object.Error 9 "identifier not found: null"),
              ⟨[⟨[], none⟩], 10, []⟩) :=
  ⟨⟨_, rfl, rfl⟩, rfl, rfl, fun _ => rfl⟩

/-! ### Indexing an array -/

/-- C13. Array indexing. For an `Array` with the elements `elements` and an `Integer`
index `i`, `evalIndexExpession` returns the element at `i` when `0 ≤ i ≤ len - 1`, and
otherwise (a negative index, an index of `len` or more, any index into the empty array)
a `Null` value: neither an `Error` nor a panic. -/
theorem evalIndexExpession_array (ext : Externals) (a b : Nat)
    (elements : List (Option Object)) (w : World) :
    (∀ (i : Nat) (h : i < elements.length),
        (evalIndexExpession ext (some (Object.Array a elements))
            (some (Object.Integer b (i : Int)))).run w = Res.ok (elements[i], w))
    ∧ (∀ i : Int, i < 0 ∨ (elements.length : Int) ≤ i →
        (evalIndexExpession ext (some (Object.Array a elements))
            (some (Object.Integer b i))).run w
          = Res.ok (some Object.Null, w))
    ∧ (∀ i : Int,
        (evalIndexExpession ext (some (Object.Array a [])) (some (Object.Integer b i))).run w
          = Res.ok (some Object.Null, w)) := by
  have out : ∀ (es : List (Option Object)) (i : Int), i < 0 ∨ (es.length : Int) ≤ i →
      (evalIndexExpession ext (some (Object.Array a es)) (some (Object.Integer b i))).run w
        = Res.ok (some Object.Null, w) := by
    intro es i hi
    show (evalArrayIndexExpression es i).run w = _
    unfold evalArrayIndexExpression
    have hc : i < 0 ∨ i > (es.length : Int) - 1 := by omega
    simp only [hc, if_true]
    rfl
  refine ⟨?_, out elements, ?_⟩
  · intro i h
    show (evalArrayIndexExpression elements (i : Int)).run w = _
    unfold evalArrayIndexExpression
    have hc : ¬ ((i : Int) < 0 ∨ (i : Int) > (elements.length : Int) - 1) := by omega
    simp only [hc, if_false, Int.toNat_ofNat, List.get?_eq_getElem?, List.getElem?_eq_getElem h]
    rfl
  · intro i
    apply out
    simp only [List.length_nil]
    omega

/-- Witness of C13: in the array `[10, 20]` the index 1 yields the second element and the
index 2 a `Null` value. -/
theorem evalIndexExpession_array_witness :
    (evalIndexExpession noExternals
        (some (Object.Array 5 [some (Object.Integer 3 10), some (Object.Integer 4 20)]))
        (some (Object.Integer 6 1))).run ⟨[⟨[], none⟩], 7, []⟩
      = Res.ok (some (Object.Integer 4 20), ⟨[⟨[], none⟩], 7, []⟩)
    ∧ (evalIndexExpession noExternals
        (some (Object.Array 5 [some (Object.Integer 3 10), some (Object.Integer 4 20)]))
        (some (Object.Integer 6 2))).run ⟨[⟨[], none⟩], 7, []⟩
      = Res.ok (some Object.Null, ⟨[⟨[], none⟩], 7, []⟩) :=
  ⟨(evalIndexExpession_array noExternals 5 6
      [some (Object.Integer 3 10), some (Object.Integer 4 20)] ⟨[⟨[], none⟩], 7, []⟩).1 1
      (by decide),
   (evalIndexExpession_array noExternals 5 6
      [some (Object.Integer 3 10), some (Object.Integer 4 20)] ⟨[⟨[], none⟩], 7, []⟩).2.1 2
      (Or.inr (by decide))⟩

/-! ### Infix expressions on operands of other types -/

theorem newError_run (msg : String) (w : World) :
    (newError msg).run w
      = Res.ok (some (Object.Error w.next msg), { w with next := w.next + 1 }) := rfl

theorem evalInfixExpression_rest (operator : String) (l r : Object)
    (hi : ¬ (objectType l = INTEGER_OBJ ∧ objectType r = INTEGER_OBJ))
    (hs : ¬ (objectType l = STRING_OBJ ∧ objectType r = STRING_OBJ)) :
    evalInfixExpression operator (some l) (some r)
      = evalInfixExpressionRest operator l (some r) := by
  cases l <;> cases r <;> first
    | rfl
    | (exfalso; exact hi ⟨rfl, rfl⟩)
    | (exfalso; exact hs ⟨rfl, rfl⟩)

theorem samePointer_iff (l r : Object) :
    samePointer (some l) (some r) = true ↔ l.addr = r.addr ∧ objectType l = objectType r := by
  simp [samePointer]

/-- C14. Infix type errors. For two values `l` and `r` that are not both an `Integer` and
not both a `String`: with an operator other than `==` and `!=`, `evalInfixExpression`
returns a new `Error` whose message is `type mismatch: <type(l)> <op> <type(r)>` when
the types differ and `unknown operator: <type(l)> <op> <type(r)>` when they are the
same; with `==` it returns the shared `TRUE` when `l` and `r` are the same pointer (the
same address and the same type) and the shared `FALSE` when they are not, with `!=` the
other way round, and allocates nothing. So `TRUE == TRUE`, `FALSE == FALSE` and
`NULL == NULL` are `TRUE`, and `TRUE == FALSE`, `FALSE == NULL` and the comparison of a
`Boolean` at another address with `TRUE` are `FALSE`. The program `5 + true` parses without
error and evaluates to the `Error` with the message `type mismatch: INTEGER + BOOLEAN`. -/
theorem evalInfixExpression_type_errors (operator : String) (l r : Object) (w : World)
    (hi : ¬ (objectType l = INTEGER_OBJ ∧ objectType r = INTEGER_OBJ))
    (hs : ¬ (objectType l = STRING_OBJ ∧ objectType r = STRING_OBJ)) :
    (operator ≠ "==" → operator ≠ "!=" → objectType l ≠ objectType r →
        (evalInfixExpression operator (some l) (some r)).run w
          = Res.ok (some (Object.Error w.next
              ("type mismatch: " ++ objectType l ++ " " ++ operator ++ " " ++ objectType r)),
              { w with next := w.next + 1 }))
    ∧ (operator ≠ "==" → operator ≠ "!=" → objectType l = objectType r →
        (evalInfixExpression operator (some l) (some r)).run w
          = Res.ok (some (Object.Error w.next
              ("unknown operator: " ++ objectType l ++ " " ++ operator ++ " " ++ objectType r)),
              { w with next := w.next + 1 }))
    ∧ (l.addr = r.addr → objectType l = objectType r →
        (evalInfixExpression "==" (some l) (some r)).run w = Res.ok (some TRUE, w)
        ∧ (evalInfixExpression "!=" (some l) (some r)).run w = Res.ok (some FALSE, w))
    ∧ (l.addr ≠ r.addr ∨ objectType l ≠ objectType r →
        (evalInfixExpression "==" (some l) (some r)).run w = Res.ok (some FALSE, w)
        ∧ (evalInfixExpression "!=" (some l) (some r)).run w = Res.ok (some TRUE, w))
    ∧ (evalInfixExpression "==" (some TRUE) (some TRUE)).run w = Res.ok (some TRUE, w)
    ∧ (evalInfixExpression "==" (some FALSE) (some FALSE)).run w = Res.ok (some TRUE, w)
    ∧ (evalInfixExpression "==" (some NULL) (some NULL)).run w = Res.ok (some TRUE, w)
    ∧ (evalInfixExpression "==" (some TRUE) (some FALSE)).run w = Res.ok (some FALSE, w)
    ∧ (evalInfixExpression "==" (some FALSE) (some NULL)).run w = Res.ok (some FALSE, w)
    ∧ (evalInfixExpression "!=" (some TRUE) (some FALSE)).run w = Res.ok (some TRUE, w)
    ∧ (evalInfixExpression "!=" (some NULL) (some NULL)).run w = Res.ok (some FALSE, w)
    ∧ (∀ a : Nat, a ≠ TRUE.addr →
        (evalInfixExpression "==" (some (Object.Boolean a true)) (some TRUE)).run w
          = Res.ok (some FALSE, w))
    ∧ (∃ p, ParseProgram fivePlusTrueTokens = some (fivePlusTrueProgram, p) ∧ p.Errors = [])
    ∧ (∀ (ext : Externals) (m : Nat),
        (Eval ext (m + 5) (Node.Program fivePlusTrueProgram) 0).run World.init
          = Res.ok (some (Object.Error 4 "type mismatch: INTEGER + BOOLEAN"),
              ⟨[⟨[], none⟩], 5, []⟩)) := by
  refine ⟨?_, ?_, ?_, ?_, rfl, rfl, rfl, rfl, rfl, rfl, rfl, ?_, ⟨_, rfl, rfl⟩,
    fun _ _ => rfl⟩
  · intro h1 h2 h3
    rw [evalInfixExpression_rest operator l r hi hs]
    unfold evalInfixExpressionRest
    have e1 : ¬ operator = TokenType.EQ.str := h1
    have e2 : ¬ operator = TokenType.NEQ.str := h2
    simp only [e1, e2, if_false]
    show (if objectType l ≠ objectType r then _ else _ : Eff World (Option Object)).run w = _
    simp only [h3, ne_eq, not_false_eq_true, if_true]
    rfl
  · intro h1 h2 h3
    rw [evalInfixExpression_rest operator l r hi hs]
    unfold evalInfixExpressionRest
    have e1 : ¬ operator = TokenType.EQ.str := h1
    have e2 : ¬ operator = TokenType.NEQ.str := h2
    simp only [e1, e2, if_false]
    show (if objectType l ≠ objectType r then _ else _ : Eff World (Option Object)).run w = _
    simp only [h3, ne_eq, not_true_eq_false, if_false]
    rfl
  · intro ha ht
    have hp : samePointer (some l) (some r) = true := (samePointer_iff l r).2 ⟨ha, ht⟩
    rw [evalInfixExpression_rest "==" l r hi hs, evalInfixExpression_rest "!=" l r hi hs]
    constructor
    · show Res.ok (some (nativeBoolToBooleanObject (samePointer (some l) (some r))), w) = _
      rw [hp]; rfl
    · show Res.ok (some (nativeBoolToBooleanObject (!samePointer (some l) (some r))), w) = _
      rw [hp]; rfl
  · intro hne
    have hp : samePointer (some l) (some r) = false := by
      cases hx : samePointer (some l) (some r)
      · rfl
      · have := (samePointer_iff l r).1 hx
        rcases hne with h | h
        · exact absurd this.1 h
        · exact absurd this.2 h
    rw [evalInfixExpression_rest "==" l r hi hs, evalInfixExpression_rest "!=" l r hi hs]
    constructor
    · show Res.ok (some (nativeBoolToBooleanObject (samePointer (some l) (some r))), w) = _
      rw [hp]; rfl
    · show Res.ok (some (nativeBoolToBooleanObject (!samePointer (some l) (some r))), w) = _
      rw [hp]; rfl
  · intro a ha
    show Res.ok (some (nativeBoolToBooleanObject
      (samePointer (some (Object.Boolean a true)) (some TRUE))), w) = _
    have hp : samePointer (some (Object.Boolean a true)) (some TRUE) = false := by
      cases hx : samePointer (some (Object.Boolean a true)) (some TRUE)
      · rfl
      · exact absurd ((samePointer_iff _ _).1 hx).1 ha
    rw [hp]; rfl

/-- Witness of C14: `5 + true`, with the operands at the addresses 3 and 1. -/
theorem evalInfixExpression_type_errors_witness :
    (evalInfixExpression "+" (some (Object.Integer 3 5)) (some TRUE)).run
        ⟨[⟨[], none⟩], 4, []⟩
      = Res.ok (some (Object.Error 4 "type mismatch: INTEGER + BOOLEAN"),
          ⟨[⟨[], none⟩], 5, []⟩) :=
  (evalInfixExpression_type_errors "+" (Object.Integer 3 5) TRUE ⟨[⟨[], none⟩], 4, []⟩
    (by decide) (by decide)).1 (by decide) (by decide) (by decide)

/-! ### Integer arithmetic -/

theorem wrap64_range (x : Int) : -2 ^ 63 ≤ wrap64 x ∧ wrap64 x < 2 ^ 63 := by
  unfold wrap64; omega

theorem wrap64_congr (x : Int) : (2 ^ 64 : Int) ∣ wrap64 x - x := by
  unfold wrap64; omega

theorem wrap64_of_range (x : Int) (h : -2 ^ 63 ≤ x ∧ x < 2 ^ 63) : wrap64 x = x := by
  unfold wrap64; omega

theorem tmod_facts (a b : Int) (hb : b ≠ 0) :
    (Int.tmod a b).natAbs < b.natAbs
      ∧ (Int.tmod a b = 0 ∨ Int.sign (Int.tmod a b) = Int.sign a) := by
  have hpos : 0 < b.natAbs := Int.natAbs_pos.2 hb
  constructor
  · rcases a with m | m <;> rcases b with n | n
    all_goals simp only [Int.tmod, Int.natAbs_ofNat, Int.natAbs_neg, Int.natAbs_negSucc,
      Int.ofNat_eq_coe, Int.natAbs_cast] at hpos ⊢
    all_goals exact Nat.mod_lt _ (by omega)
  · rcases a with m | m
    · have key : ∀ k : Nat, k ≤ m →
          ((k : Int) = 0 ∨ Int.sign (k : Int) = Int.sign (m : Int)) := by
        intro k hk
        by_cases h0 : k = 0
        · left; omega
        · right
          rw [Int.sign_eq_one_of_pos (by omega), Int.sign_eq_one_of_pos (by omega)]
      rcases b with n | n
      · exact key _ (Nat.mod_le _ _)
      · exact key _ (Nat.mod_le _ _)
    · have key : ∀ k : Nat,
          (-(k : Int) = 0 ∨ Int.sign (-(k : Int)) = Int.sign (Int.negSucc m)) := by
        intro k
        by_cases h0 : k = 0
        · left; omega
        · right
          rw [Int.sign_eq_neg_one_of_neg (by omega)]
          rfl
      rcases b with n | n
      · exact key _
      · exact key _

theorem tdiv_range (a b : Int) (ha : -2 ^ 63 ≤ a ∧ a < 2 ^ 63) (hb : b ≠ 0)
    (hx : ¬ (a = -2 ^ 63 ∧ b = -1)) :
    -2 ^ 63 ≤ Int.tdiv a b ∧ Int.tdiv a b < 2 ^ 63 := by
  have hq : (Int.tdiv a b).natAbs = a.natAbs / b.natAbs := Int.natAbs_tdiv a b
  have h1 : a.natAbs / b.natAbs ≤ a.natAbs := Nat.div_le_self _ _
  have h2 : 2 ≤ b.natAbs → a.natAbs / b.natAbs ≤ a.natAbs / 2 :=
    fun h => Nat.div_le_div_left h (by decide)
  have h3 : b = 1 → Int.tdiv a b = a := fun h => by rw [h]; exact Int.tdiv_one a
  generalize a.natAbs / b.natAbs = d at hq h1 h2
  generalize Int.tdiv a b = q at hq h3
  omega

theorem evalInfixExpression_slash (x y : Nat) (a b : Int) (w : World) (hb : b ≠ 0) :
    (evalInfixExpression "/" (some (Object.Integer x a)) (some (Object.Integer y b))).run w
      = Res.ok (some (Object.Integer w.next (wrap64 (Int.tdiv a b))),
          { w with next := w.next + 1 }) := by
  show (evalIntegerInfixExpression "/" a b).run w = _
  unfold evalIntegerInfixExpression
  have e1 : ¬ "/" = TokenType.PLUS.str := by decide
  have e2 : ¬ "/" = TokenType.MINUS.str := by decide
  have e3 : ¬ "/" = TokenType.ASTERISK.str := by decide
  have e4 : "/" = TokenType.SLASH.str := rfl
  simp only [e1, e2, e3, if_false, hb]
  rw [if_pos e4]
  rfl

/-- C15, as the spec states it: the most negative 64-bit integer divided by -1. The
program `(-9223372036854775807 - 1) / -1` parses without error and evaluates to
`Integer -9223372036854775808`, the dividend itself: the value `q` that
`evalInfixExpression` returns for the two operands is not the quotient truncated toward
zero, as there is no `r` with `a = q * b + r` and `|r| < |b|`. -/
theorem integer_division_overflows :
    (∃ p, ParseProgram minOverMinusOneTokens = some (minOverMinusOneProgram, p)
        ∧ p.Errors = [])
    ∧ (Eval noExternals 7 (Node.Program minOverMinusOneProgram) 0).run World.init
        = Res.ok (some (Object.Integer 9 (-9223372036854775808)), ⟨[⟨[], none⟩], 10, []⟩)
    ∧ ¬ ∃ q r : Int,
        (evalInfixExpression "/" (some (Object.Integer 3 (-9223372036854775808)))
            (some (Object.Integer 4 (-1)))).run ⟨[⟨[], none⟩], 5, []⟩
          = Res.ok (some (Object.Integer 5 q), ⟨[⟨[], none⟩], 6, []⟩)
        ∧ -9223372036854775808 = q * -1 + r ∧ r.natAbs < (-1 : Int).natAbs := by
  refine ⟨⟨_, rfl, rfl⟩, rfl, ?_⟩
  rintro ⟨q, r, h, h1, h2⟩
  have h' : (Res.ok (some (Object.Integer 5 (-9223372036854775808)),
      (⟨[⟨[], none⟩], 6, []⟩ : World)) : Res (Option Object × World))
      = Res.ok (some (Object.Integer 5 q), ⟨[⟨[], none⟩], 6, []⟩) := h
  simp only [Res.ok.injEq, Prod.mk.injEq, Option.some.injEq, Object.Integer.injEq, true_and,
    and_true] at h'
  have h3 : (-1 : Int).natAbs = 1 := rfl
  omega

/-- C15, amended. Integer arithmetic on two integers `a` and `b`, with `a` in the 64-bit
range:
`evalInfixExpression` returns for `+`, `-` and `*` a new `Integer` whose value is in the
64-bit range and congruent to the exact result modulo `2 ^ 64`; for `==`, `!=`, `<` and
`>` the shared `TRUE` or `FALSE` of the exact comparison; and for `/` with `b ≠ 0` a new
`Integer` whose value is the quotient truncated toward zero (the `q` with
`a = q * b + r`, `|r| < |b|`, and `r = 0` or `r` of the sign of `a`), except for
`a = -2 ^ 63` and `b = -1`, where the quotient is not a 64-bit integer and the value is
`-2 ^ 63`. In particular `-7 / 2` is `-3`. -/
theorem evalInfixExpression_integer_arithmetic (x y : Nat) (a b : Int) (w : World)
    (ha : -2 ^ 63 ≤ a ∧ a < 2 ^ 63) :
    (∃ v : Int,
        (evalInfixExpression "+" (some (Object.Integer x a)) (some (Object.Integer y b))).run w
          = Res.ok (some (Object.Integer w.next v), { w with next := w.next + 1 })
        ∧ (-2 ^ 63 ≤ v ∧ v < 2 ^ 63) ∧ (2 ^ 64 : Int) ∣ v - (a + b))
    ∧ (∃ v : Int,
        (evalInfixExpression "-" (some (Object.Integer x a)) (some (Object.Integer y b))).run w
          = Res.ok (some (Object.Integer w.next v), { w with next := w.next + 1 })
        ∧ (-2 ^ 63 ≤ v ∧ v < 2 ^ 63) ∧ (2 ^ 64 : Int) ∣ v - (a - b))
    ∧ (∃ v : Int,
        (evalInfixExpression "*" (some (Object.Integer x a)) (some (Object.Integer y b))).run w
          = Res.ok (some (Object.Integer w.next v), { w with next := w.next + 1 })
        ∧ (-2 ^ 63 ≤ v ∧ v < 2 ^ 63) ∧ (2 ^ 64 : Int) ∣ v - a * b)
    ∧ (evalInfixExpression "==" (some (Object.Integer x a)) (some (Object.Integer y b))).run w
        = Res.ok (some (if a = b then TRUE else FALSE), w)
    ∧ (evalInfixExpression "!=" (some (Object.Integer x a)) (some (Object.Integer y b))).run w
        = Res.ok (some (if a = b then FALSE else TRUE), w)
    ∧ (evalInfixExpression "<" (some (Object.Integer x a)) (some (Object.Integer y b))).run w
        = Res.ok (some (if a < b then TRUE else FALSE), w)
    ∧ (evalInfixExpression ">" (some (Object.Integer x a)) (some (Object.Integer y b))).run w
        = Res.ok (some (if a > b then TRUE else FALSE), w)
    ∧ (b ≠ 0 → ¬ (a = -2 ^ 63 ∧ b = -1) → ∃ q r : Int,
        (evalInfixExpression "/" (some (Object.Integer x a)) (some (Object.Integer y b))).run w
          = Res.ok (some (Object.Integer w.next q), { w with next := w.next + 1 })
        ∧ a = q * b + r ∧ r.natAbs < b.natAbs ∧ (r = 0 ∨ Int.sign r = Int.sign a))
    ∧ (a = -2 ^ 63 → b = -1 →
        (evalInfixExpression "/" (some (Object.Integer x a)) (some (Object.Integer y b))).run w
          = Res.ok (some (Object.Integer w.next (-2 ^ 63)), { w with next := w.next + 1 }))
    ∧ (evalInfixExpression "/" (some (Object.Integer x (-7))) (some (Object.Integer y 2))).run w
        = Res.ok (some (Object.Integer w.next (-3)), { w with next := w.next + 1 }) := by
  refine ⟨⟨_, rfl, wrap64_range _, wrap64_congr _⟩, ⟨_, rfl, wrap64_range _, wrap64_congr _⟩,
    ⟨_, rfl, wrap64_range _, wrap64_congr _⟩, ?_, ?_, ?_, ?_, ?_, ?_, rfl⟩
  · show Res.ok (some (nativeBoolToBooleanObject (decide (a = b))), w) = _
    by_cases h : a = b <;> simp [nativeBoolToBooleanObject, h]
  · show Res.ok (some (nativeBoolToBooleanObject (decide (a ≠ b))), w) = _
    by_cases h : a = b <;> simp [nativeBoolToBooleanObject, h]
  · show Res.ok (some (nativeBoolToBooleanObject (decide (a < b))), w) = _
    by_cases h : a < b <;> simp [nativeBoolToBooleanObject, h]
  · show Res.ok (some (nativeBoolToBooleanObject (decide (a > b))), w) = _
    by_cases h : a > b <;> simp [nativeBoolToBooleanObject, h]
  · intro hb0 hx
    refine ⟨Int.tdiv a b, Int.tmod a b, ?_, ?_, (tmod_facts a b hb0).1, (tmod_facts a b hb0).2⟩
    · rw [evalInfixExpression_slash x y a b w hb0, wrap64_of_range _ (tdiv_range a b ha hb0 hx)]
    · exact (Int.tdiv_add_tmod' a b).symm
  · intro h1 h2
    rw [evalInfixExpression_slash x y a b w (by omega), h1, h2]
    rfl

/-- Witness of C15: `-7 / 2` with the operands at the addresses 3 and 4. -/
theorem evalInfixExpression_integer_arithmetic_witness :
    ∃ q r : Int,
      (evalInfixExpression "/" (some (Object.Integer 3 (-7))) (some (Object.Integer 4 2))).run
          ⟨[⟨[], none⟩], 5, []⟩
        = Res.ok (some (Object.Integer 5 q), ⟨[⟨[], none⟩], 6, []⟩)
      ∧ -7 = q * 2 + r ∧ r.natAbs < (2 : Int).natAbs ∧ (r = 0 ∨ Int.sign r = Int.sign (-7)) :=
  (evalInfixExpression_integer_arithmetic 3 4 (-7) 2 ⟨[⟨[], none⟩], 5, []⟩
    (by decide)).2.2.2.2.2.2.2.1 (by decide) (by decide)

/-! ### Hash literals and their lookup -/

theorem find_replace {α β : Type} [DecidableEq α] (l : List (α × β)) (k k2 : α) (p : β) :
    (l.map (fun kv => if kv.1 == k then (k, p) else kv)).find? (fun kv => kv.1 == k2)
      = if k2 = k then (if l.any (fun kv => kv.1 == k) then some (k, p) else none)
        else l.find? (fun kv => kv.1 == k2) := by
  induction l with
  | nil => simp
  | cons x xs ih =>
    simp only [List.map_cons, List.find?_cons, List.any_cons, ih]
    by_cases hx : x.1 = k
    · have b1 : (x.1 == k) = true := by simpa using hx
      by_cases hk : k2 = k
      · subst hk; simp [b1]
      · have b2 : (k == k2) = false := by simpa using fun h => hk h.symm
        have b3 : (x.1 == k2) = false := by rw [hx]; exact b2
        simp [b1, b2, b3, hk]
    · have b1 : (x.1 == k) = false := by simpa using hx
      by_cases hk : k2 = k
      · subst hk
        simp only [b1, Bool.false_or, if_true, Bool.false_eq_true, if_false]
      · simp [b1, hk]

/-- Reading a map after an assignment: the assigned pair under the assigned key, the
former entry under another key. -/
theorem hashGet_hashSet (h : List (HashKey × (Option Object × Option Object)))
    (k k2 : HashKey) (p : Option Object × Option Object) :
    hashGet (hashSet h k p) k2 = if k2 = k then some p else hashGet h k2 := by
  unfold hashGet hashSet
  by_cases ha : h.any (fun kv => kv.1 == k) = true
  · rw [if_pos ha, find_replace, ha]
    by_cases hk : k2 = k <;> simp [hk]
  · rw [if_neg ha, List.find?_append]
    have hn : h.find? (fun kv => kv.1 == k) = none := by
      simp only [List.any_eq_true, not_exists, not_and] at ha
      simp only [List.find?_eq_none]
      intro x hx; exact ha x hx
    by_cases hk : k2 = k
    · subst hk; simp [hn]
    · have b2 : (k == k2) = false := by simpa using fun h => hk h.symm
      simp [hk, b2]

/-- The map after the assignments of the entries `es` in turn, starting from `acc`. -/
theorem hashGet_foldl_miss (es : List (HashKey × (Option Object × Option Object)))
    (acc : List (HashKey × (Option Object × Option Object))) (k : HashKey)
    (h : k ∉ es.map (fun e => e.1)) :
    hashGet (es.foldl (fun m e => hashSet m e.1 e.2) acc) k = hashGet acc k := by
  induction es generalizing acc with
  | nil => rfl
  | cons x xs ih =>
    simp only [List.map_cons, List.mem_cons, not_or] at h
    rw [List.foldl_cons, ih _ h.2, hashGet_hashSet, if_neg h.1]

theorem hashGet_foldl_hit (es : List (HashKey × (Option Object × Option Object)))
    (acc : List (HashKey × (Option Object × Option Object)))
    (e : HashKey × (Option Object × Option Object))
    (hnd : (es.map (fun e => e.1)).Nodup) (he : e ∈ es) :
    hashGet (es.foldl (fun m e => hashSet m e.1 e.2) acc) e.1 = some e.2 := by
  induction es generalizing acc with
  | nil => simp at he
  | cons x xs ih =>
    simp only [List.map_cons, List.nodup_cons] at hnd
    rw [List.foldl_cons]
    rcases List.mem_cons.1 he with hx | hx
    · subst hx
      rw [hashGet_foldl_miss _ _ _ hnd.1, hashGet_hashSet, if_pos rfl]
    · exact ih _ hnd.2 hx

theorem isError_of_hashKeyOf (ext : Externals) (k : Object) (hk : HashKey)
    (h : hashKeyOf ext k = some hk) : isError (some k) = false := by
  cases k <;> first | rfl | simp [hashKeyOf] at h

theorem sameContent_hashKeyOf (ext : Externals) (x y : Object) (h : sameContent x y = true) :
    hashKeyOf ext x = hashKeyOf ext y := by
  cases x <;> cases y <;> simp only [sameContent, beq_iff_eq, Bool.false_eq_true] at h
  all_goals simp only [hashKeyOf, h]

theorem evalHashLiteralLoop_pairs (ext : Externals)
    (ev : Node → Nat → Eff World (Option Object)) (env : Nat)
    (pairs : List (Option Expression × Option Expression)) (w w1 : World)
    (es : List (HashKey × (Option Object × Option Object)))
    (h : EvaluatesPairs ext ev env pairs w es w1)
    (acc : List (HashKey × (Option Object × Option Object))) :
    (evalHashLiteralLoop ext ev env pairs acc).run w
      = Res.ok (Sum.inl (es.foldl (fun m e => hashSet m e.1 e.2) acc), w1) := by
  induction h generalizing acc with
  | nil w => rfl
  | cons k v rest w w1 w2 w3 keyObj hashed value es hk hh hv hve _ ih =>
    rw [evalHashLiteralLoop, run_bind_ok _ _ _ _ _ hk]
    simp only [isError_of_hashKeyOf ext keyObj hashed hh, hh, Bool.false_eq_true, if_false]
    rw [run_bind_ok _ _ _ _ _ hv]
    simp only [hve, Bool.false_eq_true, if_false]
    exact ih _

theorem evalHashLiteral_pairs (ext : Externals) (n env : Nat) (tok : Token)
    (pairs : List (Option Expression × Option Expression)) (w w1 : World)
    (es : List (HashKey × (Option Object × Option Object)))
    (h : EvaluatesPairs ext (Eval ext n) env pairs w es w1) :
    (Eval ext (n + 2) (Node.Expression (Expression.HashLiteral tok pairs)) env).run w
      = Res.ok (some (Object.Hash w1.next (es.foldl (fun m e => hashSet m e.1 e.2) [])),
          { w1 with next := w1.next + 1 }) := by
  show (evalHashLiteralLoop ext (Eval ext n) env pairs [] >>= _).run w = _
  rw [run_bind_ok _ _ _ _ _ (evalHashLiteralLoop_pairs ext _ env pairs w w1 es h [])]
  rfl

theorem evalIndexExpession_hash (ext : Externals) (a : Nat)
    (pairs : List (HashKey × (Option Object × Option Object))) (idx : Object) :
    evalIndexExpession ext (some (Object.Hash a pairs)) (some idx)
      = evalHashIndexExpression ext pairs (some idx) := by
  cases idx <;> rfl

theorem Eval_index_succ (ext : Externals) (n : Nat) (t : Token)
    (left index : Option Expression) (env : Nat) :
    Eval ext (n + 1) (Node.Expression (Expression.IndexExpression t left index)) env = (do
      let l ← Eval ext n (nodeOfExpr left) env
      if isError l then pure l
      else do
        let idx ← Eval ext n (nodeOfExpr index) env
        if isError idx then pure idx
        else evalIndexExpession ext l idx) := rfl

/-- An expression statement `L[I]` whose two operands evaluate to values that are not
an `Error`. -/
theorem eval_index_statement (ext : Externals) (m env : Nat) (tok : Token)
    (L I : Option Expression) (w w1 w2 : World) (l idx : Option Object)
    (hl : (Eval ext m (nodeOfExpr L) env).run w = Res.ok (l, w1)) (hle : isError l = false)
    (hi : (Eval ext m (nodeOfExpr I) env).run w1 = Res.ok (idx, w2))
    (hie : isError idx = false) :
    (Eval ext (m + 2) (Node.Statement (Statement.ExpressionStatement tok (indexExpr L I)))
        env).run w = (evalIndexExpession ext l idx).run w2 := by
  show (Eval ext (m + 1) (Node.Expression
    (Expression.IndexExpression (symbolToken TokenType.LBRACKET) L I)) env).run w = _
  rw [Eval_index_succ, run_bind_ok _ _ _ _ _ hl]
  simp only [hle, Bool.false_eq_true, if_false]
  rw [run_bind_ok _ _ _ _ _ hi]
  simp only [hie, Bool.false_eq_true, if_false]

/-- A program of one statement whose value is neither a `ReturnValue` nor an `Error`. -/
theorem eval_single_statement_program (ext : Externals) (m env : Nat) (s : Statement)
    (w w1 : World) (r : Option Object)
    (h : (Eval ext m (Node.Statement s) env).run w = Res.ok (r, w1))
    (hr : isReturnOrError r = false) :
    (Eval ext (m + 2) (Node.Program ⟨[s]⟩) env).run w = Res.ok (r, w1) := by
  show (evalProgramLoop (Eval ext m) env [s] none).run w = _
  rw [evalProgramLoop_step_through _ _ _ _ _ _ _ _ h hr]
  rfl

/-- The program `{s: 1, t: 2}[s]` evaluates to the value stored last under the
`HashKey` of `s`: to 2 when the digests of the two strings are the same, to 1 when they
differ. -/
theorem twoEntryLookup_run (ext : Externals) (s t : String) (m : Nat) :
    (Eval ext (m + 7) (Node.Program (twoEntryLookup s t)) 0).run World.init
      = Res.ok (if ext.hashString s % 2 ^ 64 = ext.hashString t % 2 ^ 64
          then some (Object.Integer 6 2) else some (Object.Integer 4 1),
          ⟨[⟨[], none⟩], 9, []⟩) := by
  have hp : EvaluatesPairs ext (Eval ext (m + 1)) 0
      [(stringExpr s, intExpr "1" 1), (stringExpr t, intExpr "2" 2)] World.init
      [(⟨STRING_OBJ, ext.hashString s % 2 ^ 64⟩,
          (some (Object.String 3 s), some (Object.Integer 4 1))),
        (⟨STRING_OBJ, ext.hashString t % 2 ^ 64⟩,
          (some (Object.String 5 t), some (Object.Integer 6 2)))]
      ⟨[⟨[], none⟩], 7, []⟩ :=
    EvaluatesPairs.cons _ _ _ _ ⟨[⟨[], none⟩], 4, []⟩ ⟨[⟨[], none⟩], 5, []⟩ _ _ _ _ _
      rfl rfl rfl rfl
      (EvaluatesPairs.cons _ _ _ _ ⟨[⟨[], none⟩], 6, []⟩ ⟨[⟨[], none⟩], 7, []⟩ _ _ _ _ _
        rfl rfl rfl rfl (EvaluatesPairs.nil _))
  have hl : (Eval ext (m + 3) (nodeOfExpr (twoEntryHash s t)) 0).run World.init
      = Res.ok (some (Object.Hash 7
          (hashSet (hashSet [] ⟨STRING_OBJ, ext.hashString s % 2 ^ 64⟩
              (some (Object.String 3 s), some (Object.Integer 4 1)))
            ⟨STRING_OBJ, ext.hashString t % 2 ^ 64⟩
            (some (Object.String 5 t), some (Object.Integer 6 2)))),
          ⟨[⟨[], none⟩], 8, []⟩) :=
    evalHashLiteral_pairs ext (m + 1) 0 (symbolToken TokenType.LBRACE) _ _ _ _ hp
  have hi : (Eval ext (m + 3) (nodeOfExpr (stringExpr s)) 0).run ⟨[⟨[], none⟩], 8, []⟩
      = Res.ok (some (Object.String 8 s), ⟨[⟨[], none⟩], 9, []⟩) := rfl
  have hs := eval_index_statement ext (m + 3) 0 (symbolToken TokenType.LBRACE)
    (twoEntryHash s t) (stringExpr s) _ _ _ _ _ hl rfl hi rfl
  rw [evalIndexExpession_hash] at hs
  have hrun : (evalHashIndexExpression ext
      (hashSet (hashSet [] ⟨STRING_OBJ, ext.hashString s % 2 ^ 64⟩
          (some (Object.String 3 s), some (Object.Integer 4 1)))
        ⟨STRING_OBJ, ext.hashString t % 2 ^ 64⟩
        (some (Object.String 5 t), some (Object.Integer 6 2)))
      (some (Object.String 8 s))).run ⟨[⟨[], none⟩], 9, []⟩
      = Res.ok (if ext.hashString s % 2 ^ 64 = ext.hashString t % 2 ^ 64
          then some (Object.Integer 6 2) else some (Object.Integer 4 1),
          ⟨[⟨[], none⟩], 9, []⟩) := by
    simp only [evalHashIndexExpression, hashKeyOf, hashGet_hashSet]
    by_cases hc : ext.hashString s % 2 ^ 64 = ext.hashString t % 2 ^ 64
    · simp only [hc, if_true]; rfl
    · have hne : ¬ (⟨STRING_OBJ, ext.hashString s % 2 ^ 64⟩ : HashKey)
          = ⟨STRING_OBJ, ext.hashString t % 2 ^ 64⟩ := by
        intro h; exact hc (HashKey.mk.inj h).2
      simp only [hc, hne, if_false, if_true]; rfl
  rw [hrun] at hs
  refine eval_single_statement_program ext (m + 5) 0 _ _ _ _ hs ?_
  by_cases hc : ext.hashString s % 2 ^ 64 = ext.hashString t % 2 ^ 64
  · rw [if_pos hc]; rfl
  · rw [if_neg hc]; rfl

/-! ### Hash keys -/

/-- No function from strings to 64-bit digests is injective: two strings of different
length among the `2 ^ 64 + 1` strings `""`, `"a"`, `"aa"`, ... have the same digest. -/
theorem digest_collision (f : String → Nat) :
    ∃ s t : String, s ≠ t ∧ f s % 2 ^ 64 = f t % 2 ^ 64 := by
  let g : Fin (2 ^ 64 + 1) → Fin (2 ^ 64) :=
    fun i => ⟨f (String.mk (List.replicate i.val 'a')) % 2 ^ 64, Nat.mod_lt _ (by positivity)⟩
  obtain ⟨i, j, hij, hg⟩ := Fintype.exists_ne_map_eq_of_card_lt g
    (by rw [Fintype.card_fin, Fintype.card_fin]; exact Nat.lt_succ_self _)
  refine ⟨_, _, ?_, congrArg Fin.val hg⟩
  intro h
  apply hij
  have hl := congrArg String.length h
  simp only [String.length, List.length_replicate] at hl
  exact Fin.ext hl

/-- C17, as stated: whatever the 64-bit digest of strings is, two `String` values of
different content have the same `HashKey`. -/
theorem hashKey_of_strings_collides :
    ¬ ∃ ext : Externals, ∀ (a b : Nat) (s t : String), s ≠ t →
        hashKeyOf ext (Object.String a s) ≠ hashKeyOf ext (Object.String b t) := by
  rintro ⟨ext, h⟩
  obtain ⟨s, t, hst, hd⟩ := digest_collision ext.hashString
  exact h 0 0 s t hst (by simp only [hashKeyOf, hd])

/-- C17, amended. Two values of the same hashable type with the same content have the
same `HashKey`, at whatever addresses they are. Two `Boolean` values of different
content, and two `Integer` values of different content in the 64-bit range, have
different keys. Two `String` values have the same key exactly when their 64-bit digests
are the same, and values of two different hashable types never have the same key. -/
theorem hashKey_content (ext : Externals) :
    (∀ (a b : Nat) (s : String),
        hashKeyOf ext (Object.String a s) = hashKeyOf ext (Object.String b s))
    ∧ (∀ (a b : Nat) (v : Bool),
        hashKeyOf ext (Object.Boolean a v) = hashKeyOf ext (Object.Boolean b v))
    ∧ (∀ (a b : Nat) (v : Int),
        hashKeyOf ext (Object.Integer a v) = hashKeyOf ext (Object.Integer b v))
    ∧ (∀ (a b : Nat) (u v : Bool), u ≠ v →
        hashKeyOf ext (Object.Boolean a u) ≠ hashKeyOf ext (Object.Boolean b v))
    ∧ (∀ (a b : Nat) (u v : Int), -2 ^ 63 ≤ u ∧ u < 2 ^ 63 → -2 ^ 63 ≤ v ∧ v < 2 ^ 63 →
        u ≠ v → hashKeyOf ext (Object.Integer a u) ≠ hashKeyOf ext (Object.Integer b v))
    ∧ (∀ (a b : Nat) (s t : String),
        hashKeyOf ext (Object.String a s) = hashKeyOf ext (Object.String b t)
          ↔ ext.hashString s % 2 ^ 64 = ext.hashString t % 2 ^ 64)
    ∧ (∀ (a b c : Nat) (u : Int) (v : Bool) (s : String),
        hashKeyOf ext (Object.Integer a u) ≠ hashKeyOf ext (Object.Boolean b v)
        ∧ hashKeyOf ext (Object.Integer a u) ≠ hashKeyOf ext (Object.String c s)
        ∧ hashKeyOf ext (Object.Boolean b v) ≠ hashKeyOf ext (Object.String c s)) := by
  refine ⟨fun _ _ _ => rfl, fun _ _ _ => rfl, fun _ _ _ => rfl, ?_, ?_, ?_, ?_⟩
  · intro a b u v huv h
    cases u <;> cases v <;> simp [hashKeyOf] at h huv
  · intro a b u v hu hv huv h
    simp only [hashKeyOf, Option.some.injEq, HashKey.mk.injEq, true_and] at h
    apply huv
    have h1 := congrArg (fun n : Nat => (n : Int)) h
    simp only [Int.toNat_of_nonneg (Int.emod_nonneg _ (by decide : (2 ^ 64 : Int) ≠ 0))] at h1
    omega
  · intro a b s t
    simp only [hashKeyOf, Option.some.injEq, HashKey.mk.injEq, true_and]
  · intro a b c u v s
    refine ⟨?_, ?_, ?_⟩ <;>
      simp [hashKeyOf, INTEGER_OBJ, BOOLEAN_OBJ, STRING_OBJ]

/-- Witness of C17: the keys of the integers 1 and 2 differ. -/
theorem hashKey_content_witness :
    hashKeyOf noExternals (Object.Integer 3 1) ≠ hashKeyOf noExternals (Object.Integer 4 2) :=
  (hashKey_content noExternals).2.2.2.2.1 3 4 1 2 (by decide) (by decide) (by decide)

theorem evaluatesPairs_hashed (ext : Externals)
    (ev : Node → Nat → Eff World (Option Object)) (env : Nat)
    (pairs : List (Option Expression × Option Expression)) (w w1 : World)
    (es : List (HashKey × (Option Object × Option Object)))
    (h : EvaluatesPairs ext ev env pairs w es w1) :
    ∀ e ∈ es, ∃ keyObj, e.2.1 = some keyObj ∧ hashKeyOf ext keyObj = some e.1 := by
  induction h with
  | nil w => intro e he; simp at he
  | cons k v rest w w1 w2 w3 keyObj hashed value es hk hh hv hve _ ih =>
    intro e he
    rcases List.mem_cons.1 he with hx | hx
    · subst hx; exact ⟨keyObj, rfl, hh⟩
    · exact ih e hx

/-- C16, as stated: whatever the 64-bit digest of strings is, there are two different
strings `s` and `t` for which the program `{s: 1, t: 2}[s]`, a lookup in a hash literal
with two logically distinct keys, does not evaluate to 1. -/
theorem hash_lookup_collides :
    ¬ ∃ ext : Externals, ∀ s t : String, s ≠ t → ∃ (a : Nat) (w : World),
        (Eval ext 7 (Node.Program (twoEntryLookup s t)) 0).run World.init
          = Res.ok (some (Object.Integer a 1), w) := by
  rintro ⟨ext, h⟩
  obtain ⟨s, t, hst, hd⟩ := digest_collision ext.hashString
  obtain ⟨a, w, hr⟩ := h s t hst
  have h2 : (Eval ext 7 (Node.Program (twoEntryLookup s t)) 0).run World.init = _ :=
    twoEntryLookup_run ext s t 0
  rw [if_pos hd, hr] at h2
  simp at h2

/-- C16, amended. Hash literal then lookup. When the keys of a hash literal evaluate to
hashable values whose `HashKey`s are pairwise different, and no value evaluates to an
`Error`, the literal evaluates to a new `Hash` such that indexing it with a value of the
type and content of a key returns the value of that key's entry, indexing it with a
hashable value whose `HashKey` is that of none of the keys returns the shared `NULL`, and
indexing it with a value that is not hashable returns the `Error` with the message
`unusable as hash key: <type>`. The tokens of `{s: 1, t: 2}[s]` parse without error, and
the program evaluates to 1 when the digests of `s` and `t` differ, as for
`{"one": 1, "two": 2}["one"]` with a digest that tells `one` from `two`. -/
theorem evalHashLiteral_lookup (ext : Externals) (n env : Nat) (tok : Token)
    (pairs : List (Option Expression × Option Expression)) (w w1 : World)
    (es : List (HashKey × (Option Object × Option Object)))
    (hev : EvaluatesPairs ext (Eval ext n) env pairs w es w1)
    (hnd : (es.map (fun e => e.1)).Nodup) :
    (∃ h : List (HashKey × (Option Object × Option Object)),
      (Eval ext (n + 2) (Node.Expression (Expression.HashLiteral tok pairs)) env).run w
          = Res.ok (some (Object.Hash w1.next h), { w1 with next := w1.next + 1 })
      ∧ (∀ (hashed : HashKey) (key : Object) (value : Option Object),
          (hashed, (some key, value)) ∈ es → ∀ (idx : Object) (a : Nat) (w2 : World),
          sameContent idx key = true →
          (evalIndexExpession ext (some (Object.Hash a h)) (some idx)).run w2
            = Res.ok (value, w2))
      ∧ (∀ (idx : Object) (hashed : HashKey) (a : Nat) (w2 : World),
          hashKeyOf ext idx = some hashed → hashed ∉ es.map (fun e => e.1) →
          (evalIndexExpession ext (some (Object.Hash a h)) (some idx)).run w2
            = Res.ok (some NULL, w2))
      ∧ (∀ (idx : Object) (a : Nat) (w2 : World), hashKeyOf ext idx = none →
          (evalIndexExpession ext (some (Object.Hash a h)) (some idx)).run w2
            = Res.ok (some (Object.Error w2.next
                ("unusable as hash key: " ++ objectType idx)),
                { w2 with next := w2.next + 1 })))
    ∧ (∀ s t : String, ∃ p,
        ParseProgram (twoEntryLookupTokens s t) = some (twoEntryLookup s t, p)
          ∧ p.Errors = [])
    ∧ (∀ (s t : String) (m : Nat),
        ext.hashString s % 2 ^ 64 ≠ ext.hashString t % 2 ^ 64 →
        (Eval ext (m + 7) (Node.Program (twoEntryLookup s t)) 0).run World.init
          = Res.ok (some (Object.Integer 4 1), ⟨[⟨[], none⟩], 9, []⟩)) := by
  refine ⟨⟨_, evalHashLiteral_pairs ext n env tok pairs w w1 es hev, ?_, ?_, ?_⟩,
    fun _ _ => ⟨_, rfl, rfl⟩, ?_⟩
  · intro hashed key value hmem idx a w2 hsc
    obtain ⟨keyObj, hk1, hk2⟩ := evaluatesPairs_hashed ext _ env pairs w w1 es hev _ hmem
    have hkey : key = keyObj := Option.some.inj hk1
    subst hkey
    have hidx : hashKeyOf ext idx = some hashed := by
      rw [sameContent_hashKeyOf ext idx key hsc]; exact hk2
    rw [evalIndexExpession_hash]
    simp only [evalHashIndexExpression, hidx]
    have hg := hashGet_foldl_hit es [] _ hnd hmem
    simp only at hg
    rw [hg]
    rfl
  · intro idx hashed a w2 hidx hnot
    rw [evalIndexExpession_hash]
    simp only [evalHashIndexExpression, hidx]
    rw [hashGet_foldl_miss es [] hashed hnot]
    rfl
  · intro idx a w2 hidx
    rw [evalIndexExpession_hash]
    simp only [evalHashIndexExpression, hidx]
    rfl
  · intro s t m hne
    rw [twoEntryLookup_run, if_neg hne]

/-- Witness of C16: `{"one": 1, "two": 2}["one"]`, with the sum of the character codes
as the digest of a string. -/
theorem evalHashLiteral_lookup_witness :
    ∃ h : List (HashKey × (Option Object × Option Object)),
      (Eval sumHashed 3 (nodeOfExpr (twoEntryHash "one" "two")) 0).run World.init
        = Res.ok (some (Object.Hash 7 h), ⟨[⟨[], none⟩], 8, []⟩)
      ∧ (evalIndexExpession sumHashed (some (Object.Hash 7 h))
          (some (Object.String 8 "one"))).run ⟨[⟨[], none⟩], 9, []⟩
        = Res.ok (some (Object.Integer 4 1), ⟨[⟨[], none⟩], 9, []⟩) :=
  let ⟨h, h1, h2, _⟩ := (evalHashLiteral_lookup sumHashed 1 0 (symbolToken TokenType.LBRACE)
    [(stringExpr "one", intExpr "1" 1), (stringExpr "two", intExpr "2" 2)] World.init
    ⟨[⟨[], none⟩], 7, []⟩
    [(⟨STRING_OBJ, 322⟩, (some (Object.String 3 "one"), some (Object.Integer 4 1))),
      (⟨STRING_OBJ, 346⟩, (some (Object.String 5 "two"), some (Object.Integer 6 2)))]
    (EvaluatesPairs.cons _ _ _ _ ⟨[⟨[], none⟩], 4, []⟩ ⟨[⟨[], none⟩], 5, []⟩ _ _ _ _ _
      rfl rfl rfl rfl
      (EvaluatesPairs.cons _ _ _ _ ⟨[⟨[], none⟩], 6, []⟩ ⟨[⟨[], none⟩], 7, []⟩ _ _ _ _ _
        rfl rfl rfl rfl (EvaluatesPairs.nil _)))
    (by decide)).1
  ⟨h, h1, h2 ⟨STRING_OBJ, 322⟩ (Object.String 3 "one") (some (Object.Integer 4 1))
    (List.mem_cons_self _ _) (Object.String 8 "one") 7 ⟨[⟨[], none⟩], 9, []⟩ rfl⟩

/-! ### The quote path of a call -/

/-- C18. The quote path is taken on the `TokenLiteral()` of the callee, whatever the kind
of the callee: a call whose callee is a `StringLiteral` with the text `quote` returns
`quote(c.Arguments[0], env)` without evaluating the callee or the argument, whatever the
native `quote` and the environment are. The tokens of `"quote"(1)` parse without error
to such a call, whose evaluation is that of `quote` on the argument `1`; the same call
with the string `quoted` as callee is evaluated as an ordinary call and yields the
`Error` with the message `not a function: STRING`. -/
theorem quote_path_taken_for_string_callee (ext : Externals) (m env : Nat) :
    (∀ (t : Token) (k : TokenType) (v : String) (arg : Option Expression)
        (args : List (Option Expression)),
        Eval ext (m + 1) (Node.Expression (Expression.CallExpression t
            (some (Expression.StringLiteral ⟨k, "quote"⟩ v)) (arg :: args))) env
          = ext.quote (Eval ext m) arg env)
    ∧ (∃ p, ParseProgram quoteStringCallTokens = some (quoteStringCallProgram, p)
        ∧ p.Errors = [])
    ∧ Eval ext (m + 4) (Node.Program quoteStringCallProgram) env
        = evalProgramLoop (Eval ext (m + 2)) env quoteStringCallProgram.Statements none
    ∧ Eval ext (m + 2) (Node.Statement (Statement.ExpressionStatement (stringToken "quote")
          (callExpr (stringExpr "quote") [intExpr "1" 1]))) env
        = ext.quote (Eval ext m) (intExpr "1" 1) env
    ∧ (Eval ext (m + 6) (Node.Program otherStringCallProgram) 0).run World.init
        = Res.ok (some (Object.Error 5 "not a function: STRING"), ⟨[⟨[], none⟩], 6, []⟩) :=
  ⟨fun _ _ _ _ _ => rfl, ⟨_, rfl, rfl⟩, rfl, rfl, rfl⟩

/-! ### The canonical string of a hash literal -/

/-- C20. `HashLiteral.String` closes the entries with `)`, not with the closing brace:
it is the opening brace, the entries `<key>:<value>` separated by `,`, and the character
`)`. The empty hash literal, which the tokens of the two braces parse to without error,
prints as the opening brace followed by `)`, and the literal with the one entry of key
`one` and value `1` as `one:1` between the opening brace and `)`. -/
theorem hashLiteral_String_closes_with_paren (tok : Token)
    (pairs : List (Option Expression × Option Expression)) :
    Expression.String (Expression.HashLiteral tok pairs)
      = (pairStrings pairs).map (fun entries => "\x7b" ++ join entries "," ++ ")")
    ∧ Expression.String (Expression.HashLiteral tok []) = some "\x7b)"
    ∧ (∃ p, ParseProgram emptyHashTokens = some (emptyHashProgram, p) ∧ p.Errors = [])
    ∧ Program.String emptyHashProgram = some "\x7b)"
    ∧ Expression.String (Expression.HashLiteral tok [(stringExpr "one", intExpr "1" 1)])
        = some "\x7bone:1)" := by
  refine ⟨?_, rfl, ⟨_, rfl, rfl⟩, rfl, rfl⟩
  show (do
    let entries ← pairStrings pairs
    pure ("\x7b" ++ join entries "," ++ ")")) = _
  cases pairStrings pairs <;> rfl

/-! ### Function application -/

/-- Reading a store after an assignment. -/
theorem storeGet_storeSet (st : List (String × Option Object)) (n n2 : String)
    (v : Option Object) :
    storeGet (storeSet st n v) n2 = if n2 = n then some v else storeGet st n2 := by
  unfold storeGet storeSet
  by_cases ha : st.any (fun kv => kv.1 == n) = true
  · rw [if_pos ha, find_replace, ha]
    by_cases hk : n2 = n <;> simp [hk]
  · rw [if_neg ha, List.find?_append]
    have hn : st.find? (fun kv => kv.1 == n) = none := by
      simp only [List.any_eq_true, not_exists, not_and] at ha
      simp only [List.find?_eq_none]
      intro x hx; exact ha x hx
    by_cases hk : n2 = n
    · subst hk; simp [hn]
    · have b2 : (n == n2) = false := by simpa using fun h => hk h.symm
      simp [hk, b2]

theorem storeGet_boundStore_miss (params : List Identifier) (args : List (Option Object))
    (st : List (String × Option Object)) (name : String)
    (h : name ∉ params.map (fun p => p.Value)) :
    storeGet (boundStore st params args) name = storeGet st name := by
  induction params generalizing args st with
  | nil => rfl
  | cons p ps ih =>
    simp only [List.map_cons, List.mem_cons, not_or] at h
    cases args with
    | nil => rfl
    | cons a as =>
      show storeGet (boundStore (storeSet st p.Value a) ps as) name = _
      rw [ih _ _ h.2, storeGet_storeSet, if_neg h.1]

theorem storeGet_boundStore_hit (params : List Identifier) (args : List (Option Object))
    (st : List (String × Option Object))
    (i : Nat) (hp : i < params.length) (ha : i < args.length)
    (hlast : ∀ (j : Nat) (hj : j < params.length), i < j →
      (params[j]).Value ≠ (params[i]).Value) :
    storeGet (boundStore st params args) (params[i]).Value = some args[i] := by
  induction params generalizing args st i with
  | nil => simp at hp
  | cons p ps ih =>
    cases args with
    | nil => simp at ha
    | cons a as =>
      show storeGet (boundStore (storeSet st p.Value a) ps as) _ = _
      cases i with
      | zero =>
        simp only [List.getElem_cons_zero]
        have hnot : p.Value ∉ ps.map (fun q => q.Value) := by
          intro hmem
          obtain ⟨q, hq, hqv⟩ := List.mem_map.1 hmem
          obtain ⟨j, hj, hjq⟩ := List.mem_iff_getElem.1 hq
          have := hlast (j + 1) (by simpa using hj) (Nat.succ_pos j)
          simp only [List.getElem_cons_succ, List.getElem_cons_zero, hjq] at this
          exact this hqv
        rw [storeGet_boundStore_miss _ _ _ _ hnot, storeGet_storeSet, if_pos rfl]
      | succ k =>
        simp only [List.getElem_cons_succ]
        refine ih as _ k (by simpa using hp) (by simpa using ha) ?_
        intro j hj hkj
        have := hlast (j + 1) (by simpa using hj) (Nat.succ_lt_succ hkj)
        simpa only [List.getElem_cons_succ] using this

theorem bindParameters_run (params : List Identifier) (args : List (Option Object))
    (envs : List Environment) (st : List (String × Option Object)) (outer : Option Nat)
    (nx : Nat) (out : List String) (hlen : params.length ≤ args.length) :
    (bindParameters envs.length params args).run ⟨envs ++ [⟨st, outer⟩], nx, out⟩
      = Res.ok ((), ⟨envs ++ [⟨boundStore st params args, outer⟩], nx, out⟩) := by
  induction params generalizing args st with
  | nil => rfl
  | cons p ps ih =>
    cases args with
    | nil => simp at hlen
    | cons a as =>
      have hset : (envSet envs.length p.Value a).run ⟨envs ++ [⟨st, outer⟩], nx, out⟩
          = Res.ok ((), ⟨envs ++ [⟨storeSet st p.Value a, outer⟩], nx, out⟩) := by
        unfold envSet
        simp [StateT.run]
      rw [bindParameters, run_bind_ok _ _ _ _ _ hset]
      exact ih as _ (by simpa using hlen)

theorem envGetLoop_append (envs extra : List Environment) (fuel env : Nat) (name : String)
    (r : Option (Option Object)) (h : envGetLoop envs fuel env name = Res.ok r) :
    envGetLoop (envs ++ extra) fuel env name = Res.ok r := by
  induction fuel generalizing env with
  | zero => simp [envGetLoop] at h
  | succ k ih =>
    unfold envGetLoop at h ⊢
    simp only [List.get?_eq_getElem?] at h ⊢
    cases he : envs[env]? with
    | none => rw [he] at h; cases h
    | some e =>
      have hlt : env < envs.length := (List.getElem?_eq_some_iff.1 he).1
      have he2 : (envs ++ extra)[env]? = some e := by
        rw [List.getElem?_append_left hlt, he]
      simp only [he, he2] at h ⊢
      cases hs : storeGet e.store name with
      | some v => simpa [hs] using h
      | none =>
        simp only [hs] at h ⊢
        cases ho : e.outer with
        | none => simpa [ho] using h
        | some o =>
          simp only [ho] at h ⊢
          exact ih o h

theorem extendFunctionEnv_run (params : List Identifier) (E : Nat)
    (args : List (Option Object)) (w : World) (hlen : params.length ≤ args.length) :
    (extendFunctionEnv params E args).run w
      = Res.ok (w.envs.length,
          ⟨w.envs ++ [⟨boundStore [] params args, some E⟩], w.next, w.output⟩) := by
  have h1 : (NewEnclosedEnvironment E).run w
      = Res.ok (w.envs.length, ⟨w.envs ++ [⟨[], some E⟩], w.next, w.output⟩) := rfl
  unfold extendFunctionEnv
  rw [run_bind_ok _ _ _ _ _ h1,
    run_bind_ok _ _ _ _ _ (bindParameters_run params args w.envs [] (some E) w.next w.output hlen)]
  rfl

theorem envGet_enclosed_hit (envs : List Environment) (st : List (String × Option Object))
    (E nx : Nat) (out : List String) (name : String) (v : Option Object)
    (h : storeGet st name = some v) :
    (envGet envs.length name).run ⟨envs ++ [⟨st, some E⟩], nx, out⟩
      = Res.ok (some v, ⟨envs ++ [⟨st, some E⟩], nx, out⟩) := by
  have hl : envGetLoop (envs ++ [⟨st, some E⟩]) ((envs ++ [Environment.mk st (some E)]).length + 1)
      envs.length name = Res.ok (some v) := by
    unfold envGetLoop
    simp [h]
  unfold envGet
  simp only [StateT.run, hl]

theorem envGet_enclosed_miss (envs : List Environment) (st : List (String × Option Object))
    (E nx : Nat) (out : List String) (name : String) (r : Option (Option Object))
    (h : storeGet st name = none)
    (hE : envGetLoop envs (envs.length + 1) E name = Res.ok r) :
    (envGet envs.length name).run ⟨envs ++ [⟨st, some E⟩], nx, out⟩
      = Res.ok (r, ⟨envs ++ [⟨st, some E⟩], nx, out⟩) := by
  have hl : envGetLoop (envs ++ [⟨st, some E⟩]) ((envs ++ [Environment.mk st (some E)]).length + 1)
      envs.length name = Res.ok r := by
    unfold envGetLoop
    simp only [List.get?_eq_getElem?, List.getElem?_concat_length, h, List.length_append,
      List.length_singleton]
    exact envGetLoop_append envs _ _ E name r hE
  unfold envGet
  simp only [StateT.run, hl]

theorem envGetLoop_of_envGet (E : Nat) (name : String) (w : World)
    (r : Option (Option Object)) (h : (envGet E name).run w = Res.ok (r, w)) :
    envGetLoop w.envs (w.envs.length + 1) E name = Res.ok r := by
  unfold envGet at h
  simp only [StateT.run] at h
  cases hl : envGetLoop w.envs (w.envs.length + 1) E name with
  | ok x =>
    rw [hl] at h
    simp only [Res.ok.injEq, Prod.mk.injEq, and_true] at h
    rw [h]
  | fault => rw [hl] at h; cases h
  | outOfFuel => rw [hl] at h; cases h

/-- C19. Function application is lexically scoped. Applying a `Function` with the
parameters `params`, the body `body` and the captured environment `E` to at least as
many arguments as parameters evaluates the body in a new environment, allocated after
the existing ones and enclosed by `E`, and returns the body's value with one top-level
`ReturnValue` removed. No existing environment is changed by the binding; in the new
environment each parameter is bound to the argument at its position (for a name that
occurs more than once among the parameters, at the last of its positions), and every
other name resolves to what it resolves to in `E`. The caller's environment is not an input of the application. The tokens of
`let newAdder = fn(x) { fn(y) { x + y } }; let addTwo = newAdder(2); addTwo(3)` parse
without error, and the program evaluates to `Integer 5`. -/
theorem applyFunction_lexical_scope (ext : Externals) (n a : Nat) (params : List Identifier)
    (body : Option BlockStatement) (E : Nat) (args : List (Option Object)) (w : World)
    (hlen : params.length ≤ args.length) :
    (∃ w1 : World,
      (extendFunctionEnv params E args).run w = Res.ok (w.envs.length, w1)
      ∧ (applyFunction ext (n + 1) (some (Object.Function a params body E)) args).run w
          = (Eval ext n (nodeOfBlock body) w.envs.length >>=
              fun evaluated => pure (unwrapReturnValue evaluated)).run w1
      ∧ w1.envs.length = w.envs.length + 1 ∧ w1.next = w.next
      ∧ (∀ i : Nat, i < w.envs.length → w1.envs.get? i = w.envs.get? i)
      ∧ (∃ st, w1.envs.get? w.envs.length = some ⟨st, some E⟩)
      ∧ (∀ (i : Nat) (hp : i < params.length) (ha : i < args.length),
          (∀ (j : Nat) (hj : j < params.length), i < j →
            (params[j]).Value ≠ (params[i]).Value) →
          (envGet w.envs.length (params[i]).Value).run w1 = Res.ok (some args[i], w1))
      ∧ (∀ (name : String) (r : Option (Option Object)),
          name ∉ params.map (fun p => p.Value) →
          (envGet E name).run w = Res.ok (r, w) →
          (envGet w.envs.length name).run w1 = Res.ok (r, w1)))
    ∧ (∀ (b : Nat) (v : Option Object),
        unwrapReturnValue (some (Object.ReturnValue b v)) = v)
    ∧ (∀ r : Option Object, (∀ (b : Nat) (v : Option Object),
        r ≠ some (Object.ReturnValue b v)) → unwrapReturnValue r = r)
    ∧ (∃ p, ParseProgram newAdderTokens = some (newAdderProgram, p) ∧ p.Errors = [])
    ∧ (∀ m : Nat, ∃ w2 : World,
        (Eval ext (m + 10) (Node.Program newAdderProgram) 0).run World.init
          = Res.ok (some (Object.Integer 7 5), w2)) := by
  have hx := extendFunctionEnv_run params E args w hlen
  refine ⟨⟨_, hx, ?_, ?_, rfl, ?_, ⟨boundStore [] params args, ?_⟩, ?_, ?_⟩,
    fun _ _ => rfl, ?_, ⟨_, rfl, rfl⟩,
    fun _ => ⟨_, rfl⟩⟩
  · show (extendFunctionEnv params E args >>= _).run w = _
    rw [run_bind_ok _ _ _ _ _ hx]
  · simp
  · intro i hi
    simp only [List.get?_eq_getElem?, List.getElem?_append_left hi]
  · simp only [List.get?_eq_getElem?, List.getElem?_concat_length]
  · intro i hp ha hlast
    exact envGet_enclosed_hit _ _ _ _ _ _ _
      (storeGet_boundStore_hit params args [] i hp ha hlast)
  · intro name r hname hr
    refine envGet_enclosed_miss _ _ _ _ _ _ _ ?_ (envGetLoop_of_envGet E name w r hr)
    rw [storeGet_boundStore_miss _ _ _ _ hname]
    rfl
  · intro r hr
    cases r with
    | none => rfl
    | some o => cases o <;> first | rfl | exact absurd rfl (hr _ _)

/-- Witness of C19: the function `fn(x) { x }` captured in the global environment and
applied to the integer 2 yields the integer 2, in a new environment in which `x` is
bound to it. -/
theorem applyFunction_lexical_scope_witness :
    ∃ w1 : World,
      (extendFunctionEnv [⟨identToken "x", "x"⟩] 0 [some (Object.Integer 4 2)]).run
          ⟨[⟨[], none⟩], 5, []⟩ = Res.ok (1, w1)
      ∧ (envGet 1 "x").run w1 = Res.ok (some (some (Object.Integer 4 2)), w1) :=
  let ⟨w1, h1, _, _, _, _, _, h7, _⟩ := (applyFunction_lexical_scope noExternals 3 3
    [⟨identToken "x", "x"⟩]
    (some (BlockStatement.mk (symbolToken TokenType.LBRACE)
      [Statement.ExpressionStatement (identToken "x") (identExpr "x")]))
    0 [some (Object.Integer 4 2)] ⟨[⟨[], none⟩], 5, []⟩ (by decide)).1
  ⟨w1, h1, h7 0 (by decide) (by decide) (fun j hj hlt => by
    have h1 : j < 1 := hj
    omega)⟩

/-! ### Parameters of function and macro literals -/

/-- C21. `parseFunctionParameters` makes an `Identifier` of whatever token stands at the
place of a parameter. The tokens of `fn(1, 2) { }` parse without any error to a function
literal whose two parameters are `Identifier` nodes with tokens of kind `INT`, and the
tokens of `macro(1) { }` to a macro literal with such a parameter. -/
theorem parameters_need_not_be_identifiers :
    (∃ p, ParseProgram integerParametersTokens = some (integerParametersProgram, p)
        ∧ p.Errors = [])
    ∧ (∃ p, ParseProgram integerMacroParameterTokens
          = some (integerMacroParameterProgram, p) ∧ p.Errors = [])
    ∧ (intToken "1").Kind ≠ TokenType.IDENT :=
  ⟨⟨_, rfl, rfl⟩, ⟨_, rfl, rfl⟩, by decide⟩

/-! ### The value of an out-of-range index -/

/-- C23. The `Null` that an out-of-range index yields is the falsy `NULL`. For an array
with the elements `elements` and an index `i` with `i < 0` or `i ≥ len`,
`evalArrayIndexExpression` returns a value `r` without allocating; `isTruthy r` is false,
so that an if-expression whose condition evaluates to `r` yields the value of its
else-block (the shared `NULL` when it has none); `r` is the shared `NULL`, the very value
a hash miss returns, and `==` on the two yields the shared `TRUE`. The tokens of
`if ([1][5]) { 1 } else { 2 }` parse without error and the program evaluates to 2; the
tokens of `[1][5] == {}[1]` parse without error and the program evaluates to `TRUE`. -/
theorem out_of_range_index_yields_NULL (ext : Externals) (elements : List (Option Object))
    (i : Int) (w : World) (hi : i < 0 ∨ (elements.length : Int) ≤ i) :
    (∃ r : Option Object,
      (evalArrayIndexExpression elements i).run w = Res.ok (r, w)
      ∧ isTruthy r = false
      ∧ r = some NULL
      ∧ (∀ (pairs : List (HashKey × (Option Object × Option Object))) (idx : Object)
          (key : HashKey), hashKeyOf ext idx = some key → hashGet pairs key = none →
          ∃ miss : Option Object,
            (evalHashIndexExpression ext pairs (some idx)).run w = Res.ok (miss, w)
            ∧ miss = r
            ∧ (evalInfixExpression "==" r miss).run w = Res.ok (some TRUE, w))
      ∧ (∀ (n env : Nat) (tok : Token) (cond : Option Expression)
          (consequence alternative : Option BlockStatement) (w0 : World),
          (Eval ext n (nodeOfExpr cond) env).run w0 = Res.ok (r, w) →
          (Eval ext (n + 2)
              (Node.Expression (Expression.IfExpression tok cond consequence alternative))
              env).run w0
            = match alternative with
              | some alt => (Eval ext n (nodeOfBlock (some alt)) env).run w
              | none => Res.ok (some NULL, w)))
    ∧ (∃ p, ParseProgram ifOutOfRangeTokens = some (ifElseProgram oneAtFive, p)
        ∧ p.Errors = [])
    ∧ (∀ m : Nat, (Eval ext (m + 9) (Node.Program (ifElseProgram oneAtFive)) 0).run
        World.init = Res.ok (some (Object.Integer 6 2), ⟨[⟨[], none⟩], 7, []⟩))
    ∧ (∃ p, ParseProgram (outOfRangeEqualsTokens hashMissTokens)
          = some (outOfRangeEqualsMissProgram, p) ∧ p.Errors = [])
    ∧ (∀ m : Nat, (Eval ext (m + 8) (Node.Program outOfRangeEqualsMissProgram) 0).run
        World.init = Res.ok (some TRUE, ⟨[⟨[], none⟩], 8, []⟩)) := by
  refine ⟨⟨some NULL, ?_, rfl, rfl, ?_, ?_⟩, ⟨_, rfl, rfl⟩, fun _ => rfl, ⟨_, rfl, rfl⟩,
    fun _ => rfl⟩
  · unfold evalArrayIndexExpression
    have hc : i < 0 ∨ i > (elements.length : Int) - 1 := by omega
    simp only [hc, if_true]
    rfl
  · intro pairs idx key hk hm
    refine ⟨some NULL, ?_, rfl, rfl⟩
    unfold evalHashIndexExpression
    simp only [hk, hm]
    rfl
  · intro n env tok cond consequence alternative w0 h
    rw [evalIfExpression_run ext n env tok cond consequence alternative w0 w (some NULL) h]
    rfl

/-- Witness of C23: the index 5 into the array `[1]`. -/
theorem out_of_range_index_yields_NULL_witness :
    (evalArrayIndexExpression [some (Object.Integer 3 1)] 5).run ⟨[⟨[], none⟩], 6, []⟩
        = Res.ok (some NULL, ⟨[⟨[], none⟩], 6, []⟩)
    ∧ isTruthy (some NULL) = false := by
  obtain ⟨⟨r, h1, h2, h3, -, -⟩, -⟩ := out_of_range_index_yields_NULL noExternals
    [some (Object.Integer 3 1)] 5 ⟨[⟨[], none⟩], 6, []⟩ (Or.inr (by decide))
  subst h3
  exact ⟨h1, h2⟩

/-! ### The rewriter on an if-expression without else-block -/

theorem run_bind_fault {σ α β : Type} (m : Eff σ α) (f : α → Eff σ β) (w : σ)
    (h : m.run w = Res.fault) : (m >>= f).run w = Res.fault := by
  show Res.bind (m w) _ = _
  have h' : m w = Res.fault := h
  rw [h']; rfl

theorem run_bind_outOfFuel {σ α β : Type} (m : Eff σ α) (f : α → Eff σ β) (w : σ)
    (h : m.run w = Res.outOfFuel) : (m >>= f).run w = Res.outOfFuel := by
  show Res.bind (m w) _ = _
  have h' : m w = Res.outOfFuel := h
  rw [h']; rfl

/-- A computation that ends in a panic whenever what precedes the panic returns. -/
theorem run_bind_then_fault {σ α β : Type} (m : Eff σ α) (f : α → Eff σ β) (w : σ)
    (hf : ∀ a w1, (f a).run w1 = Res.fault) (hm : m.run w ≠ Res.outOfFuel) :
    (m >>= f).run w = Res.fault := by
  cases h : m.run w with
  | ok r => obtain ⟨a, w1⟩ := r; rw [run_bind_ok _ _ _ _ _ h]; exact hf a w1
  | fault => exact run_bind_fault _ _ _ h
  | outOfFuel => exact absurd h hm

/-- A computation whose last step never returns does not return. -/
theorem run_bind_not_ok {σ α β : Type} (m : Eff σ α) (f : α → Eff σ β) (w : σ)
    (hf : ∀ a w1 r, (f a).run w1 ≠ Res.ok r) (r : β × σ) : (m >>= f).run w ≠ Res.ok r := by
  cases h : m.run w with
  | ok x => obtain ⟨a, w1⟩ := x; rw [run_bind_ok _ _ _ _ _ h]; exact hf a w1 r
  | fault => rw [run_bind_fault _ _ _ h]; exact fun h => Res.noConfusion h
  | outOfFuel => rw [run_bind_outOfFuel _ _ _ h]; exact fun h => Res.noConfusion h

/-- C24. `Modify` on an if-expression without else-block never returns, whatever the
modifier is: the call `Modify(node.Alternative, modifier)` takes the case
`*BlockStatement` for the nil pointer and panics on reading its `Token`. With a modifier
without effects the outcome is the panic: for the identity on the program `if (x) { y }`,
which its tokens parse to without error, and for the macro expansion of that program. -/
theorem modify_faults_without_else {σ : Type} (modifier : ModifierFunc σ) (tok : Token)
    (cond : Option Expression) (cons : Option BlockStatement) (s : σ) :
    (∀ r, (Modify (Node.Expression (Expression.IfExpression tok cond cons none))
        modifier).run s ≠ Res.ok r)
    ∧ (∃ p, ParseProgram ifTokens = some (ifProgram, p) ∧ p.Errors = [])
    ∧ (Modify (Node.Program ifProgram) (pureModifier id)).run () = Res.fault
    ∧ ModifyPure (Node.Program ifProgram) id = none
    ∧ (∀ (ext : Externals) (fuel : Nat),
        (ExpandMacros ext fuel ifProgram 0).run World.init = Res.fault) := by
  refine ⟨?_, ⟨_, rfl, rfl⟩, rfl, rfl, fun _ _ => rfl⟩
  intro r
  show (ModifyOptExpression modifier cond >>= fun c =>
    ModifyBlock modifier cons >>= fun s =>
    ModifyBlock modifier none >>= fun a =>
    modifier (Node.Expression
      (Expression.IfExpression tok c.toExpression s.toBlock a.toBlock))).run s ≠ _
  refine run_bind_not_ok _ _ _ (fun c w1 r1 => ?_) r
  refine run_bind_not_ok _ _ _ (fun b w2 r2 => ?_) r1
  exact fun h => Res.noConfusion h

/-! ### Operands without a value -/

/-- C27. An operand may evaluate to the nil interface, and `Type()` is then called on
it. The tokens of `-(if (true) { })` and of `fn() { }() + 1` parse without error; the
if-expression and the call evaluate to nil (the value of an empty block), and the
evaluation of either program panics: `evaluateMinusPrefixExpression` and
`evalInfixExpression` call `Type()` on the nil operand. -/
theorem nil_operand_faults (ext : Externals) (m : Nat) :
    (∃ p, ParseProgram minusEmptyIfTokens = some (minusEmptyIfProgram, p) ∧ p.Errors = [])
    ∧ (Eval ext (m + 4) (nodeOfExpr emptyIf) 0).run World.init = Res.ok (none, World.init)
    ∧ (∀ w, (evaluateMinusPrefixExpression none).run w = Res.fault)
    ∧ (Eval ext (m + 8) (Node.Program minusEmptyIfProgram) 0).run World.init = Res.fault
    ∧ (∃ p, ParseProgram emptyCallPlusOneTokens = some (emptyCallPlusOneProgram, p)
        ∧ p.Errors = [])
    ∧ (∃ w, (Eval ext (m + 5) (nodeOfExpr (callExpr (fnLiteral [] []) [])) 0).run World.init
        = Res.ok (none, w))
    ∧ (∀ (op : String) (r : Option Object) (w : World),
        (evalInfixExpression op none r).run w = Res.fault)
    ∧ (Eval ext (m + 8) (Node.Program emptyCallPlusOneProgram) 0).run World.init
        = Res.fault :=
  ⟨⟨_, rfl, rfl⟩, rfl, fun _ => rfl, rfl, ⟨_, rfl, rfl⟩, ⟨_, rfl⟩, fun _ _ _ => rfl, rfl⟩

/-! ### Binding parameters to too few arguments -/

/-- C28. Binding the parameters reads `args[paramIdx]` for every parameter: with fewer
arguments than parameters `extendFunctionEnv` and `extendMacroEnv` panic, and so does the
application. The tokens of `fn(x) { x }()` parse without error, and the evaluation of the
program panics. -/
theorem binding_faults_on_missing_argument (ext : Externals) (m : Nat) :
    (∀ (fnEnv : Nat) (w : World),
        (extendFunctionEnv [⟨identToken "x", "x"⟩] fnEnv []).run w = Res.fault)
    ∧ (∀ (macroEnv : Nat) (w : World),
        (extendMacroEnv [⟨identToken "x", "x"⟩] macroEnv []).run w = Res.fault)
    ∧ (∀ (a fnEnv : Nat) (body : Option BlockStatement) (w : World),
        (applyFunction ext (m + 1)
            (some (Object.Function a [⟨identToken "x", "x"⟩] body fnEnv)) []).run w
          = Res.fault)
    ∧ (∃ p, ParseProgram missingArgumentTokens = some (missingArgumentProgram, p)
        ∧ p.Errors = [])
    ∧ (Eval ext (m + 5) (Node.Program missingArgumentProgram) 0).run World.init
        = Res.fault :=
  ⟨fun _ _ => rfl, fun _ _ => rfl, fun _ _ _ _ => rfl, ⟨_, rfl, rfl⟩, rfl⟩

/-! ### The result of a let statement and of an empty block -/

theorem Eval_let_succ (ext : Externals) (n : Nat) (tok : Token) (name : Option Identifier)
    (value : Option Expression) (env : Nat) :
    Eval ext (n + 1) (Node.Statement (Statement.LetStatement tok name value)) env = (do
      let val ← Eval ext n (nodeOfExpr value) env
      if isError val then pure val
      else
        match name with
        | none => Eff.fault
        | some i => do
            envSet env i.Value val
            pure none) := rfl

/-- C25, as the spec states it: the tokens of `let f = fn() { }; if (f()) { 1 } else { 2 }`
parse without error, and the program evaluates to 1, the value of the then-block; for
no bound on the depth of the calls does it evaluate to `Integer 2`. -/
theorem if_of_empty_call_is_not_two :
    (∃ p, ParseProgram ifEmptyCallTokens = some (ifEmptyCallProgram, p) ∧ p.Errors = [])
    ∧ (∃ w, (Eval noExternals 9 (Node.Program ifEmptyCallProgram) 0).run World.init
        = Res.ok (some (Object.Integer 4 1), w))
    ∧ ¬ ∃ (n a : Nat) (w : World),
        (Eval noExternals n (Node.Program ifEmptyCallProgram) 0).run World.init
          = Res.ok (some (Object.Integer a 2), w) := by
  refine ⟨⟨_, rfl, rfl⟩, ⟨_, rfl⟩, ?_⟩
  rintro ⟨n, a, w, h⟩
  rcases n with _ | _ | _ | _ | _ | _ | _ | _ | _ | m
  all_goals first
    | exact Res.noConfusion h
    | (have h' : (Res.ok (some (Object.Integer 4 1), _) : Res (Option Object × World))
          = Res.ok (some (Object.Integer a 2), w) := h
       simp at h')

/-- C25, amended. The result of a let statement is the nil interface, which is not the
shared `NULL` and is truthy. A let statement whose value is not an `Error` evaluates to
nil; a block that is empty or ends with such a let statement evaluates to nil; a call of
a function whose body evaluates to nil returns nil; and an if-expression whose condition
evaluates to nil evaluates its then-block. The program
`let f = fn() { }; if (f()) { 1 } else { 2 }` evaluates to `Integer 1`. -/
theorem no_value_is_truthy (ext : Externals) (n env : Nat) :
    isTruthy none = true
    ∧ (∀ (tok : Token) (name : Identifier) (value : Option Expression) (v : Option Object)
        (w w1 : World),
        (Eval ext n (nodeOfExpr value) env).run w = Res.ok (v, w1) → isError v = false →
        env < w1.envs.length →
        ∃ w2, (Eval ext (n + 1)
            (Node.Statement (Statement.LetStatement tok (some name) value)) env).run w
          = Res.ok (none, w2))
    ∧ (∀ w : World, (evalBlockStatement ext (n + 1) [] env).run w = Res.ok (none, w))
    ∧ (∀ (pre : List Statement) (tok : Token) (name : Option Identifier)
        (value : Option Expression) (w w1 w2 : World) (x : Option Object),
        StepsThrough (Eval ext n) env pre w none w1 x →
        (Eval ext n (Node.Statement (Statement.LetStatement tok name value)) env).run w1
          = Res.ok (none, w2) →
        (evalBlockStatement ext (n + 1) (pre ++ [Statement.LetStatement tok name value])
            env).run w = Res.ok (none, w2))
    ∧ (∀ (a : Nat) (params : List Identifier) (body : Option BlockStatement) (fnEnv : Nat)
        (args : List (Option Object)) (e : Nat) (w w1 w2 : World),
        (extendFunctionEnv params fnEnv args).run w = Res.ok (e, w1) →
        (Eval ext n (nodeOfBlock body) e).run w1 = Res.ok (none, w2) →
        (applyFunction ext (n + 1) (some (Object.Function a params body fnEnv)) args).run w
          = Res.ok (none, w2))
    ∧ (∀ (tok : Token) (cond : Option Expression) (cons alt : Option BlockStatement)
        (w w1 : World),
        (Eval ext n (nodeOfExpr cond) env).run w = Res.ok (none, w1) →
        (Eval ext (n + 2) (Node.Expression (Expression.IfExpression tok cond cons alt))
            env).run w = (Eval ext n (nodeOfBlock cons) env).run w1)
    ∧ (∃ p, ParseProgram ifEmptyCallTokens = some (ifEmptyCallProgram, p) ∧ p.Errors = [])
    ∧ (∀ m : Nat, ∃ w,
        (Eval ext (m + 9) (Node.Program ifEmptyCallProgram) 0).run World.init
          = Res.ok (some (Object.Integer 4 1), w)) := by
  refine ⟨rfl, ?_, fun _ => rfl, ?_, ?_, ?_, ⟨_, rfl, rfl⟩, fun _ => ⟨_, rfl⟩⟩
  · intro tok name value v w w1 hv he henv
    obtain ⟨w2, hs, _⟩ := envSet_ok env name.Value v w1 henv
    refine ⟨w2, ?_⟩
    rw [Eval_let_succ, run_bind_ok _ _ _ _ _ hv]
    simp only [he, Bool.false_eq_true, if_false]
    rw [run_bind_ok _ _ _ _ _ hs]
    rfl
  · intro pre tok name value w w1 w2 x hpre hlet
    show (evalBlockStatementLoop (Eval ext n) env
      (pre ++ [Statement.LetStatement tok name value]) none).run w = _
    rw [evalBlockStatementLoop_through _ _ _ _ _ _ _ hpre,
      evalBlockStatementLoop_cons _ _ _ _ _ _ _ _ hlet]
    rfl
  · intro a params body fnEnv args e w w1 w2 hx hb
    show (extendFunctionEnv params fnEnv args >>= fun extendedEnv =>
      Eval ext n (nodeOfBlock body) extendedEnv >>= fun evaluated =>
      pure (unwrapReturnValue evaluated)).run w = _
    rw [run_bind_ok _ _ _ _ _ hx, run_bind_ok _ _ _ _ _ hb]
    rfl
  · intro tok cond cons alt w w1 hc
    show (evalIfExpression ext (n + 1) cond cons alt env).run w = _
    rw [evalIfExpression_succ, run_bind_ok _ _ _ _ _ hc]
    rfl

/-- Witness of C25: in `if (if (true) { }) { 1 }` the condition evaluates to nil, the
value of the empty block, and the then-block is evaluated. -/
theorem no_value_is_truthy_witness :
    (Eval noExternals 6
        (Node.Expression (Expression.IfExpression (keywordToken TokenType.IF "if") emptyIf
          (some (BlockStatement.mk (symbolToken TokenType.LBRACE)
            [Statement.ExpressionStatement (intToken "1") (intExpr "1" 1)]))
          none)) 0).run World.init
      = Res.ok (some (Object.Integer 3 1), ⟨[⟨[], none⟩], 4, []⟩) :=
  (no_value_is_truthy noExternals 4 0).2.2.2.2.2.1 (keywordToken TokenType.IF "if") emptyIf
    (some (BlockStatement.mk (symbolToken TokenType.LBRACE)
      [Statement.ExpressionStatement (intToken "1") (intExpr "1" 1)]))
    none World.init World.init rfl

/-! ### The order in which the pairs of a hash literal are visited -/

theorem evalHashLiteralLoop_error_key (ext : Externals)
    (ev : Node → Nat → Eff World (Option Object)) (env : Nat)
    (k v : Option Expression) (rest : List (Option Expression × Option Expression))
    (acc : List (HashKey × (Option Object × Option Object))) (w w1 : World)
    (err : Option Object) (hk : (ev (nodeOfExpr k) env).run w = Res.ok (err, w1))
    (he : isError err = true) :
    (evalHashLiteralLoop ext ev env ((k, v) :: rest) acc).run w = Res.ok (Sum.inr err, w1) := by
  rw [evalHashLiteralLoop, run_bind_ok _ _ _ _ _ hk]
  simp only [he, if_true]
  rfl

theorem keys_unaddressed (es : List (HashKey × (Option Object × Option Object))) :
    (es.map unaddressedEntry).map (fun e => e.1) = es.map (fun e => e.1) := by
  rw [List.map_map]
  rfl

theorem hashGet_foldl_unaddressed (esA esB : List (HashKey × (Option Object × Option Object)))
    (hperm : (esB.map unaddressedEntry).Perm (esA.map unaddressedEntry))
    (hnd : (esA.map (fun e => e.1)).Nodup) (k : HashKey) :
    (hashGet (esA.foldl (fun m e => hashSet m e.1 e.2) []) k).map unaddressedPair
      = (hashGet (esB.foldl (fun m e => hashSet m e.1 e.2) []) k).map unaddressedPair := by
  have hkeys : (esB.map (fun e => e.1)).Perm (esA.map (fun e => e.1)) := by
    have h := List.Perm.map (fun e => e.1) hperm
    rwa [keys_unaddressed, keys_unaddressed] at h
  have hndB : (esB.map (fun e => e.1)).Nodup := (List.Perm.nodup_iff hkeys).2 hnd
  by_cases hk : k ∈ esA.map (fun e => e.1)
  · obtain ⟨e, he, rfl⟩ := List.mem_map.1 hk
    have hm : unaddressedEntry e ∈ esB.map unaddressedEntry :=
      (List.Perm.mem_iff hperm).2 (List.mem_map_of_mem _ he)
    obtain ⟨e1, he1, heq⟩ := List.mem_map.1 hm
    have hk1 : e1.1 = e.1 := by
      have h := congrArg Prod.fst heq
      exact h
    have hv1 : unaddressedPair e1.2 = unaddressedPair e.2 := by
      have h := congrArg Prod.snd heq
      exact h
    rw [hashGet_foldl_hit esA [] e hnd he, ← hk1, hashGet_foldl_hit esB [] e1 hndB he1]
    show some (unaddressedPair e.2) = some (unaddressedPair e1.2)
    rw [hv1]
  · have hkB : k ∉ esB.map (fun e => e.1) := fun h => hk ((List.Perm.mem_iff hkeys).1 h)
    rw [hashGet_foldl_miss esA [] k hk, hashGet_foldl_miss esB [] k hkB]

/-- C29, as stated: the result depends on the order in which the pairs are visited. The
two entries of `{1: 2, 1: 3}` have the same `HashKey`, and the entry visited last is the
one the `Hash` keeps: 3 for the one order, 2 for the other. The two entries of
`{x: 1, y: 2}` both evaluate to an `Error` when `x` and `y` are not bound, and the
`Error` returned is the one of the entry visited first. In
`{if (true) { let x = 1; 1 }: 2, 3: x}`, evaluated where `x` is bound to 0, no entry
evaluates to an `Error` and the two keys have different `HashKey`s, but the first key
binds `x` anew in the environment of the literal: the key 3 is mapped to 1 when the
entries are visited in the order of the source and to 0 in the other order. -/
theorem hash_literal_depends_on_order :
    sameKeyPairs.reverse.Perm sameKeyPairs
    ∧ (evalHashLiteral noExternals 2 sameKeyPairs 0).run World.init
        = Res.ok (some (Object.Hash 7 [(⟨INTEGER_OBJ, 1⟩,
            (some (Object.Integer 5 1), some (Object.Integer 6 3)))]), ⟨[⟨[], none⟩], 8, []⟩)
    ∧ (evalHashLiteral noExternals 2 sameKeyPairs.reverse 0).run World.init
        = Res.ok (some (Object.Hash 7 [(⟨INTEGER_OBJ, 1⟩,
            (some (Object.Integer 5 1), some (Object.Integer 6 2)))]), ⟨[⟨[], none⟩], 8, []⟩)
    ∧ (evalHashLiteral noExternals 2 twoErrorPairs 0).run World.init
        = Res.ok (some (Object.Error 3 "identifier not found: x"), ⟨[⟨[], none⟩], 4, []⟩)
    ∧ (evalHashLiteral noExternals 2 twoErrorPairs.reverse 0).run World.init
        = Res.ok (some (Object.Error 3 "identifier not found: y"), ⟨[⟨[], none⟩], 4, []⟩)
    ∧ (evalHashLiteral noExternals 7 letInKeyPairs 0).run xIsZero
        = Res.ok (some (Object.Hash 8
            [(⟨INTEGER_OBJ, 1⟩, (some (Object.Integer 5 1), some (Object.Integer 6 2))),
             (⟨INTEGER_OBJ, 3⟩, (some (Object.Integer 7 3), some (Object.Integer 4 1)))]),
            ⟨[⟨[("x", some (Object.Integer 4 1))], none⟩], 9, []⟩)
    ∧ (evalHashLiteral noExternals 7 letInKeyPairs.reverse 0).run xIsZero
        = Res.ok (some (Object.Hash 8
            [(⟨INTEGER_OBJ, 3⟩, (some (Object.Integer 4 3), some (Object.Integer 3 0))),
             (⟨INTEGER_OBJ, 1⟩, (some (Object.Integer 6 1), some (Object.Integer 7 2)))]),
            ⟨[⟨[("x", some (Object.Integer 5 1))], none⟩], 9, []⟩) :=
  ⟨List.reverse_perm _, rfl, rfl, rfl, rfl, rfl, rfl⟩

/-- C29, amended. Two runs of `evalHashLiteral` over the pairs of a hash literal, visited
in two orders, in which no pair evaluates to an `Error`, the keys are hashable with
pairwise different `HashKey`s, and the pairs evaluate to the same keys and values in both
orders but for the addresses of the structs allocated for them (as the integer literals
of `{1: 2, 3: 4}` do), return two `Hash`es with the same mapping from `HashKey` to key and
value, but for those addresses. When two keys have the same `HashKey` the entry visited
last is kept, and when a key evaluates to an `Error` that `Error` is returned without the
later pairs being visited. -/
theorem evalHashLiteral_order_independent (ext : Externals) (n env : Nat) (tok : Token)
    (pairsA pairsB : List (Option Expression × Option Expression)) (w wA wB : World)
    (esA esB : List (HashKey × (Option Object × Option Object)))
    (hA : EvaluatesPairs ext (Eval ext n) env pairsA w esA wA)
    (hB : EvaluatesPairs ext (Eval ext n) env pairsB w esB wB)
    (hperm : (esB.map unaddressedEntry).Perm (esA.map unaddressedEntry))
    (hnd : (esA.map (fun e => e.1)).Nodup) :
    (∃ mA mB : List (HashKey × (Option Object × Option Object)),
      (Eval ext (n + 2) (Node.Expression (Expression.HashLiteral tok pairsA)) env).run w
        = Res.ok (some (Object.Hash wA.next mA), { wA with next := wA.next + 1 })
      ∧ (Eval ext (n + 2) (Node.Expression (Expression.HashLiteral tok pairsB)) env).run w
        = Res.ok (some (Object.Hash wB.next mB), { wB with next := wB.next + 1 })
      ∧ ∀ k : HashKey,
          (hashGet mA k).map unaddressedPair = (hashGet mB k).map unaddressedPair)
    ∧ (∀ (es : List (HashKey × (Option Object × Option Object)))
        (e : HashKey × (Option Object × Option Object)),
        hashGet ((es ++ [e]).foldl (fun m x => hashSet m x.1 x.2) []) e.1 = some e.2)
    ∧ (∀ (k v : Option Expression) (rest : List (Option Expression × Option Expression))
        (w0 w1 : World) (err : Option Object),
        (Eval ext n (nodeOfExpr k) env).run w0 = Res.ok (err, w1) → isError err = true →
        (Eval ext (n + 2) (Node.Expression (Expression.HashLiteral tok ((k, v) :: rest)))
            env).run w0 = Res.ok (err, w1)) := by
  refine ⟨⟨_, _, evalHashLiteral_pairs ext n env tok pairsA w wA esA hA,
    evalHashLiteral_pairs ext n env tok pairsB w wB esB hB,
    hashGet_foldl_unaddressed esA esB hperm hnd⟩, ?_, ?_⟩
  · intro es e
    rw [List.foldl_append, List.foldl_cons, List.foldl_nil, hashGet_hashSet, if_pos rfl]
  · intro k v rest w0 w1 err hk he
    show (evalHashLiteralLoop ext (Eval ext n) env ((k, v) :: rest) [] >>= _).run w0 = _
    rw [run_bind_ok _ _ _ _ _ (evalHashLiteralLoop_error_key ext _ env k v rest [] w0 w1 err hk he)]
    rfl

/-- Witness of C29: the two orders of the entries of `{1: 2, 3: 4}`, whose keys and values
are allocated at other addresses in the one order than in the other. -/
theorem evalHashLiteral_order_independent_witness :
    ∃ mA mB : List (HashKey × (Option Object × Option Object)),
      (Eval noExternals 3 (Node.Expression
          (Expression.HashLiteral (symbolToken TokenType.LBRACE) twoIntegerPairs)) 0).run
          World.init
        = Res.ok (some (Object.Hash 7 mA), ⟨[⟨[], none⟩], 8, []⟩)
      ∧ (Eval noExternals 3 (Node.Expression
          (Expression.HashLiteral (symbolToken TokenType.LBRACE) twoIntegerPairs.reverse))
          0).run World.init
        = Res.ok (some (Object.Hash 7 mB), ⟨[⟨[], none⟩], 8, []⟩)
      ∧ ∀ k : HashKey,
          (hashGet mA k).map unaddressedPair = (hashGet mB k).map unaddressedPair :=
  have hA : EvaluatesPairs noExternals (Eval noExternals 1) 0 twoIntegerPairs World.init
      [(⟨INTEGER_OBJ, 1⟩, (some (Object.Integer 3 1), some (Object.Integer 4 2))),
       (⟨INTEGER_OBJ, 3⟩, (some (Object.Integer 5 3), some (Object.Integer 6 4)))]
      ⟨[⟨[], none⟩], 7, []⟩ :=
    EvaluatesPairs.cons _ _ _ _ ⟨[⟨[], none⟩], 4, []⟩ ⟨[⟨[], none⟩], 5, []⟩ _ _ _ _ _
      rfl rfl rfl rfl
      (EvaluatesPairs.cons _ _ _ _ ⟨[⟨[], none⟩], 6, []⟩ ⟨[⟨[], none⟩], 7, []⟩ _ _ _ _ _
        rfl rfl rfl rfl (EvaluatesPairs.nil _))
  have hB : EvaluatesPairs noExternals (Eval noExternals 1) 0 twoIntegerPairs.reverse
      World.init
      [(⟨INTEGER_OBJ, 3⟩, (some (Object.Integer 3 3), some (Object.Integer 4 4))),
       (⟨INTEGER_OBJ, 1⟩, (some (Object.Integer 5 1), some (Object.Integer 6 2)))]
      ⟨[⟨[], none⟩], 7, []⟩ :=
    EvaluatesPairs.cons _ _ _ _ ⟨[⟨[], none⟩], 4, []⟩ ⟨[⟨[], none⟩], 5, []⟩ _ _ _ _ _
      rfl rfl rfl rfl
      (EvaluatesPairs.cons _ _ _ _ ⟨[⟨[], none⟩], 6, []⟩ ⟨[⟨[], none⟩], 7, []⟩ _ _ _ _ _
        rfl rfl rfl rfl (EvaluatesPairs.nil _))
  (evalHashLiteral_order_independent noExternals 1 0 (symbolToken TokenType.LBRACE)
    twoIntegerPairs twoIntegerPairs.reverse World.init ⟨[⟨[], none⟩], 7, []⟩
    ⟨[⟨[], none⟩], 7, []⟩ _ _ hA hB (List.Perm.swap _ _ _) (by decide)).1

/-! ### The tokens the parser has still to read -/

theorem rest_nextToken (p : Parser) :
    p.nextToken.rest ≤ p.rest - 1 := by
  unfold Parser.nextToken Parser.rest
  rcases hl : p.l with _ | ⟨x, xs⟩
  · by_cases hp : p.peekToken.Kind = TokenType.EOF
    · by_cases hc : p.curToken.Kind = TokenType.EOF <;> simp [eofToken, hp, hc]
    · simp [eofToken, hp]
  · rcases xs with _ | ⟨y, ys⟩
    · by_cases hx : x.Kind = TokenType.EOF
      · by_cases hp : p.peekToken.Kind = TokenType.EOF <;> simp [hx, hp]
      · simp [hx]
    · simp

theorem ahead_nextToken (p : Parser) : p.nextToken.ahead ≤ p.ahead := by
  unfold Parser.nextToken Parser.ahead
  rcases hl : p.l with _ | ⟨x, xs⟩
  · simp [eofToken]
  · by_cases hx : x.Kind = TokenType.EOF
    · simp [hx, List.countP_cons]
    · simp only [hx, List.countP_cons, if_false, decide_not, ne_eq, not_false_eq_true,
        decide_True, decide_False, Bool.not_false, if_true]
      omega

theorem errors_nextToken (p : Parser) : p.nextToken.errors = p.errors := by
  unfold Parser.nextToken
  cases p.l <;> rfl

theorem rest_pos_of_cur (p : Parser) (h : p.curToken.Kind ≠ TokenType.EOF) : 1 ≤ p.rest := by
  unfold Parser.rest
  rcases hl : p.l with _ | ⟨x, xs⟩
  · by_cases hp : p.peekToken.Kind = TokenType.EOF <;> simp [hp, h]
  · simp

theorem rest_ge_two_of_peek (p : Parser) (h : p.peekToken.Kind ≠ TokenType.EOF) :
    2 ≤ p.rest := by
  unfold Parser.rest
  rcases hl : p.l with _ | ⟨x, xs⟩
  · simp [h]
  · simp

theorem cur_of_rest_zero (p : Parser) (h : p.rest = 0) :
    p.curToken.Kind = TokenType.EOF := by
  by_contra hc
  have := rest_pos_of_cur p hc
  omega

theorem after_refl (p : Parser) : p.after p := ⟨le_refl _, le_refl _, le_refl _⟩

theorem after_trans (r q p : Parser) (h1 : r.after q) (h2 : q.after p) : r.after p :=
  ⟨le_trans h1.1 h2.1, le_trans h1.2.1 h2.2.1, le_trans h2.2.2 h1.2.2⟩

theorem after_nextToken (p : Parser) : p.nextToken.after p :=
  ⟨le_trans (rest_nextToken p) (Nat.sub_le _ _), ahead_nextToken p,
    le_of_eq (congrArg List.length (errors_nextToken p)).symm⟩

/-! ### One unfolding of each parsing function -/

theorem parseStatement_succ (n : Nat) (p : Parser) :
    parseStatement (n + 1) p
      = match p.curToken.Kind with
        | .LET => parseLetStatement n p
        | .RETURN => parseReturnStatement n p
        | _ => parseExpressionStatement n p := rfl

theorem parseLetStatement_succ (n : Nat) (p : Parser) :
    parseLetStatement (n + 1) p
      = match p.expectPeek TokenType.IDENT with
        | (false, q) => some (Statement.LetStatementNil, q)
        | (true, q) =>
          match q.expectPeek TokenType.ASSIGN with
          | (false, q1) => some (Statement.LetStatementNil, q1)
          | (true, q1) =>
            match parseExpression n LOWEST q1.nextToken with
            | none => none
            | some (value, q2) =>
              some (Statement.LetStatement p.curToken (some ⟨q.curToken, q.curToken.Literal⟩)
                value, q2.skipSemicolons) := rfl

theorem parseReturnStatement_succ (n : Nat) (p : Parser) :
    parseReturnStatement (n + 1) p
      = match parseExpression n LOWEST p.nextToken with
        | none => none
        | some (value, q) =>
          some (Statement.ReturnStatement p.curToken value,
            if q.peekTokenIs TokenType.SEMICOLON then q.nextToken else q) := rfl

theorem callPrefixFn_succ (n : Nat) (p : Parser) :
    callPrefixFn (n + 1) p
      = match p.curToken.Kind with
        | .IDENT => some (some (Expression.Identifier p.parseIdentifier), p)
        | .INT => some p.parseIntegerLiteral
        | .TRUE => some (some p.parseBoolean, p)
        | .FALSE => some (some p.parseBoolean, p)
        | .BANG => parsePrefixOperator n p
        | .MINUS => parsePrefixOperator n p
        | .LPAREN => parseGroupedExpression n p
        | .IF => parseIfExpression n p
        | .FUNCTION => parseFunctionLiteral n p
        | .STRING => some (some p.parseStringLiteral, p)
        | .LBRACKET => parseArrayLiteral n p
        | .LBRACE => parseHashLiteral n p
        | .MACRO => parseMacroLiteral n p
        | _ => some (none, p) := rfl

theorem callInfixFn_succ (n : Nat) (left : Option Expression) (p : Parser) :
    callInfixFn (n + 1) left p
      = match p.curToken.Kind with
        | .LPAREN => parseCallExpression n left p
        | .LBRACKET => parseIndexExpression n left p
        | _ => parseInfixExpression n left p := rfl

theorem parseIfExpression_succ (n : Nat) (p : Parser) :
    parseIfExpression (n + 1) p
      = match p.expectPeek TokenType.LPAREN with
        | (false, q) => some (none, q)
        | (true, q) =>
          match parseExpression n LOWEST q.nextToken with
          | none => none
          | some (condition, q1) =>
            match q1.expectPeek TokenType.RPAREN with
            | (false, q2) => some (none, q2)
            | (true, q2) =>
              match q2.expectPeek TokenType.LBRACE with
              | (false, q3) => some (none, q3)
              | (true, q3) =>
                match parseBlockStatement n q3 with
                | none => none
                | some (consequence, q4) =>
                  if q4.peekTokenIs TokenType.ELSE then
                    match q4.nextToken.expectPeek TokenType.LBRACE with
                    | (false, q5) => some (none, q5)
                    | (true, q5) =>
                      match parseBlockStatement n q5 with
                      | none => none
                      | some (alternative, q6) =>
                        some (some (Expression.IfExpression p.curToken condition
                          (some consequence) (some alternative)), q6)
                  else
                    some (some (Expression.IfExpression p.curToken condition
                      (some consequence) none), q4) := rfl

theorem parseBlockStatement_succ (n : Nat) (p : Parser) :
    parseBlockStatement (n + 1) p
      = match parseBlockStatementLoop n [] p.nextToken with
        | none => none
        | some (statements, q) => some (BlockStatement.mk p.curToken statements, q) := rfl

theorem parseBlockStatementLoop_succ (n : Nat) (statements : List Statement) (p : Parser) :
    parseBlockStatementLoop (n + 1) statements p
      = if !p.curTokenIs TokenType.RBRACE && !p.curTokenIs TokenType.EOF then
          match parseStatement n p with
          | none => none
          | some (stmt, q) => parseBlockStatementLoop n (statements ++ [stmt]) q.nextToken
        else some (statements, p) := rfl

theorem parseFunctionLiteral_succ (n : Nat) (p : Parser) :
    parseFunctionLiteral (n + 1) p
      = match p.expectPeek TokenType.LPAREN with
        | (false, q) => some (none, q)
        | (true, q) =>
          match q.parseFunctionParameters.2.expectPeek TokenType.LBRACE with
          | (false, q1) => some (none, q1)
          | (true, q1) =>
            match parseBlockStatement n q1 with
            | none => none
            | some (body, q2) =>
              some (some (Expression.FunctionLiteral p.curToken q.parseFunctionParameters.1
                (some body)), q2) := rfl

theorem parseMacroLiteral_succ (n : Nat) (p : Parser) :
    parseMacroLiteral (n + 1) p
      = match p.expectPeek TokenType.LPAREN with
        | (false, q) => some (none, q)
        | (true, q) =>
          match q.parseFunctionParameters.2.expectPeek TokenType.LBRACE with
          | (false, q1) => some (none, q1)
          | (true, q1) =>
            match parseBlockStatement n q1 with
            | none => none
            | some (body, q2) =>
              some (some (Expression.MacroLiteral p.curToken q.parseFunctionParameters.1
                (some body)), q2) := rfl

theorem parseCallExpression_succ (n : Nat) (function : Option Expression) (p : Parser) :
    parseCallExpression (n + 1) function p
      = match parseExpressionList n TokenType.RPAREN p with
        | none => none
        | some (arguments, q) =>
          some (some (Expression.CallExpression p.curToken function arguments), q) := rfl

theorem parseArrayLiteral_succ (n : Nat) (p : Parser) :
    parseArrayLiteral (n + 1) p
      = match parseExpressionList n TokenType.RBRACKET p with
        | none => none
        | some (elements, q) => some (some (Expression.ArrayLiteral p.curToken elements), q) :=
  rfl

theorem parseExpressionList_succ (n : Nat) (end_ : TokenType) (p : Parser) :
    parseExpressionList (n + 1) end_ p
      = if p.peekTokenIs end_ then some ([], p.nextToken)
        else
          match parseExpression n LOWEST p.nextToken with
          | none => none
          | some (e, q) =>
            match parseExpressionListLoop n [e] q with
            | none => none
            | some (list, q1) =>
              match q1.expectPeek end_ with
              | (false, q2) => some ([], q2)
              | (true, q2) => some (list, q2) := rfl

theorem parseExpressionListLoop_succ (n : Nat) (list : List (Option Expression))
    (p : Parser) :
    parseExpressionListLoop (n + 1) list p
      = if p.peekTokenIs TokenType.COMMA then
          match parseExpression n LOWEST p.nextToken.nextToken with
          | none => none
          | some (e, q) => parseExpressionListLoop n (list ++ [e]) q
        else some (list, p) := rfl

theorem parseIndexExpression_succ (n : Nat) (left : Option Expression) (p : Parser) :
    parseIndexExpression (n + 1) left p
      = match parseExpression n LOWEST p.nextToken with
        | none => none
        | some (index, q) =>
          match q.expectPeek TokenType.RBRACKET with
          | (false, q1) => some (none, q1)
          | (true, q1) => some (some (Expression.IndexExpression p.curToken left index), q1) :=
  rfl

theorem parseHashLiteral_succ (n : Nat) (p : Parser) :
    parseHashLiteral (n + 1) p
      = match parseHashLiteralLoop n [] p with
        | none => none
        | some (none, q) => some (none, q)
        | some (some pairs, q) =>
          match q.expectPeek TokenType.RBRACE with
          | (false, q1) => some (none, q1)
          | (true, q1) => some (some (Expression.HashLiteral p.curToken pairs), q1) := rfl

theorem parseHashLiteralLoop_succ (n : Nat)
    (pairs : List (Option Expression × Option Expression)) (p : Parser) :
    parseHashLiteralLoop (n + 1) pairs p
      = if !p.peekTokenIs TokenType.RBRACE then
          match parseExpression n LOWEST p.nextToken with
          | none => none
          | some (key, q) =>
            match q.expectPeek TokenType.COLON with
            | (false, q1) => some (none, q1)
            | (true, q1) =>
              match parseExpression n LOWEST q1.nextToken with
              | none => none
              | some (value, q2) =>
                if !q2.peekTokenIs TokenType.RBRACE then
                  match q2.expectPeek TokenType.COMMA with
                  | (false, q3) => some (none, q3)
                  | (true, q3) => parseHashLiteralLoop n (pairsSet pairs key value) q3
                else parseHashLiteralLoop n (pairsSet pairs key value) q2
        else some (some pairs, p) := rfl

/-! ### Facts about the helpers of the parser -/

theorem hasPrefixFn_ne_EOF (k : TokenType) (h : hasPrefixFn k = true) : k ≠ TokenType.EOF := by
  rintro rfl
  exact absurd h (by decide)

theorem hasInfixFn_ne_EOF (k : TokenType) (h : hasInfixFn k = true) : k ≠ TokenType.EOF := by
  rintro rfl
  exact absurd h (by decide)

theorem needExpression_le (p : Parser) : needExpression p ≤ 8 * p.rest + 6 := by
  unfold needExpression
  split <;> omega

theorem needExpression_pos (p : Parser) : 0 < needExpression p := by
  unfold needExpression
  split <;> omega

theorem needExpression_nextToken (p : Parser) :
    needExpression p.nextToken ≤ 8 * p.rest + 1 := by
  unfold needExpression
  split
  · rename_i h
    have h1 := rest_pos_of_cur _ (hasPrefixFn_ne_EOF _ h)
    have h2 := rest_nextToken p
    omega
  · omega

theorem needBlockLoop_pos (p : Parser) : 0 < needBlockLoop p := by
  unfold needBlockLoop
  split <;> omega

theorem needBlockLoop_nextToken (p : Parser) :
    needBlockLoop p.nextToken ≤ 8 * p.rest + 1 := by
  unfold needBlockLoop
  split
  · rename_i h
    have hc : p.nextToken.curToken.Kind ≠ TokenType.EOF := by
      intro he
      simp [Parser.curTokenIs, he] at h
    have h1 := rest_pos_of_cur _ hc
    have h2 := rest_nextToken p
    omega
  · omega

theorem expectPeek_true (p : Parser) (t : TokenType) (h : p.peekTokenIs t = true) :
    p.expectPeek t = (true, p.nextToken) := by
  simp [Parser.expectPeek, h]

theorem expectPeek_false (p : Parser) (t : TokenType) (h : p.peekTokenIs t = false) :
    p.expectPeek t = (false, p.peekError t) := by
  simp [Parser.expectPeek, h]

theorem rest_peekError (p : Parser) (t : TokenType) : (p.peekError t).rest = p.rest := rfl

theorem ahead_peekError (p : Parser) (t : TokenType) : (p.peekError t).ahead = p.ahead := rfl

theorem errors_peekError (p : Parser) (t : TokenType) :
    (p.peekError t).errors.length = p.errors.length + 1 := by
  simp [Parser.peekError]

theorem rest_of_peekTokenIs (p : Parser) (t : TokenType) (ht : t ≠ TokenType.EOF)
    (h : p.peekTokenIs t = true) : p.nextToken.rest + 1 ≤ p.rest := by
  have hk : p.peekToken.Kind = t := by simpa [Parser.peekTokenIs] using h
  have h1 := rest_ge_two_of_peek p (by rw [hk]; exact ht)
  have h2 := rest_nextToken p
  omega

theorem after_semicolonLoop (n : Nat) (p : Parser) :
    (semicolonLoop n p).after p ∧ (semicolonLoop n p).errors = p.errors := by
  induction n generalizing p with
  | zero => exact ⟨after_refl p, rfl⟩
  | succ n ih =>
    unfold semicolonLoop
    split
    · exact ⟨after_trans _ _ _ (ih _).1 (after_nextToken p),
        (ih _).2.trans (errors_nextToken p)⟩
    · exact ⟨after_refl p, rfl⟩

theorem after_skipSemicolons (p : Parser) :
    p.skipSemicolons.after p ∧ p.skipSemicolons.errors = p.errors :=
  after_semicolonLoop _ p

theorem after_parameterLoop (n : Nat) (acc : List Identifier) (p : Parser) :
    (parameterLoop n acc p).2.after p ∧ (parameterLoop n acc p).2.errors = p.errors := by
  induction n generalizing acc p with
  | zero => exact ⟨after_refl p, rfl⟩
  | succ n ih =>
    unfold parameterLoop
    split
    · refine ⟨after_trans _ _ _ (ih _ _).1
        (after_trans _ _ _ (after_nextToken _) (after_nextToken p)), ?_⟩
      exact (ih _ _).2.trans ((errors_nextToken _).trans (errors_nextToken p))
    · exact ⟨after_refl p, rfl⟩

theorem after_parseFunctionParameters (p : Parser) :
    p.parseFunctionParameters.2.after p := by
  unfold Parser.parseFunctionParameters
  split
  · exact after_nextToken p
  · have h0 := after_trans _ _ _ (after_parameterLoop (p.nextToken.l.length + 1)
      [p.nextToken.parseIdentifier] p.nextToken).1 (after_nextToken p)
    dsimp only
    generalize parameterLoop (p.nextToken.l.length + 1) [p.nextToken.parseIdentifier]
      p.nextToken = r at h0 ⊢
    by_cases hp : r.2.peekTokenIs TokenType.RPAREN = true
    · rw [expectPeek_true _ _ hp]
      exact after_trans _ _ _ (after_nextToken r.2) h0
    · rw [expectPeek_false _ _ (by simpa using hp)]
      have h1 := errors_peekError r.2 TokenType.RPAREN
      exact ⟨h0.1, h0.2.1, by show p.errors.length ≤ (r.2.peekError _).errors.length; omega⟩

theorem after_parseIntegerLiteral (p : Parser) :
    Post p true wfExpr p.parseIntegerLiteral.1 p.parseIntegerLiteral.2 := by
  unfold Parser.parseIntegerLiteral
  split
  · refine ⟨⟨le_refl _, le_refl _, by simp⟩, ?_⟩
    intro h
    simp at h
  · exact ⟨after_refl p, fun _ _ => rfl⟩

theorem wfExprs_append (xs ys : List (Option Expression)) :
    wfExprs (xs ++ ys) = (wfExprs xs && wfExprs ys) := by
  induction xs with
  | nil => rfl
  | cons x xs ih =>
    show (wfExpr x && wfExprs (xs ++ ys)) = ((wfExpr x && wfExprs xs) && wfExprs ys)
    rw [ih, Bool.and_assoc]

theorem wfStatements_append (xs ys : List Statement) :
    wfStatements (xs ++ ys) = (wfStatements xs && wfStatements ys) := by
  induction xs with
  | nil => rfl
  | cons x xs ih =>
    show (wfStatement x && wfStatements (xs ++ ys))
      = ((wfStatement x && wfStatements xs) && wfStatements ys)
    rw [ih, Bool.and_assoc]

theorem wfPairs_append (xs ys : List (Option Expression × Option Expression)) :
    wfPairs (xs ++ ys) = (wfPairs xs && wfPairs ys) := by
  induction xs with
  | nil => rfl
  | cons x xs ih =>
    obtain ⟨k, v⟩ := x
    show (wfExpr k && wfExpr v && wfPairs (xs ++ ys))
      = ((wfExpr k && wfExpr v && wfPairs xs) && wfPairs ys)
    rw [ih]
    simp only [Bool.and_assoc]

theorem wfPairs_pairsSet (ps : List (Option Expression × Option Expression))
    (k v : Option Expression) (hps : wfPairs ps = true) (hk : wfExpr k = true)
    (hv : wfExpr v = true) : wfPairs (pairsSet ps k v) = true := by
  cases k with
  | none => exact absurd hk (by decide)
  | some e =>
    show wfPairs (ps ++ [(some e, v)]) = true
    rw [wfPairs_append, hps]
    show (wfExpr (some e) && wfExpr v && true) = true
    rw [hk, hv]
    rfl

theorem Outcome.of_some {α : Type} {res : Option (α × Parser)} {n need : Nat}
    {post : α → Parser → Prop} (h : Outcome res n need post) (r : α) (q : Parser)
    (hs : res = some (r, q)) : post r q := by
  rcases h with ⟨h0, _⟩ | ⟨r1, q1, h1, hp⟩
  · rw [h0] at hs
    cases hs
  · rw [h1] at hs
    cases hs
    exact hp

theorem Outcome.of_fuel {α : Type} {res : Option (α × Parser)} {n need : Nat}
    {post : α → Parser → Prop} (h : Outcome res n need post) (hn : need ≤ n) :
    ∃ r q, res = some (r, q) ∧ post r q := by
  rcases h with ⟨_, hlt⟩ | h
  · omega
  · exact h

theorem Outcome.mono {α : Type} {res : Option (α × Parser)} {n need need1 : Nat}
    {post : α → Parser → Prop} (h : Outcome res n need post) (hn : need + 1 ≤ need1) :
    Outcome res (n + 1) need1 post := by
  rcases h with ⟨h0, hlt⟩ | h
  · exact Or.inl ⟨h0, by omega⟩
  · exact Or.inr h

theorem nextToken_facts (p : Parser) :
    p.nextToken.rest ≤ p.rest - 1 ∧ p.nextToken.ahead ≤ p.ahead
      ∧ p.nextToken.errors.length = p.errors.length :=
  ⟨rest_nextToken p, ahead_nextToken p, congrArg List.length (errors_nextToken p)⟩

theorem skipSemicolons_facts (p : Parser) :
    p.skipSemicolons.rest ≤ p.rest ∧ p.skipSemicolons.ahead ≤ p.ahead
      ∧ p.skipSemicolons.errors.length = p.errors.length :=
  ⟨(after_skipSemicolons p).1.1, (after_skipSemicolons p).1.2.1,
    congrArg List.length (after_skipSemicolons p).2⟩

theorem optionalSemicolon_facts (p : Parser) :
    (if p.peekTokenIs TokenType.SEMICOLON then p.nextToken else p).rest ≤ p.rest
      ∧ (if p.peekTokenIs TokenType.SEMICOLON then p.nextToken else p).ahead ≤ p.ahead
      ∧ (if p.peekTokenIs TokenType.SEMICOLON then p.nextToken else p).errors.length
          = p.errors.length := by
  obtain ⟨r1, a1, e1⟩ := nextToken_facts p
  split
  · exact ⟨by omega, a1, e1⟩
  · exact ⟨le_refl _, le_refl _, rfl⟩

theorem expectPeek_cases (p : Parser) (t : TokenType) :
    (p.expectPeek t = (true, p.nextToken) ∧ p.peekToken.Kind = t)
      ∨ p.expectPeek t = (false, p.peekError t) := by
  by_cases h : p.peekTokenIs t = true
  · exact Or.inl ⟨expectPeek_true p t h, by simpa [Parser.peekTokenIs] using h⟩
  · exact Or.inr (expectPeek_false p t (by simpa using h))

theorem Outcome.failed {α : Type} {p q : Parser} {t : TokenType} {r : α} {n need : Nat}
    {given : Bool} {wf : α → Bool} (h : q.after p) :
    Outcome (some (r, q.peekError t)) n need (Post p given wf) := by
  have e := errors_peekError q t
  obtain ⟨h1, h2, h3⟩ := h
  refine Or.inr ⟨_, _, rfl, ⟨h1, h2, by omega⟩, fun hq => ?_⟩
  omega

theorem noPrefix_facts (p : Parser) (t : TokenType) :
    (p.noPrefiXParseFnError t).rest = p.rest ∧ (p.noPrefiXParseFnError t).ahead = p.ahead
      ∧ (p.noPrefiXParseFnError t).errors.length = p.errors.length + 1 :=
  ⟨rfl, rfl, by simp [Parser.noPrefiXParseFnError]⟩

theorem wfStatements_snoc (acc : List Statement) (s : Statement)
    (h1 : wfStatements acc = true) (h2 : wfStatement s = true) :
    wfStatements (acc ++ [s]) = true := by
  rw [wfStatements_append, h1]
  show (true && (wfStatement s && true)) = true
  rw [h2]
  rfl

theorem wfExprs_snoc (acc : List (Option Expression)) (e : Option Expression)
    (h1 : wfExprs acc = true) (h2 : wfExpr e = true) : wfExprs (acc ++ [e]) = true := by
  rw [wfExprs_append, h1]
  show (true && (wfExpr e && true)) = true
  rw [h2]
  rfl

/-! ### Every parsing function returns when its bound suffices -/

theorem parsesAt_zero : ParsesAt 0 where
  statement := fun p => Or.inl ⟨rfl, by omega⟩
  letStatement := fun p => Or.inl ⟨rfl, by omega⟩
  returnStatement := fun p => Or.inl ⟨rfl, by omega⟩
  expressionStatement := fun p => Or.inl ⟨rfl, by omega⟩
  expression := fun _ p => Or.inl ⟨rfl, needExpression_pos p⟩
  expressionLoop := fun _ _ p => Or.inl ⟨rfl, by omega⟩
  callPrefix := fun p _ => Or.inl ⟨rfl, by omega⟩
  callInfix := fun _ p => Or.inl ⟨rfl, by omega⟩
  prefixOperator := fun p => Or.inl ⟨rfl, by omega⟩
  infixExpression := fun _ p => Or.inl ⟨rfl, by omega⟩
  grouped := fun p => Or.inl ⟨rfl, by omega⟩
  ifExpression := fun p => Or.inl ⟨rfl, by omega⟩
  blockStatement := fun p => Or.inl ⟨rfl, by omega⟩
  blockStatementLoop := fun _ p => Or.inl ⟨rfl, needBlockLoop_pos p⟩
  functionLiteral := fun p => Or.inl ⟨rfl, by omega⟩
  callExpression := fun _ p => Or.inl ⟨rfl, by omega⟩
  arrayLiteral := fun p => Or.inl ⟨rfl, by omega⟩
  expressionList := fun _ p => Or.inl ⟨rfl, by omega⟩
  expressionListLoop := fun _ p => Or.inl ⟨rfl, by omega⟩
  indexExpression := fun _ p => Or.inl ⟨rfl, by omega⟩
  hashLiteral := fun p => Or.inl ⟨rfl, by omega⟩
  hashLiteralLoop := fun _ p => Or.inl ⟨rfl, by omega⟩
  macroLiteral := fun p => Or.inl ⟨rfl, by omega⟩

theorem parseStatement_outcome (n : Nat) (ih : ParsesAt n) (p : Parser) :
    Outcome (parseStatement (n + 1) p) (n + 1) (8 * p.rest + 8) (Post p true wfStatement) := by
  rw [parseStatement_succ]
  split
  · exact (ih.letStatement p).mono (by omega)
  · exact (ih.returnStatement p).mono (by omega)
  · exact (ih.expressionStatement p).mono (by omega)

theorem parseLetStatement_outcome (n : Nat) (ih : ParsesAt n) (p : Parser) :
    Outcome (parseLetStatement (n + 1) p) (n + 1) (8 * p.rest + 7)
      (Post p true wfStatement) := by
  rw [parseLetStatement_succ]
  rcases expectPeek_cases p TokenType.IDENT with ⟨h1, -⟩ | h1 <;> rw [h1] <;> dsimp only
  swap
  · exact Outcome.failed (after_refl p)
  obtain ⟨r1, a1, e1⟩ := nextToken_facts p
  rcases expectPeek_cases p.nextToken TokenType.ASSIGN with ⟨h2, -⟩ | h2 <;> rw [h2]
    <;> dsimp only
  swap
  · exact Outcome.failed ⟨by omega, by omega, by omega⟩
  obtain ⟨r2, a2, e2⟩ := nextToken_facts p.nextToken
  obtain ⟨r3, a3, e3⟩ := nextToken_facts p.nextToken.nextToken
  have hn := needExpression_nextToken p.nextToken.nextToken
  rcases ih.expression LOWEST p.nextToken.nextToken.nextToken with
    ⟨h, hlt⟩ | ⟨v, q, h, ⟨b1, b2, b3⟩, hw⟩ <;> rw [h] <;> dsimp only
  · exact Or.inl ⟨rfl, by omega⟩
  · obtain ⟨c1, c2, c3⟩ := skipSemicolons_facts q
    refine Or.inr ⟨_, _, rfl, ⟨by omega, by omega, by omega⟩, fun hq _ => ?_⟩
    have hv := hw (by omega) rfl
    show (true && wfExpr v) = true
    rw [hv]
    rfl

theorem parseReturnStatement_outcome (n : Nat) (ih : ParsesAt n) (p : Parser) :
    Outcome (parseReturnStatement (n + 1) p) (n + 1) (8 * p.rest + 7)
      (Post p true wfStatement) := by
  rw [parseReturnStatement_succ]
  have hn := needExpression_nextToken p
  obtain ⟨r1, a1, e1⟩ := nextToken_facts p
  rcases ih.expression LOWEST p.nextToken with ⟨h, hlt⟩ | ⟨v, q, h, ⟨b1, b2, b3⟩, hw⟩
    <;> rw [h] <;> dsimp only
  · exact Or.inl ⟨rfl, by omega⟩
  · obtain ⟨c1, c2, c3⟩ := optionalSemicolon_facts q
    exact Or.inr ⟨_, _, rfl, ⟨by omega, by omega, by omega⟩, fun hq _ => hw (by omega) rfl⟩

theorem parseExpressionStatement_outcome (n : Nat) (ih : ParsesAt n) (p : Parser) :
    Outcome (parseExpressionStatement (n + 1) p) (n + 1) (8 * p.rest + 7)
      (Post p true wfStatement) := by
  rw [parseExpressionStatement_succ]
  have hn := needExpression_le p
  rcases ih.expression LOWEST p with ⟨h, hlt⟩ | ⟨v, q, h, ⟨b1, b2, b3⟩, hw⟩
    <;> rw [h] <;> dsimp only
  · exact Or.inl ⟨rfl, by omega⟩
  · obtain ⟨c1, c2, c3⟩ := optionalSemicolon_facts q
    exact Or.inr ⟨_, _, rfl, ⟨by omega, by omega, by omega⟩, fun hq _ => hw (by omega) rfl⟩

theorem parseExpression_outcome (n : Nat) (ih : ParsesAt n) (prec : Nat) (p : Parser) :
    Outcome (parseExpression (n + 1) prec p) (n + 1) (needExpression p)
      (Post p true wfExpr) := by
  rw [parseExpression_succ]
  by_cases hpf : hasPrefixFn p.curToken.Kind = true
  · have hneed : needExpression p = 8 * p.rest + 6 := by
      unfold needExpression
      rw [if_pos hpf]
    have hc : ¬ ((!hasPrefixFn p.curToken.Kind) = true) := by rw [hpf]; decide
    rw [hneed, if_neg hc]
    rcases ih.callPrefix p hpf with ⟨h, hlt⟩ | ⟨left, q, h, ⟨b1, b2, b3⟩, hw⟩
      <;> rw [h] <;> dsimp only
    · exact Or.inl ⟨rfl, by omega⟩
    · rcases ih.expressionLoop prec left q with ⟨h2, hlt⟩ | ⟨r, q2, h2, ⟨c1, c2, c3⟩, hw2⟩
      · exact Or.inl ⟨h2, by omega⟩
      · exact Or.inr ⟨_, _, h2, ⟨by omega, by omega, by omega⟩,
          fun hq _ => hw2 (by omega) (hw (by omega) rfl)⟩
  · have hf : hasPrefixFn p.curToken.Kind = false := by simpa using hpf
    have hc : (!hasPrefixFn p.curToken.Kind) = true := by rw [hf]; rfl
    rw [if_pos hc]
    obtain ⟨c1, c2, c3⟩ := noPrefix_facts p p.curToken.Kind
    refine Or.inr ⟨_, _, rfl, ⟨by omega, by omega, by omega⟩, fun hq => ?_⟩
    omega

theorem parseExpressionLoop_outcome (n : Nat) (ih : ParsesAt n) (prec : Nat)
    (left : Option Expression) (p : Parser) :
    Outcome (parseExpressionLoop (n + 1) prec left p) (n + 1) (8 * p.rest + 2)
      (Post p (wfExpr left) wfExpr) := by
  rw [parseExpressionLoop_succ]
  split
  · by_cases hi : hasInfixFn p.peekToken.Kind = true
    · have hc : ¬ ((!hasInfixFn p.peekToken.Kind) = true) := by rw [hi]; decide
      rw [if_neg hc]
      have hr := rest_ge_two_of_peek p (hasInfixFn_ne_EOF _ hi)
      obtain ⟨r1, a1, e1⟩ := nextToken_facts p
      rcases ih.callInfix left p.nextToken with ⟨h, hlt⟩ | ⟨l1, q, h, ⟨b1, b2, b3⟩, hw⟩
        <;> rw [h] <;> dsimp only
      · exact Or.inl ⟨rfl, by omega⟩
      · rcases ih.expressionLoop prec l1 q with ⟨h2, hlt⟩ | ⟨r, q2, h2, ⟨c1, c2, c3⟩, hw2⟩
        · exact Or.inl ⟨h2, by omega⟩
        · exact Or.inr ⟨_, _, h2, ⟨by omega, by omega, by omega⟩,
            fun hq hl => hw2 (by omega) (hw (by omega) hl)⟩
    · have hf : hasInfixFn p.peekToken.Kind = false := by simpa using hi
      have hc : (!hasInfixFn p.peekToken.Kind) = true := by rw [hf]; rfl
      rw [if_pos hc]
      exact Or.inr ⟨_, _, rfl, after_refl p, fun _ hl => hl⟩
  · exact Or.inr ⟨_, _, rfl, after_refl p, fun _ hl => hl⟩

theorem parsePrefixOperator_outcome (n : Nat) (ih : ParsesAt n) (p : Parser) :
    Outcome (parsePrefixOperator (n + 1) p) (n + 1) (8 * p.rest + 2) (Post p true wfExpr) := by
  rw [parsePrefixOperator_succ]
  have hn := needExpression_nextToken p
  obtain ⟨r1, a1, e1⟩ := nextToken_facts p
  rcases ih.expression PREFIX p.nextToken with ⟨h, hlt⟩ | ⟨v, q, h, ⟨b1, b2, b3⟩, hw⟩
    <;> rw [h] <;> dsimp only
  · exact Or.inl ⟨rfl, by omega⟩
  · exact Or.inr ⟨_, _, rfl, ⟨by omega, by omega, by omega⟩, fun hq _ => hw (by omega) rfl⟩

theorem parseInfixExpression_outcome (n : Nat) (ih : ParsesAt n) (left : Option Expression)
    (p : Parser) :
    Outcome (parseInfixExpression (n + 1) left p) (n + 1) (8 * p.rest + 2)
      (Post p (wfExpr left) wfExpr) := by
  rw [parseInfixExpression_succ]
  have hn := needExpression_nextToken p
  obtain ⟨r1, a1, e1⟩ := nextToken_facts p
  rcases ih.expression p.curPrecedence p.nextToken with
    ⟨h, hlt⟩ | ⟨v, q, h, ⟨b1, b2, b3⟩, hw⟩ <;> rw [h] <;> dsimp only
  · exact Or.inl ⟨rfl, by omega⟩
  · refine Or.inr ⟨_, _, rfl, ⟨by omega, by omega, by omega⟩, fun hq hl => ?_⟩
    have hv := hw (by omega) rfl
    show (wfExpr left && wfExpr v) = true
    rw [hl, hv]
    rfl

theorem parseGroupedExpression_outcome (n : Nat) (ih : ParsesAt n) (p : Parser) :
    Outcome (parseGroupedExpression (n + 1) p) (n + 1) (8 * p.rest + 2)
      (Post p true wfExpr) := by
  rw [parseGroupedExpression_succ]
  have hn := needExpression_nextToken p
  obtain ⟨r1, a1, e1⟩ := nextToken_facts p
  rcases ih.expression LOWEST p.nextToken with ⟨h, hlt⟩ | ⟨v, q, h, ⟨b1, b2, b3⟩, hw⟩
    <;> rw [h] <;> dsimp only
  · exact Or.inl ⟨rfl, by omega⟩
  · rcases expectPeek_cases q TokenType.RPAREN with ⟨h1, -⟩ | h1 <;> rw [h1] <;> dsimp only
    · obtain ⟨r2, a2, e2⟩ := nextToken_facts q
      exact Or.inr ⟨_, _, rfl, ⟨by omega, by omega, by omega⟩,
        fun hq _ => hw (by omega) rfl⟩
    · exact Outcome.failed ⟨by omega, by omega, by omega⟩

theorem parseBlockStatement_outcome (n : Nat) (ih : ParsesAt n) (p : Parser) :
    Outcome (parseBlockStatement (n + 1) p) (n + 1) (8 * p.rest + 2)
      (Post p true wfBlockStatement) := by
  rw [parseBlockStatement_succ]
  have hn := needBlockLoop_nextToken p
  obtain ⟨r1, a1, e1⟩ := nextToken_facts p
  rcases ih.blockStatementLoop [] p.nextToken with
    ⟨h, hlt⟩ | ⟨v, q, h, ⟨b1, b2, b3⟩, hw⟩ <;> rw [h] <;> dsimp only
  · exact Or.inl ⟨rfl, by omega⟩
  · exact Or.inr ⟨_, _, rfl, ⟨by omega, by omega, by omega⟩, fun hq _ => hw (by omega) rfl⟩

theorem parseBlockStatementLoop_outcome (n : Nat) (ih : ParsesAt n) (acc : List Statement)
    (p : Parser) :
    Outcome (parseBlockStatementLoop (n + 1) acc p) (n + 1) (needBlockLoop p)
      (Post p (wfStatements acc) wfStatements) := by
  rw [parseBlockStatementLoop_succ]
  by_cases hc : (!p.curTokenIs TokenType.RBRACE && !p.curTokenIs TokenType.EOF) = true
  · have hneed : needBlockLoop p = 8 * p.rest + 9 := by
      unfold needBlockLoop
      rw [if_pos hc]
    rw [if_pos hc, hneed]
    rcases ih.statement p with ⟨h, hlt⟩ | ⟨s, q, h, ⟨a1, a2, a3⟩, hw⟩
      <;> rw [h] <;> dsimp only
    · exact Or.inl ⟨rfl, by omega⟩
    · obtain ⟨r1, b1, e1⟩ := nextToken_facts q
      have hn := needBlockLoop_nextToken q
      rcases ih.blockStatementLoop (acc ++ [s]) q.nextToken with
        ⟨h2, hlt⟩ | ⟨ss, q2, h2, ⟨c1, c2, c3⟩, hw2⟩
      · exact Or.inl ⟨h2, by omega⟩
      · exact Or.inr ⟨_, _, h2, ⟨by omega, by omega, by omega⟩,
          fun hq hacc => hw2 (by omega) (wfStatements_snoc _ _ hacc (hw (by omega) rfl))⟩
  · rw [if_neg hc]
    exact Or.inr ⟨_, _, rfl, after_refl p, fun _ h => h⟩

theorem parseIfExpression_outcome (n : Nat) (ih : ParsesAt n) (p : Parser) :
    Outcome (parseIfExpression (n + 1) p) (n + 1) (8 * p.rest + 3) (Post p true wfExpr) := by
  rw [parseIfExpression_succ]
  rcases expectPeek_cases p TokenType.LPAREN with ⟨h1, -⟩ | h1 <;> rw [h1] <;> dsimp only
  swap
  · exact Outcome.failed (after_refl p)
  obtain ⟨r1, a1, e1⟩ := nextToken_facts p
  obtain ⟨r2, a2, e2⟩ := nextToken_facts p.nextToken
  have hn := needExpression_nextToken p.nextToken
  rcases ih.expression LOWEST p.nextToken.nextToken with
    ⟨h, hlt⟩ | ⟨cond, q, h, ⟨b1, b2, b3⟩, hw⟩ <;> rw [h] <;> dsimp only
  · exact Or.inl ⟨rfl, by omega⟩
  rcases expectPeek_cases q TokenType.RPAREN with ⟨h2, -⟩ | h2 <;> rw [h2] <;> dsimp only
  swap
  · exact Outcome.failed ⟨by omega, by omega, by omega⟩
  obtain ⟨r3, a3, e3⟩ := nextToken_facts q
  rcases expectPeek_cases q.nextToken TokenType.LBRACE with ⟨h3, -⟩ | h3 <;> rw [h3]
    <;> dsimp only
  swap
  · exact Outcome.failed ⟨by omega, by omega, by omega⟩
  obtain ⟨r4, a4, e4⟩ := nextToken_facts q.nextToken
  rcases ih.blockStatement q.nextToken.nextToken with
    ⟨h4, hlt⟩ | ⟨cons, q4, h4, ⟨c1, c2, c3⟩, hw4⟩ <;> rw [h4] <;> dsimp only
  · exact Or.inl ⟨rfl, by omega⟩
  split
  · obtain ⟨r5, a5, e5⟩ := nextToken_facts q4
    rcases expectPeek_cases q4.nextToken TokenType.LBRACE with ⟨h5, -⟩ | h5 <;> rw [h5]
      <;> dsimp only
    swap
    · exact Outcome.failed ⟨by omega, by omega, by omega⟩
    obtain ⟨r6, a6, e6⟩ := nextToken_facts q4.nextToken
    rcases ih.blockStatement q4.nextToken.nextToken with
      ⟨h6, hlt⟩ | ⟨alt, q6, h6, ⟨d1, d2, d3⟩, hw6⟩ <;> rw [h6] <;> dsimp only
    · exact Or.inl ⟨rfl, by omega⟩
    refine Or.inr ⟨_, _, rfl, ⟨by omega, by omega, by omega⟩, fun hq _ => ?_⟩
    have w1 := hw (by omega) rfl
    have w2 := hw4 (by omega) rfl
    have w3 := hw6 (by omega) rfl
    show (wfExpr cond && wfBlockStatement cons && wfBlockStatement alt) = true
    rw [w1, w2, w3]
    rfl
  · refine Or.inr ⟨_, _, rfl, ⟨by omega, by omega, by omega⟩, fun hq _ => ?_⟩
    have w1 := hw (by omega) rfl
    have w2 := hw4 (by omega) rfl
    show (wfExpr cond && wfBlockStatement cons && true) = true
    rw [w1, w2]
    rfl

theorem parseFunctionLiteral_outcome (n : Nat) (ih : ParsesAt n) (p : Parser) :
    Outcome (parseFunctionLiteral (n + 1) p) (n + 1) (8 * p.rest + 3)
      (Post p true wfExpr) := by
  rw [parseFunctionLiteral_succ]
  rcases expectPeek_cases p TokenType.LPAREN with ⟨h1, -⟩ | h1 <;> rw [h1] <;> dsimp only
  swap
  · exact Outcome.failed (after_refl p)
  obtain ⟨r1, a1, e1⟩ := nextToken_facts p
  obtain ⟨r2, a2, e2⟩ := after_parseFunctionParameters p.nextToken
  rcases expectPeek_cases p.nextToken.parseFunctionParameters.2 TokenType.LBRACE with
    ⟨h3, -⟩ | h3 <;> rw [h3] <;> dsimp only
  swap
  · exact Outcome.failed ⟨by omega, by omega, by omega⟩
  obtain ⟨r4, a4, e4⟩ := nextToken_facts p.nextToken.parseFunctionParameters.2
  rcases ih.blockStatement p.nextToken.parseFunctionParameters.2.nextToken with
    ⟨h4, hlt⟩ | ⟨body, q4, h4, ⟨c1, c2, c3⟩, hw4⟩ <;> rw [h4] <;> dsimp only
  · exact Or.inl ⟨rfl, by omega⟩
  exact Or.inr ⟨_, _, rfl, ⟨by omega, by omega, by omega⟩, fun hq _ => hw4 (by omega) rfl⟩

theorem parseMacroLiteral_outcome (n : Nat) (ih : ParsesAt n) (p : Parser) :
    Outcome (parseMacroLiteral (n + 1) p) (n + 1) (8 * p.rest + 3) (Post p true wfExpr) := by
  rw [parseMacroLiteral_succ]
  rcases expectPeek_cases p TokenType.LPAREN with ⟨h1, -⟩ | h1 <;> rw [h1] <;> dsimp only
  swap
  · exact Outcome.failed (after_refl p)
  obtain ⟨r1, a1, e1⟩ := nextToken_facts p
  obtain ⟨r2, a2, e2⟩ := after_parseFunctionParameters p.nextToken
  rcases expectPeek_cases p.nextToken.parseFunctionParameters.2 TokenType.LBRACE with
    ⟨h3, -⟩ | h3 <;> rw [h3] <;> dsimp only
  swap
  · exact Outcome.failed ⟨by omega, by omega, by omega⟩
  obtain ⟨r4, a4, e4⟩ := nextToken_facts p.nextToken.parseFunctionParameters.2
  rcases ih.blockStatement p.nextToken.parseFunctionParameters.2.nextToken with
    ⟨h4, hlt⟩ | ⟨body, q4, h4, ⟨c1, c2, c3⟩, hw4⟩ <;> rw [h4] <;> dsimp only
  · exact Or.inl ⟨rfl, by omega⟩
  exact Or.inr ⟨_, _, rfl, ⟨by omega, by omega, by omega⟩, fun hq _ => hw4 (by omega) rfl⟩

theorem parseExpressionListLoop_outcome (n : Nat) (ih : ParsesAt n)
    (acc : List (Option Expression)) (p : Parser) :
    Outcome (parseExpressionListLoop (n + 1) acc p) (n + 1) (8 * p.rest + 2)
      (Post p (wfExprs acc) wfExprs) := by
  rw [parseExpressionListLoop_succ]
  split
  · rename_i hc
    have hk : p.peekToken.Kind = TokenType.COMMA := by simpa [Parser.peekTokenIs] using hc
    have hr := rest_ge_two_of_peek p (by rw [hk]; decide)
    obtain ⟨r1, a1, e1⟩ := nextToken_facts p
    obtain ⟨r2, a2, e2⟩ := nextToken_facts p.nextToken
    have hn := needExpression_nextToken p.nextToken
    rcases ih.expression LOWEST p.nextToken.nextToken with
      ⟨h, hlt⟩ | ⟨e, q, h, ⟨b1, b2, b3⟩, hw⟩ <;> rw [h] <;> dsimp only
    · exact Or.inl ⟨rfl, by omega⟩
    · rcases ih.expressionListLoop (acc ++ [e]) q with
        ⟨h2, hlt⟩ | ⟨es, q2, h2, ⟨c1, c2, c3⟩, hw2⟩
      · exact Or.inl ⟨h2, by omega⟩
      · exact Or.inr ⟨_, _, h2, ⟨by omega, by omega, by omega⟩,
          fun hq hacc => hw2 (by omega) (wfExprs_snoc _ _ hacc (hw (by omega) rfl))⟩
  · exact Or.inr ⟨_, _, rfl, after_refl p, fun _ h => h⟩

theorem parseExpressionList_outcome (n : Nat) (ih : ParsesAt n) (end_ : TokenType)
    (p : Parser) :
    Outcome (parseExpressionList (n + 1) end_ p) (n + 1) (8 * p.rest + 3)
      (Post p true wfExprs) := by
  rw [parseExpressionList_succ]
  obtain ⟨r1, a1, e1⟩ := nextToken_facts p
  split
  · exact Or.inr ⟨_, _, rfl, ⟨by omega, by omega, by omega⟩, fun _ _ => rfl⟩
  · have hn := needExpression_nextToken p
    rcases ih.expression LOWEST p.nextToken with
      ⟨h, hlt⟩ | ⟨e, q, h, ⟨b1, b2, b3⟩, hw⟩ <;> rw [h] <;> dsimp only
    · exact Or.inl ⟨rfl, by omega⟩
    rcases ih.expressionListLoop [e] q with
      ⟨h2, hlt⟩ | ⟨es, q2, h2, ⟨c1, c2, c3⟩, hw2⟩ <;> rw [h2] <;> dsimp only
    · exact Or.inl ⟨rfl, by omega⟩
    rcases expectPeek_cases q2 end_ with ⟨h3, -⟩ | h3 <;> rw [h3] <;> dsimp only
    swap
    · exact Outcome.failed ⟨by omega, by omega, by omega⟩
    obtain ⟨r4, a4, e4⟩ := nextToken_facts q2
    refine Or.inr ⟨_, _, rfl, ⟨by omega, by omega, by omega⟩, fun hq _ => ?_⟩
    apply hw2 (by omega)
    have w := hw (by omega) rfl
    show (wfExpr e && true) = true
    rw [w]
    rfl

theorem parseCallExpression_outcome (n : Nat) (ih : ParsesAt n) (left : Option Expression)
    (p : Parser) :
    Outcome (parseCallExpression (n + 1) left p) (n + 1) (8 * p.rest + 4)
      (Post p (wfExpr left) wfExpr) := by
  rw [parseCallExpression_succ]
  rcases ih.expressionList TokenType.RPAREN p with
    ⟨h, hlt⟩ | ⟨args, q, h, ⟨b1, b2, b3⟩, hw⟩ <;> rw [h] <;> dsimp only
  · exact Or.inl ⟨rfl, by omega⟩
  · refine Or.inr ⟨_, _, rfl, ⟨by omega, by omega, by omega⟩, fun hq hl => ?_⟩
    have w := hw (by omega) rfl
    show (wfExpr left && wfExprs args) = true
    rw [hl, w]
    rfl

theorem parseArrayLiteral_outcome (n : Nat) (ih : ParsesAt n) (p : Parser) :
    Outcome (parseArrayLiteral (n + 1) p) (n + 1) (8 * p.rest + 4) (Post p true wfExpr) := by
  rw [parseArrayLiteral_succ]
  rcases ih.expressionList TokenType.RBRACKET p with
    ⟨h, hlt⟩ | ⟨args, q, h, ⟨b1, b2, b3⟩, hw⟩ <;> rw [h] <;> dsimp only
  · exact Or.inl ⟨rfl, by omega⟩
  · exact Or.inr ⟨_, _, rfl, ⟨by omega, by omega, by omega⟩, fun hq _ => hw (by omega) rfl⟩

theorem parseIndexExpression_outcome (n : Nat) (ih : ParsesAt n) (left : Option Expression)
    (p : Parser) :
    Outcome (parseIndexExpression (n + 1) left p) (n + 1) (8 * p.rest + 2)
      (Post p (wfExpr left) wfExpr) := by
  rw [parseIndexExpression_succ]
  have hn := needExpression_nextToken p
  obtain ⟨r1, a1, e1⟩ := nextToken_facts p
  rcases ih.expression LOWEST p.nextToken with ⟨h, hlt⟩ | ⟨v, q, h, ⟨b1, b2, b3⟩, hw⟩
    <;> rw [h] <;> dsimp only
  · exact Or.inl ⟨rfl, by omega⟩
  · rcases expectPeek_cases q TokenType.RBRACKET with ⟨h1, -⟩ | h1 <;> rw [h1] <;> dsimp only
    · obtain ⟨r2, a2, e2⟩ := nextToken_facts q
      refine Or.inr ⟨_, _, rfl, ⟨by omega, by omega, by omega⟩, fun hq hl => ?_⟩
      have w := hw (by omega) rfl
      show (wfExpr left && wfExpr v) = true
      rw [hl, w]
      rfl
    · exact Outcome.failed ⟨by omega, by omega, by omega⟩

theorem parseHashLiteralLoop_outcome (n : Nat) (ih : ParsesAt n)
    (acc : List (Option Expression × Option Expression)) (p : Parser) :
    Outcome (parseHashLiteralLoop (n + 1) acc p) (n + 1) (8 * p.rest + 2)
      (Post p (wfPairs acc) wfPairsResult) := by
  rw [parseHashLiteralLoop_succ]
  split
  swap
  · exact Or.inr ⟨_, _, rfl, after_refl p, fun _ h => h⟩
  have hn := needExpression_nextToken p
  obtain ⟨r1, a1, e1⟩ := nextToken_facts p
  rcases ih.expression LOWEST p.nextToken with ⟨h, hlt⟩ | ⟨key, q, h, ⟨b1, b2, b3⟩, hw⟩
    <;> rw [h] <;> dsimp only
  · exact Or.inl ⟨rfl, by omega⟩
  rcases expectPeek_cases q TokenType.COLON with ⟨h1, hk⟩ | h1 <;> rw [h1] <;> dsimp only
  swap
  · exact Outcome.failed ⟨by omega, by omega, by omega⟩
  have hr := rest_ge_two_of_peek q (by rw [hk]; decide)
  obtain ⟨r2, a2, e2⟩ := nextToken_facts q
  obtain ⟨r3, a3, e3⟩ := nextToken_facts q.nextToken
  have hn2 := needExpression_nextToken q.nextToken
  rcases ih.expression LOWEST q.nextToken.nextToken with
    ⟨h2, hlt⟩ | ⟨value, q2, h2, ⟨c1, c2, c3⟩, hw2⟩ <;> rw [h2] <;> dsimp only
  · exact Or.inl ⟨rfl, by omega⟩
  split
  · rcases expectPeek_cases q2 TokenType.COMMA with ⟨h3, -⟩ | h3 <;> rw [h3] <;> dsimp only
    swap
    · exact Outcome.failed ⟨by omega, by omega, by omega⟩
    obtain ⟨r4, a4, e4⟩ := nextToken_facts q2
    rcases ih.hashLiteralLoop (pairsSet acc key value) q2.nextToken with
      ⟨h4, hlt⟩ | ⟨ps, q4, h4, ⟨d1, d2, d3⟩, hw4⟩
    · exact Or.inl ⟨h4, by omega⟩
    · exact Or.inr ⟨_, _, h4, ⟨by omega, by omega, by omega⟩,
        fun hq hacc => hw4 (by omega)
          (wfPairs_pairsSet _ _ _ hacc (hw (by omega) rfl) (hw2 (by omega) rfl))⟩
  · rcases ih.hashLiteralLoop (pairsSet acc key value) q2 with
      ⟨h4, hlt⟩ | ⟨ps, q4, h4, ⟨d1, d2, d3⟩, hw4⟩
    · exact Or.inl ⟨h4, by omega⟩
    · exact Or.inr ⟨_, _, h4, ⟨by omega, by omega, by omega⟩,
        fun hq hacc => hw4 (by omega)
          (wfPairs_pairsSet _ _ _ hacc (hw (by omega) rfl) (hw2 (by omega) rfl))⟩

theorem parseHashLiteral_outcome (n : Nat) (ih : ParsesAt n) (p : Parser) :
    Outcome (parseHashLiteral (n + 1) p) (n + 1) (8 * p.rest + 3) (Post p true wfExpr) := by
  rw [parseHashLiteral_succ]
  rcases ih.hashLiteralLoop [] p with ⟨h, hlt⟩ | ⟨ps, q, h, ⟨b1, b2, b3⟩, hw⟩
  · rw [h]
    exact Or.inl ⟨rfl, by omega⟩
  rw [h]
  cases ps with
  | none =>
    refine Or.inr ⟨_, _, rfl, ⟨by omega, by omega, by omega⟩, fun hq _ => ?_⟩
    exact absurd (hw (by omega) rfl) (by decide)
  | some pairs =>
    dsimp only
    rcases expectPeek_cases q TokenType.RBRACE with ⟨h1, -⟩ | h1 <;> rw [h1] <;> dsimp only
    · obtain ⟨r2, a2, e2⟩ := nextToken_facts q
      exact Or.inr ⟨_, _, rfl, ⟨by omega, by omega, by omega⟩,
        fun hq _ => hw (by omega) rfl⟩
    · exact Outcome.failed ⟨by omega, by omega, by omega⟩

theorem callInfixFn_outcome (n : Nat) (ih : ParsesAt n) (left : Option Expression)
    (p : Parser) :
    Outcome (callInfixFn (n + 1) left p) (n + 1) (8 * p.rest + 5)
      (Post p (wfExpr left) wfExpr) := by
  rw [callInfixFn_succ]
  split
  · exact (ih.callExpression left p).mono (by omega)
  · exact (ih.indexExpression left p).mono (by omega)
  · exact (ih.infixExpression left p).mono (by omega)

theorem callPrefixFn_outcome (n : Nat) (ih : ParsesAt n) (p : Parser)
    (hpf : hasPrefixFn p.curToken.Kind = true) :
    Outcome (callPrefixFn (n + 1) p) (n + 1) (8 * p.rest + 5) (Post p true wfExpr) := by
  rw [callPrefixFn_succ]
  split
  · exact Or.inr ⟨_, _, rfl, after_refl p, fun _ _ => rfl⟩
  · exact Or.inr ⟨p.parseIntegerLiteral.1, p.parseIntegerLiteral.2, rfl,
      after_parseIntegerLiteral p⟩
  · exact Or.inr ⟨_, _, rfl, after_refl p, fun _ _ => rfl⟩
  · exact Or.inr ⟨_, _, rfl, after_refl p, fun _ _ => rfl⟩
  · exact (ih.prefixOperator p).mono (by omega)
  · exact (ih.prefixOperator p).mono (by omega)
  · exact (ih.grouped p).mono (by omega)
  · exact (ih.ifExpression p).mono (by omega)
  · exact (ih.functionLiteral p).mono (by omega)
  · exact Or.inr ⟨_, _, rfl, after_refl p, fun _ _ => rfl⟩
  · exact (ih.arrayLiteral p).mono (by omega)
  · exact (ih.hashLiteral p).mono (by omega)
  · exact (ih.macroLiteral p).mono (by omega)
  · exfalso
    generalize p.curToken.Kind = k at *
    cases k <;> simp_all [hasPrefixFn]

/-- Whatever the bound `n` on the depth of the calls, every parsing function returns with
its postcondition unless `n` is less than what its state needs. -/
theorem parsesAt (n : Nat) : ParsesAt n := by
  induction n with
  | zero => exact parsesAt_zero
  | succ n ih =>
    exact {
      statement := parseStatement_outcome n ih
      letStatement := parseLetStatement_outcome n ih
      returnStatement := parseReturnStatement_outcome n ih
      expressionStatement := parseExpressionStatement_outcome n ih
      expression := parseExpression_outcome n ih
      expressionLoop := parseExpressionLoop_outcome n ih
      callPrefix := callPrefixFn_outcome n ih
      callInfix := callInfixFn_outcome n ih
      prefixOperator := parsePrefixOperator_outcome n ih
      infixExpression := parseInfixExpression_outcome n ih
      grouped := parseGroupedExpression_outcome n ih
      ifExpression := parseIfExpression_outcome n ih
      blockStatement := parseBlockStatement_outcome n ih
      blockStatementLoop := parseBlockStatementLoop_outcome n ih
      functionLiteral := parseFunctionLiteral_outcome n ih
      callExpression := parseCallExpression_outcome n ih
      arrayLiteral := parseArrayLiteral_outcome n ih
      expressionList := parseExpressionList_outcome n ih
      expressionListLoop := parseExpressionListLoop_outcome n ih
      indexExpression := parseIndexExpression_outcome n ih
      hashLiteral := parseHashLiteral_outcome n ih
      hashLiteralLoop := parseHashLiteralLoop_outcome n ih
      macroLiteral := parseMacroLiteral_outcome n ih }

/-! ### The loop of `ParseProgram` -/

theorem ahead_nextToken_eq (p : Parser) : p.nextToken.ahead = countTokens p.l := by
  unfold Parser.nextToken Parser.ahead countTokens
  rcases hl : p.l with _ | ⟨x, xs⟩
  · simp [eofToken]
  · by_cases hx : x.Kind = TokenType.EOF
    · simp [hx, List.countP_cons]
    · simp only [hx, List.countP_cons, if_false, decide_not, ne_eq, not_false_eq_true,
        decide_True, decide_False, Bool.not_false, if_true]
      omega

theorem pending_nextToken (p : Parser) : p.nextToken.pending = p.ahead := by
  have h := ahead_nextToken_eq p
  unfold Parser.pending
  rw [h]
  unfold Parser.ahead countTokens
  have hc : p.nextToken.curToken = p.peekToken := by
    unfold Parser.nextToken
    cases p.l <;> rfl
  rw [hc]

theorem needProgramLoop_nextToken (p : Parser) :
    needProgramLoop p.nextToken ≤ 8 * p.rest + 1 := by
  unfold needProgramLoop
  split
  · omega
  · rename_i h
    have hc : p.nextToken.curToken.Kind ≠ TokenType.EOF := by
      intro he
      simp [Parser.curTokenIs, he] at h
    have h1 := rest_pos_of_cur _ hc
    have h2 := rest_nextToken p
    omega

theorem ParseProgramLoop_outcome (n : Nat) (acc : List Statement) (p : Parser) :
    Outcome (ParseProgramLoop n acc p) n (needProgramLoop p)
      (fun r q => p.errors.length ≤ q.errors.length
        ∧ r.length ≤ acc.length + p.pending
        ∧ (q.errors.length = p.errors.length → wfStatements acc = true
            → wfStatements r = true)) := by
  induction n generalizing acc p with
  | zero =>
    refine Or.inl ⟨rfl, ?_⟩
    unfold needProgramLoop
    split <;> omega
  | succ n ih =>
    rw [ParseProgramLoop_succ]
    by_cases hc : p.curTokenIs TokenType.EOF = true
    · have h1 : ¬ ((!p.curTokenIs TokenType.EOF) = true) := by rw [hc]; decide
      rw [if_neg h1]
      exact Or.inr ⟨_, _, rfl, le_refl _, by omega, fun _ h => h⟩
    · have hf : p.curTokenIs TokenType.EOF = false := by simpa using hc
      have h1 : (!p.curTokenIs TokenType.EOF) = true := by rw [hf]; rfl
      have hneed : needProgramLoop p = 8 * p.rest + 9 := by
        unfold needProgramLoop
        rw [if_neg hc]
      have hk : p.curToken.Kind ≠ TokenType.EOF := by
        intro he
        simp [Parser.curTokenIs, he] at hf
      have hp : p.pending = 1 + p.ahead := by
        unfold Parser.pending
        rw [if_neg hk]
      rw [if_pos h1, hneed]
      rcases (parsesAt n).statement p with ⟨h, hlt⟩ | ⟨s, q, h, ⟨a1, a2, a3⟩, hw⟩
        <;> rw [h] <;> dsimp only
      · exact Or.inl ⟨rfl, by omega⟩
      · obtain ⟨r1, b1, e1⟩ := nextToken_facts q
        have hn := needProgramLoop_nextToken q
        have hpn := pending_nextToken q
        rcases ih (acc ++ [s]) q.nextToken with ⟨h2, hlt⟩ | ⟨ss, q2, h2, c1, c2, hw2⟩
        · exact Or.inl ⟨h2, by omega⟩
        · have hl : (acc ++ [s]).length = acc.length + 1 := by simp
          exact Or.inr ⟨_, _, h2, by omega, by omega,
            fun hq hacc => hw2 (by omega) (wfStatements_snoc _ _ hacc (hw (by omega) rfl))⟩

theorem rest_New (l : List Token) : (New l).rest ≤ l.length := by
  rcases l with _ | ⟨a, _ | ⟨b, l⟩⟩
  · decide
  · by_cases ha : a.Kind = TokenType.EOF <;> simp [New, Parser.nextToken, Parser.rest, eofToken, ha]
  · rcases l with _ | ⟨c, l⟩
    · by_cases hb : b.Kind = TokenType.EOF <;> by_cases ha : a.Kind = TokenType.EOF <;>
        simp [New, Parser.nextToken, Parser.rest, ha, hb]
    · simp [New, Parser.nextToken, Parser.rest]

theorem pending_New (l : List Token) : (New l).pending = countTokens l := by
  unfold New
  rw [pending_nextToken, ahead_nextToken_eq]

theorem errors_New (l : List Token) : (New l).errors = [] := by
  unfold New
  rw [errors_nextToken, errors_nextToken]

/-- `ParseProgram` returns on every token sequence: the bound on the depth of the calls is
never reached. The program has at most as many statements as there are tokens other than
`EOF`, and it is well-formed when no error message has been recorded. -/
theorem ParseProgram_returns (l : List Token) :
    ∃ prog p, ParseProgram l = some (prog, p)
      ∧ prog.Statements.length ≤ countTokens l
      ∧ (p.Errors = [] → wfProgram prog = true) := by
  have hr := rest_New l
  have hneed : needProgramLoop (New l) ≤ 8 * l.length + 16 := by
    unfold needProgramLoop
    split <;> omega
  obtain ⟨ss, q, h, -, c2, hw⟩ := (ParseProgramLoop_outcome (8 * l.length + 16) [] (New l)).of_fuel hneed
  refine ⟨⟨ss⟩, q, ?_, ?_, ?_⟩
  · unfold ParseProgram Parser.ParseProgramFuel
    rw [h]
  · rw [pending_New] at c2
    simpa using c2
  · intro he
    have he1 : q.errors = [] := he
    apply hw _ rfl
    rw [he1, errors_New]

/-! ### Progress of the loops of the parser -/

theorem cur_ne_EOF_of_curTokenIs (p : Parser) (hc : p.curTokenIs TokenType.EOF = false) :
    p.curToken.Kind ≠ TokenType.EOF := by
  intro he
  simp [Parser.curTokenIs, he] at hc

theorem peek_of_peekTokenIs (p : Parser) (t : TokenType) (hc : p.peekTokenIs t = true) :
    p.peekToken.Kind = t := by
  simpa [Parser.peekTokenIs] using hc

theorem ParseProgramLoop_advances (n : Nat) (acc : List Statement) (p : Parser)
    (stmt : Statement) (q : Parser) (hc : p.curTokenIs TokenType.EOF = false)
    (h : parseStatement n p = some (stmt, q)) :
    ParseProgramLoop (n + 1) acc p = ParseProgramLoop n (acc ++ [stmt]) q.nextToken
      ∧ q.nextToken.rest < p.rest := by
  have h1 := rest_pos_of_cur p (cur_ne_EOF_of_curTokenIs p hc)
  obtain ⟨⟨a1, -, -⟩, -⟩ := ((parsesAt n).statement p).of_some _ _ h
  have r1 := rest_nextToken q
  refine ⟨?_, by omega⟩
  rw [ParseProgramLoop_succ, if_pos (by rw [hc]; rfl), h]

theorem parseBlockStatementLoop_advances (n : Nat) (acc : List Statement) (p : Parser)
    (stmt : Statement) (q : Parser) (hb : p.curTokenIs TokenType.RBRACE = false)
    (hc : p.curTokenIs TokenType.EOF = false) (h : parseStatement n p = some (stmt, q)) :
    parseBlockStatementLoop (n + 1) acc p
        = parseBlockStatementLoop n (acc ++ [stmt]) q.nextToken
      ∧ q.nextToken.rest < p.rest := by
  have h1 := rest_pos_of_cur p (cur_ne_EOF_of_curTokenIs p hc)
  obtain ⟨⟨a1, -, -⟩, -⟩ := ((parsesAt n).statement p).of_some _ _ h
  have r1 := rest_nextToken q
  refine ⟨?_, by omega⟩
  rw [parseBlockStatementLoop_succ, if_pos (by rw [hb, hc]; rfl), h]

theorem parseExpressionLoop_advances (n prec : Nat) (left : Option Expression) (p : Parser)
    (left1 : Option Expression) (q : Parser) (hs : p.peekTokenIs TokenType.SEMICOLON = false)
    (hp : prec < p.peekPrecedence) (hi : hasInfixFn p.peekToken.Kind = true)
    (h : callInfixFn n left p.nextToken = some (left1, q)) :
    parseExpressionLoop (n + 1) prec left p = parseExpressionLoop n prec left1 q
      ∧ q.rest < p.rest := by
  have h1 := rest_ge_two_of_peek p (hasInfixFn_ne_EOF _ hi)
  obtain ⟨⟨a1, -, -⟩, -⟩ := ((parsesAt n).callInfix left p.nextToken).of_some _ _ h
  have r1 := rest_nextToken p
  refine ⟨?_, by omega⟩
  rw [parseExpressionLoop_succ, if_pos (by rw [hs, decide_eq_true hp]; rfl),
    if_neg (by rw [hi]; decide), h]

theorem parseExpressionListLoop_advances (n : Nat) (acc : List (Option Expression))
    (p : Parser) (e : Option Expression) (q : Parser)
    (hc : p.peekTokenIs TokenType.COMMA = true)
    (h : parseExpression n LOWEST p.nextToken.nextToken = some (e, q)) :
    parseExpressionListLoop (n + 1) acc p = parseExpressionListLoop n (acc ++ [e]) q
      ∧ q.rest < p.rest := by
  have h1 := rest_ge_two_of_peek p (by rw [peek_of_peekTokenIs p _ hc]; decide)
  obtain ⟨⟨a1, -, -⟩, -⟩ := ((parsesAt n).expression LOWEST p.nextToken.nextToken).of_some _ _ h
  have r1 := rest_nextToken p
  have r2 := rest_nextToken p.nextToken
  refine ⟨?_, by omega⟩
  rw [parseExpressionListLoop_succ, if_pos hc, h]

theorem parameterLoop_advances (n : Nat) (acc : List Identifier) (p : Parser)
    (hc : p.peekTokenIs TokenType.COMMA = true) :
    parameterLoop (n + 1) acc p
        = parameterLoop n (acc ++ [p.nextToken.nextToken.parseIdentifier])
            p.nextToken.nextToken
      ∧ p.nextToken.nextToken.rest < p.rest := by
  have h1 := rest_ge_two_of_peek p (by rw [peek_of_peekTokenIs p _ hc]; decide)
  have r1 := rest_nextToken p
  have r2 := rest_nextToken p.nextToken
  refine ⟨?_, by omega⟩
  show (if p.peekTokenIs TokenType.COMMA then _ else _) = _
  rw [if_pos hc]

theorem parseHashLiteralLoop_advances (n : Nat)
    (acc : List (Option Expression × Option Expression)) (p : Parser)
    (key : Option Expression) (q : Parser) (value : Option Expression) (q2 : Parser)
    (hb : p.peekTokenIs TokenType.RBRACE = false)
    (hkey : parseExpression n LOWEST p.nextToken = some (key, q))
    (hcolon : q.peekTokenIs TokenType.COLON = true)
    (hvalue : parseExpression n LOWEST q.nextToken.nextToken = some (value, q2))
    (hend : q2.peekTokenIs TokenType.RBRACE = true ∨ q2.peekTokenIs TokenType.COMMA = true) :
    parseHashLiteralLoop (n + 1) acc p
        = parseHashLiteralLoop n (pairsSet acc key value)
            (if q2.peekTokenIs TokenType.RBRACE then q2 else q2.nextToken)
      ∧ (if q2.peekTokenIs TokenType.RBRACE then q2 else q2.nextToken).rest < p.rest := by
  have h1 := rest_ge_two_of_peek q (by rw [peek_of_peekTokenIs q _ hcolon]; decide)
  obtain ⟨⟨a1, -, -⟩, -⟩ := ((parsesAt n).expression LOWEST p.nextToken).of_some _ _ hkey
  obtain ⟨⟨a2, -, -⟩, -⟩ :=
    ((parsesAt n).expression LOWEST q.nextToken.nextToken).of_some _ _ hvalue
  have r1 := rest_nextToken p
  have r2 := rest_nextToken q
  have r3 := rest_nextToken q.nextToken
  have r4 := rest_nextToken q2
  rw [parseHashLiteralLoop_succ, if_pos (by rw [hb]; rfl), hkey]
  dsimp only
  rw [expectPeek_true q _ hcolon]
  dsimp only
  rw [hvalue]
  dsimp only
  by_cases he : q2.peekTokenIs TokenType.RBRACE = true
  · rw [if_neg (by rw [he]; decide), if_pos he]
    exact ⟨rfl, by omega⟩
  · have hf : q2.peekTokenIs TokenType.RBRACE = false := by simpa using he
    have hcomma : q2.peekTokenIs TokenType.COMMA = true := by
      rcases hend with h | h
      · exact absurd h he
      · exact h
    rw [if_pos (by rw [hf]; rfl), expectPeek_true q2 _ hcomma, if_neg he]
    exact ⟨rfl, by omega⟩

theorem parameterLoop_leaves (n : Nat) (acc : List Identifier) (p : Parser)
    (h : p.l.length < n ∨ p.peekTokenIs TokenType.COMMA = false) :
    (parameterLoop n acc p).2.peekTokenIs TokenType.COMMA = false := by
  induction n generalizing acc p with
  | zero =>
    rcases h with h | h
    · omega
    · exact h
  | succ n ih =>
    by_cases hc : p.peekTokenIs TokenType.COMMA = true
    · rw [(parameterLoop_advances n acc p hc).1]
      apply ih
      rcases hl : p.l with _ | ⟨x, _ | ⟨y, zs⟩⟩
      · right
        simp [Parser.nextToken, hl, Parser.peekTokenIs, eofToken]
      · right
        simp [Parser.nextToken, hl, Parser.peekTokenIs, eofToken]
      · left
        rcases h with h | h
        · rw [hl] at h
          simp [Parser.nextToken, hl] at h ⊢
          omega
        · rw [h] at hc
          cases hc
    · have hf : p.peekTokenIs TokenType.COMMA = false := by simpa using hc
      show (if p.peekTokenIs TokenType.COMMA then _ else _ : List Identifier × Parser).2.peekTokenIs
        TokenType.COMMA = false
      rw [if_neg hc]
      exact hf

theorem semicolonLoop_leaves (n : Nat) (p : Parser)
    (h : p.l.length < n ∨ p.peekTokenIs TokenType.SEMICOLON = false) :
    (semicolonLoop n p).peekTokenIs TokenType.SEMICOLON = false := by
  induction n generalizing p with
  | zero =>
    rcases h with h | h
    · omega
    · exact h
  | succ n ih =>
    by_cases hc : p.peekTokenIs TokenType.SEMICOLON = true
    · show (if p.peekTokenIs TokenType.SEMICOLON then semicolonLoop n p.nextToken else p).peekTokenIs
        TokenType.SEMICOLON = false
      rw [if_pos hc]
      apply ih
      rcases hl : p.l with _ | ⟨x, xs⟩
      · right
        simp [Parser.nextToken, hl, Parser.peekTokenIs, eofToken]
      · left
        rcases h with h | h
        · rw [hl] at h
          simp [Parser.nextToken, hl] at h ⊢
          omega
        · rw [h] at hc
          cases hc
    · have hf : p.peekTokenIs TokenType.SEMICOLON = false := by simpa using hc
      show (if p.peekTokenIs TokenType.SEMICOLON then semicolonLoop n p.nextToken else p).peekTokenIs
        TokenType.SEMICOLON = false
      rw [if_neg hc]
      exact hf

/-- C22: the parser terminates on every token sequence. `ParseProgram` returns, the bound
on the depth of the calls never being reached, and the program has at most as many
statements as the sequence has tokens other than `EOF`. An iteration of the loop of
`ParseProgram`, `parseBlockStatement`, `parseExpression`, `parseExpressionList`,
`parseFunctionParameters` or `parseHashLiteral` that does not leave the loop starts the
next iteration in a state with fewer tokens left to read (`Parser.rest`); the iteration
bounds of the loops of `parseFunctionParameters` and of `parseLetStatement` are never what
ends them. -/
theorem parser_terminates (l : List Token) :
    (∃ prog p, ParseProgram l = some (prog, p) ∧ prog.Statements.length ≤ countTokens l)
    ∧ (∀ (n : Nat) (acc : List Statement) (p : Parser) (stmt : Statement) (q : Parser),
        p.curTokenIs TokenType.EOF = false → parseStatement n p = some (stmt, q) →
        ParseProgramLoop (n + 1) acc p = ParseProgramLoop n (acc ++ [stmt]) q.nextToken
          ∧ q.nextToken.rest < p.rest)
    ∧ (∀ (n : Nat) (acc : List Statement) (p : Parser) (stmt : Statement) (q : Parser),
        p.curTokenIs TokenType.RBRACE = false → p.curTokenIs TokenType.EOF = false →
        parseStatement n p = some (stmt, q) →
        parseBlockStatementLoop (n + 1) acc p
            = parseBlockStatementLoop n (acc ++ [stmt]) q.nextToken
          ∧ q.nextToken.rest < p.rest)
    ∧ (∀ (n prec : Nat) (left : Option Expression) (p : Parser) (left1 : Option Expression)
        (q : Parser),
        p.peekTokenIs TokenType.SEMICOLON = false → prec < p.peekPrecedence →
        hasInfixFn p.peekToken.Kind = true →
        callInfixFn n left p.nextToken = some (left1, q) →
        parseExpressionLoop (n + 1) prec left p = parseExpressionLoop n prec left1 q
          ∧ q.rest < p.rest)
    ∧ (∀ (n : Nat) (acc : List (Option Expression)) (p : Parser) (e : Option Expression)
        (q : Parser),
        p.peekTokenIs TokenType.COMMA = true →
        parseExpression n LOWEST p.nextToken.nextToken = some (e, q) →
        parseExpressionListLoop (n + 1) acc p = parseExpressionListLoop n (acc ++ [e]) q
          ∧ q.rest < p.rest)
    ∧ (∀ (n : Nat) (acc : List Identifier) (p : Parser),
        p.peekTokenIs TokenType.COMMA = true →
        parameterLoop (n + 1) acc p
            = parameterLoop n (acc ++ [p.nextToken.nextToken.parseIdentifier])
                p.nextToken.nextToken
          ∧ p.nextToken.nextToken.rest < p.rest)
    ∧ (∀ (n : Nat) (acc : List (Option Expression × Option Expression)) (p : Parser)
        (key : Option Expression) (q : Parser) (value : Option Expression) (q2 : Parser),
        p.peekTokenIs TokenType.RBRACE = false →
        parseExpression n LOWEST p.nextToken = some (key, q) →
        q.peekTokenIs TokenType.COLON = true →
        parseExpression n LOWEST q.nextToken.nextToken = some (value, q2) →
        (q2.peekTokenIs TokenType.RBRACE = true ∨ q2.peekTokenIs TokenType.COMMA = true) →
        parseHashLiteralLoop (n + 1) acc p
            = parseHashLiteralLoop n (pairsSet acc key value)
                (if q2.peekTokenIs TokenType.RBRACE then q2 else q2.nextToken)
          ∧ (if q2.peekTokenIs TokenType.RBRACE then q2 else q2.nextToken).rest < p.rest)
    ∧ (∀ (acc : List Identifier) (p : Parser),
        (parameterLoop (p.l.length + 1) acc p).2.peekTokenIs TokenType.COMMA = false)
    ∧ (∀ p : Parser, p.skipSemicolons.peekTokenIs TokenType.SEMICOLON = false) := by
  obtain ⟨prog, p, h, hc, -⟩ := ParseProgram_returns l
  exact ⟨⟨prog, p, h, hc⟩, ParseProgramLoop_advances, parseBlockStatementLoop_advances,
    parseExpressionLoop_advances, parseExpressionListLoop_advances, parameterLoop_advances,
    parseHashLiteralLoop_advances,
    fun acc p => parameterLoop_leaves _ acc p (Or.inl (Nat.lt_succ_self _)),
    fun p => semicolonLoop_leaves _ p (Or.inl (Nat.lt_succ_self _))⟩

/-- C26: an empty error list means a well-formed tree. On every token sequence
`ParseProgram` returns, and when `Errors()` is empty afterwards no statement of the
program, at any depth, is nil and no child is nil (the name and the value of a let
statement, a return value, the expression of an expression statement, the operands of a
prefix or infix expression, the condition and the then-block of an if-expression, the body
of a function or macro, the callee and the arguments of a call, the elements of an array,
the operands of an index expression, the keys and values of a hash) but for the else-block
of an if-expression. -/
theorem error_free_parse_is_well_formed (l : List Token) :
    ∃ prog p, ParseProgram l = some (prog, p) ∧ (p.Errors = [] → wfProgram prog = true) := by
  obtain ⟨prog, p, h, -, hw⟩ := ParseProgram_returns l
  exact ⟨prog, p, h, hw⟩

/-- Witness of C26: the tokens of `let newAdder = fn(x) ...` parse without an error
message, and the program is well-formed. -/
theorem error_free_parse_is_well_formed_witness :
    ∃ p, ParseProgram newAdderTokens = some (newAdderProgram, p) ∧ p.Errors = []
      ∧ wfProgram newAdderProgram = true := by
  obtain ⟨prog, p, h, hw⟩ := error_free_parse_is_well_formed newAdderTokens
  have h2 : ∃ q, ParseProgram newAdderTokens = some (newAdderProgram, q) ∧ q.Errors = [] :=
    ⟨_, rfl, rfl⟩
  obtain ⟨q, hq, he⟩ := h2
  rw [hq] at h
  cases h
  exact ⟨_, hq, he, hw he⟩

/-! ### A larger bound on the depth of the calls does not change what the parser returns -/

theorem parserMono_zero : ParserMono 0 where
  statement := fun _ _ h => nomatch h
  letStatement := fun _ _ h => nomatch h
  returnStatement := fun _ _ h => nomatch h
  expressionStatement := fun _ _ h => nomatch h
  expression := fun _ _ _ h => nomatch h
  expressionLoop := fun _ _ _ _ h => nomatch h
  callPrefix := fun _ _ h => nomatch h
  callInfix := fun _ _ _ h => nomatch h
  prefixOperator := fun _ _ h => nomatch h
  infixExpression := fun _ _ _ h => nomatch h
  grouped := fun _ _ h => nomatch h
  ifExpression := fun _ _ h => nomatch h
  blockStatement := fun _ _ h => nomatch h
  blockStatementLoop := fun _ _ _ h => nomatch h
  functionLiteral := fun _ _ h => nomatch h
  callExpression := fun _ _ _ h => nomatch h
  arrayLiteral := fun _ _ h => nomatch h
  expressionList := fun _ _ _ h => nomatch h
  expressionListLoop := fun _ _ _ h => nomatch h
  indexExpression := fun _ _ _ h => nomatch h
  hashLiteral := fun _ _ h => nomatch h
  hashLiteralLoop := fun _ _ _ h => nomatch h
  macroLiteral := fun _ _ h => nomatch h

theorem parseStatement_mono (n : Nat) (ih : ParserMono n) (p : Parser)
    (r : Statement × Parser) (h : parseStatement (n + 1) p = some r) :
    parseStatement (n + 2) p = some r := by
  rw [parseStatement_succ] at h ⊢
  split at h
  · exact ih.letStatement _ _ h
  · exact ih.returnStatement _ _ h
  · exact ih.expressionStatement _ _ h

theorem parseLetStatement_mono (n : Nat) (ih : ParserMono n) (p : Parser)
    (r : Statement × Parser) (h : parseLetStatement (n + 1) p = some r) :
    parseLetStatement (n + 2) p = some r := by
  rw [parseLetStatement_succ] at h ⊢
  rcases expectPeek_cases p TokenType.IDENT with ⟨h1, -⟩ | h1 <;> rw [h1] at h ⊢
    <;> dsimp only at h ⊢
  swap
  · exact h
  rcases expectPeek_cases p.nextToken TokenType.ASSIGN with ⟨h2, -⟩ | h2 <;> rw [h2] at h ⊢
    <;> dsimp only at h ⊢
  swap
  · exact h
  rcases hc : parseExpression n LOWEST p.nextToken.nextToken.nextToken with _ | ⟨v, q⟩
  · rw [hc] at h
    cases h
  · rw [hc] at h
    rw [ih.expression _ _ _ hc]
    exact h

theorem parseReturnStatement_mono (n : Nat) (ih : ParserMono n) (p : Parser)
    (r : Statement × Parser) (h : parseReturnStatement (n + 1) p = some r) :
    parseReturnStatement (n + 2) p = some r := by
  rw [parseReturnStatement_succ] at h ⊢
  rcases hc : parseExpression n LOWEST p.nextToken with _ | ⟨v, q⟩
  · rw [hc] at h
    cases h
  · rw [hc] at h
    rw [ih.expression _ _ _ hc]
    exact h

theorem parseExpressionStatement_mono (n : Nat) (ih : ParserMono n) (p : Parser)
    (r : Statement × Parser) (h : parseExpressionStatement (n + 1) p = some r) :
    parseExpressionStatement (n + 2) p = some r := by
  rw [parseExpressionStatement_succ] at h ⊢
  rcases hc : parseExpression n LOWEST p with _ | ⟨v, q⟩
  · rw [hc] at h
    cases h
  · rw [hc] at h
    rw [ih.expression _ _ _ hc]
    exact h

theorem parseExpression_mono (n : Nat) (ih : ParserMono n) (prec : Nat) (p : Parser)
    (r : Option Expression × Parser) (h : parseExpression (n + 1) prec p = some r) :
    parseExpression (n + 2) prec p = some r := by
  rw [parseExpression_succ] at h ⊢
  by_cases hc0 : (!hasPrefixFn p.curToken.Kind) = true
  · rw [if_pos hc0] at h ⊢
    exact h
  · rw [if_neg hc0] at h ⊢
    rcases hc : callPrefixFn n p with _ | ⟨v, q⟩
    · rw [hc] at h
      cases h
    · rw [hc] at h
      rw [ih.callPrefix _ _ hc]
      exact ih.expressionLoop _ _ _ _ h

theorem parseExpressionLoop_mono (n : Nat) (ih : ParserMono n) (prec : Nat)
    (left : Option Expression) (p : Parser) (r : Option Expression × Parser)
    (h : parseExpressionLoop (n + 1) prec left p = some r) :
    parseExpressionLoop (n + 2) prec left p = some r := by
  rw [parseExpressionLoop_succ] at h ⊢
  by_cases hc0 : (!p.peekTokenIs TokenType.SEMICOLON && decide (prec < p.peekPrecedence)) = true
  · rw [if_pos hc0] at h ⊢
    by_cases hc1 : (!hasInfixFn p.peekToken.Kind) = true
    · rw [if_pos hc1] at h ⊢
      exact h
    · rw [if_neg hc1] at h ⊢
      rcases hc : callInfixFn n left p.nextToken with _ | ⟨v, q⟩
      · rw [hc] at h
        cases h
      · rw [hc] at h
        rw [ih.callInfix _ _ _ hc]
        exact ih.expressionLoop _ _ _ _ h
  · rw [if_neg hc0] at h ⊢
    exact h

theorem callPrefixFn_mono (n : Nat) (ih : ParserMono n) (p : Parser)
    (r : Option Expression × Parser) (h : callPrefixFn (n + 1) p = some r) :
    callPrefixFn (n + 2) p = some r := by
  rw [callPrefixFn_succ] at h ⊢
  split at h
  · exact h
  · exact h
  · exact h
  · exact h
  · exact ih.prefixOperator _ _ h
  · exact ih.prefixOperator _ _ h
  · exact ih.grouped _ _ h
  · exact ih.ifExpression _ _ h
  · exact ih.functionLiteral _ _ h
  · exact h
  · exact ih.arrayLiteral _ _ h
  · exact ih.hashLiteral _ _ h
  · exact ih.macroLiteral _ _ h
  · exact h

theorem callInfixFn_mono (n : Nat) (ih : ParserMono n) (left : Option Expression)
    (p : Parser) (r : Option Expression × Parser) (h : callInfixFn (n + 1) left p = some r) :
    callInfixFn (n + 2) left p = some r := by
  rw [callInfixFn_succ] at h ⊢
  split at h
  · exact ih.callExpression _ _ _ h
  · exact ih.indexExpression _ _ _ h
  · exact ih.infixExpression _ _ _ h

theorem parsePrefixOperator_mono (n : Nat) (ih : ParserMono n) (p : Parser)
    (r : Option Expression × Parser) (h : parsePrefixOperator (n + 1) p = some r) :
    parsePrefixOperator (n + 2) p = some r := by
  rw [parsePrefixOperator_succ] at h ⊢
  rcases hc : parseExpression n PREFIX p.nextToken with _ | ⟨v, q⟩
  · rw [hc] at h
    cases h
  · rw [hc] at h
    rw [ih.expression _ _ _ hc]
    exact h

theorem parseInfixExpression_mono (n : Nat) (ih : ParserMono n) (left : Option Expression)
    (p : Parser) (r : Option Expression × Parser)
    (h : parseInfixExpression (n + 1) left p = some r) :
    parseInfixExpression (n + 2) left p = some r := by
  rw [parseInfixExpression_succ] at h ⊢
  rcases hc : parseExpression n p.curPrecedence p.nextToken with _ | ⟨v, q⟩
  · rw [hc] at h
    cases h
  · rw [hc] at h
    rw [ih.expression _ _ _ hc]
    exact h

theorem parseGroupedExpression_mono (n : Nat) (ih : ParserMono n) (p : Parser)
    (r : Option Expression × Parser) (h : parseGroupedExpression (n + 1) p = some r) :
    parseGroupedExpression (n + 2) p = some r := by
  rw [parseGroupedExpression_succ] at h ⊢
  rcases hc : parseExpression n LOWEST p.nextToken with _ | ⟨v, q⟩
  · rw [hc] at h
    cases h
  · rw [hc] at h
    rw [ih.expression _ _ _ hc]
    exact h

theorem parseBlockStatement_mono (n : Nat) (ih : ParserMono n) (p : Parser)
    (r : BlockStatement × Parser) (h : parseBlockStatement (n + 1) p = some r) :
    parseBlockStatement (n + 2) p = some r := by
  rw [parseBlockStatement_succ] at h ⊢
  rcases hc : parseBlockStatementLoop n [] p.nextToken with _ | ⟨v, q⟩
  · rw [hc] at h
    cases h
  · rw [hc] at h
    rw [ih.blockStatementLoop _ _ _ hc]
    exact h

theorem parseBlockStatementLoop_mono (n : Nat) (ih : ParserMono n) (acc : List Statement)
    (p : Parser) (r : List Statement × Parser)
    (h : parseBlockStatementLoop (n + 1) acc p = some r) :
    parseBlockStatementLoop (n + 2) acc p = some r := by
  rw [parseBlockStatementLoop_succ] at h ⊢
  by_cases hc0 : (!p.curTokenIs TokenType.RBRACE && !p.curTokenIs TokenType.EOF) = true
  · rw [if_pos hc0] at h ⊢
    rcases hc : parseStatement n p with _ | ⟨v, q⟩
    · rw [hc] at h
      cases h
    · rw [hc] at h
      rw [ih.statement _ _ hc]
      exact ih.blockStatementLoop _ _ _ h
  · rw [if_neg hc0] at h ⊢
    exact h

theorem parseIfExpression_mono (n : Nat) (ih : ParserMono n) (p : Parser)
    (r : Option Expression × Parser) (h : parseIfExpression (n + 1) p = some r) :
    parseIfExpression (n + 2) p = some r := by
  rw [parseIfExpression_succ] at h ⊢
  rcases expectPeek_cases p TokenType.LPAREN with ⟨h1, -⟩ | h1 <;> rw [h1] at h ⊢
    <;> dsimp only at h ⊢
  swap
  · exact h
  rcases hc : parseExpression n LOWEST p.nextToken.nextToken with _ | ⟨cond, q⟩
  · rw [hc] at h
    cases h
  rw [hc] at h
  rw [ih.expression _ _ _ hc]
  dsimp only at h ⊢
  rcases expectPeek_cases q TokenType.RPAREN with ⟨h2, -⟩ | h2 <;> rw [h2] at h ⊢
    <;> dsimp only at h ⊢
  swap
  · exact h
  rcases expectPeek_cases q.nextToken TokenType.LBRACE with ⟨h3, -⟩ | h3 <;> rw [h3] at h ⊢
    <;> dsimp only at h ⊢
  swap
  · exact h
  rcases hc4 : parseBlockStatement n q.nextToken.nextToken with _ | ⟨cons, q4⟩
  · rw [hc4] at h
    cases h
  rw [hc4] at h
  rw [ih.blockStatement _ _ hc4]
  dsimp only at h ⊢
  by_cases he : q4.peekTokenIs TokenType.ELSE = true
  · rw [if_pos he] at h ⊢
    rcases expectPeek_cases q4.nextToken TokenType.LBRACE with ⟨h5, -⟩ | h5
      <;> rw [h5] at h ⊢ <;> dsimp only at h ⊢
    swap
    · exact h
    rcases hc6 : parseBlockStatement n q4.nextToken.nextToken with _ | ⟨alt, q6⟩
    · rw [hc6] at h
      cases h
    rw [hc6] at h
    rw [ih.blockStatement _ _ hc6]
    exact h
  · rw [if_neg he] at h ⊢
    exact h

theorem parseFunctionLiteral_mono (n : Nat) (ih : ParserMono n) (p : Parser)
    (r : Option Expression × Parser) (h : parseFunctionLiteral (n + 1) p = some r) :
    parseFunctionLiteral (n + 2) p = some r := by
  rw [parseFunctionLiteral_succ] at h ⊢
  rcases expectPeek_cases p TokenType.LPAREN with ⟨h1, -⟩ | h1 <;> rw [h1] at h ⊢
    <;> dsimp only at h ⊢
  swap
  · exact h
  rcases expectPeek_cases p.nextToken.parseFunctionParameters.2 TokenType.LBRACE with
    ⟨h3, -⟩ | h3 <;> rw [h3] at h ⊢ <;> dsimp only at h ⊢
  swap
  · exact h
  rcases hc : parseBlockStatement n p.nextToken.parseFunctionParameters.2.nextToken with
    _ | ⟨body, q⟩
  · rw [hc] at h
    cases h
  rw [hc] at h
  rw [ih.blockStatement _ _ hc]
  exact h

theorem parseMacroLiteral_mono (n : Nat) (ih : ParserMono n) (p : Parser)
    (r : Option Expression × Parser) (h : parseMacroLiteral (n + 1) p = some r) :
    parseMacroLiteral (n + 2) p = some r := by
  rw [parseMacroLiteral_succ] at h ⊢
  rcases expectPeek_cases p TokenType.LPAREN with ⟨h1, -⟩ | h1 <;> rw [h1] at h ⊢
    <;> dsimp only at h ⊢
  swap
  · exact h
  rcases expectPeek_cases p.nextToken.parseFunctionParameters.2 TokenType.LBRACE with
    ⟨h3, -⟩ | h3 <;> rw [h3] at h ⊢ <;> dsimp only at h ⊢
  swap
  · exact h
  rcases hc : parseBlockStatement n p.nextToken.parseFunctionParameters.2.nextToken with
    _ | ⟨body, q⟩
  · rw [hc] at h
    cases h
  rw [hc] at h
  rw [ih.blockStatement _ _ hc]
  exact h

theorem parseCallExpression_mono (n : Nat) (ih : ParserMono n) (left : Option Expression)
    (p : Parser) (r : Option Expression × Parser)
    (h : parseCallExpression (n + 1) left p = some r) :
    parseCallExpression (n + 2) left p = some r := by
  rw [parseCallExpression_succ] at h ⊢
  rcases hc : parseExpressionList n TokenType.RPAREN p with _ | ⟨v, q⟩
  · rw [hc] at h
    cases h
  · rw [hc] at h
    rw [ih.expressionList _ _ _ hc]
    exact h

theorem parseArrayLiteral_mono (n : Nat) (ih : ParserMono n) (p : Parser)
    (r : Option Expression × Parser) (h : parseArrayLiteral (n + 1) p = some r) :
    parseArrayLiteral (n + 2) p = some r := by
  rw [parseArrayLiteral_succ] at h ⊢
  rcases hc : parseExpressionList n TokenType.RBRACKET p with _ | ⟨v, q⟩
  · rw [hc] at h
    cases h
  · rw [hc] at h
    rw [ih.expressionList _ _ _ hc]
    exact h

theorem parseExpressionList_mono (n : Nat) (ih : ParserMono n) (end_ : TokenType)
    (p : Parser) (r : List (Option Expression) × Parser)
    (h : parseExpressionList (n + 1) end_ p = some r) :
    parseExpressionList (n + 2) end_ p = some r := by
  rw [parseExpressionList_succ] at h ⊢
  by_cases hc0 : p.peekTokenIs end_ = true
  · rw [if_pos hc0] at h ⊢
    exact h
  · rw [if_neg hc0] at h ⊢
    rcases hc : parseExpression n LOWEST p.nextToken with _ | ⟨e, q⟩
    · rw [hc] at h
      cases h
    rw [hc] at h
    rw [ih.expression _ _ _ hc]
    dsimp only at h ⊢
    rcases hc2 : parseExpressionListLoop n [e] q with _ | ⟨es, q2⟩
    · rw [hc2] at h
      cases h
    rw [hc2] at h
    rw [ih.expressionListLoop _ _ _ hc2]
    exact h

theorem parseExpressionListLoop_mono (n : Nat) (ih : ParserMono n)
    (acc : List (Option Expression)) (p : Parser) (r : List (Option Expression) × Parser)
    (h : parseExpressionListLoop (n + 1) acc p = some r) :
    parseExpressionListLoop (n + 2) acc p = some r := by
  rw [parseExpressionListLoop_succ] at h ⊢
  by_cases hc0 : p.peekTokenIs TokenType.COMMA = true
  · rw [if_pos hc0] at h ⊢
    rcases hc : parseExpression n LOWEST p.nextToken.nextToken with _ | ⟨e, q⟩
    · rw [hc] at h
      cases h
    rw [hc] at h
    rw [ih.expression _ _ _ hc]
    exact ih.expressionListLoop _ _ _ h
  · rw [if_neg hc0] at h ⊢
    exact h

theorem parseIndexExpression_mono (n : Nat) (ih : ParserMono n) (left : Option Expression)
    (p : Parser) (r : Option Expression × Parser)
    (h : parseIndexExpression (n + 1) left p = some r) :
    parseIndexExpression (n + 2) left p = some r := by
  rw [parseIndexExpression_succ] at h ⊢
  rcases hc : parseExpression n LOWEST p.nextToken with _ | ⟨v, q⟩
  · rw [hc] at h
    cases h
  · rw [hc] at h
    rw [ih.expression _ _ _ hc]
    exact h

theorem parseHashLiteralLoop_mono (n : Nat) (ih : ParserMono n)
    (acc : List (Option Expression × Option Expression)) (p : Parser)
    (r : Option (List (Option Expression × Option Expression)) × Parser)
    (h : parseHashLiteralLoop (n + 1) acc p = some r) :
    parseHashLiteralLoop (n + 2) acc p = some r := by
  rw [parseHashLiteralLoop_succ] at h ⊢
  by_cases hc0 : (!p.peekTokenIs TokenType.RBRACE) = true
  swap
  · rw [if_neg hc0] at h ⊢
    exact h
  rw [if_pos hc0] at h ⊢
  rcases hc : parseExpression n LOWEST p.nextToken with _ | ⟨key, q⟩
  · rw [hc] at h
    cases h
  rw [hc] at h
  rw [ih.expression _ _ _ hc]
  dsimp only at h ⊢
  rcases expectPeek_cases q TokenType.COLON with ⟨h1, -⟩ | h1 <;> rw [h1] at h ⊢
    <;> dsimp only at h ⊢
  swap
  · exact h
  rcases hc2 : parseExpression n LOWEST q.nextToken.nextToken with _ | ⟨value, q2⟩
  · rw [hc2] at h
    cases h
  rw [hc2] at h
  rw [ih.expression _ _ _ hc2]
  dsimp only at h ⊢
  by_cases hc3 : (!q2.peekTokenIs TokenType.RBRACE) = true
  · rw [if_pos hc3] at h ⊢
    rcases expectPeek_cases q2 TokenType.COMMA with ⟨h3, -⟩ | h3 <;> rw [h3] at h ⊢
      <;> dsimp only at h ⊢
    · exact ih.hashLiteralLoop _ _ _ h
    · exact h
  · rw [if_neg hc3] at h ⊢
    exact ih.hashLiteralLoop _ _ _ h

theorem parseHashLiteral_mono (n : Nat) (ih : ParserMono n) (p : Parser)
    (r : Option Expression × Parser) (h : parseHashLiteral (n + 1) p = some r) :
    parseHashLiteral (n + 2) p = some r := by
  rw [parseHashLiteral_succ] at h ⊢
  rcases hc : parseHashLiteralLoop n [] p with _ | ⟨v, q⟩
  · rw [hc] at h
    cases h
  · rw [hc] at h
    rw [ih.hashLiteralLoop _ _ _ hc]
    exact h

/-- Whatever the bound `n` on the depth of the calls, a result a parsing function returns
with it is the result it returns with the bound `n + 1`. -/
theorem parserMono (n : Nat) : ParserMono n := by
  induction n with
  | zero => exact parserMono_zero
  | succ n ih =>
    exact {
      statement := parseStatement_mono n ih
      letStatement := parseLetStatement_mono n ih
      returnStatement := parseReturnStatement_mono n ih
      expressionStatement := parseExpressionStatement_mono n ih
      expression := parseExpression_mono n ih
      expressionLoop := parseExpressionLoop_mono n ih
      callPrefix := callPrefixFn_mono n ih
      callInfix := callInfixFn_mono n ih
      prefixOperator := parsePrefixOperator_mono n ih
      infixExpression := parseInfixExpression_mono n ih
      grouped := parseGroupedExpression_mono n ih
      ifExpression := parseIfExpression_mono n ih
      blockStatement := parseBlockStatement_mono n ih
      blockStatementLoop := parseBlockStatementLoop_mono n ih
      functionLiteral := parseFunctionLiteral_mono n ih
      callExpression := parseCallExpression_mono n ih
      arrayLiteral := parseArrayLiteral_mono n ih
      expressionList := parseExpressionList_mono n ih
      expressionListLoop := parseExpressionListLoop_mono n ih
      indexExpression := parseIndexExpression_mono n ih
      hashLiteral := parseHashLiteral_mono n ih
      hashLiteralLoop := parseHashLiteralLoop_mono n ih
      macroLiteral := parseMacroLiteral_mono n ih }

theorem ParseProgramLoop_mono (n : Nat) (acc : List Statement) (p : Parser)
    (r : List Statement × Parser) (h : ParseProgramLoop n acc p = some r) :
    ParseProgramLoop (n + 1) acc p = some r := by
  induction n generalizing acc p with
  | zero => cases h
  | succ n ih =>
    rw [ParseProgramLoop_succ] at h ⊢
    by_cases hc0 : (!p.curTokenIs TokenType.EOF) = true
    · rw [if_pos hc0] at h ⊢
      rcases hc : parseStatement n p with _ | ⟨v, q⟩
      · rw [hc] at h
        cases h
      · rw [hc] at h
        rw [(parserMono n).statement _ _ hc]
        exact ih _ _ h
    · rw [if_neg hc0] at h ⊢
      exact h

theorem ParseProgramLoop_mono_le (n m : Nat) (hnm : n ≤ m) (acc : List Statement)
    (p : Parser) (r : List Statement × Parser) (h : ParseProgramLoop n acc p = some r) :
    ParseProgramLoop m acc p = some r := by
  induction hnm with
  | refl => exact h
  | step _ ih => exact ParseProgramLoop_mono _ _ _ _ ih

/-- What `ParseProgram` returns is what its loop returns with any bound on the depth of
the calls that lets it return. -/
theorem ParseProgram_of_loop (l : List Token) (n : Nat) (stmts : List Statement)
    (q : Parser) (h : ParseProgramLoop n [] (New l) = some (stmts, q)) :
    ParseProgram l = some (⟨stmts⟩, q) := by
  obtain ⟨prog, p, hp, -, -⟩ := ParseProgram_returns l
  have hp' := hp
  unfold ParseProgram Parser.ParseProgramFuel at hp'
  rcases hl : ParseProgramLoop (8 * l.length + 16) [] (New l) with _ | ⟨ss, q1⟩
  · rw [hl] at hp'
    cases hp'
  · have h1 := ParseProgramLoop_mono_le _ _ (Nat.le_max_left n (8 * l.length + 16)) _ _ _ h
    have h2 := ParseProgramLoop_mono_le _ _ (Nat.le_max_right n (8 * l.length + 16)) _ _ _ hl
    rw [h1] at h2
    cases h2
    unfold ParseProgram Parser.ParseProgramFuel
    rw [hl]

/-! ### Parsing the canonical tokens of an expression -/

theorem tokens_cons : ∀ e : Canon, ∃ ts, e.tokens = e.firstToken :: ts
  | .ident _ => ⟨_, rfl⟩
  | .int _ _ => ⟨_, rfl⟩
  | .bool _ => ⟨_, rfl⟩
  | .pre _ _ => ⟨_, rfl⟩
  | .bin _ _ _ => ⟨_, rfl⟩
  | .call f args => by
    obtain ⟨ts, h⟩ := tokens_cons f
    refine ⟨ts ++ symbolToken TokenType.LPAREN ::
      (Canon.argTokens args ++ [symbolToken TokenType.RPAREN]), ?_⟩
    show f.tokens ++ _ = f.firstToken :: _
    rw [h]
    rfl
  | .index _ _ => ⟨_, rfl⟩
  | .array _ => ⟨_, rfl⟩

/-- The first token of an expression starts an expression, and is none of the tokens that
end a list, separate its elements or end a statement. -/
theorem firstToken_kind : ∀ e : Canon,
    hasPrefixFn e.firstToken.Kind = true
      ∧ e.firstToken.Kind ≠ TokenType.RPAREN ∧ e.firstToken.Kind ≠ TokenType.RBRACKET
      ∧ e.firstToken.Kind ≠ TokenType.SEMICOLON ∧ e.firstToken.Kind ≠ TokenType.EOF
      ∧ e.firstToken.Kind ≠ TokenType.LET ∧ e.firstToken.Kind ≠ TokenType.RETURN
  | .ident _ => by
    refine ⟨rfl, ?_, ?_, ?_, ?_, ?_, ?_⟩ <;> exact fun h => nomatch h
  | .int _ _ => by
    refine ⟨rfl, ?_, ?_, ?_, ?_, ?_, ?_⟩ <;> exact fun h => nomatch h
  | .bool true => by
    refine ⟨rfl, ?_, ?_, ?_, ?_, ?_, ?_⟩ <;> exact fun h => nomatch h
  | .bool false => by
    refine ⟨rfl, ?_, ?_, ?_, ?_, ?_, ?_⟩ <;> exact fun h => nomatch h
  | .pre _ _ => by
    refine ⟨rfl, ?_, ?_, ?_, ?_, ?_, ?_⟩ <;> exact fun h => nomatch h
  | .bin _ _ _ => by
    refine ⟨rfl, ?_, ?_, ?_, ?_, ?_, ?_⟩ <;> exact fun h => nomatch h
  | .call f _ => firstToken_kind f
  | .index _ _ => by
    refine ⟨rfl, ?_, ?_, ?_, ?_, ?_, ?_⟩ <;> exact fun h => nomatch h
  | .array _ => by
    refine ⟨rfl, ?_, ?_, ?_, ?_, ?_, ?_⟩ <;> exact fun h => nomatch h

theorem Returns.at {α : Type} {f : Nat → Option α} {r : α} (h : Returns f r) :
    ∃ N, ∀ n, N ≤ n → f n = some r := h

theorem parseExpressionLoop_stops (prec : Nat) (left : Option Expression) (t : Token)
    (sfx : List Token) (errs : List String)
    (h : precedenceOf (sfx.headD eofToken).Kind ≤ prec) :
    Returns (fun n => parseExpressionLoop n prec left (stateAt (t :: sfx) errs))
      (left, stateAt (t :: sfx) errs) := by
  refine ⟨1, fun n hn => ?_⟩
  obtain ⟨k, rfl⟩ : ∃ k, n = k + 1 := ⟨n - 1, by omega⟩
  exact parseExpressionLoop_stop k prec left t sfx errs h

/-- A parenthesised expression: when the tokens between the parentheses are read as `x`,
and the loop of `parseExpression` entered with `x` at the closing parenthesis returns `r`,
`parseExpression` at the opening parenthesis returns `r`. -/
theorem parseExpression_grouped (prec : Nat) (inner sfx : List Token) (errs : List String)
    (x : Option Expression) (t : Token) (r : Option Expression × Parser)
    (hin : Returns (fun n => parseExpression n LOWEST
        (stateAt (inner ++ symbolToken TokenType.RPAREN :: sfx) errs))
      (x, stateAt (t :: symbolToken TokenType.RPAREN :: sfx) errs))
    (hk : Returns (fun n => parseExpressionLoop n prec x
        (stateAt (symbolToken TokenType.RPAREN :: sfx) errs)) r) :
    Returns (fun n => parseExpression n prec
        (stateAt (symbolToken TokenType.LPAREN ::
          (inner ++ symbolToken TokenType.RPAREN :: sfx)) errs)) r := by
  obtain ⟨N1, h1⟩ := hin
  obtain ⟨N2, h2⟩ := hk
  refine ⟨N1 + N2 + 3, fun n hn => ?_⟩
  obtain ⟨k, rfl⟩ : ∃ k, n = k + 3 := ⟨n - 3, by omega⟩
  show parseExpression (k + 3) prec _ = _
  rw [parseExpression_succ]
  have hp : hasPrefixFn (stateAt (symbolToken TokenType.LPAREN ::
      (inner ++ symbolToken TokenType.RPAREN :: sfx)) errs).curToken.Kind = true := rfl
  have h1k : parseExpression k LOWEST
      (stateAt (inner ++ symbolToken TokenType.RPAREN :: sfx) errs) = some _ :=
    h1 k (by omega)
  rw [hp, callPrefixFn_lparen, parseGroupedExpression_succ, nextToken_stateAt, h1k]
  simp only [Bool.not_true, Bool.false_eq_true, if_false, expectPeek_rparen]
  exact h2 (k + 2) (by omega)

theorem parseExpression_atom (prec : Nat) (t : Token) (x : Option Expression)
    (sfx : List Token) (errs : List String) (r : Option Expression × Parser)
    (hp : hasPrefixFn t.Kind = true)
    (hc : ∀ k, callPrefixFn (k + 1) (stateAt (t :: sfx) errs)
      = some (x, stateAt (t :: sfx) errs))
    (hk : Returns (fun n => parseExpressionLoop n prec x (stateAt (t :: sfx) errs)) r) :
    Returns (fun n => parseExpression n prec (stateAt (t :: sfx) errs)) r := by
  obtain ⟨N, h⟩ := hk
  refine ⟨N + 2, fun n hn => ?_⟩
  obtain ⟨k, rfl⟩ : ∃ k, n = k + 2 := ⟨n - 2, by omega⟩
  have hk1 : parseExpressionLoop (k + 1) prec x (stateAt (t :: sfx) errs) = some r :=
    h (k + 1) (by omega)
  show parseExpression (k + 2) prec (stateAt (t :: sfx) errs) = _
  have hp1 : hasPrefixFn (stateAt (t :: sfx) errs).curToken.Kind = true := hp
  rw [parseExpression_succ, hp1, hc]
  simp only [Bool.not_true, Bool.false_eq_true, if_false]
  exact hk1

theorem expectPeek_stateAt (t u : Token) (sfx : List Token) (errs : List String) :
    (stateAt (t :: u :: sfx) errs).expectPeek u.Kind = (true, stateAt (u :: sfx) errs) := by
  unfold Parser.expectPeek
  have h : (stateAt (t :: u :: sfx) errs).peekTokenIs u.Kind = true := by
    show (u.Kind == u.Kind) = true
    simp
  rw [h, nextToken_stateAt]
  rfl

/-- The operand of a prefix operator: when the tokens after the operator are read as `x`
at the precedence `PREFIX`, the operator and these tokens are read as the prefix
expression. -/
theorem parseExpression_prefixOperator (op : TokenType) (hop : op ∈ prefixOperators)
    (rt sfx : List Token) (errs : List String) (x : Option Expression) (t : Token)
    (hR : Returns (fun n => parseExpression n PREFIX
        (stateAt (rt ++ symbolToken TokenType.RPAREN :: sfx) errs))
      (x, stateAt (t :: symbolToken TokenType.RPAREN :: sfx) errs)) :
    Returns (fun n => parseExpression n LOWEST
        (stateAt ((symbolToken op :: rt) ++ symbolToken TokenType.RPAREN :: sfx) errs))
      (prefixExpr op x, stateAt (t :: symbolToken TokenType.RPAREN :: sfx) errs) := by
  obtain ⟨N, h⟩ := hR
  refine ⟨N + 3, fun n hn => ?_⟩
  obtain ⟨k, rfl⟩ : ∃ k, n = k + 3 := ⟨n - 3, by omega⟩
  have hk : parseExpression k PREFIX (stateAt (rt ++ symbolToken TokenType.RPAREN :: sfx) errs)
      = some _ := h k (by omega)
  obtain ⟨hf1, hf2⟩ := prefixOperator_facts op hop (k + 1)
    (rt ++ symbolToken TokenType.RPAREN :: sfx) errs
  show parseExpression (k + 3) LOWEST
    (stateAt (symbolToken op :: (rt ++ symbolToken TokenType.RPAREN :: sfx)) errs) = _
  rw [parseExpression_succ, hf1, hf2, parsePrefixOperator_succ, nextToken_stateAt, hk]
  simp only [Bool.not_true, Bool.false_eq_true, if_false]
  exact parseExpressionLoop_stop (k + 1) LOWEST _ _ _ errs
    (precedenceOf_rparen_le sfx LOWEST (by decide))

/-- A binary operator after the left operand `x`: when the tokens after the operator are
read as `y` at the precedence of the operator, the loop of `parseExpression` entered with
`x` returns the infix expression. -/
theorem parseExpressionLoop_binary (op : TokenType) (hop : op ∈ binaryOperators)
    (tl : Token) (rt sfx : List Token) (errs : List String) (x y : Option Expression)
    (t : Token)
    (hR : Returns (fun n => parseExpression n (precedenceOf op)
        (stateAt (rt ++ symbolToken TokenType.RPAREN :: sfx) errs))
      (y, stateAt (t :: symbolToken TokenType.RPAREN :: sfx) errs)) :
    Returns (fun n => parseExpressionLoop n LOWEST x
        (stateAt (tl :: symbolToken op :: (rt ++ symbolToken TokenType.RPAREN :: sfx)) errs))
      (infixExpr x op y, stateAt (t :: symbolToken TokenType.RPAREN :: sfx) errs) := by
  obtain ⟨N, h⟩ := hR
  refine ⟨N + 3, fun n hn => ?_⟩
  obtain ⟨k, rfl⟩ : ∃ k, n = k + 3 := ⟨n - 3, by omega⟩
  have hk : parseExpression k (precedenceOf op)
      (stateAt (rt ++ symbolToken TokenType.RPAREN :: sfx) errs) = some _ := h k (by omega)
  obtain ⟨hb1, hb2, hb3, hb4⟩ := binaryOperator_facts op hop (k + 1) x tl
    (rt ++ symbolToken TokenType.RPAREN :: sfx) errs
  show parseExpressionLoop (k + 3) LOWEST x _ = _
  rw [parseExpressionLoop_succ, hb1, hb2]
  simp only [Bool.not_true, Bool.false_eq_true, if_false, if_true]
  rw [nextToken_stateAt, hb3, parseInfixExpression_succ, hb4, nextToken_stateAt, hk]
  simp only
  exact parseExpressionLoop_stop (k + 1) LOWEST _ _ _ errs
    (precedenceOf_rparen_le sfx LOWEST (by decide))

/-- An index after the left operand `x`: when the tokens between the brackets are read as
`y`, the loop of `parseExpression` entered with `x` returns the index expression. -/
theorem parseExpressionLoop_index (tl : Token) (it sfx : List Token) (errs : List String)
    (x y : Option Expression) (t : Token)
    (hI : Returns (fun n => parseExpression n LOWEST
        (stateAt (it ++ symbolToken TokenType.RBRACKET :: symbolToken TokenType.RPAREN :: sfx)
          errs))
      (y, stateAt (t :: symbolToken TokenType.RBRACKET :: symbolToken TokenType.RPAREN :: sfx)
        errs)) :
    Returns (fun n => parseExpressionLoop n LOWEST x
        (stateAt (tl :: symbolToken TokenType.LBRACKET ::
          (it ++ symbolToken TokenType.RBRACKET :: symbolToken TokenType.RPAREN :: sfx)) errs))
      (indexExpr x y,
        stateAt (symbolToken TokenType.RBRACKET :: symbolToken TokenType.RPAREN :: sfx) errs) := by
  obtain ⟨N, h⟩ := hI
  refine ⟨N + 3, fun n hn => ?_⟩
  obtain ⟨k, rfl⟩ : ∃ k, n = k + 3 := ⟨n - 3, by omega⟩
  have hk : parseExpression k LOWEST
      (stateAt (it ++ symbolToken TokenType.RBRACKET :: symbolToken TokenType.RPAREN :: sfx)
        errs) = some _ := h k (by omega)
  show parseExpressionLoop (k + 3) LOWEST x _ = _
  rw [parseExpressionLoop_succ]
  have hc : (!(stateAt (tl :: symbolToken TokenType.LBRACKET ::
      (it ++ symbolToken TokenType.RBRACKET :: symbolToken TokenType.RPAREN :: sfx))
        errs).peekTokenIs TokenType.SEMICOLON
      && decide (LOWEST < (stateAt (tl :: symbolToken TokenType.LBRACKET ::
      (it ++ symbolToken TokenType.RBRACKET :: symbolToken TokenType.RPAREN :: sfx))
        errs).peekPrecedence)) = true := rfl
  have hi : hasInfixFn (stateAt (tl :: symbolToken TokenType.LBRACKET ::
      (it ++ symbolToken TokenType.RBRACKET :: symbolToken TokenType.RPAREN :: sfx))
        errs).peekToken.Kind = true := rfl
  have hcall : callInfixFn (k + 2) x (stateAt (symbolToken TokenType.LBRACKET ::
      (it ++ symbolToken TokenType.RBRACKET :: symbolToken TokenType.RPAREN :: sfx)) errs)
      = parseIndexExpression (k + 1) x (stateAt (symbolToken TokenType.LBRACKET ::
      (it ++ symbolToken TokenType.RBRACKET :: symbolToken TokenType.RPAREN :: sfx)) errs) :=
    rfl
  rw [hc, hi]
  simp only [Bool.not_true, Bool.false_eq_true, if_false, if_true]
  rw [nextToken_stateAt, hcall, parseIndexExpression_succ, nextToken_stateAt, hk]
  simp only
  have he : (stateAt (t :: symbolToken TokenType.RBRACKET :: symbolToken TokenType.RPAREN :: sfx)
      errs).expectPeek TokenType.RBRACKET
      = (true, stateAt (symbolToken TokenType.RBRACKET :: symbolToken TokenType.RPAREN :: sfx)
          errs) := expectPeek_stateAt t (symbolToken TokenType.RBRACKET) _ errs
  rw [he]
  simp only
  exact parseExpressionLoop_stop (k + 1) LOWEST _ _ _ errs
    (precedenceOf_rparen_le sfx LOWEST (by decide))

theorem parseExpressionList_nil (endK : TokenType) (t0 : Token) (sfx : List Token)
    (errs : List String) :
    Returns (fun n => parseExpressionList n endK
        (stateAt (t0 :: symbolToken endK :: sfx) errs))
      ([], stateAt (symbolToken endK :: sfx) errs) := by
  refine ⟨1, fun n hn => ?_⟩
  obtain ⟨k, rfl⟩ : ∃ k, n = k + 1 := ⟨n - 1, by omega⟩
  show parseExpressionList (k + 1) endK _ = _
  have hp : (stateAt (t0 :: symbolToken endK :: sfx) errs).peekTokenIs endK = true := by
    show (endK == endK) = true
    simp
  rw [parseExpressionList_succ, if_pos hp, nextToken_stateAt]

theorem parseExpressionList_cons (endK : TokenType) (t0 : Token) (et rest sfx : List Token)
    (errs : List String) (x : Option Expression) (t t1 : Token)
    (ys : List (Option Expression))
    (hfirst : (stateAt (t0 :: (et ++ rest)) errs).peekTokenIs endK = false)
    (hE : Returns (fun n => parseExpression n LOWEST (stateAt (et ++ rest) errs))
      (x, stateAt (t :: rest) errs))
    (hM : Returns (fun n => parseExpressionListLoop n [x] (stateAt (t :: rest) errs))
      (ys, stateAt (t1 :: symbolToken endK :: sfx) errs)) :
    Returns (fun n => parseExpressionList n endK (stateAt (t0 :: (et ++ rest)) errs))
      (ys, stateAt (symbolToken endK :: sfx) errs) := by
  obtain ⟨N1, h1⟩ := hE
  obtain ⟨N2, h2⟩ := hM
  refine ⟨N1 + N2 + 1, fun n hn => ?_⟩
  obtain ⟨k, rfl⟩ : ∃ k, n = k + 1 := ⟨n - 1, by omega⟩
  have h1k : parseExpression k LOWEST (stateAt (et ++ rest) errs) = some _ := h1 k (by omega)
  have h2k : parseExpressionListLoop k [x] (stateAt (t :: rest) errs) = some _ :=
    h2 k (by omega)
  have he : (stateAt (t1 :: symbolToken endK :: sfx) errs).expectPeek endK
      = (true, stateAt (symbolToken endK :: sfx) errs) :=
    expectPeek_stateAt t1 (symbolToken endK) sfx errs
  show parseExpressionList (k + 1) endK _ = _
  rw [parseExpressionList_succ, if_neg (by rw [hfirst]; decide), nextToken_stateAt, h1k]
  simp only
  rw [h2k]
  simp only
  rw [he]

theorem parseExpressionListLoop_nil (acc : List (Option Expression)) (t endTok : Token)
    (sfx : List Token) (errs : List String) (hend : endTok.Kind ≠ TokenType.COMMA) :
    Returns (fun n => parseExpressionListLoop n acc (stateAt (t :: endTok :: sfx) errs))
      (acc, stateAt (t :: endTok :: sfx) errs) := by
  refine ⟨1, fun n hn => ?_⟩
  obtain ⟨k, rfl⟩ : ∃ k, n = k + 1 := ⟨n - 1, by omega⟩
  show parseExpressionListLoop (k + 1) acc _ = _
  have hp : (stateAt (t :: endTok :: sfx) errs).peekTokenIs TokenType.COMMA = false := by
    show (endTok.Kind == TokenType.COMMA) = false
    simpa using hend
  rw [parseExpressionListLoop_succ, if_neg (by rw [hp]; decide)]

theorem parseExpressionListLoop_cons (acc : List (Option Expression)) (t : Token)
    (et rest : List Token) (errs : List String) (x : Option Expression) (t1 : Token)
    (res : List (Option Expression) × Parser)
    (hE : Returns (fun n => parseExpression n LOWEST (stateAt (et ++ rest) errs))
      (x, stateAt (t1 :: rest) errs))
    (hM : Returns (fun n => parseExpressionListLoop n (acc ++ [x]) (stateAt (t1 :: rest) errs))
      res) :
    Returns (fun n => parseExpressionListLoop n acc
        (stateAt (t :: symbolToken TokenType.COMMA :: (et ++ rest)) errs)) res := by
  obtain ⟨N1, h1⟩ := hE
  obtain ⟨N2, h2⟩ := hM
  refine ⟨N1 + N2 + 1, fun n hn => ?_⟩
  obtain ⟨k, rfl⟩ : ∃ k, n = k + 1 := ⟨n - 1, by omega⟩
  have h1k : parseExpression k LOWEST (stateAt (et ++ rest) errs) = some _ := h1 k (by omega)
  have h2k : parseExpressionListLoop k (acc ++ [x]) (stateAt (t1 :: rest) errs) = some _ :=
    h2 k (by omega)
  have hp : (stateAt (t :: symbolToken TokenType.COMMA :: (et ++ rest)) errs).peekTokenIs
      TokenType.COMMA = true := rfl
  show parseExpressionListLoop (k + 1) acc _ = _
  rw [parseExpressionListLoop_succ, if_pos hp, nextToken_stateAt, nextToken_stateAt, h1k]
  simp only
  exact h2k

/-- A call after the callee `x`: when the tokens between the parentheses are read as the
arguments `ys`, and the loop of `parseExpression` entered with the call at the closing
parenthesis returns `r`, the loop entered with `x` returns `r`. -/
theorem parseExpressionLoop_call (prec : Nat) (hp : prec < CALL) (tl : Token)
    (at_ sfx : List Token) (errs : List String) (x : Option Expression)
    (ys : List (Option Expression)) (r : Option Expression × Parser)
    (hL : Returns (fun n => parseExpressionList n TokenType.RPAREN
        (stateAt (symbolToken TokenType.LPAREN :: (at_ ++ symbolToken TokenType.RPAREN :: sfx))
          errs))
      (ys, stateAt (symbolToken TokenType.RPAREN :: sfx) errs))
    (hk : Returns (fun n => parseExpressionLoop n prec (callExpr x ys)
        (stateAt (symbolToken TokenType.RPAREN :: sfx) errs)) r) :
    Returns (fun n => parseExpressionLoop n prec x
        (stateAt (tl :: symbolToken TokenType.LPAREN ::
          (at_ ++ symbolToken TokenType.RPAREN :: sfx)) errs)) r := by
  obtain ⟨N1, h1⟩ := hL
  obtain ⟨N2, h2⟩ := hk
  refine ⟨N1 + N2 + 3, fun n hn => ?_⟩
  obtain ⟨k, rfl⟩ : ∃ k, n = k + 3 := ⟨n - 3, by omega⟩
  have h1k : parseExpressionList k TokenType.RPAREN
      (stateAt (symbolToken TokenType.LPAREN :: (at_ ++ symbolToken TokenType.RPAREN :: sfx))
        errs) = some _ := h1 k (by omega)
  have h2k : parseExpressionLoop (k + 2) prec (callExpr x ys)
      (stateAt (symbolToken TokenType.RPAREN :: sfx) errs) = some r := h2 (k + 2) (by omega)
  show parseExpressionLoop (k + 3) prec x _ = _
  have hc : (!(stateAt (tl :: symbolToken TokenType.LPAREN ::
      (at_ ++ symbolToken TokenType.RPAREN :: sfx)) errs).peekTokenIs TokenType.SEMICOLON
      && decide (prec < (stateAt (tl :: symbolToken TokenType.LPAREN ::
      (at_ ++ symbolToken TokenType.RPAREN :: sfx)) errs).peekPrecedence)) = true := by
    show (true && decide (prec < CALL)) = true
    simpa using hp
  have hi : hasInfixFn (stateAt (tl :: symbolToken TokenType.LPAREN ::
      (at_ ++ symbolToken TokenType.RPAREN :: sfx)) errs).peekToken.Kind = true := rfl
  have hcall : callInfixFn (k + 2) x (stateAt (symbolToken TokenType.LPAREN ::
      (at_ ++ symbolToken TokenType.RPAREN :: sfx)) errs)
      = parseCallExpression (k + 1) x (stateAt (symbolToken TokenType.LPAREN ::
      (at_ ++ symbolToken TokenType.RPAREN :: sfx)) errs) := rfl
  rw [parseExpressionLoop_succ, hc, hi]
  simp only [Bool.not_true, Bool.false_eq_true, if_false, if_true]
  rw [nextToken_stateAt, hcall, parseCallExpression_succ, h1k]
  simp only
  exact h2k

/-- An array literal: when the tokens between the brackets are read as the elements `ys`,
and the loop of `parseExpression` entered with the array at the closing bracket returns
`r`, `parseExpression` at the opening bracket returns `r`. -/
theorem parseExpression_array (prec : Nat) (at_ sfx : List Token) (errs : List String)
    (ys : List (Option Expression)) (r : Option Expression × Parser)
    (hL : Returns (fun n => parseExpressionList n TokenType.RBRACKET
        (stateAt (symbolToken TokenType.LBRACKET ::
          (at_ ++ symbolToken TokenType.RBRACKET :: sfx)) errs))
      (ys, stateAt (symbolToken TokenType.RBRACKET :: sfx) errs))
    (hk : Returns (fun n => parseExpressionLoop n prec (arrayExpr ys)
        (stateAt (symbolToken TokenType.RBRACKET :: sfx) errs)) r) :
    Returns (fun n => parseExpression n prec
        (stateAt (symbolToken TokenType.LBRACKET ::
          (at_ ++ symbolToken TokenType.RBRACKET :: sfx)) errs)) r := by
  obtain ⟨N1, h1⟩ := hL
  obtain ⟨N2, h2⟩ := hk
  refine ⟨N1 + N2 + 3, fun n hn => ?_⟩
  obtain ⟨k, rfl⟩ : ∃ k, n = k + 3 := ⟨n - 3, by omega⟩
  have h1k : parseExpressionList k TokenType.RBRACKET
      (stateAt (symbolToken TokenType.LBRACKET ::
        (at_ ++ symbolToken TokenType.RBRACKET :: sfx)) errs) = some _ := h1 k (by omega)
  have h2k : parseExpressionLoop (k + 2) prec (arrayExpr ys)
      (stateAt (symbolToken TokenType.RBRACKET :: sfx) errs) = some r := h2 (k + 2) (by omega)
  show parseExpression (k + 3) prec _ = _
  have hp : hasPrefixFn (stateAt (symbolToken TokenType.LBRACKET ::
      (at_ ++ symbolToken TokenType.RBRACKET :: sfx)) errs).curToken.Kind = true := rfl
  have hcall : callPrefixFn (k + 2) (stateAt (symbolToken TokenType.LBRACKET ::
      (at_ ++ symbolToken TokenType.RBRACKET :: sfx)) errs)
      = parseArrayLiteral (k + 1) (stateAt (symbolToken TokenType.LBRACKET ::
      (at_ ++ symbolToken TokenType.RBRACKET :: sfx)) errs) := rfl
  rw [parseExpression_succ, hp, hcall, parseArrayLiteral_succ, h1k]
  simp only [Bool.not_true, Bool.false_eq_true, if_false]
  exact h2k

theorem moreTokens_head (es : List Canon) (endTok : Token) (sfx : List Token)
    (h : precedenceOf endTok.Kind ≤ LOWEST) :
    precedenceOf ((Canon.moreTokens es ++ endTok :: sfx).headD eofToken).Kind ≤ LOWEST := by
  cases es with
  | nil => exact h
  | cons e es => exact le_refl _

theorem peek_firstToken (e : Canon) (t0 : Token) (rest : List Token) (errs : List String) :
    (stateAt (t0 :: (e.tokens ++ rest)) errs).peekToken = e.firstToken := by
  obtain ⟨ts, h⟩ := tokens_cons e
  rw [h]
  rfl

theorem cur_firstToken (e : Canon) (rest : List Token) (errs : List String) :
    (stateAt (e.tokens ++ rest) errs).curToken = e.firstToken := by
  obtain ⟨ts, h⟩ := tokens_cons e
  rw [h]
  rfl

theorem binaryOperator_lt_CALL (op : TokenType) (h : op ∈ binaryOperators) :
    precedenceOf op < CALL := by
  simp only [binaryOperators, List.mem_cons, List.mem_singleton, List.not_mem_nil,
    or_false] at h
  rcases h with rfl | rfl | rfl | rfl | rfl | rfl | rfl | rfl <;> decide

theorem callPrefixFn_int (s : String) (v : Int) (h : parseInt s = some v) (k : Nat)
    (sfx : List Token) (errs : List String) :
    callPrefixFn (k + 1) (stateAt (intToken s :: sfx) errs)
      = some (intExpr s v, stateAt (intToken s :: sfx) errs) := by
  show some (Parser.parseIntegerLiteral (stateAt (intToken s :: sfx) errs)) = _
  have : Parser.parseIntegerLiteral (stateAt (intToken s :: sfx) errs)
      = (match parseInt s with
        | none => (none, { stateAt (intToken s :: sfx) errs with
            errors := errs ++ ["could not parse \"" ++ s ++ "\" as integer"] })
        | some value => (some (Expression.IntegerLiteral (intToken s) value),
            stateAt (intToken s :: sfx) errs)) := rfl
  rw [this, h]
  rfl

mutual
/-- The parser reads the canonical tokens of a valid expression as the AST of the
expression: when the loop of `parseExpression`, entered with that AST at the last of the
tokens, returns `r`, `parseExpression` at the first of the tokens returns `r`. -/
theorem canon_parseExpression : ∀ (e : Canon), e.valid = true →
    ∀ (prec : Nat) (sfx : List Token) (errs : List String) (r : Option Expression × Parser),
      prec < CALL →
      Returns (fun n => parseExpressionLoop n prec e.toExpr
        (stateAt (e.lastToken :: sfx) errs)) r →
      Returns (fun n => parseExpression n prec (stateAt (e.tokens ++ sfx) errs)) r
  | .ident s, _, prec, sfx, errs, r, _, hk =>
    parseExpression_atom prec (identToken s) (identExpr s) sfx errs r rfl (fun _ => rfl) hk
  | .int s v, hv, prec, sfx, errs, r, _, hk => by
    have hv1 : (!s.toList.isEmpty && s.toList.all isDigit && parseInt s == some v) = true := hv
    simp only [Bool.and_eq_true, beq_iff_eq] at hv1
    exact parseExpression_atom prec (intToken s) (intExpr s v) sfx errs r rfl
      (fun k => callPrefixFn_int s v hv1.2 k sfx errs) hk
  | .bool true, _, prec, sfx, errs, r, _, hk =>
    parseExpression_atom prec (boolToken true) (Canon.bool true).toExpr sfx errs r rfl
      (fun _ => rfl) hk
  | .bool false, _, prec, sfx, errs, r, _, hk =>
    parseExpression_atom prec (boolToken false) (Canon.bool false).toExpr sfx errs r rfl
      (fun _ => rfl) hk
  | .pre op x, hv, prec, sfx, errs, r, _, hk => by
    have hv1 : (decide (op ∈ prefixOperators) && x.valid) = true := hv
    simp only [Bool.and_eq_true, decide_eq_true_eq] at hv1
    have hx := canon_parseExpression x hv1.2 PREFIX (symbolToken TokenType.RPAREN :: sfx) errs
      (x.toExpr, stateAt (x.lastToken :: symbolToken TokenType.RPAREN :: sfx) errs)
      (by decide)
      (parseExpressionLoop_stops PREFIX _ _ _ errs
        (precedenceOf_rparen_le sfx PREFIX (by decide)))
    have hin := parseExpression_prefixOperator op hv1.1 x.tokens sfx errs x.toExpr
      x.lastToken hx
    have ht : (Canon.pre op x).tokens ++ sfx
        = symbolToken TokenType.LPAREN ::
          ((symbolToken op :: x.tokens) ++ symbolToken TokenType.RPAREN :: sfx) := by
      show (symbolToken TokenType.LPAREN :: symbolToken op ::
        (x.tokens ++ [symbolToken TokenType.RPAREN])) ++ sfx = _
      simp
    rw [ht]
    exact parseExpression_grouped prec _ sfx errs _ _ r hin hk
  | .bin l op x, hv, prec, sfx, errs, r, _, hk => by
    have hv1 : (decide (op ∈ binaryOperators) && l.valid && x.valid) = true := hv
    simp only [Bool.and_eq_true, decide_eq_true_eq] at hv1
    obtain ⟨⟨hop, hl⟩, hx⟩ := hv1
    have hR := canon_parseExpression x hx (precedenceOf op)
      (symbolToken TokenType.RPAREN :: sfx) errs
      (x.toExpr, stateAt (x.lastToken :: symbolToken TokenType.RPAREN :: sfx) errs)
      (binaryOperator_lt_CALL op hop)
      (parseExpressionLoop_stops (precedenceOf op) _ _ _ errs
        (precedenceOf_rparen_le sfx (precedenceOf op) (precedenceOf_pos op)))
    have hloop := parseExpressionLoop_binary op hop l.lastToken x.tokens sfx errs l.toExpr
      x.toExpr x.lastToken hR
    have hin := canon_parseExpression l hl LOWEST
      (symbolToken op :: (x.tokens ++ symbolToken TokenType.RPAREN :: sfx)) errs _
      (by decide) hloop
    have ht : (Canon.bin l op x).tokens ++ sfx
        = symbolToken TokenType.LPAREN ::
          ((l.tokens ++ symbolToken op :: x.tokens) ++ symbolToken TokenType.RPAREN :: sfx) := by
      show (symbolToken TokenType.LPAREN ::
        (l.tokens ++ symbolToken op :: (x.tokens ++ [symbolToken TokenType.RPAREN]))) ++ sfx = _
      simp
    have ht2 : (l.tokens ++ symbolToken op :: x.tokens) ++ symbolToken TokenType.RPAREN :: sfx
        = l.tokens ++ symbolToken op :: (x.tokens ++ symbolToken TokenType.RPAREN :: sfx) := by
      simp
    rw [ht]
    rw [← ht2] at hin
    exact parseExpression_grouped prec _ sfx errs _ _ r hin hk
  | .call f args, hv, prec, sfx, errs, r, hp, hk => by
    have hv1 : (f.valid && Canon.validAll args) = true := hv
    simp only [Bool.and_eq_true] at hv1
    have hL := canon_parseList args hv1.2 TokenType.RPAREN (symbolToken TokenType.LPAREN) sfx
      errs (Or.inl rfl)
    have hloop := parseExpressionLoop_call prec hp f.lastToken (Canon.argTokens args) sfx errs
      f.toExpr (Canon.toExprs args) r hL hk
    have hin := canon_parseExpression f hv1.1 prec
      (symbolToken TokenType.LPAREN ::
        (Canon.argTokens args ++ symbolToken TokenType.RPAREN :: sfx)) errs r hp hloop
    have ht : (Canon.call f args).tokens ++ sfx
        = f.tokens ++ symbolToken TokenType.LPAREN ::
          (Canon.argTokens args ++ symbolToken TokenType.RPAREN :: sfx) := by
      show (f.tokens ++ symbolToken TokenType.LPAREN ::
        (Canon.argTokens args ++ [symbolToken TokenType.RPAREN])) ++ sfx = _
      simp
    rw [ht]
    exact hin
  | .index l i, hv, prec, sfx, errs, r, _, hk => by
    have hv1 : (l.valid && i.valid) = true := hv
    simp only [Bool.and_eq_true] at hv1
    have hI := canon_parseExpression i hv1.2 LOWEST
      (symbolToken TokenType.RBRACKET :: symbolToken TokenType.RPAREN :: sfx) errs
      (i.toExpr, stateAt (i.lastToken :: symbolToken TokenType.RBRACKET ::
        symbolToken TokenType.RPAREN :: sfx) errs)
      (by decide)
      (parseExpressionLoop_stops LOWEST _ _ _ errs (le_refl _))
    have hloop := parseExpressionLoop_index l.lastToken i.tokens sfx errs l.toExpr i.toExpr
      i.lastToken hI
    have hin := canon_parseExpression l hv1.1 LOWEST
      (symbolToken TokenType.LBRACKET ::
        (i.tokens ++ symbolToken TokenType.RBRACKET :: symbolToken TokenType.RPAREN :: sfx))
      errs _ (by decide) hloop
    have ht : (Canon.index l i).tokens ++ sfx
        = symbolToken TokenType.LPAREN ::
          ((l.tokens ++ symbolToken TokenType.LBRACKET ::
            (i.tokens ++ [symbolToken TokenType.RBRACKET]))
            ++ symbolToken TokenType.RPAREN :: sfx) := by
      show (symbolToken TokenType.LPAREN ::
        (l.tokens ++ symbolToken TokenType.LBRACKET ::
          (i.tokens ++ [symbolToken TokenType.RBRACKET, symbolToken TokenType.RPAREN])))
        ++ sfx = _
      simp
    have ht2 : (l.tokens ++ symbolToken TokenType.LBRACKET ::
          (i.tokens ++ [symbolToken TokenType.RBRACKET]))
          ++ symbolToken TokenType.RPAREN :: sfx
        = l.tokens ++ symbolToken TokenType.LBRACKET ::
          (i.tokens ++ symbolToken TokenType.RBRACKET :: symbolToken TokenType.RPAREN :: sfx) := by
      simp
    rw [ht]
    rw [← ht2] at hin
    exact parseExpression_grouped prec _ sfx errs _ _ r hin hk
  | .array es, hv, prec, sfx, errs, r, _, hk => by
    have hL := canon_parseList es hv TokenType.RBRACKET (symbolToken TokenType.LBRACKET) sfx
      errs (Or.inr rfl)
    have ht : (Canon.array es).tokens ++ sfx
        = symbolToken TokenType.LBRACKET ::
          (Canon.argTokens es ++ symbolToken TokenType.RBRACKET :: sfx) := by
      show (symbolToken TokenType.LBRACKET ::
        (Canon.argTokens es ++ [symbolToken TokenType.RBRACKET])) ++ sfx = _
      simp
    rw [ht]
    exact parseExpression_array prec _ sfx errs _ r hL hk
/-- The parser reads the canonical tokens of a list of valid expressions, between the
token `t0` and the closing token, as the ASTs of the expressions. -/
theorem canon_parseList : ∀ (es : List Canon), Canon.validAll es = true →
    ∀ (endK : TokenType) (t0 : Token) (sfx : List Token) (errs : List String),
      endK = TokenType.RPAREN ∨ endK = TokenType.RBRACKET →
      Returns (fun n => parseExpressionList n endK
          (stateAt (t0 :: (Canon.argTokens es ++ symbolToken endK :: sfx)) errs))
        (Canon.toExprs es, stateAt (symbolToken endK :: sfx) errs)
  | [], _, endK, t0, sfx, errs, _ => parseExpressionList_nil endK t0 sfx errs
  | e :: es, hv, endK, t0, sfx, errs, hend => by
    have hv1 : (e.valid && Canon.validAll es) = true := hv
    simp only [Bool.and_eq_true] at hv1
    have hcomma : (symbolToken endK).Kind ≠ TokenType.COMMA := by
      rcases hend with rfl | rfl <;> exact fun h => nomatch h
    have hlow : precedenceOf (symbolToken endK).Kind ≤ LOWEST := by
      rcases hend with rfl | rfl <;> decide
    obtain ⟨x, hM⟩ := canon_parseMore es hv1.2 [e.toExpr] e.lastToken (symbolToken endK) sfx
      errs hcomma hlow
    have hE := canon_parseExpression e hv1.1 LOWEST
      (Canon.moreTokens es ++ symbolToken endK :: sfx) errs
      (e.toExpr, stateAt (e.lastToken :: (Canon.moreTokens es ++ symbolToken endK :: sfx)) errs)
      (by decide)
      (parseExpressionLoop_stops LOWEST _ _ _ errs (moreTokens_head es _ sfx hlow))
    have hfirst : (stateAt (t0 :: (e.tokens ++ (Canon.moreTokens es ++ symbolToken endK :: sfx)))
        errs).peekTokenIs endK = false := by
      show ((stateAt (t0 :: (e.tokens ++ (Canon.moreTokens es ++ symbolToken endK :: sfx)))
        errs).peekToken.Kind == endK) = false
      rw [peek_firstToken]
      obtain ⟨-, h1, h2, -⟩ := firstToken_kind e
      rcases hend with rfl | rfl
      · simpa using h1
      · simpa using h2
    have ht : Canon.argTokens (e :: es) ++ symbolToken endK :: sfx
        = e.tokens ++ (Canon.moreTokens es ++ symbolToken endK :: sfx) := by
      show (e.tokens ++ Canon.moreTokens es) ++ symbolToken endK :: sfx = _
      simp
    rw [ht]
    exact parseExpressionList_cons endK t0 e.tokens _ sfx errs e.toExpr e.lastToken x _
      hfirst hE hM
/-- The loop of `parseExpressionList` reads the canonical tokens of the expressions after
the first one, each with the comma before it, as the ASTs of the expressions. -/
theorem canon_parseMore : ∀ (es : List Canon), Canon.validAll es = true →
    ∀ (acc : List (Option Expression)) (t endTok : Token) (sfx : List Token)
      (errs : List String),
      endTok.Kind ≠ TokenType.COMMA → precedenceOf endTok.Kind ≤ LOWEST →
      ∃ x, Returns (fun n => parseExpressionListLoop n acc
          (stateAt (t :: (Canon.moreTokens es ++ endTok :: sfx)) errs))
        (acc ++ Canon.toExprs es, stateAt (x :: endTok :: sfx) errs)
  | [], _, acc, t, endTok, sfx, errs, hc, _ => by
    refine ⟨t, ?_⟩
    have h := parseExpressionListLoop_nil acc t endTok sfx errs hc
    have e1 : acc ++ Canon.toExprs [] = acc := List.append_nil acc
    rw [e1]
    exact h
  | e :: es, hv, acc, t, endTok, sfx, errs, hc, hlow => by
    have hv1 : (e.valid && Canon.validAll es) = true := hv
    simp only [Bool.and_eq_true] at hv1
    obtain ⟨x, hM⟩ := canon_parseMore es hv1.2 (acc ++ [e.toExpr]) e.lastToken endTok sfx
      errs hc hlow
    have hE := canon_parseExpression e hv1.1 LOWEST (Canon.moreTokens es ++ endTok :: sfx)
      errs (e.toExpr, stateAt (e.lastToken :: (Canon.moreTokens es ++ endTok :: sfx)) errs)
      (by decide)
      (parseExpressionLoop_stops LOWEST _ _ _ errs (moreTokens_head es _ sfx hlow))
    refine ⟨x, ?_⟩
    have ht : Canon.moreTokens (e :: es) ++ endTok :: sfx
        = symbolToken TokenType.COMMA ::
          (e.tokens ++ (Canon.moreTokens es ++ endTok :: sfx)) := by
      show (symbolToken TokenType.COMMA :: (e.tokens ++ Canon.moreTokens es)) ++ endTok :: sfx
        = _
      simp
    have e1 : acc ++ Canon.toExprs (e :: es) = acc ++ [e.toExpr] ++ Canon.toExprs es := by
      show acc ++ (e.toExpr :: Canon.toExprs es) = _
      simp
    rw [ht, e1]
    exact parseExpressionListLoop_cons acc t e.tokens _ errs e.toExpr e.lastToken _ hE hM
end

/-! ### Parsing the canonical tokens of a program -/

theorem stmt_tokens_cons (s : CanonStmt) : ∃ ts, s.tokens = s.firstToken :: ts := by
  cases s with
  | letS n v => exact ⟨_, rfl⟩
  | returnS v => exact ⟨_, rfl⟩
  | exprS e => exact tokens_cons e

theorem stmt_firstToken_kind (s : CanonStmt) :
    s.firstToken.Kind ≠ TokenType.SEMICOLON ∧ s.firstToken.Kind ≠ TokenType.EOF := by
  cases s with
  | letS n v => exact ⟨(fun h => nomatch h), (fun h => nomatch h)⟩
  | returnS v => exact ⟨(fun h => nomatch h), (fun h => nomatch h)⟩
  | exprS e =>
    obtain ⟨-, -, -, h1, h2, -⟩ := firstToken_kind e
    exact ⟨h1, h2⟩

theorem semicolonLoop_succ (n : Nat) (p : Parser) :
    semicolonLoop (n + 1) p
      = if p.peekTokenIs TokenType.SEMICOLON then semicolonLoop n p.nextToken else p := rfl

theorem skipSemicolons_stateAt (t : Token) (sfx : List Token) (errs : List String)
    (h : (sfx.headD eofToken).Kind ≠ TokenType.SEMICOLON) :
    (stateAt (t :: symbolToken TokenType.SEMICOLON :: sfx) errs).skipSemicolons
      = stateAt (symbolToken TokenType.SEMICOLON :: sfx) errs := by
  unfold Parser.skipSemicolons
  rw [semicolonLoop_succ]
  have h1 : (stateAt (t :: symbolToken TokenType.SEMICOLON :: sfx) errs).peekTokenIs
      TokenType.SEMICOLON = true := rfl
  rw [h1, if_pos rfl, nextToken_stateAt]
  cases hl : (stateAt (t :: symbolToken TokenType.SEMICOLON :: sfx) errs).l.length with
  | zero => rfl
  | succ m =>
    rw [semicolonLoop_succ]
    have h2 : (stateAt (symbolToken TokenType.SEMICOLON :: sfx) errs).peekTokenIs
        TokenType.SEMICOLON = false := by
      show ((sfx.headD eofToken).Kind == TokenType.SEMICOLON) = false
      exact beq_eq_false_iff_ne.mpr h
    rw [h2]
    rfl

theorem parseStatement_exprS (e : Canon) (hv : e.valid = true) (sfx : List Token)
    (errs : List String)
    (h1 : precedenceOf (sfx.headD eofToken).Kind ≤ LOWEST)
    (h2 : (sfx.headD eofToken).Kind ≠ TokenType.SEMICOLON) :
    Returns (fun n => parseStatement n (stateAt (e.tokens ++ sfx) errs))
      (Statement.ExpressionStatement e.firstToken e.toExpr, stateAt (e.lastToken :: sfx) errs) := by
  obtain ⟨N, h⟩ := canon_parseExpression e hv LOWEST sfx errs
    (e.toExpr, stateAt (e.lastToken :: sfx) errs) (by decide)
    (parseExpressionLoop_stops LOWEST _ _ _ errs h1)
  refine ⟨N + 2, fun n hn => ?_⟩
  obtain ⟨k, rfl⟩ : ∃ k, n = k + 2 := ⟨n - 2, by omega⟩
  have hk : parseExpression k LOWEST (stateAt (e.tokens ++ sfx) errs) = some _ :=
    h k (by omega)
  obtain ⟨-, -, -, -, -, hlet, hret⟩ := firstToken_kind e
  have hcur := cur_firstToken e sfx errs
  show parseStatement (k + 2) (stateAt (e.tokens ++ sfx) errs) = _
  have hs : parseStatement (k + 2) (stateAt (e.tokens ++ sfx) errs)
      = parseExpressionStatement (k + 1) (stateAt (e.tokens ++ sfx) errs) := by
    rw [parseStatement_succ, hcur]
    generalize e.firstToken.Kind = kd at hlet hret
    cases kd <;> first | rfl | exact absurd rfl hlet | exact absurd rfl hret
  rw [hs, parseExpressionStatement_succ, hk, hcur]
  have hp : (stateAt (e.lastToken :: sfx) errs).peekTokenIs TokenType.SEMICOLON = false := by
    show ((sfx.headD eofToken).Kind == TokenType.SEMICOLON) = false
    exact beq_eq_false_iff_ne.mpr h2
  simp only [hp, Bool.false_eq_true, if_false]

theorem parseStatement_returnS (v : Canon) (hv : v.valid = true) (sfx : List Token)
    (errs : List String) :
    Returns (fun n => parseStatement n
        (stateAt ((CanonStmt.returnS v).tokens ++ sfx) errs))
      ((CanonStmt.returnS v).toStatement, stateAt (symbolToken TokenType.SEMICOLON :: sfx) errs) := by
  obtain ⟨N, h⟩ := canon_parseExpression v hv LOWEST (symbolToken TokenType.SEMICOLON :: sfx)
    errs (v.toExpr, stateAt (v.lastToken :: symbolToken TokenType.SEMICOLON :: sfx) errs)
    (by decide) (parseExpressionLoop_stops LOWEST _ _ _ errs (le_refl _))
  refine ⟨N + 2, fun n hn => ?_⟩
  obtain ⟨k, rfl⟩ : ∃ k, n = k + 2 := ⟨n - 2, by omega⟩
  have hk : parseExpression k LOWEST
      (stateAt (v.tokens ++ symbolToken TokenType.SEMICOLON :: sfx) errs) = some _ :=
    h k (by omega)
  have ht : (CanonStmt.returnS v).tokens ++ sfx
      = keywordToken TokenType.RETURN "return" ::
        (v.tokens ++ symbolToken TokenType.SEMICOLON :: sfx) := by
    show (keywordToken TokenType.RETURN "return" ::
      (v.tokens ++ [symbolToken TokenType.SEMICOLON])) ++ sfx = _
    simp
  rw [ht]
  show parseStatement (k + 2) _ = _
  have hs : parseStatement (k + 2) (stateAt (keywordToken TokenType.RETURN "return" ::
        (v.tokens ++ symbolToken TokenType.SEMICOLON :: sfx)) errs)
      = parseReturnStatement (k + 1) (stateAt (keywordToken TokenType.RETURN "return" ::
        (v.tokens ++ symbolToken TokenType.SEMICOLON :: sfx)) errs) := rfl
  rw [hs, parseReturnStatement_succ, nextToken_stateAt, hk]
  have hp : (stateAt (v.lastToken :: symbolToken TokenType.SEMICOLON :: sfx) errs).peekTokenIs
      TokenType.SEMICOLON = true := rfl
  simp only [hp, if_true, nextToken_stateAt]
  rfl

theorem parseStatement_letS (name : String) (v : Canon) (hv : v.valid = true)
    (sfx : List Token) (errs : List String)
    (h2 : (sfx.headD eofToken).Kind ≠ TokenType.SEMICOLON) :
    Returns (fun n => parseStatement n
        (stateAt ((CanonStmt.letS name v).tokens ++ sfx) errs))
      ((CanonStmt.letS name v).toStatement,
        stateAt (symbolToken TokenType.SEMICOLON :: sfx) errs) := by
  obtain ⟨N, h⟩ := canon_parseExpression v hv LOWEST (symbolToken TokenType.SEMICOLON :: sfx)
    errs (v.toExpr, stateAt (v.lastToken :: symbolToken TokenType.SEMICOLON :: sfx) errs)
    (by decide) (parseExpressionLoop_stops LOWEST _ _ _ errs (le_refl _))
  refine ⟨N + 2, fun n hn => ?_⟩
  obtain ⟨k, rfl⟩ : ∃ k, n = k + 2 := ⟨n - 2, by omega⟩
  have hk : parseExpression k LOWEST
      (stateAt (v.tokens ++ symbolToken TokenType.SEMICOLON :: sfx) errs) = some _ :=
    h k (by omega)
  have ht : (CanonStmt.letS name v).tokens ++ sfx
      = keywordToken TokenType.LET "let" :: identToken name :: symbolToken TokenType.ASSIGN ::
        (v.tokens ++ symbolToken TokenType.SEMICOLON :: sfx) := by
    show (keywordToken TokenType.LET "let" :: identToken name ::
      symbolToken TokenType.ASSIGN :: (v.tokens ++ [symbolToken TokenType.SEMICOLON])) ++ sfx
      = _
    simp
  rw [ht]
  show parseStatement (k + 2) _ = _
  have hs : parseStatement (k + 2) (stateAt (keywordToken TokenType.LET "let" ::
        identToken name :: symbolToken TokenType.ASSIGN ::
        (v.tokens ++ symbolToken TokenType.SEMICOLON :: sfx)) errs)
      = parseLetStatement (k + 1) (stateAt (keywordToken TokenType.LET "let" ::
        identToken name :: symbolToken TokenType.ASSIGN ::
        (v.tokens ++ symbolToken TokenType.SEMICOLON :: sfx)) errs) := rfl
  have he1 : (stateAt (keywordToken TokenType.LET "let" ::
        identToken name :: symbolToken TokenType.ASSIGN ::
        (v.tokens ++ symbolToken TokenType.SEMICOLON :: sfx)) errs).expectPeek TokenType.IDENT
      = (true, stateAt (identToken name :: symbolToken TokenType.ASSIGN ::
        (v.tokens ++ symbolToken TokenType.SEMICOLON :: sfx)) errs) :=
    expectPeek_stateAt _ (identToken name) _ errs
  have he2 : (stateAt (identToken name :: symbolToken TokenType.ASSIGN ::
        (v.tokens ++ symbolToken TokenType.SEMICOLON :: sfx)) errs).expectPeek TokenType.ASSIGN
      = (true, stateAt (symbolToken TokenType.ASSIGN ::
        (v.tokens ++ symbolToken TokenType.SEMICOLON :: sfx)) errs) :=
    expectPeek_stateAt _ (symbolToken TokenType.ASSIGN) _ errs
  rw [hs, parseLetStatement_succ, he1]
  simp only
  rw [he2]
  simp only
  rw [nextToken_stateAt, hk]
  simp only
  rw [skipSemicolons_stateAt _ sfx errs h2]
  rfl

theorem canonTokens_head (s : CanonStmt) (rest : List CanonStmt) :
    (canonTokens (s :: rest)).headD eofToken = s.firstToken := by
  obtain ⟨ts, h⟩ := stmt_tokens_cons s
  show (s.tokens ++ canonTokens rest).headD eofToken = _
  rw [h]
  rfl

theorem isWordKind_facts (k : TokenType) (h : (isWordKind k || k == TokenType.INT) = true) :
    precedenceOf k ≤ LOWEST ∧ k ≠ TokenType.SEMICOLON := by
  cases k <;> first | exact absurd h (by decide) | exact ⟨by decide, fun h => nomatch h⟩

/-- What an expression statement needs of the statement after it holds of the first
token of a statement that may follow it. -/
theorem separatedFrom_facts (e : Canon) (k : TokenType)
    (h : (CanonStmt.exprS e).separatedFrom k = true) :
    precedenceOf k ≤ LOWEST ∧ k ≠ TokenType.SEMICOLON := by
  apply isWordKind_facts
  cases e with
  | ident s =>
    have h1 : (k == TokenType.INT) = true := h
    rw [h1]; simp
  | bool b =>
    have h1 : (k == TokenType.INT) = true := h
    rw [h1]; simp
  | int s v =>
    have h1 : isWordKind k = true := h
    rw [h1]; rfl
  | pre op r => exact h
  | bin l op r => exact h
  | call f args => exact h
  | index l i => exact h
  | array es => exact h

/-- The loop of `ParseProgram` reads the canonical tokens of a program that is read back
as the statements of the program, and records no error. -/
theorem canon_ParseProgramLoop : ∀ (c : List CanonStmt), canonValid c = true →
    ∀ (acc : List Statement) (errs : List String),
      Returns (fun n => ParseProgramLoop n acc (stateAt (canonTokens c) errs))
        (acc ++ c.map CanonStmt.toStatement, stateAt [] errs)
  | [], _, acc, errs => by
    refine ⟨1, fun n hn => ?_⟩
    obtain ⟨k, rfl⟩ : ∃ k, n = k + 1 := ⟨n - 1, by omega⟩
    show ParseProgramLoop (k + 1) acc (stateAt [] errs) = _
    rw [ParseProgramLoop_succ]
    have hc : (stateAt [] errs).curTokenIs TokenType.EOF = true := rfl
    rw [hc]
    simp
  | s :: rest, hv, acc, errs => by
    have hv1 : (s.valid && s.mayPrecede rest && canonValid rest) = true := hv
    simp only [Bool.and_eq_true] at hv1
    obtain ⟨⟨hs, hsep⟩, hrest⟩ := hv1
    obtain ⟨N1, h1⟩ := canon_ParseProgramLoop rest hrest (acc ++ [s.toStatement]) errs
    have hsemi : ((canonTokens rest).headD eofToken).Kind ≠ TokenType.SEMICOLON := by
      cases rest with
      | nil => exact fun h => nomatch h
      | cons t ts =>
        rw [canonTokens_head]
        exact (stmt_firstToken_kind t).1
    have hstmt : Returns (fun n => parseStatement n
        (stateAt (s.tokens ++ canonTokens rest) errs))
        (s.toStatement, stateAt (s.lastToken :: canonTokens rest) errs) := by
      cases s with
      | letS name v =>
        have hs1 : ((Canon.ident name).valid && v.valid) = true := hs
        simp only [Bool.and_eq_true] at hs1
        exact parseStatement_letS name v hs1.2 _ errs hsemi
      | returnS v => exact parseStatement_returnS v hs _ errs
      | exprS e =>
        have hprec : precedenceOf ((canonTokens rest).headD eofToken).Kind ≤ LOWEST := by
          cases rest with
          | nil => exact le_refl _
          | cons t ts =>
            rw [canonTokens_head]
            exact (separatedFrom_facts e _ hsep).1
        exact parseStatement_exprS e hs _ errs hprec hsemi
    obtain ⟨N2, h2⟩ := hstmt
    refine ⟨N1 + N2 + 1, fun n hn => ?_⟩
    obtain ⟨k, rfl⟩ : ∃ k, n = k + 1 := ⟨n - 1, by omega⟩
    have h2k : parseStatement k (stateAt (s.tokens ++ canonTokens rest) errs) = some _ :=
      h2 k (by omega)
    have h1k : ParseProgramLoop k (acc ++ [s.toStatement]) (stateAt (canonTokens rest) errs)
        = some _ := h1 k (by omega)
    show ParseProgramLoop (k + 1) acc (stateAt (s.tokens ++ canonTokens rest) errs) = _
    have hc : (stateAt (s.tokens ++ canonTokens rest) errs).curTokenIs TokenType.EOF
        = false := by
      obtain ⟨ts, ht⟩ := stmt_tokens_cons s
      rw [ht]
      show (s.firstToken.Kind == TokenType.EOF) = false
      exact beq_eq_false_iff_ne.mpr (stmt_firstToken_kind s).2
    rw [ParseProgramLoop_succ, hc, h2k]
    simp only [Bool.not_false, if_true, nextToken_stateAt]
    rw [h1k]
    simp

/-- `ParseProgram` on the canonical tokens of a program that is read back returns the
program and records no error. -/
theorem canon_ParseProgram (c : List CanonStmt) (hv : canonValid c = true) :
    ParseProgram (canonTokens c) = some (canonProgram c, stateAt [] []) := by
  obtain ⟨N, h⟩ := canon_ParseProgramLoop c hv [] []
  have hN := h N (le_refl _)
  have hN1 : ParseProgramLoop N [] (New (canonTokens c))
      = some (c.map CanonStmt.toStatement, stateAt [] []) := by
    rw [New_eq_stateAt]
    simpa using hN
  exact ParseProgram_of_loop (canonTokens c) N _ _ hN1

/-! ### Tokenising the canonical string of a program -/

theorem lexFrom_start_cons (c : Char) (cs : List Char) :
    lexFrom LexMode.start (c :: cs) = (startStep c).1 ++ lexFrom (startStep c).2 cs := rfl

theorem lexFrom_word (ls : List Char) :
    ∀ (acc rest : List Char), ls.all isLetter = true →
      (∀ c cs, rest = c :: cs → isLetter c = false) →
      lexFrom (LexMode.word acc) (ls ++ rest)
        = ⟨lookupIdent (String.mk (acc ++ ls)), String.mk (acc ++ ls)⟩
          :: lexFrom LexMode.start rest := by
  induction ls with
  | nil =>
    intro acc rest _ hb
    cases rest with
    | nil => simp [lexFrom, flush]
    | cons c cs =>
      have hc := hb c cs rfl
      simp [lexFrom, lexStep, hc, flush]
  | cons l ls ih =>
    intro acc rest hl hb
    simp only [List.all_cons, Bool.and_eq_true] at hl
    have := ih (acc ++ [l]) rest hl.2 hb
    simp only [List.append_assoc, List.singleton_append] at this
    simp [lexFrom, lexStep, hl.1, this]

theorem lexFrom_number (ds : List Char) :
    ∀ (acc rest : List Char), ds.all isDigit = true →
      (∀ c cs, rest = c :: cs → isDigit c = false) →
      lexFrom (LexMode.number acc) (ds ++ rest)
        = ⟨TokenType.INT, String.mk (acc ++ ds)⟩ :: lexFrom LexMode.start rest := by
  induction ds with
  | nil =>
    intro acc rest _ hb
    cases rest with
    | nil => simp [lexFrom, flush]
    | cons c cs =>
      have hc := hb c cs rfl
      simp [lexFrom, lexStep, hc, flush]
  | cons d ds ih =>
    intro acc rest hd hb
    simp only [List.all_cons, Bool.and_eq_true] at hd
    have := ih (acc ++ [d]) rest hd.2 hb
    simp only [List.append_assoc, List.singleton_append] at this
    simp [lexFrom, lexStep, hd.1, this]

theorem isLetter_of_isDigit (c : Char) (h : isDigit c = true) : isLetter c = false := by
  simp only [isDigit, Bool.and_eq_true, decide_eq_true_eq] at h
  simp only [isLetter, Bool.or_eq_false_iff, Bool.and_eq_false_iff, decide_eq_false_iff_not,
    beq_eq_false_iff_ne, ne_eq]
  have h1 : c.toNat ≤ 57 := h.2
  refine ⟨⟨?_, ?_⟩, ?_⟩
  · left
    intro ha
    have ha' : 97 ≤ c.toNat := ha
    omega
  · left
    intro ha
    have ha' : 65 ≤ c.toNat := ha
    omega
  · intro hc
    subst hc
    exact absurd h1 (by decide)

theorem isDigit_of_isLetter (c : Char) (h : isLetter c = true) : isDigit c = false := by
  cases hd : isDigit c with
  | false => rfl
  | true => rw [isLetter_of_isDigit c hd] at h; cases h

theorem mk_toList (s : String) : String.mk s.toList = s := rfl

theorem lexFrom_ident (s : String) (rest : List Char)
    (hv : (Canon.ident s).valid = true) (hb : ∀ c cs, rest = c :: cs → isLetter c = false) :
    lexFrom LexMode.start (s.toList ++ rest) = identToken s :: lexFrom LexMode.start rest := by
  have hv1 : (!s.toList.isEmpty && s.toList.all isLetter
      && lookupIdent s == TokenType.IDENT) = true := hv
  simp only [Bool.and_eq_true, beq_iff_eq, Bool.not_eq_true',
    List.isEmpty_eq_false] at hv1
  obtain ⟨⟨hne, hall⟩, hid⟩ := hv1
  have hs := mk_toList s
  generalize s.toList = l at hne hall hs
  cases l with
  | nil => exact absurd rfl hne
  | cons c cs =>
    simp only [List.all_cons, Bool.and_eq_true] at hall
    have hstart : startStep c = ([], LexMode.word [c]) := by simp [startStep, hall.1]
    rw [List.cons_append, lexFrom_start_cons, hstart]
    have := lexFrom_word cs [c] rest hall.2 hb
    simp only [List.singleton_append] at this
    simp only [List.nil_append]
    rw [this, hs, hid]
    rfl

theorem lexFrom_int (s : String) (v : Int) (rest : List Char)
    (hv : (Canon.int s v).valid = true) (hb : ∀ c cs, rest = c :: cs → isDigit c = false) :
    lexFrom LexMode.start (s.toList ++ rest) = intToken s :: lexFrom LexMode.start rest := by
  have hv1 : (!s.toList.isEmpty && s.toList.all isDigit && parseInt s == some v) = true := hv
  simp only [Bool.and_eq_true, beq_iff_eq, Bool.not_eq_true',
    List.isEmpty_eq_false] at hv1
  obtain ⟨⟨hne, hall⟩, _⟩ := hv1
  have hs := mk_toList s
  generalize s.toList = l at hne hall hs
  cases l with
  | nil => exact absurd rfl hne
  | cons c cs =>
    simp only [List.all_cons, Bool.and_eq_true] at hall
    have hstart : startStep c = ([], LexMode.number [c]) := by
      simp [startStep, hall.1, isLetter_of_isDigit c hall.1]
    rw [List.cons_append, lexFrom_start_cons, hstart]
    have := lexFrom_number cs [c] rest hall.2 hb
    simp only [List.singleton_append] at this
    simp only [List.nil_append]
    rw [this, hs]
    rfl

theorem lexFrom_bool (b : Bool) (rest : List Char)
    (hb : ∀ c cs, rest = c :: cs → isLetter c = false) :
    lexFrom LexMode.start ((boolToken b).Literal.toList ++ rest)
      = boolToken b :: lexFrom LexMode.start rest := by
  cases b with
  | true =>
    have h := lexFrom_word ['r', 'u', 'e'] ['t'] rest (by decide) hb
    have h0 : lexFrom LexMode.start ((boolToken true).Literal.toList ++ rest)
        = lexFrom (LexMode.word ['t']) (['r', 'u', 'e'] ++ rest) := rfl
    rw [h0, h]
    rfl
  | false =>
    have h := lexFrom_word ['a', 'l', 's', 'e'] ['f'] rest (by decide) hb
    have h0 : lexFrom LexMode.start ((boolToken false).Literal.toList ++ rest)
        = lexFrom (LexMode.word ['f']) (['a', 'l', 's', 'e'] ++ rest) := rfl
    rw [h0, h]
    rfl

theorem isLetter_ne_assign (c : Char) (h : isLetter c = true) : c ≠ '=' := by
  intro hc
  subst hc
  exact absurd h (by decide)

theorem isDigit_ne_assign (c : Char) (h : isDigit c = true) : c ≠ '=' := by
  intro hc
  subst hc
  exact absurd h (by decide)

theorem not_isWordKind_INT : ¬ isWordKind TokenType.INT = true := by decide

theorem not_isWordKind_LPAREN : ¬ isWordKind TokenType.LPAREN = true := by decide

theorem not_isWordKind_LBRACKET : ¬ isWordKind TokenType.LBRACKET = true := by decide

/-- The canonical string of a valid expression starts with a character other than `=`:
with a digit when the first token is an integer, with a letter when it is a word. -/
theorem chars_head : ∀ (e : Canon), e.valid = true →
    ∃ c cs, e.chars = c :: cs ∧ c ≠ '='
      ∧ (e.firstToken.Kind = TokenType.INT → isDigit c = true)
      ∧ (isWordKind e.firstToken.Kind = true → isLetter c = true)
  | .ident s, hv => by
    have hv1 : (!s.toList.isEmpty && s.toList.all isLetter
        && lookupIdent s == TokenType.IDENT) = true := hv
    simp only [Bool.and_eq_true, beq_iff_eq, Bool.not_eq_true',
      List.isEmpty_eq_false] at hv1
    obtain ⟨⟨hne, hall⟩, _⟩ := hv1
    show ∃ c cs, s.toList = c :: cs ∧ _
    generalize s.toList = l at hne hall
    cases l with
    | nil => exact absurd rfl hne
    | cons c cs =>
      simp only [List.all_cons, Bool.and_eq_true] at hall
      exact ⟨c, cs, rfl, isLetter_ne_assign c hall.1, (fun h => nomatch h), (fun _ => hall.1)⟩
  | .int s v, hv => by
    have hv1 : (!s.toList.isEmpty && s.toList.all isDigit && parseInt s == some v) = true := hv
    simp only [Bool.and_eq_true, beq_iff_eq, Bool.not_eq_true',
      List.isEmpty_eq_false] at hv1
    obtain ⟨⟨hne, hall⟩, _⟩ := hv1
    show ∃ c cs, s.toList = c :: cs ∧ _
    generalize s.toList = l at hne hall
    cases l with
    | nil => exact absurd rfl hne
    | cons c cs =>
      simp only [List.all_cons, Bool.and_eq_true] at hall
      exact ⟨c, cs, rfl, isDigit_ne_assign c hall.1, (fun _ => hall.1),
        (fun h => absurd h not_isWordKind_INT)⟩
  | .bool true, _ =>
    ⟨'t', _, rfl, by decide, (fun h => nomatch h), (fun _ => by decide)⟩
  | .bool false, _ =>
    ⟨'f', _, rfl, by decide, (fun h => nomatch h), (fun _ => by decide)⟩
  | .pre _ _, _ =>
    ⟨'(', _, rfl, by decide, (fun h => nomatch h),
      (fun h => absurd h not_isWordKind_LPAREN)⟩
  | .bin _ _ _, _ =>
    ⟨'(', _, rfl, by decide, (fun h => nomatch h),
      (fun h => absurd h not_isWordKind_LPAREN)⟩
  | .call f args, hv => by
    have hv1 : (f.valid && Canon.validAll args) = true := hv
    simp only [Bool.and_eq_true] at hv1
    obtain ⟨c, cs, h, h1, h2, h3⟩ := chars_head f hv1.1
    refine ⟨c, cs ++ '(' :: (Canon.argChars args ++ [')']), ?_, h1, h2, h3⟩
    show f.chars ++ _ = _
    rw [h]
    rfl
  | .index _ _, _ =>
    ⟨'(', _, rfl, by decide, (fun h => nomatch h),
      (fun h => absurd h not_isWordKind_LPAREN)⟩
  | .array _, _ =>
    ⟨'[', _, rfl, by decide, (fun h => nomatch h),
      (fun h => absurd h not_isWordKind_LBRACKET)⟩

theorem lexFrom_bang (c : Char) (cs : List Char) (h : c ≠ '=') :
    lexFrom LexMode.bang (c :: cs) = symbolToken TokenType.BANG :: lexFrom LexMode.start (c :: cs) := by
  simp [lexFrom, lexStep, h, flush, symbolToken, TokenType.str]

theorem boundary_cons (c : Char) (rest : List Char) (h1 : isLetter c = false)
    (h2 : isDigit c = false) : boundary (c :: rest) := by
  intro d ds h
  injection h with h3 _
  subst h3
  exact ⟨h1, h2⟩

theorem boundary_nil : boundary [] := by
  intro c cs h
  cases h

theorem endsBefore_of_boundary (e : Canon) (rest : List Char) (h : boundary rest) :
    e.endsBefore rest := by
  cases e with
  | ident s => exact fun c cs hc => (h c cs hc).1
  | bool b => exact fun c cs hc => (h c cs hc).1
  | int s v => exact fun c cs hc => (h c cs hc).2
  | pre op r => exact trivial
  | bin l op r => exact trivial
  | call f args => exact trivial
  | index l i => exact trivial
  | array es => exact trivial

theorem lexFrom_binaryOperator (op : TokenType) (h : op ∈ binaryOperators) (xs : List Char) :
    lexFrom LexMode.start (' ' :: (op.str.toList ++ ' ' :: xs))
      = symbolToken op :: lexFrom LexMode.start xs := by
  simp only [binaryOperators, List.mem_cons, List.mem_singleton, List.not_mem_nil,
    or_false] at h
  rcases h with rfl | rfl | rfl | rfl | rfl | rfl | rfl | rfl <;> rfl

theorem boundary_moreChars (es : List Canon) (rest : List Char) (h : boundary rest) :
    boundary (Canon.moreChars es ++ rest) := by
  cases es with
  | nil => exact h
  | cons e es => exact boundary_cons ',' _ (by decide) (by decide)

mutual
/-- The lexer reads the canonical string of a valid expression as its canonical tokens. -/
theorem lexFrom_chars : ∀ (e : Canon), e.valid = true →
    ∀ rest : List Char, e.endsBefore rest →
      lexFrom LexMode.start (e.chars ++ rest) = e.tokens ++ lexFrom LexMode.start rest
  | .ident s, hv, rest, hb => lexFrom_ident s rest hv hb
  | .int s v, hv, rest, hb => lexFrom_int s v rest hv hb
  | .bool b, _, rest, hb => lexFrom_bool b rest hb
  | .pre op r, hv, rest, _ => by
    have hv1 : (decide (op ∈ prefixOperators) && r.valid) = true := hv
    simp only [Bool.and_eq_true, decide_eq_true_eq] at hv1
    obtain ⟨hop, hr⟩ := hv1
    have ihr := lexFrom_chars r hr (')' :: rest)
      (endsBefore_of_boundary r _ (boundary_cons ')' rest (by decide) (by decide)))
    have hclose : lexFrom LexMode.start (')' :: rest)
        = symbolToken TokenType.RPAREN :: lexFrom LexMode.start rest := rfl
    have hchars : (Canon.pre op r).chars ++ rest
        = '(' :: (op.str.toList ++ (r.chars ++ ')' :: rest)) := by
      show ('(' :: (op.str.toList ++ (r.chars ++ [')']))) ++ rest = _
      simp
    have htoks : (Canon.pre op r).tokens ++ lexFrom LexMode.start rest
        = symbolToken TokenType.LPAREN :: symbolToken op ::
          (r.tokens ++ symbolToken TokenType.RPAREN :: lexFrom LexMode.start rest) := by
      show (symbolToken TokenType.LPAREN :: symbolToken op ::
        (r.tokens ++ [symbolToken TokenType.RPAREN])) ++ _ = _
      simp
    rw [hchars, htoks, ← hclose, ← ihr]
    simp only [prefixOperators, List.mem_cons, List.mem_singleton, List.not_mem_nil,
      or_false] at hop
    rcases hop with rfl | rfl
    · rfl
    · obtain ⟨c, cs, hc, hne, -⟩ := chars_head r hr
      have h1 : lexFrom LexMode.start
          ('(' :: (TokenType.BANG.str.toList ++ (r.chars ++ ')' :: rest)))
          = symbolToken TokenType.LPAREN :: lexFrom LexMode.bang (r.chars ++ ')' :: rest) := rfl
      rw [h1, hc, List.cons_append, lexFrom_bang c _ hne]
  | .bin l op r, hv, rest, _ => by
    have hv1 : (decide (op ∈ binaryOperators) && l.valid && r.valid) = true := hv
    simp only [Bool.and_eq_true, decide_eq_true_eq] at hv1
    obtain ⟨⟨hop, hl⟩, hr⟩ := hv1
    have hR := lexFrom_chars r hr (')' :: rest)
      (endsBefore_of_boundary r _ (boundary_cons ')' rest (by decide) (by decide)))
    have hclose : lexFrom LexMode.start (')' :: rest)
        = symbolToken TokenType.RPAREN :: lexFrom LexMode.start rest := rfl
    have hL := lexFrom_chars l hl (' ' :: (op.str.toList ++ ' ' :: (r.chars ++ ')' :: rest)))
      (endsBefore_of_boundary l _ (boundary_cons ' ' _ (by decide) (by decide)))
    have hchars : (Canon.bin l op r).chars ++ rest
        = '(' :: (l.chars ++ ' ' :: (op.str.toList ++ ' ' :: (r.chars ++ ')' :: rest))) := by
      show ('(' :: (l.chars ++ ' ' :: (op.str.toList ++ ' ' :: (r.chars ++ [')'])))) ++ rest
        = _
      simp
    have htoks : (Canon.bin l op r).tokens ++ lexFrom LexMode.start rest
        = symbolToken TokenType.LPAREN ::
          (l.tokens ++ symbolToken op ::
            (r.tokens ++ symbolToken TokenType.RPAREN :: lexFrom LexMode.start rest)) := by
      show (symbolToken TokenType.LPAREN ::
        (l.tokens ++ symbolToken op :: (r.tokens ++ [symbolToken TokenType.RPAREN]))) ++ _ = _
      simp
    have hopen : ∀ xs, lexFrom LexMode.start ('(' :: xs)
        = symbolToken TokenType.LPAREN :: lexFrom LexMode.start xs := fun _ => rfl
    rw [hchars, htoks, hopen, hL, lexFrom_binaryOperator op hop, hR, hclose]
  | .call f args, hv, rest, _ => by
    have hv1 : (f.valid && Canon.validAll args) = true := hv
    simp only [Bool.and_eq_true] at hv1
    have hA := lexFrom_argChars args hv1.2 (')' :: rest)
      (boundary_cons ')' rest (by decide) (by decide))
    have hF := lexFrom_chars f hv1.1 ('(' :: (Canon.argChars args ++ ')' :: rest))
      (endsBefore_of_boundary f _ (boundary_cons '(' _ (by decide) (by decide)))
    have hclose : lexFrom LexMode.start (')' :: rest)
        = symbolToken TokenType.RPAREN :: lexFrom LexMode.start rest := rfl
    have hopen : ∀ xs, lexFrom LexMode.start ('(' :: xs)
        = symbolToken TokenType.LPAREN :: lexFrom LexMode.start xs := fun _ => rfl
    have hchars : (Canon.call f args).chars ++ rest
        = f.chars ++ '(' :: (Canon.argChars args ++ ')' :: rest) := by
      show (f.chars ++ '(' :: (Canon.argChars args ++ [')'])) ++ rest = _
      simp
    have htoks : (Canon.call f args).tokens ++ lexFrom LexMode.start rest
        = f.tokens ++ symbolToken TokenType.LPAREN ::
          (Canon.argTokens args ++ symbolToken TokenType.RPAREN :: lexFrom LexMode.start rest) := by
      show (f.tokens ++ symbolToken TokenType.LPAREN ::
        (Canon.argTokens args ++ [symbolToken TokenType.RPAREN])) ++ _ = _
      simp
    rw [hchars, htoks, hF, hopen, hA, hclose]
  | .index l i, hv, rest, _ => by
    have hv1 : (l.valid && i.valid) = true := hv
    simp only [Bool.and_eq_true] at hv1
    have hI := lexFrom_chars i hv1.2 (']' :: ')' :: rest)
      (endsBefore_of_boundary i _ (boundary_cons ']' _ (by decide) (by decide)))
    have hL := lexFrom_chars l hv1.1 ('[' :: (i.chars ++ ']' :: ')' :: rest))
      (endsBefore_of_boundary l _ (boundary_cons '[' _ (by decide) (by decide)))
    have hclose : lexFrom LexMode.start (']' :: ')' :: rest)
        = symbolToken TokenType.RBRACKET :: symbolToken TokenType.RPAREN ::
          lexFrom LexMode.start rest := rfl
    have hopen : ∀ xs, lexFrom LexMode.start ('(' :: xs)
        = symbolToken TokenType.LPAREN :: lexFrom LexMode.start xs := fun _ => rfl
    have hopenB : ∀ xs, lexFrom LexMode.start ('[' :: xs)
        = symbolToken TokenType.LBRACKET :: lexFrom LexMode.start xs := fun _ => rfl
    have hchars : (Canon.index l i).chars ++ rest
        = '(' :: (l.chars ++ '[' :: (i.chars ++ ']' :: ')' :: rest)) := by
      show ('(' :: (l.chars ++ '[' :: (i.chars ++ [']', ')']))) ++ rest = _
      simp
    have htoks : (Canon.index l i).tokens ++ lexFrom LexMode.start rest
        = symbolToken TokenType.LPAREN ::
          (l.tokens ++ symbolToken TokenType.LBRACKET ::
            (i.tokens ++ symbolToken TokenType.RBRACKET :: symbolToken TokenType.RPAREN ::
              lexFrom LexMode.start rest)) := by
      show (symbolToken TokenType.LPAREN ::
        (l.tokens ++ symbolToken TokenType.LBRACKET ::
          (i.tokens ++ [symbolToken TokenType.RBRACKET, symbolToken TokenType.RPAREN])))
        ++ _ = _
      simp
    rw [hchars, htoks, hopen, hL, hopenB, hI, hclose]
  | .array es, hv, rest, _ => by
    have hA := lexFrom_argChars es hv (']' :: rest)
      (boundary_cons ']' rest (by decide) (by decide))
    have hclose : lexFrom LexMode.start (']' :: rest)
        = symbolToken TokenType.RBRACKET :: lexFrom LexMode.start rest := rfl
    have hopenB : ∀ xs, lexFrom LexMode.start ('[' :: xs)
        = symbolToken TokenType.LBRACKET :: lexFrom LexMode.start xs := fun _ => rfl
    have hchars : (Canon.array es).chars ++ rest
        = '[' :: (Canon.argChars es ++ ']' :: rest) := by
      show ('[' :: (Canon.argChars es ++ [']'])) ++ rest = _
      simp
    have htoks : (Canon.array es).tokens ++ lexFrom LexMode.start rest
        = symbolToken TokenType.LBRACKET ::
          (Canon.argTokens es ++ symbolToken TokenType.RBRACKET :: lexFrom LexMode.start rest) := by
      show (symbolToken TokenType.LBRACKET ::
        (Canon.argTokens es ++ [symbolToken TokenType.RBRACKET])) ++ _ = _
      simp
    rw [hchars, htoks, hopenB, hA, hclose]
/-- The lexer reads the canonical string of a list of valid expressions as their
canonical tokens. -/
theorem lexFrom_argChars : ∀ (es : List Canon), Canon.validAll es = true →
    ∀ rest : List Char, boundary rest →
      lexFrom LexMode.start (Canon.argChars es ++ rest)
        = Canon.argTokens es ++ lexFrom LexMode.start rest
  | [], _, rest, _ => rfl
  | e :: es, hv, rest, hb => by
    have hv1 : (e.valid && Canon.validAll es) = true := hv
    simp only [Bool.and_eq_true] at hv1
    have hM := lexFrom_moreChars es hv1.2 rest hb
    have hE := lexFrom_chars e hv1.1 (Canon.moreChars es ++ rest)
      (endsBefore_of_boundary e _ (boundary_moreChars es rest hb))
    have hchars : Canon.argChars (e :: es) ++ rest = e.chars ++ (Canon.moreChars es ++ rest) := by
      show (e.chars ++ Canon.moreChars es) ++ rest = _
      simp
    have htoks : Canon.argTokens (e :: es) ++ lexFrom LexMode.start rest
        = e.tokens ++ (Canon.moreTokens es ++ lexFrom LexMode.start rest) := by
      show (e.tokens ++ Canon.moreTokens es) ++ _ = _
      simp
    rw [hchars, htoks, hE, hM]
/-- The lexer reads the canonical string of the expressions after the first one as their
canonical tokens. -/
theorem lexFrom_moreChars : ∀ (es : List Canon), Canon.validAll es = true →
    ∀ rest : List Char, boundary rest →
      lexFrom LexMode.start (Canon.moreChars es ++ rest)
        = Canon.moreTokens es ++ lexFrom LexMode.start rest
  | [], _, rest, _ => rfl
  | e :: es, hv, rest, hb => by
    have hv1 : (e.valid && Canon.validAll es) = true := hv
    simp only [Bool.and_eq_true] at hv1
    have hM := lexFrom_moreChars es hv1.2 rest hb
    have hE := lexFrom_chars e hv1.1 (Canon.moreChars es ++ rest)
      (endsBefore_of_boundary e _ (boundary_moreChars es rest hb))
    have hcomma : ∀ xs, lexFrom LexMode.start (',' :: ' ' :: xs)
        = symbolToken TokenType.COMMA :: lexFrom LexMode.start xs := fun _ => rfl
    have hchars : Canon.moreChars (e :: es) ++ rest
        = ',' :: ' ' :: (e.chars ++ (Canon.moreChars es ++ rest)) := by
      show (',' :: ' ' :: (e.chars ++ Canon.moreChars es)) ++ rest = _
      simp
    have htoks : Canon.moreTokens (e :: es) ++ lexFrom LexMode.start rest
        = symbolToken TokenType.COMMA ::
          (e.tokens ++ (Canon.moreTokens es ++ lexFrom LexMode.start rest)) := by
      show (symbolToken TokenType.COMMA :: (e.tokens ++ Canon.moreTokens es)) ++ _ = _
      simp
    rw [hchars, htoks, hcomma, hE, hM]
end

theorem stmt_chars_head (t : CanonStmt) (hv : t.valid = true) :
    ∃ c cs, t.chars = c :: cs
      ∧ (t.firstToken.Kind = TokenType.INT → isDigit c = true)
      ∧ (isWordKind t.firstToken.Kind = true → isLetter c = true) := by
  cases t with
  | letS n v => exact ⟨'l', _, rfl, (fun h => nomatch h), (fun _ => by decide)⟩
  | returnS v => exact ⟨'r', _, rfl, (fun h => nomatch h), (fun _ => by decide)⟩
  | exprS e =>
    obtain ⟨c, cs, h, -, h2, h3⟩ := chars_head e hv
    exact ⟨c, cs, h, h2, h3⟩

theorem canonValid_cons (s : CanonStmt) (rest : List CanonStmt)
    (h : canonValid (s :: rest) = true) :
    s.valid = true ∧ s.mayPrecede rest = true ∧ canonValid rest = true := by
  have h1 : (s.valid && s.mayPrecede rest && canonValid rest) = true := h
  simp only [Bool.and_eq_true] at h1
  exact ⟨h1.1.1, h1.1.2, h1.2⟩

/-- The canonical string of the statements that may follow an expression statement starts
with a character that does not continue the last token of the expression. -/
theorem endsBefore_next (e : Canon) (rest : List CanonStmt)
    (hsep : (CanonStmt.exprS e).mayPrecede rest = true) (hrest : canonValid rest = true) :
    e.endsBefore (canonChars rest) := by
  cases rest with
  | nil =>
    apply endsBefore_of_boundary
    exact boundary_nil
  | cons t ts =>
    obtain ⟨ht, -, -⟩ := canonValid_cons t ts hrest
    obtain ⟨c0, cs0, hc, hd, hw⟩ := stmt_chars_head t ht
    have hchars : canonChars (t :: ts) = c0 :: (cs0 ++ canonChars ts) := by
      show t.chars ++ canonChars ts = _
      rw [hc]
      rfl
    rw [hchars]
    have hsep1 : (CanonStmt.exprS e).separatedFrom t.firstToken.Kind = true := hsep
    cases e with
    | ident s =>
      have h1 : (t.firstToken.Kind == TokenType.INT) = true := hsep1
      intro c cs h
      injection h with h2 _
      subst h2
      exact isLetter_of_isDigit _ (hd (beq_iff_eq.mp h1))
    | bool b =>
      have h1 : (t.firstToken.Kind == TokenType.INT) = true := hsep1
      intro c cs h
      injection h with h2 _
      subst h2
      exact isLetter_of_isDigit _ (hd (beq_iff_eq.mp h1))
    | int s v =>
      have h1 : isWordKind t.firstToken.Kind = true := hsep1
      intro c cs h
      injection h with h2 _
      subst h2
      exact isDigit_of_isLetter _ (hw h1)
    | pre op r => exact trivial
    | bin l op r => exact trivial
    | call f args => exact trivial
    | index l i => exact trivial
    | array es => exact trivial

/-- The lexer reads the canonical string of a valid statement as its canonical tokens. -/
theorem lexFrom_stmt (s : CanonStmt) (hv : s.valid = true) (rest : List Char)
    (hb : ∀ e, s = CanonStmt.exprS e → e.endsBefore rest) :
    lexFrom LexMode.start (s.chars ++ rest) = s.tokens ++ lexFrom LexMode.start rest := by
  have hsemi : lexFrom LexMode.start (';' :: rest)
      = symbolToken TokenType.SEMICOLON :: lexFrom LexMode.start rest := rfl
  cases s with
  | letS n v =>
    have hv1 : ((Canon.ident n).valid && v.valid) = true := hv
    simp only [Bool.and_eq_true] at hv1
    have hlet : ∀ xs, lexFrom LexMode.start ('l' :: 'e' :: 't' :: ' ' :: xs)
        = keywordToken TokenType.LET "let" :: lexFrom LexMode.start xs := fun _ => rfl
    have hassign : ∀ xs, lexFrom LexMode.start (' ' :: '=' :: ' ' :: xs)
        = symbolToken TokenType.ASSIGN :: lexFrom LexMode.start xs := fun _ => rfl
    have hN := lexFrom_ident n (' ' :: '=' :: ' ' :: (v.chars ++ ';' :: rest)) hv1.1
      (fun c cs h => ((boundary_cons ' ' _ (by decide) (by decide)) c cs h).1)
    have hV := lexFrom_chars v hv1.2 (';' :: rest)
      (endsBefore_of_boundary v _ (boundary_cons ';' rest (by decide) (by decide)))
    have hchars : (CanonStmt.letS n v).chars ++ rest
        = 'l' :: 'e' :: 't' :: ' ' ::
          (n.toList ++ ' ' :: '=' :: ' ' :: (v.chars ++ ';' :: rest)) := by
      show ('l' :: 'e' :: 't' :: ' ' :: (n.toList ++ ' ' :: '=' :: ' ' :: (v.chars ++ [';'])))
        ++ rest = _
      simp
    have htoks : (CanonStmt.letS n v).tokens ++ lexFrom LexMode.start rest
        = keywordToken TokenType.LET "let" :: identToken n :: symbolToken TokenType.ASSIGN ::
          (v.tokens ++ symbolToken TokenType.SEMICOLON :: lexFrom LexMode.start rest) := by
      show (keywordToken TokenType.LET "let" :: identToken n :: symbolToken TokenType.ASSIGN ::
        (v.tokens ++ [symbolToken TokenType.SEMICOLON])) ++ _ = _
      simp
    rw [hchars, htoks, hlet, hN, hassign, hV, hsemi]
  | returnS v =>
    have hret : ∀ xs, lexFrom LexMode.start ('r' :: 'e' :: 't' :: 'u' :: 'r' :: 'n' :: ' ' :: xs)
        = keywordToken TokenType.RETURN "return" :: lexFrom LexMode.start xs := fun _ => rfl
    have hV := lexFrom_chars v hv (';' :: rest)
      (endsBefore_of_boundary v _ (boundary_cons ';' rest (by decide) (by decide)))
    have hchars : (CanonStmt.returnS v).chars ++ rest
        = 'r' :: 'e' :: 't' :: 'u' :: 'r' :: 'n' :: ' ' :: (v.chars ++ ';' :: rest) := by
      show ('r' :: 'e' :: 't' :: 'u' :: 'r' :: 'n' :: ' ' :: (v.chars ++ [';'])) ++ rest = _
      simp
    have htoks : (CanonStmt.returnS v).tokens ++ lexFrom LexMode.start rest
        = keywordToken TokenType.RETURN "return" ::
          (v.tokens ++ symbolToken TokenType.SEMICOLON :: lexFrom LexMode.start rest) := by
      show (keywordToken TokenType.RETURN "return" ::
        (v.tokens ++ [symbolToken TokenType.SEMICOLON])) ++ _ = _
      simp
    rw [hchars, htoks, hret, hV, hsemi]
  | exprS e => exact lexFrom_chars e hv rest (hb e rfl)

/-- The lexer reads the canonical string of a program that is read back as its canonical
tokens. -/
theorem lexFrom_canonChars : ∀ (c : List CanonStmt), canonValid c = true →
    lexFrom LexMode.start (canonChars c) = canonTokens c
  | [], _ => rfl
  | s :: rest, hv => by
    obtain ⟨hs, hsep, hrest⟩ := canonValid_cons s rest hv
    have ih := lexFrom_canonChars rest hrest
    have h := lexFrom_stmt s hs (canonChars rest) (by
      intro e he
      subst he
      exact endsBefore_next e rest hsep hrest)
    show lexFrom LexMode.start (s.chars ++ canonChars rest) = s.tokens ++ canonTokens rest
    rw [h, ih]

theorem tokenize_canonChars (c : List CanonStmt) (hv : canonValid c = true) :
    tokenize (String.mk (canonChars c)) = canonTokens c :=
  lexFrom_canonChars c hv

/-! ### The canonical string of a program -/

theorem intercalate_go (es : List Canon) :
    ∀ acc : String, String.intercalate.go acc ", " (es.map fun e => String.mk e.chars)
      = acc ++ String.mk (Canon.moreChars es) := by
  induction es with
  | nil =>
    intro acc
    show acc = acc ++ String.mk []
    simp [String.ext_iff, String.data_append]
  | cons e es ih =>
    intro acc
    show String.intercalate.go (acc ++ ", " ++ String.mk e.chars) ", "
      (es.map fun e => String.mk e.chars) = _
    rw [ih]
    show _ = acc ++ String.mk (',' :: ' ' :: (e.chars ++ Canon.moreChars es))
    simp [String.ext_iff, String.data_append]

theorem join_chars (es : List Canon) :
    join (es.map fun e => String.mk e.chars) ", " = String.mk (Canon.argChars es) := by
  cases es with
  | nil => rfl
  | cons e es =>
    show String.intercalate.go (String.mk e.chars) ", " (es.map fun e => String.mk e.chars)
      = String.mk (e.chars ++ Canon.moreChars es)
    rw [intercalate_go]
    simp [String.ext_iff, String.data_append]

mutual
/-- The method `String` on the AST of an expression gives its canonical string. -/
theorem exprString_chars : ∀ (e : Canon), exprString e.toExpr = some (String.mk e.chars)
  | .ident _ => rfl
  | .int _ _ => rfl
  | .bool true => rfl
  | .bool false => rfl
  | .pre op r => by
    show exprString (prefixExpr op r.toExpr) = _
    rw [exprString_prefixExpr _ _ _ (exprString_chars r)]
    show _ = some (String.mk ('(' :: (op.str.toList ++ (r.chars ++ [')']))))
    simp [String.ext_iff, String.data_append]
  | .bin l op r => by
    show exprString (infixExpr l.toExpr op r.toExpr) = _
    rw [exprString_infixExpr _ _ _ _ _ (exprString_chars l) (exprString_chars r)]
    show _ = some (String.mk
      ('(' :: (l.chars ++ ' ' :: (op.str.toList ++ ' ' :: (r.chars ++ [')'])))))
    simp [String.ext_iff, String.data_append]
  | .call f args => by
    show exprString (callExpr f.toExpr (Canon.toExprs args)) = _
    rw [exprString_call _ _ _ _ (exprString_chars f) (exprStrings_chars args), join_chars]
    show _ = some (String.mk (f.chars ++ '(' :: (Canon.argChars args ++ [')'])))
    simp [String.ext_iff, String.data_append]
  | .index l i => by
    show exprString (indexExpr l.toExpr i.toExpr) = _
    rw [exprString_index _ _ _ _ (exprString_chars l) (exprString_chars i)]
    show _ = some (String.mk ('(' :: (l.chars ++ '[' :: (i.chars ++ [']', ')']))))
    simp [String.ext_iff, String.data_append]
  | .array es => by
    show exprString (arrayExpr (Canon.toExprs es)) = _
    rw [exprString_array _ _ (exprStrings_chars es), join_chars]
    show _ = some (String.mk ('[' :: (Canon.argChars es ++ [']'])))
    simp [String.ext_iff, String.data_append]
/-- The method `String` on the ASTs of a list of expressions gives their canonical
strings. -/
theorem exprStrings_chars : ∀ (es : List Canon),
    exprStrings (Canon.toExprs es) = some (es.map fun e => String.mk e.chars)
  | [] => rfl
  | e :: es =>
    exprStrings_cons _ _ _ _ (exprString_chars e) (exprStrings_chars es)
end

theorem letStatement_String (tok : Token) (name : Identifier) (e : Option Expression)
    (s : String) (h : exprString e = some s) :
    Statement.String (Statement.LetStatement tok (some name) e)
      = some (tok.Literal ++ " " ++ name.Value ++ " = " ++ s ++ ";") := by
  cases e with
  | none => cases h
  | some v =>
    have h1 : Expression.String v = some s := h
    show (do
      let n ← Identifier.String_ (some name)
      let s ← Expression.String v
      pure (tok.Literal ++ " " ++ n ++ " = " ++ s ++ ";")) = _
    rw [h1]
    rfl

theorem returnStatement_String (tok : Token) (e : Option Expression)
    (s : String) (h : exprString e = some s) :
    Statement.String (Statement.ReturnStatement tok e)
      = some (tok.Literal ++ " " ++ s ++ ";") := by
  cases e with
  | none => cases h
  | some v =>
    have h1 : Expression.String v = some s := h
    show (do
      let s ← Expression.String v
      pure (tok.Literal ++ " " ++ s ++ ";")) = _
    rw [h1]
    rfl

/-- The method `String` on the AST of a statement gives its canonical string. -/
theorem stmtString_chars (s : CanonStmt) :
    Statement.String s.toStatement = some (String.mk s.chars) := by
  cases s with
  | letS n v =>
    show Statement.String (Statement.LetStatement (keywordToken TokenType.LET "let")
      (some ⟨identToken n, n⟩) v.toExpr) = _
    rw [letStatement_String _ _ _ _ (exprString_chars v)]
    show _ = some (String.mk
      ('l' :: 'e' :: 't' :: ' ' :: (n.toList ++ ' ' :: '=' :: ' ' :: (v.chars ++ [';']))))
    simp [String.ext_iff, String.data_append, keywordToken]
  | returnS v =>
    show Statement.String (Statement.ReturnStatement (keywordToken TokenType.RETURN "return")
      v.toExpr) = _
    rw [returnStatement_String _ _ _ (exprString_chars v)]
    show _ = some (String.mk
      ('r' :: 'e' :: 't' :: 'u' :: 'r' :: 'n' :: ' ' :: (v.chars ++ [';'])))
    simp [String.ext_iff, String.data_append, keywordToken]
  | exprS e => exact expressionStatement_String _ _ _ (exprString_chars e)

theorem stmtStrings_chars : ∀ (c : List CanonStmt),
    stmtStrings (c.map CanonStmt.toStatement) = some (String.mk (canonChars c))
  | [] => rfl
  | s :: rest => by
    show (do
      let a ← Statement.String s.toStatement
      let r ← stmtStrings (rest.map CanonStmt.toStatement)
      pure (a ++ r)) = _
    rw [stmtString_chars s, stmtStrings_chars rest]
    show some (String.mk s.chars ++ String.mk (canonChars rest))
      = some (String.mk (s.chars ++ canonChars rest))
    simp [String.ext_iff, String.data_append]

/-- The method `String` on a canonical program gives its canonical string. -/
theorem canonProgram_String (c : List CanonStmt) :
    (canonProgram c).String = some (String.mk (canonChars c)) :=
  stmtStrings_chars c

/-! ### Round trip through the canonical string -/

/-- Counterexample to C4. Each of these programs is returned by `ParseProgram` with an
empty error list, and tokenising its `String()` and parsing again records an error or
yields a program with another `String()`:
`if (x) { y }` prints `ifx y`, which reads as the identifiers `ifx` and `y` and prints
`ifxy`; `fn(x) { x }` and `macro(x) { x }` print `fn(x) x` and `macro(x) x`, where the
parser misses the brace; the string literal `"a b"` prints `a b`, which reads as two
identifiers and prints `ab`; `{1: 2}` prints with a closing parenthesis, which is an
error; `x; let y = 1;` prints `xlet y = 1;`, where `=` starts no expression;
`x; a + b` prints `x(a + b)`, which reads as a call and prints `x((a + b))`; `x; [1]`
prints `x[1]`, which reads as an index expression and prints `(x[1])`; and
`9223372036854775807; 9` prints one number that is out of range. -/
theorem round_trip_fails :
    ((∃ p, ParseProgram ifTokens = some (ifProgram, p) ∧ p.Errors = [])
      ∧ ifProgram.String = some "ifx y"
      ∧ tokenize "ifx y" = [identToken "ifx", identToken "y"]
      ∧ (∃ q, ParseProgram (tokenize "ifx y") = some (ifxThenY, q) ∧ q.Errors = [])
      ∧ ifxThenY.String = some "ifxy"
      ∧ ifxThenY.String ≠ ifProgram.String)
    ∧ (∃ P p, ParseProgram (tokenize "fn(x) \x7b x \x7d") = some (P, p) ∧ p.Errors = []
      ∧ P.String = some "fn(x) x"
      ∧ ∃ Q q, ParseProgram (tokenize "fn(x) x") = some (Q, q)
        ∧ q.Errors = ["expected next token to be \x7b, got IDENT instead"])
    ∧ (∃ P p, ParseProgram (tokenize "macro(x) \x7b x \x7d") = some (P, p) ∧ p.Errors = []
      ∧ P.String = some "macro(x) x"
      ∧ ∃ Q q, ParseProgram (tokenize "macro(x) x") = some (Q, q)
        ∧ q.Errors = ["expected next token to be \x7b, got IDENT instead"])
    ∧ (∃ P p, ParseProgram [stringToken "a b"] = some (P, p) ∧ p.Errors = []
      ∧ P.String = some "a b"
      ∧ ∃ Q q, ParseProgram (tokenize "a b") = some (Q, q) ∧ q.Errors = []
        ∧ Q.String = some "ab")
    ∧ (∃ P p, ParseProgram (tokenize "\x7b1: 2\x7d") = some (P, p) ∧ p.Errors = []
      ∧ P.String = some "\x7b1:2)"
      ∧ ∃ Q q, ParseProgram (tokenize "\x7b1:2)") = some (Q, q)
        ∧ q.Errors = ["expected next token to be ,, got ) instead",
          "no prefix parse function found for )"])
    ∧ (∃ P p, ParseProgram (tokenize "x; let y = 1;") = some (P, p) ∧ p.Errors = []
      ∧ P.String = some "xlet y = 1;"
      ∧ ∃ Q q, ParseProgram (tokenize "xlet y = 1;") = some (Q, q)
        ∧ q.Errors = ["no prefix parse function found for ="])
    ∧ (∃ P p, ParseProgram (tokenize "x; a + b") = some (P, p) ∧ p.Errors = []
      ∧ P.String = some "x(a + b)"
      ∧ ∃ Q q, ParseProgram (tokenize "x(a + b)") = some (Q, q) ∧ q.Errors = []
        ∧ Q.String = some "x((a + b))")
    ∧ (∃ P p, ParseProgram (tokenize "x; [1]") = some (P, p) ∧ p.Errors = []
      ∧ P.String = some "x[1]"
      ∧ ∃ Q q, ParseProgram (tokenize "x[1]") = some (Q, q) ∧ q.Errors = []
        ∧ Q.String = some "(x[1])")
    ∧ (∃ P p, ParseProgram (tokenize "9223372036854775807; 9") = some (P, p)
      ∧ p.Errors = []
      ∧ P.String = some "92233720368547758079"
      ∧ ∃ Q q, ParseProgram (tokenize "92233720368547758079") = some (Q, q)
        ∧ q.Errors.length = 1) :=
  ⟨⟨⟨_, rfl, rfl⟩, rfl, rfl, ⟨_, rfl, rfl⟩, rfl, by decide⟩,
    ⟨_, _, rfl, rfl, rfl, _, _, rfl, rfl⟩,
    ⟨_, _, rfl, rfl, rfl, _, _, rfl, rfl⟩,
    ⟨_, _, rfl, rfl, rfl, _, _, rfl, rfl, rfl⟩,
    ⟨_, _, rfl, rfl, rfl, _, _, rfl, rfl⟩,
    ⟨_, _, rfl, rfl, rfl, _, _, rfl, rfl⟩,
    ⟨_, _, rfl, rfl, rfl, _, _, rfl, rfl, rfl⟩,
    ⟨_, _, rfl, rfl, rfl, _, _, rfl, rfl, rfl⟩,
    ⟨_, _, rfl, rfl, rfl, _, _, rfl, rfl⟩⟩

/-- C4, amended. Parser round trip for the programs whose `String()` is canonical. Let
`c` be a sequence of let statements, return statements and expression statements over
the expressions built from identifiers (words that are no keywords), integer literals
(runs of digits that `strconv.ParseInt` accepts), booleans, the prefix and the binary
operators, calls, index expressions and array literals, in which an expression statement
that is a word is followed by nothing or a statement that starts with a number, one that
is a number by nothing or a statement that starts with a word, and any other one by
nothing or a statement that starts with a word or a number. Then the program of `c` is
what `ParseProgram` returns, without error, for the canonical tokens of `c`; and for
every program `P` with the same `String()` as the program of `c` (as the programs that
differ from it in the tokens of their expression statements), `P.String()` is defined,
and tokenising it and parsing the tokens again records no error and yields the program
of `c`, whose `String()` is `P.String()`. -/
theorem canonical_program_round_trip (c : List CanonStmt) (hv : canonValid c = true)
    (P : Program) (hP : P.String = (canonProgram c).String) :
    (∃ p, ParseProgram (canonTokens c) = some (canonProgram c, p) ∧ p.Errors = [])
    ∧ ∃ s, P.String = some s
        ∧ ∃ Q q, ParseProgram (tokenize s) = some (Q, q) ∧ q.Errors = []
          ∧ Q.String = some s ∧ Q = canonProgram c := by
  have hparse := canon_ParseProgram c hv
  refine ⟨⟨stateAt [] [], hparse, rfl⟩, String.mk (canonChars c), ?_, canonProgram c,
    stateAt [] [], ?_, rfl, canonProgram_String c, rfl⟩
  · rw [hP]
    exact canonProgram_String c
  · rw [tokenize_canonChars c hv]
    exact hparse

/-- Witness of C4 (amended): `ParseProgram` returns a program for
`let x = 5; f(x, true)[0]; return a * [1, 2][b * c] * d;` without error; its `String()`
is `let x = 5;(f(x, true)[0])return ((a * ([1, 2][(b * c)])) * d);`, and parsing the
tokens of that string gives, without error, a program with the same string. -/
theorem canonical_program_round_trip_witness :
    (∃ p, ParseProgram
        (tokenize "let x = 5; f(x, true)[0]; return a * [1, 2][b * c] * d;")
        = some (letCallReturnParsed, p) ∧ p.Errors = [])
    ∧ letCallReturnParsed.String
        = some "let x = 5;(f(x, true)[0])return ((a * ([1, 2][(b * c)])) * d);"
    ∧ ∃ s, letCallReturnParsed.String = some s
        ∧ ∃ Q q, ParseProgram (tokenize s) = some (Q, q) ∧ q.Errors = []
          ∧ Q.String = some s ∧ Q = canonProgram letCallReturn :=
  ⟨⟨_, rfl, rfl⟩, rfl,
    (canonical_program_round_trip letCallReturn (by decide) letCallReturnParsed rfl).2⟩

end Monkey
